import Mathlib

/-!
# Verification of the terra-route routing engine

Shallow embedding of the terra-route sources (coordinate interner, CSR graph
builder, bidirectional Dijkstra router, and the priority-queue family:
binary `MinHeap`, `FourAryHeap`, `FibonacciHeap`, `PairingHeap`) together with
proofs and refutations of the specification's claims.

Modelling conventions:
* JavaScript `number` is modelled by `ℚ` (exact arithmetic); the positive
  infinity sentinel used by the router's `gScore` arrays and by `peekMinKey`
  is modelled by `⊤ : WithTop ℚ`.  Heap code is generic in a linearly ordered
  key type, as the sources only compare keys with `<`, `<=`, `===`.
* JavaScript arrays are modelled by `List`; a typed-array write out of bounds
  is a no-op, matching `List.set`.
* The nested `Map` coordinate index (`lng → lat → index`) stores, for every
  coordinate ever interned, its position in the `coordinates` array; since a
  coordinate is inserted exactly when it is appended and never overwritten,
  lookup is modelled by the position of the (unique) occurrence in `coords`.
-/

attribute [local semireducible] Rat.add Rat.sub Rat.mul

namespace TerraProof

/-- One slot of the parallel `keys`/`values`/`idxs` arrays of the array-backed
heaps: priority key, stored value, and insertion counter for tie-breaking. -/
structure HeapEntry (α : Type) where
  key : α
  value : ℕ
  idx : ℕ
deriving Repr, DecidableEq

variable {α : Type} [LinearOrder α]

/-- Strict lexicographic comparison on `(key, idx)`, the comparison used
verbatim (modulo operand order) by every guard in `min-heap.ts` and
`four-ary-heap.ts`, e.g. `k2 < sK || (k2 === sK && i2 < sI)`. -/
def entLt (a b : HeapEntry α) : Prop :=
  a.key < b.key ∨ (a.key = b.key ∧ a.idx < b.idx)

instance : DecidablePred fun p : HeapEntry α × HeapEntry α => entLt p.1 p.2 := by
  intro p; unfold entLt; infer_instance

instance (a b : HeapEntry α) : Decidable (entLt a b) := by
  unfold entLt; infer_instance

/-! ## The array-backed heaps

`min-heap.ts` (binary) and `four-ary-heap.ts` implement the same sift loops,
differing only in the arity `d` (parent `(i-1)/d`, children `d*i+1 ..
d*i+d`); they are modelled as instances of a `d`-ary core.  The parallel
arrays `keys`/`values`/`idxs` together with the live element count `length`
are modelled as a single list `entries` of exactly the live slots (cells at
positions `≥ length` are never read before being overwritten, so dropping
them is behaviour-preserving). -/

/-- The bubble-up loop of `insert`: the new node is held in a local, parents
move down into the hole at `i` while the node does not break
(`ck > pk || (ck === pk && ci > pi)`), and the node is finally written.
The loop is run on explicit fuel so that it is structurally recursive (and
kernel-evaluable); since the hole index strictly decreases, fuel `i` always
suffices and the out-of-fuel branch is unreachable. -/
def aryInsertLoop (d : ℕ) (e : HeapEntry α) :
    ℕ → List (HeapEntry α) → ℕ → List (HeapEntry α)
  | fuel, l, i =>
    if i = 0 then l.set 0 e
    else
      match l[(i - 1) / d]? with
      | none => l.set i e
      | some pe =>
        if entLt pe e then l.set i e
        else
          match fuel with
          | 0 => l.set i e
          | fuel + 1 => aryInsertLoop d e fuel (l.set i pe) ((i - 1) / d)

def aryInsertGo (d : ℕ) (e : HeapEntry α) (l : List (HeapEntry α)) (i : ℕ) :
    List (HeapEntry α) :=
  aryInsertLoop d e i l i

/-- Select the smaller (by `entLt`) of the current best child and the child at
position `c`, if in range; one step of the smallest-child comparison chain in
`bubbleDown`. -/
def childPick (l : List (HeapEntry α)) (best : ℕ × HeapEntry α) (c : ℕ) :
    ℕ × HeapEntry α :=
  match l[c]? with
  | none => best
  | some ce => if entLt ce best.2 then (c, ce) else best

theorem childPick_fst (l : List (HeapEntry α)) (best : ℕ × HeapEntry α) (c : ℕ) :
    (childPick l best c).1 = best.1 ∨
      ((childPick l best c).1 = c ∧ c < l.length) := by
  unfold childPick
  match hc : l[c]? with
  | none => simp
  | some ce =>
    simp only []
    split
    · right; exact ⟨rfl, (List.getElem?_eq_some_iff.mp hc).1⟩
    · left; rfl

theorem childPick_bounds (l : List (HeapEntry α)) (best : ℕ × HeapEntry α)
    (c lb : ℕ) (h1 : lb ≤ best.1) (h2 : best.1 < l.length) (h3 : lb ≤ c) :
    lb ≤ (childPick l best c).1 ∧ (childPick l best c).1 < l.length := by
  rcases childPick_fst l best c with h | h
  · rw [h]; exact ⟨h1, h2⟩
  · rw [h.1]; exact ⟨h3, h.2⟩

/-- The smallest-child selection of `bubbleDown`: compare the first child
at `c1` against its `d - 1` following siblings, in order. -/
def aryPick (d : ℕ) (l : List (HeapEntry α)) (c1 : ℕ) (ce1 : HeapEntry α) :
    ℕ × HeapEntry α :=
  (List.range' (c1 + 1) (d - 1)).foldl (childPick l) (c1, ce1)

theorem foldl_childPick_bounds (l : List (HeapEntry α)) (ns : List ℕ)
    (best : ℕ × HeapEntry α) (lb : ℕ) (h1 : lb ≤ best.1) (h2 : best.1 < l.length)
    (hns : ∀ c ∈ ns, lb ≤ c) :
    lb ≤ (ns.foldl (childPick l) best).1 ∧
      (ns.foldl (childPick l) best).1 < l.length := by
  induction ns generalizing best with
  | nil => exact ⟨h1, h2⟩
  | cons c cs ih =>
    rw [List.foldl_cons]
    have hb := childPick_bounds l best c lb h1 h2 (hns c (by simp))
    exact ih _ hb.1 hb.2 (fun x hx => hns x (by simp [hx]))

theorem aryPick_fst (d : ℕ) (l : List (HeapEntry α)) (c1 : ℕ)
    (ce1 : HeapEntry α) (hc : c1 < l.length) :
    c1 ≤ (aryPick d l c1 ce1).1 ∧ (aryPick d l c1 ce1).1 < l.length := by
  unfold aryPick
  exact foldl_childPick_bounds l _ (c1, ce1) c1 (le_refl _) hc
    (fun c hcm => by
      have := List.mem_range'.mp hcm
      omega)

/-- Sift-down of `bubbleDown`: the displaced node is held in a local while
the smallest of up to `d` children moves up into the hole.  Run on explicit
fuel (the hole index strictly increases and stays below the length, so fuel
`l.length` suffices and the out-of-fuel branch is unreachable). -/
def aryBubbleLoop (d : ℕ) (node : HeapEntry α) :
    ℕ → List (HeapEntry α) → ℕ → List (HeapEntry α)
  | fuel, l, i =>
    match l[d * i + 1]? with
    | none => l.set i node
    | some ce1 =>
      if entLt (aryPick d l (d * i + 1) ce1).2 node then
        match fuel with
        | 0 => l.set i node
        | fuel + 1 =>
          aryBubbleLoop d node fuel (l.set i (aryPick d l (d * i + 1) ce1).2)
            (aryPick d l (d * i + 1) ce1).1
      else l.set i node

def aryBubbleDown (d : ℕ) (node : HeapEntry α) (l : List (HeapEntry α))
    (i : ℕ) : List (HeapEntry α) :=
  aryBubbleLoop d node l.length l i

/-- Core of `extractMin`: return the root's value; move the last element to
the root and sift it down (or just drop it if it was the only element). -/
def aryExtract (d : ℕ) (l : List (HeapEntry α)) :
    Option ℕ × List (HeapEntry α) :=
  match l with
  | [] => (none, [])
  | e0 :: rest =>
    match rest.getLast? with
    | none => (some e0.value, [])
    | some lastE =>
      (some e0.value,
        aryBubbleDown d lastE (((e0 :: rest).dropLast).set 0 lastE) 0)

/-! ### FourAryHeap (`src/heap/four-ary-heap.ts`): the `d = 4` instance -/

structure FourAryHeap (α : Type) where
  entries : List (HeapEntry α)
  insertCounter : ℕ
deriving Repr

def FourAryHeap.empty : FourAryHeap α := ⟨[], 0⟩

def FourAryHeap.insert (h : FourAryHeap α) (key : α) (value : ℕ) :
    FourAryHeap α :=
  let e : HeapEntry α := ⟨key, value, h.insertCounter⟩
  ⟨aryInsertGo 4 e (h.entries ++ [e]) h.entries.length, h.insertCounter + 1⟩

def FourAryHeap.extractMin (h : FourAryHeap α) :
    Option ℕ × FourAryHeap α :=
  ((aryExtract 4 h.entries).1,
    ⟨(aryExtract 4 h.entries).2, h.insertCounter⟩)

def FourAryHeap.peekMinKey (h : FourAryHeap α) : WithTop α :=
  match h.entries with
  | [] => ⊤
  | e0 :: _ => (e0.key : WithTop α)

/-- `clear()` resets `length` and `insertCounter`; retained backing-array cells
beyond `length` are never read before being rewritten, so the result is
behaviourally the empty heap. -/
def FourAryHeap.clear (_h : FourAryHeap α) : FourAryHeap α := ⟨[], 0⟩

def FourAryHeap.size (h : FourAryHeap α) : ℕ := h.entries.length

/-! ### MinHeap (`src/min-heap.ts`): the `d = 2` instance

`heap` is an array of `{key, value, index}` records grown by `push` and shrunk
by `pop`; same `(key, index)` lexicographic guards, parent `(idx-1) >>> 1`,
children `2*idx+1`, `2*idx+2`. -/

structure MinHeap (α : Type) where
  heap : List (HeapEntry α)
  insertCounter : ℕ
deriving Repr

def MinHeap.empty : MinHeap α := ⟨[], 0⟩

def MinHeap.insert (h : MinHeap α) (key : α) (value : ℕ) : MinHeap α :=
  let e : HeapEntry α := ⟨key, value, h.insertCounter⟩
  ⟨aryInsertGo 2 e (h.heap ++ [e]) h.heap.length, h.insertCounter + 1⟩

def MinHeap.extractMin (h : MinHeap α) : Option ℕ × MinHeap α :=
  ((aryExtract 2 h.heap).1,
    ⟨(aryExtract 2 h.heap).2, h.insertCounter⟩)

def MinHeap.size (h : MinHeap α) : ℕ := h.heap.length

/-! ## PairingHeap (`src/heap/pairing-heap.ts`)

A node's `child` pointer plus the `sibling` chain of its children is modelled
as a `List` of child trees, most recently attached first. -/

inductive PairingNode (α : Type) where
  | node (key : α) (value : ℕ) (children : List (PairingNode α))
deriving Repr

def PairingNode.key : PairingNode α → α
  | .node k _ _ => k

def PairingNode.value : PairingNode α → ℕ
  | .node _ v _ => v

/-- `merge` on two non-null roots: the larger-key root is prepended to the
smaller-key root's child list (`b.sibling = a.child; a.child = b`). -/
def pairingMergeNodes : PairingNode α → PairingNode α → PairingNode α
  | .node ka va ca, .node kb vb cb =>
    if ka ≤ kb then .node ka va (.node kb vb cb :: ca)
    else .node kb vb (.node ka va ca :: cb)

def pairingMerge : Option (PairingNode α) → Option (PairingNode α) →
    Option (PairingNode α)
  | none, b => b
  | some a, none => some a
  | some a, some b => some (pairingMergeNodes a b)

/-- First pass of `combineSiblings`: pair up neighbours left to right. -/
def pairPass : List (PairingNode α) → List (PairingNode α)
  | a :: b :: rest => pairingMergeNodes a b :: pairPass rest
  | l => l

/-- `combineSiblings`: two-pass pairing.  The second (right-to-left) pass
`siblingArray[j] = merge(siblingArray[j], siblingArray[j + 2])` folds the
paired list from the right. -/
def combineSiblings (cs : List (PairingNode α)) : Option (PairingNode α) :=
  (pairPass cs).foldr (fun n acc => pairingMerge (some n) acc) none

structure PairingHeap (α : Type) where
  root : Option (PairingNode α)
  heapSize : ℕ
deriving Repr

def PairingHeap.empty : PairingHeap α := ⟨none, 0⟩

def PairingHeap.insert (h : PairingHeap α) (key : α) (value : ℕ) :
    PairingHeap α :=
  ⟨pairingMerge h.root (some (.node key value [])), h.heapSize + 1⟩

def PairingHeap.extractMin (h : PairingHeap α) :
    Option ℕ × PairingHeap α :=
  match h.root with
  | none => (none, h)
  | some (.node _ v cs) => (some v, ⟨combineSiblings cs, h.heapSize - 1⟩)

def PairingHeap.size (h : PairingHeap α) : ℕ := h.heapSize

/-! ## FibonacciHeap (`src/heap/fibonacci-heap.ts`)

Circular doubly-linked lists are modelled as plain lists read in `next` order:
the root list starts at `minNode`, a child list starts at the node's `child`
pointer.  `parent` and `mark` are write-only in this code (no `decreaseKey`)
and are omitted. -/

inductive FibNode (α : Type) where
  | node (key : α) (value : ℕ) (degree : ℕ) (children : List (FibNode α))
deriving Repr

def FibNode.key : FibNode α → α
  | .node k _ _ _ => k

def FibNode.value : FibNode α → ℕ
  | .node _ v _ _ => v

def FibNode.degree : FibNode α → ℕ
  | .node _ _ d _ => d

def FibNode.children : FibNode α → List (FibNode α)
  | .node _ _ _ cs => cs

structure FibonacciHeap (α : Type) where
  roots : List (FibNode α)
  totalNodes : ℕ
deriving Repr

def FibonacciHeap.empty : FibonacciHeap α := ⟨[], 0⟩

/-- Splice a node into the circular root list right after `minNode` and move
`minNode` to it when its key is strictly smaller; shared by `insert` and the
root-list rebuild in `consolidate`. -/
def fibSplice (roots : List (FibNode α)) (x : FibNode α) : List (FibNode α) :=
  match roots with
  | [] => [x]
  | m :: rest =>
    if x.key < m.key then x :: (rest ++ [m]) else m :: x :: rest

def FibonacciHeap.insert (h : FibonacciHeap α) (key : α) (value : ℕ) :
    FibonacciHeap α :=
  ⟨fibSplice h.roots (.node key value 0 []), h.totalNodes + 1⟩

/-- `link(child, parent)`: detach `child` from the root list and splice it
into `parent`'s circular child list right after `parent.child`, incrementing
the parent's degree. -/
def fibLink (c p : FibNode α) : FibNode α :=
  match p with
  | .node k v d cs =>
    match cs with
    | [] => .node k v (d + 1) [c]
    | ch :: rest => .node k v (d + 1) (ch :: c :: rest)

/-- Write `v` at position `d` of the degree table, extending the table with
empty slots if `d` is past the end (JavaScript array index assignment). -/
def setPad (t : List (Option (FibNode α))) (d : ℕ) (v : Option (FibNode α)) :
    List (Option (FibNode α)) :=
  if d < t.length then t.set d v
  else (t ++ List.replicate (d + 1 - t.length) none).set d v

/-- The inner `while (degreeTable[degree] !== null)` loop of `consolidate`:
repeatedly link the tree with the occupant of its degree slot (the
smaller-key root becomes the parent; ties keep the incoming tree `x` as
parent) until the slot is free, then store the tree. -/
def addToTableLoop :
    ℕ → List (Option (FibNode α)) → ℕ → FibNode α → List (Option (FibNode α))
  | fuel, t, d, x =>
    match t[d]? with
    | none => setPad t d (some x)
    | some none => setPad t d (some x)
    | some (some y) =>
      match fuel with
      | 0 => setPad t d (some x)
      | fuel + 1 =>
        if y.key < x.key then addToTableLoop fuel (t.set d none) (d + 1) (fibLink x y)
        else addToTableLoop fuel (t.set d none) (d + 1) (fibLink y x)

def addToTable (t : List (Option (FibNode α))) (d : ℕ) (x : FibNode α) :
    List (Option (FibNode α)) :=
  addToTableLoop t.length t d x

/-- `consolidate`: fold the snapshot of the root list through the degree
table, then rebuild the root list by splicing the table's occupants in
increasing-degree order (tracking the minimum). -/
def fibConsolidate (roots : List (FibNode α)) (total : ℕ) :
    List (FibNode α) :=
  let upperBound := Nat.log2 total + 2
  let table := roots.foldl (fun t r => addToTable t r.degree r)
    (List.replicate upperBound (none : Option (FibNode α)))
  table.foldl (fun acc o => match o with
    | none => acc
    | some nd => fibSplice acc nd) []

def FibonacciHeap.extractMin (h : FibonacciHeap α) :
    Option ℕ × FibonacciHeap α :=
  match h.roots with
  | [] => (none, h)
  | m :: rest =>
    -- children are promoted one by one right after `oldMin`, ending up in
    -- reverse child-list order, followed by the remaining roots
    let promoted := m.children.reverse ++ rest
    match promoted with
    | [] => (some m.value, ⟨[], h.totalNodes - 1⟩)
    | x :: xs =>
      (some m.value, ⟨fibConsolidate (x :: xs) h.totalNodes, h.totalNodes - 1⟩)

def FibonacciHeap.size (h : FibonacciHeap α) : ℕ := h.totalNodes

def FibonacciHeap.peekMinKey (h : FibonacciHeap α) : WithTop α :=
  match h.roots with
  | [] => ⊤
  | m :: _ => (m.key : WithTop α)

/-! ## The TerraRoute router (`src/terra-route.ts`, CSR + bidirectional
Dijkstra variant with `expandRouteGraph`)

Coordinates are `ℚ × ℚ`; the `gScore` arrays hold `WithTop ℚ` so that the
`Number.POSITIVE_INFINITY` sentinel and its arithmetic (`∞ + x = ∞`,
`x < ∞`) are modelled exactly.  The router is embedded with its default
priority queue, `FourAryHeap` (which exposes both `peekMinKey` and `clear`,
so the exact peek-based stopping rule and the reused-heap path are the ones
that run).  `clear()` makes the reused heaps behaviourally fresh, so heap
reuse is modelled by fresh empty heaps in each query. -/

abbrev Coord := ℚ × ℚ

abbrev QInf := WithTop ℚ

/-- `coordinateIndexMap.get(lng)?.get(lat)`: the nested map stores, for each
coordinate ever interned, its index in `coordinates`; since entries are added
exactly when a coordinate is appended and never overwritten, the lookup is
the position of the unique occurrence. -/
def coordLookup (coords : List Coord) (c : Coord) : Option ℕ :=
  coords.findIdx? (fun x => x = c)

/-- `indexCoordinate`: look a coordinate up, appending it when absent.
Returns the index, the (possibly extended) coordinate table, and whether the
coordinate was new (to drive the `onNewIndex` callback). -/
def internCoord (coords : List Coord) (c : Coord) : ℕ × List Coord × Bool :=
  match coordLookup coords c with
  | some i => (i, coords, false)
  | none => (coords.length, coords ++ [c], true)

/-- All consecutive coordinate pairs of one LineString (`forEachSegment`'s
inner loop). -/
def segsOfLine (cs : List Coord) : List (Coord × Coord) :=
  cs.zip cs.tail

/-- `forEachSegment`: all segments of a FeatureCollection, in feature order. -/
def segsOf (net : List (List Coord)) : List (Coord × Coord) :=
  net.flatMap segsOfLine

/-- `degree[i] = (degree[i] ?? 0) + 1` on a sparse JavaScript array (holes
read as 0 via `?? 0`). -/
def bumpDegree (dl : List ℕ) (i : ℕ) : List ℕ :=
  let dl' := if i < dl.length then dl else dl ++ List.replicate (i + 1 - dl.length) 0
  dl'.set i (dl'.getD i 0 + 1)

/-- Pass 1 of `buildRouteGraph`: intern both endpoints of every segment and
count a degree for each endpoint. -/
def buildPassOne (segs : List (Coord × Coord)) : List Coord × List ℕ :=
  segs.foldl (fun acc seg =>
    let r1 := internCoord acc.1 seg.1
    let r2 := internCoord r1.2.1 seg.2
    (r2.2.1, bumpDegree (bumpDegree acc.2 r1.1) r2.1)) ([], [])

/-- `offsets[i + 1] = offsets[i] + (degree[i] ?? 0)` for `i < n`,
starting from `offsets = [0]`: the prefix-sum loop of both
`buildRouteGraph` and `rebuildCsrFromAdjacency`. -/
def csrOffsetsOf (n : ℕ) (degrees : List ℕ) : List ℕ :=
  (List.range n).foldl
    (fun off i => off ++ [(off.getLast?).getD 0 + degrees.getD i 0]) [0]

/-- The mutable pass-2 state: per-node write cursor plus the `indices` and
`distances` arrays being filled. -/
structure CsrFill where
  cursor : List ℕ
  indices : List ℕ
  dists : List ℚ
deriving Repr, DecidableEq

/-- Write one directed adjacency entry `(v, w)` into node `u`'s next slot:
`pos = cursor[u]++; indices[pos] = v; distances[pos] = w`. -/
def writeEntry (f : CsrFill) (u v : ℕ) (w : ℚ) : CsrFill :=
  let pos := f.cursor.getD u 0
  ⟨f.cursor.set u (pos + 1), f.indices.set pos v, f.dists.set pos w⟩

/-- Pass 2 of `buildRouteGraph`: for each segment, look both indices back up
and write the two directed entries `(A → B)` and `(B → A)`. -/
def buildPassTwo (dist : Coord → Coord → ℚ) (coords : List Coord)
    (segs : List (Coord × Coord)) (off : List ℕ) (totalEdges : ℕ) : CsrFill :=
  segs.foldl (fun f seg =>
    let ia := (coordLookup coords seg.1).getD 0
    let ib := (coordLookup coords seg.2).getD 0
    let w := dist seg.1 seg.2
    writeEntry (writeEntry f ia ib w) ib ia w)
    ⟨off, List.replicate totalEdges 0, List.replicate totalEdges 0⟩

/-- The fields of a `TerraRoute` instance that routing reads (scratch buffers
and reused heaps are recreated per query by `fill`/`clear` and are not
observable between calls).  `adjacencyList` holes (`undefined`) behave
exactly like `[]` everywhere they are read, so slots are dense lists. -/
structure RouterState where
  network : Option (List (List Coord))
  coords : List Coord
  adjacencyList : List (List (ℕ × ℚ))
  csrOffsets : Option (List ℕ)
  csrIndices : List ℕ
  csrDistances : List ℚ
  csrNodeCount : ℕ
deriving Repr, DecidableEq

/-- A freshly constructed router. -/
def RouterState.initial : RouterState := ⟨none, [], [], none, [], [], 0⟩

/-- `buildRouteGraph`: reset everything, two-pass CSR construction. -/
def buildRouteGraph (dist : Coord → Coord → ℚ) (net : List (List Coord))
    (_s : RouterState) : RouterState :=
  let segs := segsOf net
  let p1 := buildPassOne segs
  let n := p1.1.length
  let off := csrOffsetsOf n p1.2
  let total := (off.getLast?).getD 0
  let fill := buildPassTwo dist p1.1 segs off total
  { network := some net
    coords := p1.1
    adjacencyList := List.replicate n []
    csrOffsets := some off
    csrIndices := fill.indices
    csrDistances := fill.dists
    csrNodeCount := n }

/-- Extend the adjacency array with empty slots so that index `i` exists. -/
def padAdj (adj : List (List (ℕ × ℚ))) (i : ℕ) : List (List (ℕ × ℚ)) :=
  if i < adj.length then adj else adj ++ List.replicate (i + 1 - adj.length) []

/-- `adj[i].push(v)`. -/
def adjPush (adj : List (List (ℕ × ℚ))) (i : ℕ) (v : ℕ × ℚ) :
    List (List (ℕ × ℚ)) :=
  let adj' := padAdj adj i
  adj'.set i (adj'.getD i [] ++ [v])

/-- CSR slice of node `u`: `(indices[j], distances[j])` for
`j ∈ [offsets[u], offsets[u+1])`. -/
def csrSlice (off : List ℕ) (inds : List ℕ) (ds : List ℚ) (u : ℕ) :
    List (ℕ × ℚ) :=
  let a := off.getD u 0
  let b := off.getD (u + 1) 0
  ((inds.drop a).take (b - a)).zip ((ds.drop a).take (b - a))

/-- Append a list of directed entries for node `u` through the write cursor
(the copy loops of `rebuildCsrFromAdjacency`). -/
def copyNodeEntries (f : CsrFill) (u : ℕ) (es : List (ℕ × ℚ)) : CsrFill :=
  es.foldl (fun f e => writeEntry f u e.1 e.2) f

/-- `rebuildCsrFromAdjacency`: recompute degrees from the existing CSR slices
plus the sparse adjacency, prefix-sum new offsets, copy CSR entries first,
then append adjacency entries, and clear the adjacency. -/
def rebuildCsrFromAdjacency (s : RouterState) : RouterState :=
  let n := s.coords.length
  let covered := min s.csrNodeCount n
  let degrees := (List.range n).map (fun i =>
    (match s.csrOffsets with
     | none => 0
     | some off => if i < covered then off.getD (i + 1) 0 - off.getD i 0 else 0)
    + (s.adjacencyList.getD i []).length)
  let off := csrOffsetsOf n degrees
  let total := (off.getLast?).getD 0
  let f0 : CsrFill := ⟨off, List.replicate total 0, List.replicate total 0⟩
  let f1 := match s.csrOffsets with
    | none => f0
    | some oldOff => (List.range covered).foldl (fun f u =>
        copyNodeEntries f u (csrSlice oldOff s.csrIndices s.csrDistances u)) f0
  let f2 := (List.range n).foldl (fun f u =>
      copyNodeEntries f u (s.adjacencyList.getD u [])) f1
  { s with
    csrOffsets := some off
    csrIndices := f2.indices
    csrDistances := f2.dists
    csrNodeCount := n
    adjacencyList := List.replicate n [] }

/-- The segment loop of `expandRouteGraph`: intern both endpoints (a new
index gets an empty adjacency slot via `onNewIndex`), then push the edge
into the sparse adjacency in both directions. -/
def expandSegStep (dist : Coord → Coord → ℚ)
    (acc : List Coord × List (List (ℕ × ℚ))) (seg : Coord × Coord) :
    List Coord × List (List (ℕ × ℚ)) :=
  let r1 := internCoord acc.1 seg.1
  let adj1 := if r1.2.2 then (padAdj acc.2 r1.1).set r1.1 [] else acc.2
  let r2 := internCoord r1.2.1 seg.2
  let adj2 := if r2.2.2 then (padAdj adj1 r2.1).set r2.1 [] else adj1
  let w := dist seg.1 seg.2
  (r2.2.1, adjPush (adjPush adj2 r1.1 (r2.1, w)) r2.1 (r1.1, w))

/-- `expandRouteGraph`: `NotBuilt` guard, merge the feature lists, add the
new segments to the sparse adjacency, then rebuild the CSR. -/
def expandRouteGraph (dist : Coord → Coord → ℚ) (net : List (List Coord))
    (s : RouterState) : Except Unit RouterState :=
  match s.network with
  | none => Except.error ()
  | some oldNet =>
    let acc := (segsOf net).foldl (expandSegStep dist)
      (s.coords, s.adjacencyList)
    Except.ok (rebuildCsrFromAdjacency
      { s with
        network := some (oldNet ++ net)
        coords := acc.1
        adjacencyList := acc.2 })

/-- `getOrCreateIndex`: look the coordinate up; when absent, append it, give
it an empty adjacency slot and (when the CSR exists and the new index is the
next CSR row) extend `csrOffsets` by duplicating its last value. -/
def getOrCreateIndex (c : Coord) (s : RouterState) : ℕ × RouterState :=
  match coordLookup s.coords c with
  | some i => (i, s)
  | none =>
    let i := s.coords.length
    let coords' := s.coords ++ [c]
    let adj' := (padAdj s.adjacencyList i).set i []
    match s.csrOffsets with
    | none => (i, { s with coords := coords', adjacencyList := adj' })
    | some off =>
      if i = s.csrNodeCount then
        (i, { s with
          coords := coords'
          adjacencyList := adj'
          csrOffsets := some (off ++ [off.getD s.csrNodeCount 0])
          csrNodeCount := s.csrNodeCount + 1 })
      else (i, { s with coords := coords', adjacencyList := adj' })

/-- `peekMinKey()` at the router's key type: the root key, or
`Number.POSITIVE_INFINITY` when empty. -/
def peekQ (h : FourAryHeap QInf) : QInf :=
  match h.entries with
  | [] => ⊤
  | e0 :: _ => e0.key

/-- Neighbor iteration in `getRoute`: the CSR slice when `current` is a CSR
row, else the sparse adjacency (for nodes added after the last rebuild). -/
def neighborsOf (s : RouterState) (current : ℕ) : List (ℕ × ℚ) :=
  match s.csrOffsets with
  | some off =>
    if current < s.csrNodeCount then
      csrSlice off s.csrIndices s.csrDistances current
    else s.adjacencyList.getD current []
  | none => s.adjacencyList.getD current []

/-- Per-query search state of `getRoute` (the scratch buffers, the two open
heaps, the best meeting candidate).  `insLog` is ghost instrumentation with
no effect on control flow: it records, for every `insert(key, value)` call on
either heap, the key, the node, and the node's `g` value (for the inserting
side) as it stands immediately after the relaxation that triggered the
insert. -/
structure SearchState where
  gF : List QInf
  gR : List QInf
  prevF : List ℤ
  nextR : List ℤ
  visF : List Bool
  visR : List Bool
  openF : FourAryHeap QInf
  openR : FourAryHeap QInf
  bestPathCost : QInf
  meetingNode : ℤ
  lastGF : QInf
  lastGR : QInf
  insLog : List (QInf × ℕ × QInf)

/-- Relax one forward edge `current → nb` of weight `w` (the body of the CSR
and adjacency neighbor loops on the forward side). -/
def relaxF (st : SearchState) (current nb : ℕ) (w : ℚ) : SearchState :=
  let tg := st.gF.getD current ⊤ + (w : QInf)
  if tg < st.gF.getD nb ⊤ then
    let gF' := st.gF.set nb tg
    let otherG := st.gR.getD nb ⊤
    let hit := otherG ≠ ⊤ ∧ tg + otherG < st.bestPathCost
    { st with
      gF := gF'
      prevF := st.prevF.set nb (current : ℤ)
      bestPathCost := if hit then tg + otherG else st.bestPathCost
      meetingNode := if hit then (nb : ℤ) else st.meetingNode
      openF := st.openF.insert tg nb
      insLog := st.insLog ++ [(tg, nb, gF'.getD nb ⊤)] }
  else st

/-- Relax one reverse edge (successor pointers `nextR` instead of `prevF`). -/
def relaxR (st : SearchState) (current nb : ℕ) (w : ℚ) : SearchState :=
  let tg := st.gR.getD current ⊤ + (w : QInf)
  if tg < st.gR.getD nb ⊤ then
    let gR' := st.gR.set nb tg
    let otherG := st.gF.getD nb ⊤
    let hit := otherG ≠ ⊤ ∧ tg + otherG < st.bestPathCost
    { st with
      gR := gR'
      nextR := st.nextR.set nb (current : ℤ)
      bestPathCost := if hit then tg + otherG else st.bestPathCost
      meetingNode := if hit then (nb : ℤ) else st.meetingNode
      openR := st.openR.insert tg nb
      insLog := st.insLog ++ [(tg, nb, gR'.getD nb ⊤)] }
  else st

/-- One iteration of the main bidirectional loop: loop condition, stopping
rule (the exact peek-based bound, since `FourAryHeap` has `peekMinKey`),
side selection by smaller frontier, extraction with stale-entry skip,
settle, meet check, and neighbor relaxation. -/
def searchStep (s : RouterState) (st : SearchState) :
    Bool × SearchState :=
  if st.openF.size = 0 ∨ st.openR.size = 0 then (true, st)
  else if 0 ≤ st.meetingNode ∧ st.bestPathCost ≤ peekQ st.openF + peekQ st.openR then
    (true, st)
  else if st.openF.size ≤ st.openR.size then
    match st.openF.extractMin with
    | (none, _) => (true, st)
    | (some current, openF') =>
      let st := { st with openF := openF' }
      if st.visF.getD current false then (false, st)
      else
        let st := { st with
          lastGF := st.gF.getD current ⊤
          visF := st.visF.set current true }
        let st :=
          if st.visR.getD current false then
            let total := st.gF.getD current ⊤ + st.gR.getD current ⊤
            if total < st.bestPathCost then
              { st with bestPathCost := total, meetingNode := (current : ℤ) }
            else st
          else st
        (false, (neighborsOf s current).foldl
          (fun st nb => relaxF st current nb.1 nb.2) st)
  else
    match st.openR.extractMin with
    | (none, _) => (true, st)
    | (some current, openR') =>
      let st := { st with openR := openR' }
      if st.visR.getD current false then (false, st)
      else
        let st := { st with
          lastGR := st.gR.getD current ⊤
          visR := st.visR.set current true }
        let st :=
          if st.visF.getD current false then
            let total := st.gF.getD current ⊤ + st.gR.getD current ⊤
            if total < st.bestPathCost then
              { st with bestPathCost := total, meetingNode := (current : ℤ) }
            else st
          else st
        (false, (neighborsOf s current).foldl
          (fun st nb => relaxR st current nb.1 nb.2) st)

/-- Run the main loop; `none` models non-termination within the fuel bound
(never reached from reachable states, see `searchFuel`). -/
def searchLoop (s : RouterState) : ℕ → SearchState → Option SearchState
  | 0, _ => none
  | fuel + 1, st =>
    match searchStep s st with
    | (true, st') => some st'
    | (false, st') => searchLoop s fuel st'

/-- Total length of the sparse adjacency. -/
def adjTotal (s : RouterState) : ℕ :=
  (s.adjacencyList.map List.length).sum

/-- An upper bound on loop iterations: every iteration pops one heap entry,
and at most `2 + (number of settles) * (max row length)` entries are ever
inserted. -/
def searchFuel (s : RouterState) : ℕ :=
  2 * (s.coords.length + 1) * (s.csrIndices.length + adjTotal s + 1) + 3

/-- The walk from `meetingNode` back to `startIndex` along `prevF`
(`while (cur !== startIndex && cur >= 0)`), collecting coordinates; returns
the final `cur` and the collected list, or `none` if the walk runs forever. -/
def walkPrevLoop (prevF : List ℤ) (coords : List Coord) (startIdx : ℕ) :
    ℕ → ℤ → List Coord → Option (ℤ × List Coord)
  | fuel, cur, acc =>
    if cur = (startIdx : ℤ) ∨ cur < 0 then some (cur, acc)
    else match fuel with
      | 0 => none
      | fuel + 1 =>
        walkPrevLoop prevF coords startIdx fuel
          (prevF.getD cur.toNat (-1)) (acc ++ [coords.getD cur.toNat (0, 0)])

/-- The walk from `meetingNode` forward to `endIndex` along `nextR`
(`while (cur !== endIndex)`), appending coordinates; `some none` models the
defensive `return null` on a negative pointer, `none` a non-terminating
walk. -/
def walkNextLoop (nextR : List ℤ) (coords : List Coord) (endIdx : ℕ) :
    ℕ → ℤ → List Coord → Option (Option (List Coord))
  | fuel, cur, acc =>
    if cur = (endIdx : ℤ) then some (some acc)
    else match fuel with
      | 0 => none
      | fuel + 1 =>
        let cur' := nextR.getD cur.toNat (-1)
        if cur' < 0 then some none
        else walkNextLoop nextR coords endIdx fuel cur'
          (acc ++ [coords.getD cur'.toNat (0, 0)])

/-- Result of `getRoute`.  `diverges` models a call that never returns (the
model's loop fuel ran out); it is unreachable from reachable router states
but keeps the embedding total and honest. -/
inductive RouteResult where
  | notBuilt
  | diverges
  | noRoute
  | route (cs : List Coord)
deriving Repr, DecidableEq

/-- Path reconstruction after the main loop: `noRoute` when there is no
meeting node, else the `prevF` walk back to the start (defensive `noRoute` if
it misses), reverse, then the `nextR` walk forward to the end. -/
def buildResult (s : RouterState) (si ei : ℕ) (st : SearchState) :
    RouteResult :=
  if st.meetingNode < 0 then .noRoute
  else
    match walkPrevLoop st.prevF s.coords si (s.coords.length + 1)
        st.meetingNode [] with
    | none => .diverges
    | some (fc, acc) =>
      if fc ≠ (si : ℤ) then .noRoute
      else
        match walkNextLoop st.nextR s.coords ei (s.coords.length + 1)
            st.meetingNode ((acc ++ [s.coords.getD si (0, 0)]).reverse) with
        | none => .diverges
        | some none => .noRoute
        | some (some path) => .route path

/-- The per-query search state as initialised by `getRoute` just before the
main loop. -/
def initialSearchState (si ei n : ℕ) : SearchState :=
  let gF0 := (List.replicate n (⊤ : QInf)).set si 0
  let gR0 := (List.replicate n (⊤ : QInf)).set ei 0
  { gF := gF0
    gR := gR0
    prevF := List.replicate n (-1 : ℤ)
    nextR := List.replicate n (-1 : ℤ)
    visF := List.replicate n false
    visR := List.replicate n false
    openF := (FourAryHeap.empty).insert (0 : QInf) si
    openR := (FourAryHeap.empty).insert (0 : QInf) ei
    bestPathCost := ⊤
    meetingNode := -1
    lastGF := 0
    lastGR := 0
    insLog := [((0 : QInf), si, gF0.getD si ⊤), ((0 : QInf), ei, gR0.getD ei ⊤)] }

/-- `getRoute` with the ghost insertion log of its search exposed. -/
def getRouteAux (dist : Coord → Coord → ℚ) (a b : Coord) (s0 : RouterState) :
    RouteResult × RouterState × List (QInf × ℕ × QInf) :=
  match s0.network with
  | none => (.notBuilt, s0, [])
  | some _ =>
    let r1 := getOrCreateIndex a s0
    let si := r1.1
    let r2 := getOrCreateIndex b r1.2
    let ei := r2.1
    let s := r2.2
    if si = ei then (.noRoute, s, [])
    else
      match searchLoop s (searchFuel s) (initialSearchState si ei s.coords.length) with
      | none => (.diverges, s, [])
      | some st => (buildResult s si ei st, s, st.insLog)

/-- `getRoute(start, end)`: route (or `noRoute`) plus the updated router
state (interning `start`/`end` mutates the coordinate table). -/
def getRoute (dist : Coord → Coord → ℚ) (a b : Coord) (s0 : RouterState) :
    RouteResult × RouterState :=
  let r := getRouteAux dist a b s0
  (r.1, r.2.1)

/-! ## Router operation sequences

A router instance's public lifecycle: any sequence of `buildRouteGraph`,
`expandRouteGraph` and `getRoute` calls starting from the constructor state.
A thrown `NotBuilt` propagates to the caller and leaves the state as it was
(both guards run before any mutation). -/

inductive RouterOp where
  | build (net : List (List Coord))
  | expand (net : List (List Coord))
  | query (a b : Coord)
deriving Repr, DecidableEq

def applyOp (dist : Coord → Coord → ℚ) (s : RouterState) :
    RouterOp → RouterState
  | .build net => buildRouteGraph dist net s
  | .expand net =>
    match expandRouteGraph dist net s with
    | .ok s' => s'
    | .error _ => s
  | .query a b => (getRoute dist a b s).2

def runOps (dist : Coord → Coord → ℚ) (ops : List RouterOp) : RouterState :=
  ops.foldl (applyOp dist) RouterState.initial

/-- Whether a sequence of calls contains a `buildRouteGraph` call. -/
def hasBuild (ops : List RouterOp) : Prop :=
  ∃ net, RouterOp.build net ∈ ops

def RouterOp.isBuild : RouterOp → Bool
  | .build _ => true
  | _ => false

instance (ops : List RouterOp) : Decidable (hasBuild ops) :=
  decidable_of_iff (ops.any RouterOp.isBuild = true) (by
    rw [List.any_eq_true]
    constructor
    · rintro ⟨op, hmem, hop⟩
      match op with
      | .build net => exact ⟨net, hmem⟩
      | .expand net => simp [RouterOp.isBuild] at hop
      | .query a b => simp [RouterOp.isBuild] at hop
    · rintro ⟨net, hmem⟩
      exact ⟨.build net, hmem, rfl⟩)

theorem getOrCreateIndex_network (c : Coord) (s : RouterState) :
    (getOrCreateIndex c s).2.network = s.network := by
  unfold getOrCreateIndex
  rcases h : coordLookup s.coords c with _ | i
  · rcases ho : s.csrOffsets with _ | off
    · simp [ho]
    · simp only [ho]
      split <;> simp
  · simp

theorem getRoute_network (dist : Coord → Coord → ℚ) (a b : Coord)
    (s : RouterState) : (getRoute dist a b s).2.network = s.network := by
  unfold getRoute getRouteAux
  rcases hn : s.network with _ | net
  · simp [hn]
  · have h12 : (getOrCreateIndex b (getOrCreateIndex a s).2).2.network
        = s.network :=
      (getOrCreateIndex_network b _).trans (getOrCreateIndex_network a s)
    simp only [hn]
    repeat' split
    all_goals simp_all

theorem network_after (dist : Coord → Coord → ℚ) (ops : List RouterOp)
    (s : RouterState) :
    (ops.foldl (applyOp dist) s).network = none ↔
      (s.network = none ∧ ¬ hasBuild ops) := by
  induction ops generalizing s with
  | nil => simp [hasBuild]
  | cons op rest ih =>
    rw [List.foldl_cons, ih]
    have hr : ∀ (P Q R : Prop), (P ↔ Q) →
        ((P ∧ R) ↔ (Q ∧ R)) := fun _ _ _ h => and_congr_left' h
    match op with
    | .build net =>
      simp only [applyOp, buildRouteGraph]
      constructor
      · rintro ⟨h, -⟩; exact absurd h (by simp)
      · rintro ⟨-, h⟩; exact absurd ⟨net, by simp⟩ h
    | .expand net =>
      have hreb : ∀ t : RouterState,
          (rebuildCsrFromAdjacency t).network = t.network := by
        intro t; rfl
      have hnet : (applyOp dist s (.expand net)).network = none ↔
          s.network = none := by
        simp only [applyOp, expandRouteGraph]
        rcases hn : s.network with _ | oldNet
        · simp [hn]
        · simp [hn, hreb]
      rw [hr _ _ _ hnet]
      constructor
      · rintro ⟨h1, h2⟩
        refine ⟨h1, ?_⟩
        rintro ⟨n, hn⟩
        rcases List.mem_cons.mp hn with h3 | h3
        · exact absurd h3 (by simp)
        · exact h2 ⟨n, h3⟩
      · rintro ⟨h1, h2⟩
        exact ⟨h1, fun ⟨n, hn⟩ => h2 ⟨n, List.mem_cons_of_mem _ hn⟩⟩
    | .query a b =>
      have hnet : (applyOp dist s (.query a b)).network = none ↔
          s.network = none := by
        simp only [applyOp]
        rw [getRoute_network]
      rw [hr _ _ _ hnet]
      constructor
      · rintro ⟨h1, h2⟩
        refine ⟨h1, ?_⟩
        rintro ⟨n, hn⟩
        rcases List.mem_cons.mp hn with h3 | h3
        · exact absurd h3 (by simp)
        · exact h2 ⟨n, h3⟩
      · rintro ⟨h1, h2⟩
        exact ⟨h1, fun ⟨n, hn⟩ => h2 ⟨n, List.mem_cons_of_mem _ hn⟩⟩

theorem expand_error_iff (dist : Coord → Coord → ℚ) (net : List (List Coord))
    (s : RouterState) :
    expandRouteGraph dist net s = Except.error () ↔ s.network = none := by
  unfold expandRouteGraph
  rcases hn : s.network with _ | oldNet <;> simp

theorem buildResult_ne_notBuilt (s : RouterState) (si ei : ℕ)
    (st : SearchState) : buildResult s si ei st ≠ .notBuilt := by
  unfold buildResult
  repeat' split
  all_goals simp

theorem getRoute_notBuilt_iff (dist : Coord → Coord → ℚ) (a b : Coord)
    (s : RouterState) :
    (getRoute dist a b s).1 = .notBuilt ↔ s.network = none := by
  unfold getRoute getRouteAux
  rcases hn : s.network with _ | net
  · simp
  · simp only []
    repeat' split
    all_goals try simp
    all_goals exact buildResult_ne_notBuilt _ _ _ _

theorem getRoute_notBuilt_state (dist : Coord → Coord → ℚ) (a b : Coord)
    (s : RouterState) (h : s.network = none) :
    (getRoute dist a b s).2 = s := by
  unfold getRoute getRouteAux
  simp [h]

/-- C8.  `getRoute` and `expandRouteGraph` raise `NotBuilt` exactly when no
`buildRouteGraph` call occurred in the instance's history; the failing call
returns the state unchanged. -/
theorem claim_C8_notBuilt (dist : Coord → Coord → ℚ) (ops : List RouterOp)
    (net : List (List Coord)) (a b : Coord) :
    (expandRouteGraph dist net (runOps dist ops) = Except.error () ↔
      ¬ hasBuild ops) ∧
    ((getRoute dist a b (runOps dist ops)).1 = .notBuilt ↔ ¬ hasBuild ops) ∧
    ((getRoute dist a b (runOps dist ops)).1 = .notBuilt →
      (getRoute dist a b (runOps dist ops)).2 = runOps dist ops) ∧
    (expandRouteGraph dist net (runOps dist ops) = Except.error () →
      applyOp dist (runOps dist ops) (.expand net) = runOps dist ops) := by
  have hnet : (runOps dist ops).network = none ↔ ¬ hasBuild ops := by
    rw [runOps, network_after]
    simp [RouterState.initial]
  refine ⟨?_, ?_, ?_, ?_⟩
  · rw [expand_error_iff]; exact hnet
  · rw [getRoute_notBuilt_iff]; exact hnet
  · intro h
    exact getRoute_notBuilt_state dist a b _
      ((getRoute_notBuilt_iff dist a b _).mp h)
  · intro h
    simp [applyOp, h]

/-! ## C9: endpoint fidelity of returned polylines -/

theorem getOrCreateIndex_appends (c : Coord) (s : RouterState) :
    ∃ t, (getOrCreateIndex c s).2.coords = s.coords ++ t := by
  unfold getOrCreateIndex
  rcases h : coordLookup s.coords c with _ | i
  · rcases ho : s.csrOffsets with _ | off
    · exact ⟨[c], by simp⟩
    · simp only []
      split
      · exact ⟨[c], by simp⟩
      · exact ⟨[c], by simp⟩
  · exact ⟨[], by simp⟩

theorem getOrCreateIndex_coord (c : Coord) (s : RouterState) :
    (getOrCreateIndex c s).2.coords.getD (getOrCreateIndex c s).1 (0, 0) = c ∧
      (getOrCreateIndex c s).1 < (getOrCreateIndex c s).2.coords.length := by
  unfold getOrCreateIndex
  rcases h : coordLookup s.coords c with _ | i
  · have hlen : (s.coords ++ [c]).getD s.coords.length (0, 0) = c := by
      rw [List.getD_eq_getElem?_getD]
      simp
    rcases ho : s.csrOffsets with _ | off
    · exact ⟨hlen, by simp⟩
    · simp only []
      split
      · exact ⟨hlen, by simp⟩
      · exact ⟨hlen, by simp⟩
  · obtain ⟨hilen, hp, -⟩ := List.findIdx?_eq_some_iff_getElem.mp h
    have hval : s.coords[i] = c := by simpa using hp
    constructor
    · rw [List.getD_eq_getElem?_getD, List.getElem?_eq_getElem hilen]
      simpa using hval
    · exact hilen

/-- Whatever `walkNextLoop` returns extends its accumulator. -/
theorem walkNextLoop_extends (nextR : List ℤ) (coords : List Coord)
    (endIdx : ℕ) (fuel : ℕ) (cur : ℤ) (acc path : List Coord)
    (h : walkNextLoop nextR coords endIdx fuel cur acc = some (some path)) :
    ∃ t, path = acc ++ t := by
  induction fuel generalizing cur acc with
  | zero =>
    rw [walkNextLoop] at h
    split at h
    · exact ⟨[], by simpa using (Option.some.inj (Option.some.inj h)).symm⟩
    · exact absurd h (by simp)
  | succ fuel ih =>
    rw [walkNextLoop] at h
    split at h
    · exact ⟨[], by simpa using (Option.some.inj (Option.some.inj h)).symm⟩
    · simp only [] at h
      split at h
      · exact absurd h (by simp)
      · obtain ⟨t, ht⟩ := ih _ _ h
        refine ⟨coords.getD (nextR.getD cur.toNat (-1)).toNat (0, 0) :: t, ?_⟩
        simpa using ht

/-- A successful `walkNextLoop` ends at the end coordinate (or returned the
accumulator unchanged because it started there). -/
theorem walkNextLoop_last (nextR : List ℤ) (coords : List Coord)
    (endIdx : ℕ) (fuel : ℕ) (cur : ℤ) (acc path : List Coord)
    (h : walkNextLoop nextR coords endIdx fuel cur acc = some (some path)) :
    (cur = (endIdx : ℤ) ∧ path = acc) ∨
      path.getLast? = some (coords.getD endIdx (0, 0)) := by
  induction fuel generalizing cur acc with
  | zero =>
    rw [walkNextLoop] at h
    split at h
    · exact Or.inl ⟨by assumption, by simpa using (Option.some.inj (Option.some.inj h)).symm⟩
    · exact absurd h (by simp)
  | succ fuel ih =>
    rw [walkNextLoop] at h
    split at h
    · exact Or.inl ⟨by assumption, by simpa using (Option.some.inj (Option.some.inj h)).symm⟩
    · simp only [] at h
      split at h
      · exact absurd h (by simp)
      · rcases ih _ _ h with ⟨hcur, hpath⟩ | hlast
        · right
          rw [hpath]
          have hto : (nextR.getD cur.toNat (-1)).toNat = endIdx := by
            rw [hcur]; simp
          rw [List.getLast?_concat, hto]
        · exact Or.inr hlast

/-- The forward walk either exits immediately (returning its accumulator and
current pointer) or pushes `coords[cur]` first. -/
theorem walkPrevLoop_head (prevF : List ℤ) (coords : List Coord)
    (startIdx : ℕ) (fuel : ℕ) (cur : ℤ) (acc : List Coord) (fc : ℤ)
    (out : List Coord)
    (h : walkPrevLoop prevF coords startIdx fuel cur acc = some (fc, out)) :
    (out = acc ∧ fc = cur) ∨
      ∃ t, out = acc ++ (coords.getD cur.toNat (0, 0)) :: t := by
  induction fuel generalizing cur acc with
  | zero =>
    rw [walkPrevLoop] at h
    split at h
    · left
      have := Option.some.inj h
      exact ⟨(congrArg Prod.snd this).symm, (congrArg Prod.fst this).symm⟩
    · exact absurd h (by simp)
  | succ fuel ih =>
    rw [walkPrevLoop] at h
    split at h
    · left
      have := Option.some.inj h
      exact ⟨(congrArg Prod.snd this).symm, (congrArg Prod.fst this).symm⟩
    · rcases ih _ _ h with ⟨h1, -⟩ | ⟨t, ht⟩
      · right
        exact ⟨[], by simpa using h1⟩
      · right
        exact ⟨_, by simpa using ht⟩

/-- Endpoints of a successfully reconstructed path. -/
theorem buildResult_route_endpoints (s : RouterState) (si ei : ℕ)
    (st : SearchState) (cs : List Coord) (hne : si ≠ ei)
    (h : buildResult s si ei st = .route cs) :
    cs.head? = some (s.coords.getD si (0, 0)) ∧
      cs.getLast? = some (s.coords.getD ei (0, 0)) := by
  unfold buildResult at h
  split at h
  · exact absurd h (by simp)
  · split at h
    · exact absurd h (by simp)
    · rename_i pr fc acc hw
      split at h
      · exact absurd h (by simp)
      · rename_i hfc
        split at h
        · exact absurd h (by simp)
        · exact absurd h (by simp)
        · rename_i wn path hnext
          have hpath : path = cs := by
            simpa using h
          subst hpath
          have hfc' : fc = (si : ℤ) := not_not.mp hfc
          constructor
          · -- first coordinate: head of the reversed prefix
            obtain ⟨t, ht⟩ := walkNextLoop_extends _ _ _ _ _ _ _ hnext
            rw [ht]
            have hrev : (acc ++ [s.coords.getD si (0, 0)]).reverse
                = s.coords.getD si (0, 0) :: acc.reverse := by
              simp
            rw [hrev]
            simp
          · -- last coordinate
            rcases walkNextLoop_last _ _ _ _ _ _ _ hnext with ⟨hcur, hpa⟩ | hlast
            · -- the meeting node already is the end node
              rcases walkPrevLoop_head _ _ _ _ _ _ _ _ hw with ⟨hacc, hfc2⟩ | ⟨t, ht⟩
              · -- walk exited immediately: meeting = start, contradiction
                exfalso
                have hse : (si : ℤ) = (ei : ℤ) := by
                  rw [← hfc', hfc2, hcur]
                exact hne (by exact_mod_cast hse)
              · rw [hpa, ht]
                have hm : st.meetingNode.toNat = ei := by
                  have hmz : st.meetingNode = (ei : ℤ) := hcur
                  simp [hmz]
                rw [hm]
                have hrev : (([] ++ s.coords.getD ei (0, 0) :: t) ++
                    [s.coords.getD si (0, 0)]).reverse
                    = s.coords.getD si (0, 0) ::
                      (t.reverse ++ [s.coords.getD ei (0, 0)]) := by
                  simp
                rw [hrev]
                rw [List.getLast?_cons]
                simp [List.getLast?_concat]
            · exact hlast

/-- C9.  Whenever `getRoute` returns a polyline, its first coordinate is the
start point's coordinate and its last coordinate is the end point's. -/
theorem claim_C9_endpoint_fidelity (dist : Coord → Coord → ℚ) (a b : Coord)
    (s : RouterState) (cs : List Coord)
    (h : (getRoute dist a b s).1 = .route cs) :
    cs.head? = some a ∧ cs.getLast? = some b := by
  unfold getRoute getRouteAux at h
  rcases hn : s.network with _ | net
  · rw [hn] at h; simp at h
  · rw [hn] at h
    simp only [] at h
    split at h
    · exact absurd h (by simp)
    · rename_i hne
      split at h
      · exact absurd h (by simp)
      · rename_i st hloop
        simp only [] at h
        -- the route comes from buildResult
        have hend := buildResult_route_endpoints _ _ _ _ _ hne h
        -- identify the stored coordinates with the query coordinates
        have ha1 := getOrCreateIndex_coord a s
        have hb1 := getOrCreateIndex_coord b (getOrCreateIndex a s).2
        obtain ⟨t2, ht2⟩ := getOrCreateIndex_appends b (getOrCreateIndex a s).2
        have hsa : (getOrCreateIndex b (getOrCreateIndex a s).2).2.coords.getD
            (getOrCreateIndex a s).1 (0, 0) = a := by
          rw [ht2]
          rw [List.getD_eq_getElem?_getD, List.getElem?_append_left ha1.2,
            ← List.getD_eq_getElem?_getD]
          exact ha1.1
        rw [hsa, hb1.1] at hend
        exact hend

/-! ## CSR characterization

The cursor-based fills of `buildRouteGraph` and `rebuildCsrFromAdjacency` are
both sequences of `writeEntry` calls.  The master lemma below characterizes
any such sequence: node `u`'s slice of the final arrays is exactly the
subsequence of writes directed at `u`, in order. -/

/-- `sliceAt inds ds start len`: the `len` `(index, distance)` pairs starting
at position `start`. -/
def sliceAt (inds : List ℕ) (ds : List ℚ) (start len : ℕ) : List (ℕ × ℚ) :=
  ((inds.drop start).take len).zip ((ds.drop start).take len)

theorem csrSlice_eq_sliceAt (off : List ℕ) (inds : List ℕ) (ds : List ℚ)
    (u : ℕ) :
    csrSlice off inds ds u
      = sliceAt inds ds (off.getD u 0) (off.getD (u + 1) 0 - off.getD u 0) :=
  rfl

/-- A run of directed writes `(u, v, w)` through the cursor. -/
def writeAll (f : CsrFill) (ws : List (ℕ × ℕ × ℚ)) : CsrFill :=
  ws.foldl (fun f w => writeEntry f w.1 w.2.1 w.2.2) f

/-- The writes of `ws` directed at node `u`, in order. -/
def wsFor (u : ℕ) (ws : List (ℕ × ℕ × ℚ)) : List (ℕ × ℚ) :=
  (ws.filter (fun w => w.1 = u)).map (fun w => w.2)

theorem wsFor_append (u : ℕ) (ws1 ws2 : List (ℕ × ℕ × ℚ)) :
    wsFor u (ws1 ++ ws2) = wsFor u ws1 ++ wsFor u ws2 := by
  unfold wsFor
  rw [List.filter_append, List.map_append]

theorem writeAll_append (f : CsrFill) (ws1 ws2 : List (ℕ × ℕ × ℚ)) :
    writeAll f (ws1 ++ ws2) = writeAll (writeAll f ws1) ws2 := by
  unfold writeAll
  rw [List.foldl_append]

/-- `csrOffsetsOf` of an abstract degree list: characterisation of the
prefix-sum loop. -/
theorem csrOffsetsOf_length (n : ℕ) (dl : List ℕ) :
    (csrOffsetsOf n dl).length = n + 1 := by
  unfold csrOffsetsOf
  induction n with
  | zero => simp
  | succ n ih =>
    rw [List.range_succ, List.foldl_append]
    simp only [List.foldl_cons, List.foldl_nil, List.length_append]
    rw [ih]
    simp

theorem csrOffsetsOf_getD_zero (n : ℕ) (dl : List ℕ) :
    (csrOffsetsOf n dl).getD 0 0 = 0 := by
  unfold csrOffsetsOf
  induction n with
  | zero => simp
  | succ n ih =>
    rw [List.range_succ, List.foldl_append]
    simp only [List.foldl_cons, List.foldl_nil]
    rw [List.getD_eq_getElem?_getD, List.getElem?_append_left, ← List.getD_eq_getElem?_getD]
    · exact ih
    · have := csrOffsetsOf_length n dl
      unfold csrOffsetsOf at this
      omega

theorem csrOffsetsOf_getLast (n : ℕ) (dl : List ℕ) :
    ∃ v, (csrOffsetsOf n dl).getLast? = some v ∧
      (csrOffsetsOf n dl).getD n 0 = v := by
  have hlen := csrOffsetsOf_length n dl
  have hne : csrOffsetsOf n dl ≠ [] := by
    intro hcon; rw [hcon] at hlen; simp at hlen
  obtain ⟨v, hv⟩ := Option.ne_none_iff_exists'.mp
    (mt List.getLast?_eq_none_iff.mp hne)
  refine ⟨v, hv, ?_⟩
  have := List.getLast?_eq_getElem? (csrOffsetsOf n dl)
  rw [hv, hlen] at this
  rw [List.getD_eq_getElem?_getD]
  simp only [Nat.add_sub_cancel] at this
  rw [← this]
  rfl

theorem getD_append_side {β : Type} (l1 l2 : List β) (i : ℕ) (d : β)
    (h : i < l1.length) : (l1 ++ l2).getD i d = l1.getD i d := by
  rw [List.getD_eq_getElem?_getD, List.getElem?_append_left h,
    ← List.getD_eq_getElem?_getD]

theorem getD_append_last {β : Type} (l1 : List β) (x : β) (d : β) :
    (l1 ++ [x]).getD l1.length d = x := by
  rw [List.getD_eq_getElem?_getD, List.getElem?_append_right (le_refl _)]
  simp

theorem csrOffsetsOf_succ_eq (n : ℕ) (dl : List ℕ) :
    csrOffsetsOf (n + 1) dl
      = csrOffsetsOf n dl
        ++ [((csrOffsetsOf n dl).getLast?).getD 0 + dl.getD n 0] := by
  unfold csrOffsetsOf
  rw [List.range_succ, List.foldl_append]
  simp

theorem csrOffsetsOf_getD_succ (n : ℕ) (dl : List ℕ) (i : ℕ) (hi : i < n) :
    (csrOffsetsOf n dl).getD (i + 1) 0
      = (csrOffsetsOf n dl).getD i 0 + dl.getD i 0 := by
  induction n with
  | zero => omega
  | succ n ih =>
    have hlen := csrOffsetsOf_length n dl
    rcases Nat.lt_or_ge i n with hin | hin
    · rw [csrOffsetsOf_succ_eq,
        getD_append_side _ _ (i + 1) 0 (by omega),
        getD_append_side _ _ i 0 (by omega)]
      exact ih hin
    · have hieq : i = n := by omega
      subst hieq
      obtain ⟨v, hv1, hv2⟩ := csrOffsetsOf_getLast i dl
      rw [csrOffsetsOf_succ_eq]
      have h1 : (csrOffsetsOf i dl
            ++ [((csrOffsetsOf i dl).getLast?).getD 0 + dl.getD i 0]).getD
              (i + 1) 0
          = ((csrOffsetsOf i dl).getLast?).getD 0 + dl.getD i 0 := by
        have := getD_append_last (csrOffsetsOf i dl)
          (((csrOffsetsOf i dl).getLast?).getD 0 + dl.getD i 0) 0
        rw [hlen] at this
        exact this
      rw [h1, getD_append_side _ _ i 0 (by omega), hv1]
      rw [List.getD_eq_getElem?_getD] at hv2
      simp [hv2]

theorem csrOffsetsOf_mono (n : ℕ) (dl : List ℕ) (i j : ℕ) (hij : i ≤ j)
    (hj : j ≤ n) :
    (csrOffsetsOf n dl).getD i 0 ≤ (csrOffsetsOf n dl).getD j 0 := by
  induction j with
  | zero =>
    have : i = 0 := by omega
    subst this; exact le_refl _
  | succ j ihj =>
    rcases Nat.lt_or_ge i (j + 1) with hij' | hij'
    · have h1 : (csrOffsetsOf n dl).getD i 0 ≤ (csrOffsetsOf n dl).getD j 0 :=
        ihj (by omega) (by omega)
      have h2 := csrOffsetsOf_getD_succ n dl j (by omega)
      omega
    · have : i = j + 1 := by omega
      subst this; exact le_refl _

theorem sliceAt_getElem? (inds : List ℕ) (ds : List ℚ) (s len k : ℕ) :
    (sliceAt inds ds s len)[k]?
      = if k < len then
          match inds[s + k]?, ds[s + k]? with
          | some a, some b => some (a, b)
          | _, _ => none
        else none := by
  unfold sliceAt
  rw [List.zip, List.getElem?_zipWith, List.getElem?_take, List.getElem?_take,
    List.getElem?_drop, List.getElem?_drop]
  by_cases hk : k < len
  · simp only [hk, if_pos]
    cases inds[s + k]? <;> cases ds[s + k]? <;> rfl
  · simp [hk]

/-- Writing at the position just past a slice extends the slice by one. -/
theorem sliceAt_set_extend (inds : List ℕ) (ds : List ℚ) (s len : ℕ)
    (v : ℕ) (q : ℚ) (hlt1 : s + len < inds.length)
    (hlt2 : s + len < ds.length) :
    sliceAt (inds.set (s + len) v) (ds.set (s + len) q) s (len + 1)
      = sliceAt inds ds s len ++ [(v, q)] := by
  apply List.ext_getElem?
  intro k
  rw [sliceAt_getElem?]
  rcases Nat.lt_or_ge k len with hk | hk
  · rw [if_pos (by omega)]
    rw [List.getElem?_append_left (by
      have hle : (sliceAt inds ds s len).length
          = min ((inds.drop s).take len).length ((ds.drop s).take len).length :=
        List.length_zip _ _
      rw [hle]
      simp only [List.length_take, List.length_drop]
      omega)]
    rw [sliceAt_getElem?, if_pos hk]
    rw [List.getElem?_set_ne (by omega), List.getElem?_set_ne (by omega)]
  · rcases Nat.lt_or_ge k (len + 1) with hk2 | hk2
    · have hkeq : k = len := by omega
      subst hkeq
      rw [if_pos (by omega)]
      rw [List.getElem?_set_self hlt1, List.getElem?_set_self hlt2]
      simp only []
      have hslen : (sliceAt inds ds s k).length = k := by
        unfold sliceAt
        rw [List.length_zip]
        simp only [List.length_take, List.length_drop]
        omega
      rw [List.getElem?_append_right (by omega), hslen]
      simp
    · rw [if_neg (by omega)]
      have hslen : (sliceAt inds ds s len).length = len := by
        unfold sliceAt
        rw [List.length_zip]
        simp only [List.length_take, List.length_drop]
        omega
      rw [List.getElem?_eq_none_iff.mpr]
      rw [List.length_append, hslen]
      simp only [List.length_cons, List.length_nil]
      omega

/-- Writing outside a slice's range leaves the slice unchanged. -/
theorem sliceAt_set_outside (inds : List ℕ) (ds : List ℚ) (s len pos : ℕ)
    (v : ℕ) (q : ℚ) (hout : pos < s ∨ s + len ≤ pos) :
    sliceAt (inds.set pos v) (ds.set pos q) s len = sliceAt inds ds s len := by
  apply List.ext_getElem?
  intro k
  rw [sliceAt_getElem?, sliceAt_getElem?]
  rcases Nat.lt_or_ge k len with hk | hk
  · rw [if_pos hk, if_pos hk]
    rw [List.getElem?_set_ne (by omega), List.getElem?_set_ne (by omega)]
  · rw [if_neg (by omega), if_neg (by omega)]

/-- Invariant of the cursor fill after the writes `done` have been issued. -/
def FillInv (off : List ℕ) (n T : ℕ) (done : List (ℕ × ℕ × ℚ))
    (f : CsrFill) : Prop :=
  f.cursor.length = off.length ∧
  f.indices.length = T ∧
  f.dists.length = T ∧
  (∀ u, u < n → f.cursor.getD u 0 = off.getD u 0 + (wsFor u done).length) ∧
  (∀ u, u < n →
    sliceAt f.indices f.dists (off.getD u 0) (wsFor u done).length
      = wsFor u done)

/-- One write preserves the fill invariant. -/
theorem fillInv_step (dl : List ℕ) (n : ℕ)
    (done : List (ℕ × ℕ × ℚ)) (w : ℕ × ℕ × ℚ) (rest : List (ℕ × ℕ × ℚ))
    (f : CsrFill)
    (hlen : (csrOffsetsOf n dl).length = n + 1)
    (hdeg : ∀ u, u < n →
      (wsFor u (done ++ w :: rest)).length = dl.getD u 0)
    (hw : w.1 < n)
    (hinv : FillInv (csrOffsetsOf n dl) n
      ((csrOffsetsOf n dl).getD n 0) done f) :
    FillInv (csrOffsetsOf n dl) n ((csrOffsetsOf n dl).getD n 0)
      (done ++ [w]) (writeEntry f w.1 w.2.1 w.2.2) := by
  obtain ⟨hc, hi, hd, hcur, hsl⟩ := hinv
  set off := csrOffsetsOf n dl with hoff
  set T := off.getD n 0 with hT
  obtain ⟨u, v, q⟩ := w
  simp only [] at hw ⊢
  -- the number of writes for u so far is strictly below the degree
  have hwpre : wsFor u (done ++ (u, v, q) :: rest)
      = wsFor u done ++ (v, q) :: wsFor u rest := by
    rw [show (u, v, q) :: rest = [(u, v, q)] ++ rest from rfl]
    rw [wsFor_append, wsFor_append]
    unfold wsFor
    simp
  have hlt : (wsFor u done).length < dl.getD u 0 := by
    have := hdeg u hw
    rw [hwpre] at this
    rw [List.length_append, List.length_cons] at this
    omega
  have hpos : f.cursor.getD u 0 = off.getD u 0 + (wsFor u done).length :=
    hcur u hw
  have hsucc : off.getD (u + 1) 0 = off.getD u 0 + dl.getD u 0 :=
    csrOffsetsOf_getD_succ n dl u hw
  have hmono : off.getD (u + 1) 0 ≤ T :=
    csrOffsetsOf_mono n dl (u + 1) n (by omega) (le_refl _)
  have hposT : off.getD u 0 + (wsFor u done).length < T := by omega
  unfold writeEntry
  rw [hpos]
  refine ⟨?_, ?_, ?_, ?_, ?_⟩
  · simpa using hc
  · simpa using hi
  · simpa using hd
  · intro u' hu'
    rcases Decidable.em (u' = u) with heq | hne
    · subst heq
      rw [List.getD_eq_getElem?_getD,
        List.getElem?_set_self (by rw [hc, hlen]; omega)]
      simp only [Option.getD_some]
      rw [wsFor_append]
      unfold wsFor
      simp only [List.filter_append, List.map_append, List.length_append]
      simp
      omega
    · rw [List.getD_eq_getElem?_getD,
        List.getElem?_set_ne (fun hcon => hne (by omega)),
        ← List.getD_eq_getElem?_getD]
      rw [hcur u' hu', wsFor_append]
      unfold wsFor
      simp [Ne.symm hne]
  · intro u' hu'
    rcases Decidable.em (u' = u) with heq | hne
    · subst heq
      have hlennew : (wsFor u' (done ++ [(u', v, q)])).length
          = (wsFor u' done).length + 1 := by
        rw [wsFor_append]; unfold wsFor; simp
      rw [hlennew]
      have hext := sliceAt_set_extend f.indices f.dists (off.getD u' 0)
        (wsFor u' done).length v q (by omega) (by omega)
      rw [hext, hsl u' hu', wsFor_append]
      unfold wsFor
      simp
    · have hsame : wsFor u' (done ++ [(u, v, q)]) = wsFor u' done := by
        rw [wsFor_append]; unfold wsFor; simp [Ne.symm hne]
      rw [hsame]
      have hout : off.getD u 0 + (wsFor u done).length < off.getD u' 0 ∨
          off.getD u' 0 + (wsFor u' done).length
            ≤ off.getD u 0 + (wsFor u done).length := by
        rcases Nat.lt_or_ge u' u with hlt' | hgt'
        · right
          have h1 : off.getD (u' + 1) 0 ≤ off.getD u 0 :=
            csrOffsetsOf_mono n dl (u' + 1) u (by omega) (by omega)
          have h2 : off.getD (u' + 1) 0
              = off.getD u' 0 + dl.getD u' 0 :=
            csrOffsetsOf_getD_succ n dl u' hu'
          have h3 : (wsFor u' done).length ≤ dl.getD u' 0 := by
            have := hdeg u' hu'
            have hws : wsFor u' (done ++ (u, v, q) :: rest)
                = wsFor u' done ++ wsFor u' ((u, v, q) :: rest) :=
              wsFor_append u' done _
            rw [hws, List.length_append] at this
            omega
          omega
        · left
          have hgt2 : u < u' := by omega
          have h1 : off.getD (u + 1) 0 ≤ off.getD u' 0 :=
            csrOffsetsOf_mono n dl (u + 1) u' (by omega) (by omega)
          omega
      have := sliceAt_set_outside f.indices f.dists (off.getD u' 0)
        (wsFor u' done).length (off.getD u 0 + (wsFor u done).length) v q
        (by omega)
      rw [this]
      exact hsl u' hu'

/-- The invariant holds before any write. -/
theorem fillInv_init (off : List ℕ) (n T : ℕ) :
    FillInv off n T [] ⟨off, List.replicate T 0, List.replicate T 0⟩ := by
  refine ⟨rfl, by simp, by simp, ?_, ?_⟩
  · intro u hu; simp [wsFor]
  · intro u hu; simp [wsFor, sliceAt]

/-- A whole run of writes preserves the fill invariant. -/
theorem fillInv_run (dl : List ℕ) (n : ℕ)
    (todo done : List (ℕ × ℕ × ℚ)) (f : CsrFill)
    (hdeg : ∀ u, u < n → (wsFor u (done ++ todo)).length = dl.getD u 0)
    (hwlt : ∀ w ∈ todo, w.1 < n)
    (hinv : FillInv (csrOffsetsOf n dl) n
      ((csrOffsetsOf n dl).getD n 0) done f) :
    FillInv (csrOffsetsOf n dl) n ((csrOffsetsOf n dl).getD n 0)
      (done ++ todo) (writeAll f todo) := by
  induction todo generalizing done f with
  | nil => simpa [writeAll] using hinv
  | cons w rest ih =>
    have hstep := fillInv_step dl n done w rest f (csrOffsetsOf_length n dl)
      hdeg (hwlt w (by simp)) hinv
    have hrec := ih (done ++ [w]) (writeEntry f w.1 w.2.1 w.2.2)
      (by intro u hu
          have := hdeg u hu
          rw [List.append_assoc]
          simpa using this)
      (fun w' hw' => hwlt w' (by simp [hw']))
      hstep
    rw [List.append_assoc] at hrec
    simpa [writeAll] using hrec

/-- Characterization of a full cursor fill from blank arrays: the lengths are
the total, and node `u`'s slice is exactly the writes directed at `u`. -/
theorem writeAll_characterization (dl : List ℕ) (n : ℕ)
    (ws : List (ℕ × ℕ × ℚ))
    (hdeg : ∀ u, u < n → (wsFor u ws).length = dl.getD u 0)
    (hwlt : ∀ w ∈ ws, w.1 < n) :
    (writeAll ⟨csrOffsetsOf n dl,
        List.replicate ((csrOffsetsOf n dl).getD n 0) 0,
        List.replicate ((csrOffsetsOf n dl).getD n 0) 0⟩ ws).indices.length
        = (csrOffsetsOf n dl).getD n 0 ∧
    (writeAll ⟨csrOffsetsOf n dl,
        List.replicate ((csrOffsetsOf n dl).getD n 0) 0,
        List.replicate ((csrOffsetsOf n dl).getD n 0) 0⟩ ws).dists.length
        = (csrOffsetsOf n dl).getD n 0 ∧
    ∀ u, u < n →
      sliceAt
        (writeAll ⟨csrOffsetsOf n dl,
          List.replicate ((csrOffsetsOf n dl).getD n 0) 0,
          List.replicate ((csrOffsetsOf n dl).getD n 0) 0⟩ ws).indices
        (writeAll ⟨csrOffsetsOf n dl,
          List.replicate ((csrOffsetsOf n dl).getD n 0) 0,
          List.replicate ((csrOffsetsOf n dl).getD n 0) 0⟩ ws).dists
        ((csrOffsetsOf n dl).getD u 0) (dl.getD u 0)
        = wsFor u ws := by
  have hrun := fillInv_run dl n ws []
    ⟨csrOffsetsOf n dl,
      List.replicate ((csrOffsetsOf n dl).getD n 0) 0,
      List.replicate ((csrOffsetsOf n dl).getD n 0) 0⟩
    (by simpa using hdeg) hwlt
    (fillInv_init (csrOffsetsOf n dl) n ((csrOffsetsOf n dl).getD n 0))
  simp only [List.nil_append] at hrun
  obtain ⟨_, hi, hd, _, hsl⟩ := hrun
  refine ⟨hi, hd, ?_⟩
  intro u hu
  have := hsl u hu
  rw [hdeg u hu] at this
  exact this

/-- Every position below the last offset lies in some node's range. -/
theorem offsets_cover (off : List ℕ) (h0 : off.getD 0 0 = 0) (n p : ℕ)
    (hp : p < off.getD n 0) :
    ∃ u, u < n ∧ off.getD u 0 ≤ p ∧ p < off.getD (u + 1) 0 := by
  induction n with
  | zero => rw [h0] at hp; omega
  | succ n ih =>
    rcases Nat.lt_or_ge p (off.getD n 0) with h | h
    · obtain ⟨u, hu, h1, h2⟩ := ih h
      exact ⟨u, by omega, h1, h2⟩
    · exact ⟨n, by omega, h, hp⟩

/-- CSR arrays of the right length are determined by their per-node
slices. -/
theorem csr_arrays_ext (off : List ℕ) (n : ℕ) (h0 : off.getD 0 0 = 0)
    (inds inds' : List ℕ) (ds ds' : List ℚ)
    (hi : inds.length = off.getD n 0) (hi' : inds'.length = off.getD n 0)
    (hd : ds.length = off.getD n 0) (hd' : ds'.length = off.getD n 0)
    (hsl : ∀ u, u < n →
      sliceAt inds ds (off.getD u 0) (off.getD (u + 1) 0 - off.getD u 0)
        = sliceAt inds' ds' (off.getD u 0)
            (off.getD (u + 1) 0 - off.getD u 0)) :
    inds = inds' ∧ ds = ds' := by
  have key : ∀ p, p < off.getD n 0 → inds[p]? = inds'[p]? ∧ ds[p]? = ds'[p]? := by
    intro p hp
    obtain ⟨u, hu, h1, h2⟩ := offsets_cover off h0 n p hp
    have hslu := hsl u hu
    have := congrArg (fun l => l[p - off.getD u 0]?) hslu
    simp only [] at this
    rw [sliceAt_getElem?, sliceAt_getElem?,
      if_pos (by omega), if_pos (by omega),
      show off.getD u 0 + (p - off.getD u 0) = p from by omega] at this
    have ha : inds[p]? = some (inds.get ⟨p, by omega⟩) :=
      List.getElem?_eq_getElem (by omega)
    have hb : ds[p]? = some (ds.get ⟨p, by omega⟩) :=
      List.getElem?_eq_getElem (by omega)
    have ha' : inds'[p]? = some (inds'.get ⟨p, by omega⟩) :=
      List.getElem?_eq_getElem (by omega)
    have hb' : ds'[p]? = some (ds'.get ⟨p, by omega⟩) :=
      List.getElem?_eq_getElem (by omega)
    rw [ha, hb, ha', hb'] at this
    have hpair := Option.some.inj this
    constructor
    · rw [ha, ha']
      exact congrArg some (congrArg Prod.fst hpair)
    · rw [hb, hb']
      exact congrArg some (congrArg Prod.snd hpair)
  constructor
  · apply List.ext_getElem?
    intro p
    rcases Nat.lt_or_ge p (off.getD n 0) with hp | hp
    · exact (key p hp).1
    · rw [List.getElem?_eq_none_iff.mpr (by omega),
        List.getElem?_eq_none_iff.mpr (by omega)]
  · apply List.ext_getElem?
    intro p
    rcases Nat.lt_or_ge p (off.getD n 0) with hp | hp
    · exact (key p hp).2
    · rw [List.getElem?_eq_none_iff.mpr (by omega),
        List.getElem?_eq_none_iff.mpr (by omega)]

/-! ## Interning and write-list bridges -/

/-- A coordinate already present keeps its index under table extension. -/
theorem coordLookup_append (coords ext : List Coord) (c : Coord) (i : ℕ)
    (h : coordLookup coords c = some i) :
    coordLookup (coords ++ ext) c = some i := by
  unfold coordLookup at *
  rw [List.findIdx?_append, h]
  rfl

/-- Interning only appends to the coordinate table. -/
theorem internCoord_extends (coords : List Coord) (c : Coord) :
    ∃ ext, (internCoord coords c).2.1 = coords ++ ext := by
  unfold internCoord
  cases coordLookup coords c with
  | some i => exact ⟨[], by simp⟩
  | none => exact ⟨[c], rfl⟩

/-- After interning, looking the coordinate up finds the returned index. -/
theorem internCoord_lookup (coords : List Coord) (c : Coord) :
    coordLookup (internCoord coords c).2.1 c
      = some (internCoord coords c).1 := by
  unfold internCoord
  cases h : coordLookup coords c with
  | some i => exact h
  | none =>
    simp only []
    unfold coordLookup at *
    rw [List.findIdx?_append, h]
    simp

/-- A successful lookup returns an index inside the table. -/
theorem coordLookup_lt (coords : List Coord) (c : Coord) (i : ℕ)
    (h : coordLookup coords c = some i) : i < coords.length := by
  unfold coordLookup at h
  obtain ⟨hlt, -, -⟩ := List.findIdx?_eq_some_iff_getElem.mp h
  exact hlt

/-- The directed write list issued by pass 2 of `buildRouteGraph`: each
segment contributes its two directed entries, looked up in the final
coordinate table. -/
def buildWrites (dist : Coord → Coord → ℚ) (coords : List Coord)
    (segs : List (Coord × Coord)) : List (ℕ × ℕ × ℚ) :=
  segs.flatMap (fun seg =>
    let ia := (coordLookup coords seg.1).getD 0
    let ib := (coordLookup coords seg.2).getD 0
    let w := dist seg.1 seg.2
    [(ia, ib, w), (ib, ia, w)])

/-- Pass 2 is the `writeAll` run of its write list. -/
theorem buildPassTwo_eq_writeAll (dist : Coord → Coord → ℚ)
    (coords : List Coord) (segs : List (Coord × Coord)) (off : List ℕ)
    (total : ℕ) :
    buildPassTwo dist coords segs off total
      = writeAll ⟨off, List.replicate total 0, List.replicate total 0⟩
          (buildWrites dist coords segs) := by
  unfold buildPassTwo
  generalize (⟨off, List.replicate total 0, List.replicate total 0⟩ : CsrFill) = f
  induction segs generalizing f with
  | nil => rfl
  | cons seg rest ih =>
    rw [List.foldl_cons]
    rw [ih]
    unfold buildWrites writeAll
    rw [List.flatMap_cons, List.foldl_append]
    rfl

/-- The per-node copy loop is a `writeAll` run. -/
theorem copyNodeEntries_eq_writeAll (f : CsrFill) (u : ℕ)
    (es : List (ℕ × ℚ)) :
    copyNodeEntries f u es
      = writeAll f (es.map (fun e => (u, e.1, e.2))) := by
  unfold copyNodeEntries writeAll
  rw [List.foldl_map]

/-- The write list of a per-node block loop: node `u` receives the entries
`g u`, nodes taken in increasing order. -/
def blockWrites (g : ℕ → List (ℕ × ℚ)) (n : ℕ) : List (ℕ × ℕ × ℚ) :=
  (List.range n).flatMap (fun u => (g u).map (fun e => (u, e.1, e.2)))

theorem foldl_copy_eq_writeAll (g : ℕ → List (ℕ × ℚ)) (n : ℕ) (f : CsrFill) :
    (List.range n).foldl (fun f u => copyNodeEntries f u (g u)) f
      = writeAll f (blockWrites g n) := by
  induction n with
  | zero => rfl
  | succ n ih =>
    rw [List.range_succ, List.foldl_append, List.foldl_cons, List.foldl_nil,
      ih, copyNodeEntries_eq_writeAll, ← writeAll_append]
    unfold blockWrites
    rw [List.range_succ, List.flatMap_append, List.flatMap_cons,
      List.flatMap_nil, List.append_nil]

/-- The writes of one block, restricted to a node. -/
theorem wsFor_map_block (u v : ℕ) (es : List (ℕ × ℚ)) :
    wsFor u (es.map (fun e => (v, e.1, e.2)))
      = if v = u then es else [] := by
  unfold wsFor
  rw [List.filter_map, List.map_map]
  by_cases h : v = u
  · subst h
    simp [Function.comp_def]
  · simp [Function.comp_def, h]

/-- The writes of a block loop directed at `u` are exactly `g u`. -/
theorem wsFor_blockWrites (g : ℕ → List (ℕ × ℚ)) (n u : ℕ) :
    wsFor u (blockWrites g n) = if u < n then g u else [] := by
  induction n with
  | zero => simp [blockWrites, wsFor]
  | succ n ih =>
    unfold blockWrites
    rw [List.range_succ, List.flatMap_append, List.flatMap_cons,
      List.flatMap_nil, List.append_nil, wsFor_append]
    unfold blockWrites at ih
    rw [ih, wsFor_map_block]
    rcases Nat.lt_trichotomy u n with h | h | h
    · rw [if_pos h, if_neg (show ¬ n = u by omega), List.append_nil,
        if_pos (show u < n + 1 by omega)]
    · subst h
      rw [if_neg (lt_irrefl u), if_pos rfl, List.nil_append,
        if_pos (Nat.lt_succ_self u)]
    · rw [if_neg (show ¬ u < n by omega), if_neg (show ¬ n = u by omega),
        if_neg (show ¬ u < n + 1 by omega), List.append_nil]

/-- Every write of a block loop is directed below `n`. -/
theorem blockWrites_fst_lt (g : ℕ → List (ℕ × ℚ)) (n : ℕ) (w : ℕ × ℕ × ℚ)
    (hw : w ∈ blockWrites g n) : w.1 < n := by
  unfold blockWrites at hw
  obtain ⟨u, hu, hmem⟩ := List.mem_flatMap.mp hw
  obtain ⟨e, -, he⟩ := List.mem_map.mp hmem
  rw [← he]
  exact List.mem_range.mp hu

/-- `bumpDegree` as a pointwise update. -/
theorem bumpDegree_getD (dl : List ℕ) (i u : ℕ) :
    (bumpDegree dl i).getD u 0
      = dl.getD u 0 + if i = u then 1 else 0 := by
  unfold bumpDegree
  simp only []
  set dl' := if i < dl.length then dl
    else dl ++ List.replicate (i + 1 - dl.length) 0 with hdl'
  have hext : ∀ v, dl'.getD v 0 = dl.getD v 0 := by
    intro v
    rw [hdl']
    split
    · rfl
    · rcases Nat.lt_or_ge v dl.length with hv | hv
      · exact getD_append_side _ _ v 0 hv
      · rw [List.getD_eq_getElem?_getD, List.getElem?_append_right hv]
        rcases Nat.lt_or_ge (v - dl.length) (i + 1 - dl.length) with h2 | h2
        · rw [List.getElem?_replicate]
          rw [List.getD_eq_getElem?_getD, List.getElem?_eq_none_iff.mpr hv]
          simp [h2]
        · rw [List.getElem?_eq_none_iff.mpr (by simp; omega)]
          rw [List.getD_eq_getElem?_getD, List.getElem?_eq_none_iff.mpr hv]
    
  have hilen : i < dl'.length := by
    rw [hdl']
    split
    · assumption
    · simp only [List.length_append, List.length_replicate]
      omega
  by_cases h : i = u
  · subst h
    rw [List.getD_eq_getElem?_getD, List.getElem?_set_self hilen]
    simp only [Option.getD_some]
    rw [hext i]
    simp
  · rw [List.getD_eq_getElem?_getD, List.getElem?_set_ne (fun hc => h (by omega)),
      ← List.getD_eq_getElem?_getD, hext u]
    simp [h]

/-- `getD` of a tabulated list. -/
theorem range_map_getD {β : Type} (g : ℕ → β) (n i : ℕ) (d : β)
    (hi : i < n) :
    ((List.range n).map g).getD i d = g i := by
  rw [List.getD_eq_getElem?_getD, List.getElem?_map]
  rw [List.getElem?_range hi]
  rfl

/-- `csrOffsetsOf` only reads degrees below `n`. -/
theorem csrOffsetsOf_congr (n : ℕ) (d1 d2 : List ℕ)
    (h : ∀ i, i < n → d1.getD i 0 = d2.getD i 0) :
    csrOffsetsOf n d1 = csrOffsetsOf n d2 := by
  induction n with
  | zero => rfl
  | succ n ih =>
    rw [csrOffsetsOf_succ_eq, csrOffsetsOf_succ_eq,
      ih (fun i hi => h i (by omega)), h n (by omega)]

/-- The fold step of pass 1 (named for reasoning; `buildPassOne` keeps the
source's inline form). -/
def passOneStep (acc : List Coord × List ℕ) (seg : Coord × Coord) :
    List Coord × List ℕ :=
  let r1 := internCoord acc.1 seg.1
  let r2 := internCoord r1.2.1 seg.2
  (r2.2.1, bumpDegree (bumpDegree acc.2 r1.1) r2.1)

theorem buildPassOne_eq_foldl (segs : List (Coord × Coord)) :
    buildPassOne segs = segs.foldl passOneStep ([], []) := rfl

theorem buildWrites_cons (dist : Coord → Coord → ℚ) (T : List Coord)
    (seg : Coord × Coord) (rest : List (Coord × Coord)) :
    buildWrites dist T (seg :: rest)
      = [((coordLookup T seg.1).getD 0, (coordLookup T seg.2).getD 0,
            dist seg.1 seg.2),
         ((coordLookup T seg.2).getD 0, (coordLookup T seg.1).getD 0,
            dist seg.1 seg.2)]
        ++ buildWrites dist T rest := rfl

theorem wsFor_pair (u ia ib : ℕ) (w : ℚ) :
    (wsFor u [(ia, ib, w), (ib, ia, w)]).length
      = (if ia = u then 1 else 0) + (if ib = u then 1 else 0) := by
  unfold wsFor
  by_cases h1 : ia = u <;> by_cases h2 : ib = u <;> simp [h1, h2]

/-- Pass 1 of the build: the table only grows, every processed endpoint is
present in the final table, and the degree of node `u` counts the writes
pass 2 will direct at `u`. -/
theorem passOne_spec (dist : Coord → Coord → ℚ)
    (segs : List (Coord × Coord)) (acc : List Coord × List ℕ) :
    (∃ ext, (segs.foldl passOneStep acc).1 = acc.1 ++ ext) ∧
    (∀ seg ∈ segs,
      (∃ i, coordLookup (segs.foldl passOneStep acc).1 seg.1 = some i) ∧
      (∃ j, coordLookup (segs.foldl passOneStep acc).1 seg.2 = some j)) ∧
    (∀ u, (segs.foldl passOneStep acc).2.getD u 0
      = acc.2.getD u 0
        + (wsFor u
            (buildWrites dist (segs.foldl passOneStep acc).1 segs)).length) := by
  induction segs generalizing acc with
  | nil =>
    refine ⟨⟨[], by simp⟩, by simp, ?_⟩
    intro u
    simp [buildWrites, wsFor]
  | cons seg rest ih =>
    rw [List.foldl_cons]
    obtain ⟨⟨ext, hext⟩, hmem, hdeg⟩ := ih (passOneStep acc seg)
    have hstep1 : (passOneStep acc seg).1
        = (internCoord (internCoord acc.1 seg.1).2.1 seg.2).2.1 := rfl
    have hstep2 : (passOneStep acc seg).2
        = bumpDegree (bumpDegree acc.2 (internCoord acc.1 seg.1).1)
            (internCoord (internCoord acc.1 seg.1).2.1 seg.2).1 := rfl
    obtain ⟨ext1, hext1⟩ :=
      internCoord_extends (internCoord acc.1 seg.1).2.1 seg.2
    -- the final table seen from the intermediate tables
    have hT1 : (rest.foldl passOneStep (passOneStep acc seg)).1
        = (internCoord acc.1 seg.1).2.1 ++ (ext1 ++ ext) := by
      rw [hext, hstep1, hext1, List.append_assoc]
    have hT2 : (rest.foldl passOneStep (passOneStep acc seg)).1
        = (internCoord (internCoord acc.1 seg.1).2.1 seg.2).2.1 ++ ext := by
      rw [hext, hstep1]
    have hlook1 : coordLookup (rest.foldl passOneStep (passOneStep acc seg)).1
        seg.1 = some (internCoord acc.1 seg.1).1 := by
      rw [hT1]
      exact coordLookup_append _ _ _ _ (internCoord_lookup acc.1 seg.1)
    have hlook2 : coordLookup (rest.foldl passOneStep (passOneStep acc seg)).1
        seg.2
        = some (internCoord (internCoord acc.1 seg.1).2.1 seg.2).1 := by
      rw [hT2]
      exact coordLookup_append _ _ _ _
        (internCoord_lookup (internCoord acc.1 seg.1).2.1 seg.2)
    refine ⟨?_, ?_, ?_⟩
    · obtain ⟨e0, he0⟩ := internCoord_extends acc.1 seg.1
      exact ⟨e0 ++ (ext1 ++ ext), by rw [hT1, he0, List.append_assoc]⟩
    · intro s hs
      rcases List.mem_cons.mp hs with hs | hs
      · subst hs
        exact ⟨⟨_, hlook1⟩, ⟨_, hlook2⟩⟩
      · exact hmem s hs
    · intro u
      rw [hdeg u, hstep2, bumpDegree_getD, bumpDegree_getD,
        buildWrites_cons, wsFor_append, List.length_append, wsFor_pair,
        hlook1, hlook2]
      simp only [Option.getD_some]
      omega

/-- Every write of `buildWrites` over a table holding all segment
endpoints is directed inside the table. -/
theorem buildWrites_fst_lt (dist : Coord → Coord → ℚ) (T : List Coord)
    (segs : List (Coord × Coord))
    (hseg : ∀ seg ∈ segs,
      (∃ i, coordLookup T seg.1 = some i) ∧
      (∃ j, coordLookup T seg.2 = some j)) :
    ∀ w ∈ buildWrites dist T segs, w.1 < T.length := by
  intro w hw
  unfold buildWrites at hw
  obtain ⟨seg, hsmem, hmem⟩ := List.mem_flatMap.mp hw
  obtain ⟨⟨i, hi⟩, ⟨j, hj⟩⟩ := hseg seg hsmem
  simp only [List.mem_cons, List.not_mem_nil, or_false] at hmem
  rcases hmem with hmem | hmem <;> rw [hmem] <;>
    simp only [hi, hj, Option.getD_some] <;>
    [exact coordLookup_lt T seg.1 i hi; exact coordLookup_lt T seg.2 j hj]

/-- The artifacts of a build, named. -/
def buildT (net : List (List Coord)) : List Coord :=
  (buildPassOne (segsOf net)).1

def buildDl (net : List (List Coord)) : List ℕ :=
  (buildPassOne (segsOf net)).2

def buildN (net : List (List Coord)) : ℕ := (buildT net).length

def buildOff (net : List (List Coord)) : List ℕ :=
  csrOffsetsOf (buildN net) (buildDl net)

def buildWs (dist : Coord → Coord → ℚ) (net : List (List Coord)) :
    List (ℕ × ℕ × ℚ) :=
  buildWrites dist (buildT net) (segsOf net)

def buildTot (net : List (List Coord)) : ℕ :=
  (buildOff net).getD (buildN net) 0

theorem buildTot_eq_getLast (net : List (List Coord)) :
    ((buildOff net).getLast?).getD 0 = buildTot net := by
  obtain ⟨v, hv1, hv2⟩ := csrOffsetsOf_getLast (buildN net) (buildDl net)
  unfold buildTot buildOff
  rw [hv1, hv2]
  rfl

/-- Pass-1 degrees count the pass-2 writes per node. -/
theorem build_hdeg (dist : Coord → Coord → ℚ) (net : List (List Coord))
    (u : ℕ) :
    (wsFor u (buildWs dist net)).length = (buildDl net).getD u 0 := by
  have h := (passOne_spec dist (segsOf net) ([], [])).2.2 u
  rw [← buildPassOne_eq_foldl] at h
  unfold buildWs buildT buildDl
  rw [h]
  simp

/-- All pass-2 writes land below the node count. -/
theorem build_hwlt (dist : Coord → Coord → ℚ) (net : List (List Coord)) :
    ∀ w ∈ buildWs dist net, w.1 < buildN net := by
  have hmem := (passOne_spec dist (segsOf net) ([], [])).2.1
  rw [← buildPassOne_eq_foldl] at hmem
  exact buildWrites_fst_lt dist (buildT net) (segsOf net) hmem

theorem build_network (dist : Coord → Coord → ℚ) (net : List (List Coord))
    (s : RouterState) :
    (buildRouteGraph dist net s).network = some net := rfl

theorem build_coords (dist : Coord → Coord → ℚ) (net : List (List Coord))
    (s : RouterState) :
    (buildRouteGraph dist net s).coords = buildT net := rfl

theorem build_adj (dist : Coord → Coord → ℚ) (net : List (List Coord))
    (s : RouterState) :
    (buildRouteGraph dist net s).adjacencyList
      = List.replicate (buildN net) [] := rfl

theorem build_off (dist : Coord → Coord → ℚ) (net : List (List Coord))
    (s : RouterState) :
    (buildRouteGraph dist net s).csrOffsets = some (buildOff net) := rfl

theorem build_count (dist : Coord → Coord → ℚ) (net : List (List Coord))
    (s : RouterState) :
    (buildRouteGraph dist net s).csrNodeCount = buildN net := rfl

theorem build_indices (dist : Coord → Coord → ℚ) (net : List (List Coord))
    (s : RouterState) :
    (buildRouteGraph dist net s).csrIndices
      = (writeAll ⟨buildOff net, List.replicate (buildTot net) 0,
          List.replicate (buildTot net) 0⟩ (buildWs dist net)).indices := by
  show (buildPassTwo dist (buildT net) (segsOf net) (buildOff net)
      (((buildOff net).getLast?).getD 0)).indices = _
  rw [buildTot_eq_getLast, buildPassTwo_eq_writeAll]
  rfl

theorem build_dists (dist : Coord → Coord → ℚ) (net : List (List Coord))
    (s : RouterState) :
    (buildRouteGraph dist net s).csrDistances
      = (writeAll ⟨buildOff net, List.replicate (buildTot net) 0,
          List.replicate (buildTot net) 0⟩ (buildWs dist net)).dists := by
  show (buildPassTwo dist (buildT net) (segsOf net) (buildOff net)
      (((buildOff net).getLast?).getD 0)).dists = _
  rw [buildTot_eq_getLast, buildPassTwo_eq_writeAll]
  rfl

/-- Full characterization of the arrays a build produces. -/
theorem build_characterization (dist : Coord → Coord → ℚ)
    (net : List (List Coord)) (s : RouterState) :
    (buildRouteGraph dist net s).csrIndices.length = buildTot net ∧
    (buildRouteGraph dist net s).csrDistances.length = buildTot net ∧
    ∀ u, u < buildN net →
      sliceAt (buildRouteGraph dist net s).csrIndices
        (buildRouteGraph dist net s).csrDistances
        ((buildOff net).getD u 0) ((buildDl net).getD u 0)
        = wsFor u (buildWs dist net) := by
  rw [build_indices, build_dists]
  exact writeAll_characterization (buildDl net) (buildN net) (buildWs dist net)
    (fun u _ => build_hdeg dist net u) (build_hwlt dist net)

/-- The degree list `rebuildCsrFromAdjacency` computes, named. -/
def rebuildDegrees (s : RouterState) : List ℕ :=
  (List.range s.coords.length).map (fun i =>
    (match s.csrOffsets with
     | none => 0
     | some off =>
        if i < min s.csrNodeCount s.coords.length then
          off.getD (i + 1) 0 - off.getD i 0
        else 0)
    + (s.adjacencyList.getD i []).length)

/-- The write list `rebuildCsrFromAdjacency` issues: first the copied CSR
slices of the covered nodes, then the sparse adjacency entries. -/
def rebuildWs (s : RouterState) : List (ℕ × ℕ × ℚ) :=
  (match s.csrOffsets with
   | none => []
   | some oldOff =>
      blockWrites (fun u => csrSlice oldOff s.csrIndices s.csrDistances u)
        (min s.csrNodeCount s.coords.length))
  ++ blockWrites (fun u => s.adjacencyList.getD u []) s.coords.length

theorem rebuild_network (s : RouterState) :
    (rebuildCsrFromAdjacency s).network = s.network := rfl

theorem rebuild_coords (s : RouterState) :
    (rebuildCsrFromAdjacency s).coords = s.coords := rfl

theorem rebuild_adj (s : RouterState) :
    (rebuildCsrFromAdjacency s).adjacencyList
      = List.replicate s.coords.length [] := rfl

theorem rebuild_count (s : RouterState) :
    (rebuildCsrFromAdjacency s).csrNodeCount = s.coords.length := rfl

theorem rebuild_off (s : RouterState) :
    (rebuildCsrFromAdjacency s).csrOffsets
      = some (csrOffsetsOf s.coords.length (rebuildDegrees s)) := rfl

theorem rebuild_indices (s : RouterState) :
    (rebuildCsrFromAdjacency s).csrIndices
      = (writeAll ⟨csrOffsetsOf s.coords.length (rebuildDegrees s),
          List.replicate
            ((csrOffsetsOf s.coords.length (rebuildDegrees s)).getD
              s.coords.length 0) 0,
          List.replicate
            ((csrOffsetsOf s.coords.length (rebuildDegrees s)).getD
              s.coords.length 0) 0⟩
          (rebuildWs s)).indices := by
  obtain ⟨nw, cs, adj, hoff, inds, ds, cnt⟩ := s
  cases hoff with
  | none =>
    obtain ⟨v, hv1, hv2⟩ := csrOffsetsOf_getLast cs.length
      (rebuildDegrees ⟨nw, cs, adj, none, inds, ds, cnt⟩)
    show ((List.range cs.length).foldl
        (fun f u => copyNodeEntries f u (adj.getD u []))
        ⟨csrOffsetsOf cs.length
            (rebuildDegrees ⟨nw, cs, adj, none, inds, ds, cnt⟩),
          List.replicate
            (((csrOffsetsOf cs.length
                (rebuildDegrees ⟨nw, cs, adj, none, inds, ds,
                  cnt⟩)).getLast?).getD 0) 0,
          List.replicate
            (((csrOffsetsOf cs.length
                (rebuildDegrees ⟨nw, cs, adj, none, inds, ds,
                  cnt⟩)).getLast?).getD 0) 0⟩).indices
      = _
    rw [hv1]
    simp only [Option.getD_some]
    rw [← hv2, foldl_copy_eq_writeAll]
    rfl
  | some oldOff =>
    obtain ⟨v, hv1, hv2⟩ := csrOffsetsOf_getLast cs.length
      (rebuildDegrees ⟨nw, cs, adj, some oldOff, inds, ds, cnt⟩)
    show ((List.range cs.length).foldl
        (fun f u => copyNodeEntries f u (adj.getD u []))
        ((List.range (min cnt cs.length)).foldl
          (fun f u => copyNodeEntries f u (csrSlice oldOff inds ds u))
          ⟨csrOffsetsOf cs.length
              (rebuildDegrees ⟨nw, cs, adj, some oldOff, inds, ds, cnt⟩),
            List.replicate
              (((csrOffsetsOf cs.length
                  (rebuildDegrees ⟨nw, cs, adj, some oldOff, inds, ds,
                    cnt⟩)).getLast?).getD 0) 0,
            List.replicate
              (((csrOffsetsOf cs.length
                  (rebuildDegrees ⟨nw, cs, adj, some oldOff, inds, ds,
                    cnt⟩)).getLast?).getD 0) 0⟩)).indices
      = _
    rw [hv1]
    simp only [Option.getD_some]
    rw [← hv2, foldl_copy_eq_writeAll, foldl_copy_eq_writeAll,
      ← writeAll_append]
    rfl

theorem rebuild_dists (s : RouterState) :
    (rebuildCsrFromAdjacency s).csrDistances
      = (writeAll ⟨csrOffsetsOf s.coords.length (rebuildDegrees s),
          List.replicate
            ((csrOffsetsOf s.coords.length (rebuildDegrees s)).getD
              s.coords.length 0) 0,
          List.replicate
            ((csrOffsetsOf s.coords.length (rebuildDegrees s)).getD
              s.coords.length 0) 0⟩
          (rebuildWs s)).dists := by
  obtain ⟨nw, cs, adj, hoff, inds, ds, cnt⟩ := s
  cases hoff with
  | none =>
    obtain ⟨v, hv1, hv2⟩ := csrOffsetsOf_getLast cs.length
      (rebuildDegrees ⟨nw, cs, adj, none, inds, ds, cnt⟩)
    show ((List.range cs.length).foldl
        (fun f u => copyNodeEntries f u (adj.getD u []))
        ⟨csrOffsetsOf cs.length
            (rebuildDegrees ⟨nw, cs, adj, none, inds, ds, cnt⟩),
          List.replicate
            (((csrOffsetsOf cs.length
                (rebuildDegrees ⟨nw, cs, adj, none, inds, ds,
                  cnt⟩)).getLast?).getD 0) 0,
          List.replicate
            (((csrOffsetsOf cs.length
                (rebuildDegrees ⟨nw, cs, adj, none, inds, ds,
                  cnt⟩)).getLast?).getD 0) 0⟩).dists
      = _
    rw [hv1]
    simp only [Option.getD_some]
    rw [← hv2, foldl_copy_eq_writeAll]
    rfl
  | some oldOff =>
    obtain ⟨v, hv1, hv2⟩ := csrOffsetsOf_getLast cs.length
      (rebuildDegrees ⟨nw, cs, adj, some oldOff, inds, ds, cnt⟩)
    show ((List.range cs.length).foldl
        (fun f u => copyNodeEntries f u (adj.getD u []))
        ((List.range (min cnt cs.length)).foldl
          (fun f u => copyNodeEntries f u (csrSlice oldOff inds ds u))
          ⟨csrOffsetsOf cs.length
              (rebuildDegrees ⟨nw, cs, adj, some oldOff, inds, ds, cnt⟩),
            List.replicate
              (((csrOffsetsOf cs.length
                  (rebuildDegrees ⟨nw, cs, adj, some oldOff, inds, ds,
                    cnt⟩)).getLast?).getD 0) 0,
            List.replicate
              (((csrOffsetsOf cs.length
                  (rebuildDegrees ⟨nw, cs, adj, some oldOff, inds, ds,
                    cnt⟩)).getLast?).getD 0) 0⟩)).dists
      = _
    rw [hv1]
    simp only [Option.getD_some]
    rw [← hv2, foldl_copy_eq_writeAll, foldl_copy_eq_writeAll,
      ← writeAll_append]
    rfl

theorem sliceAt_length (inds : List ℕ) (ds : List ℚ) (st len T : ℕ)
    (hi : inds.length = T) (hd : ds.length = T) (hle : st + len ≤ T) :
    (sliceAt inds ds st len).length = len := by
  unfold sliceAt
  rw [List.length_zip]
  simp only [List.length_take, List.length_drop]
  omega

theorem wsFor_rebuildWs (s : RouterState) (oldOff : List ℕ)
    (hc : s.csrOffsets = some oldOff) (u : ℕ) :
    wsFor u (rebuildWs s)
      = (if u < min s.csrNodeCount s.coords.length
          then csrSlice oldOff s.csrIndices s.csrDistances u else [])
        ++ (if u < s.coords.length then s.adjacencyList.getD u [] else []) := by
  unfold rebuildWs
  rw [hc]
  rw [wsFor_append, wsFor_blockWrites, wsFor_blockWrites]

/-- The rebuild write list matches the recomputed degrees. -/
theorem rebuild_hdeg (s : RouterState) (dl : List ℕ)
    (hoff : s.csrOffsets = some (csrOffsetsOf s.csrNodeCount dl))
    (hcov : s.csrNodeCount ≤ s.coords.length)
    (hi : s.csrIndices.length
      = (csrOffsetsOf s.csrNodeCount dl).getD s.csrNodeCount 0)
    (hd : s.csrDistances.length
      = (csrOffsetsOf s.csrNodeCount dl).getD s.csrNodeCount 0)
    (u : ℕ) (hu : u < s.coords.length) :
    (wsFor u (rebuildWs s)).length = (rebuildDegrees s).getD u 0 := by
  have hdval : (rebuildDegrees s).getD u 0
      = (if u < min s.csrNodeCount s.coords.length
          then (csrOffsetsOf s.csrNodeCount dl).getD (u + 1) 0
            - (csrOffsetsOf s.csrNodeCount dl).getD u 0
          else 0)
        + (s.adjacencyList.getD u []).length := by
    unfold rebuildDegrees
    rw [range_map_getD _ _ _ _ hu, hoff]
  rw [wsFor_rebuildWs s _ hoff u, List.length_append, hdval]
  by_cases hum : u < min s.csrNodeCount s.coords.length
  · have h1 : (csrOffsetsOf s.csrNodeCount dl).getD u 0
        ≤ (csrOffsetsOf s.csrNodeCount dl).getD (u + 1) 0 :=
      csrOffsetsOf_mono s.csrNodeCount dl u (u + 1) (by omega) (by omega)
    have h2 : (csrOffsetsOf s.csrNodeCount dl).getD (u + 1) 0
        ≤ (csrOffsetsOf s.csrNodeCount dl).getD s.csrNodeCount 0 :=
      csrOffsetsOf_mono s.csrNodeCount dl (u + 1) s.csrNodeCount
        (by omega) (le_refl _)
    rw [if_pos hum, if_pos hum, if_pos hu, csrSlice_eq_sliceAt,
      sliceAt_length _ _ _ _ ((csrOffsetsOf s.csrNodeCount dl).getD
        s.csrNodeCount 0) hi hd (by omega)]
  · rw [if_neg hum, if_neg hum, if_pos hu]
    simp

/-- Every rebuild write is directed below the node count. -/
theorem rebuild_hwlt (s : RouterState) :
    ∀ w ∈ rebuildWs s, w.1 < s.coords.length := by
  intro w hw
  unfold rebuildWs at hw
  rcases List.mem_append.mp hw with h | h
  · cases hc : s.csrOffsets with
    | none => rw [hc] at h; simp at h
    | some oldOff =>
      rw [hc] at h
      have := blockWrites_fst_lt _ _ w h
      omega
  · exact blockWrites_fst_lt _ _ w h

/-- Full characterization of the arrays a rebuild produces, from a state
whose CSR part is canonical. -/
theorem rebuild_characterization (s : RouterState) (dl : List ℕ)
    (hoff : s.csrOffsets = some (csrOffsetsOf s.csrNodeCount dl))
    (hcov : s.csrNodeCount ≤ s.coords.length)
    (hi : s.csrIndices.length
      = (csrOffsetsOf s.csrNodeCount dl).getD s.csrNodeCount 0)
    (hd : s.csrDistances.length
      = (csrOffsetsOf s.csrNodeCount dl).getD s.csrNodeCount 0) :
    (rebuildCsrFromAdjacency s).csrIndices.length
        = (csrOffsetsOf s.coords.length (rebuildDegrees s)).getD
            s.coords.length 0 ∧
    (rebuildCsrFromAdjacency s).csrDistances.length
        = (csrOffsetsOf s.coords.length (rebuildDegrees s)).getD
            s.coords.length 0 ∧
    ∀ u, u < s.coords.length →
      sliceAt (rebuildCsrFromAdjacency s).csrIndices
        (rebuildCsrFromAdjacency s).csrDistances
        ((csrOffsetsOf s.coords.length (rebuildDegrees s)).getD u 0)
        ((rebuildDegrees s).getD u 0)
        = wsFor u (rebuildWs s) := by
  rw [rebuild_indices, rebuild_dists]
  exact writeAll_characterization (rebuildDegrees s) s.coords.length
    (rebuildWs s) (rebuild_hdeg s dl hoff hcov hi hd) (rebuild_hwlt s)

theorem getD_replicate {β : Type} (n i : ℕ) (x d : β) (hi : i < n) :
    (List.replicate n x).getD i d = x := by
  rw [List.getD_eq_getElem?_getD, List.getElem?_replicate, if_pos hi]
  rfl

theorem routerState_ext (a b : RouterState)
    (h1 : a.network = b.network) (h2 : a.coords = b.coords)
    (h3 : a.adjacencyList = b.adjacencyList)
    (h4 : a.csrOffsets = b.csrOffsets) (h5 : a.csrIndices = b.csrIndices)
    (h6 : a.csrDistances = b.csrDistances)
    (h7 : a.csrNodeCount = b.csrNodeCount) : a = b := by
  cases a; cases b
  simp only [] at h1 h2 h3 h4 h5 h6 h7
  subst h1 h2 h3 h4 h5 h6 h7
  rfl

/-- The state invariant of a built router: the CSR offsets are a canonical
prefix sum over the node count, which tracks the coordinate table, the
sparse adjacency is all-empty, and the arrays have the advertised total
length. -/
def RouterWF (s : RouterState) : Prop :=
  ∃ dl, s.csrOffsets = some (csrOffsetsOf s.csrNodeCount dl) ∧
    s.csrNodeCount = s.coords.length ∧
    s.adjacencyList = List.replicate s.coords.length [] ∧
    s.csrIndices.length
      = (csrOffsetsOf s.csrNodeCount dl).getD s.csrNodeCount 0 ∧
    s.csrDistances.length
      = (csrOffsetsOf s.csrNodeCount dl).getD s.csrNodeCount 0

/-- On a well-formed state with an empty sparse adjacency, the rebuild is
the identity. -/
theorem rebuild_id (s : RouterState) (hwf : RouterWF s) :
    rebuildCsrFromAdjacency s = s := by
  obtain ⟨dl, hoff, hcnt, hadj, hi, hd⟩ := hwf
  have hdeg : ∀ u, u < s.coords.length →
      (rebuildDegrees s).getD u 0 = dl.getD u 0 := by
    intro u hu
    have hval : (rebuildDegrees s).getD u 0
        = (if u < min s.csrNodeCount s.coords.length
            then (csrOffsetsOf s.csrNodeCount dl).getD (u + 1) 0
              - (csrOffsetsOf s.csrNodeCount dl).getD u 0
            else 0) + (s.adjacencyList.getD u []).length := by
      unfold rebuildDegrees
      rw [range_map_getD _ _ _ _ hu, hoff]
    rw [hval, if_pos (by omega), hadj, getD_replicate _ _ _ _ hu]
    have hsucc := csrOffsetsOf_getD_succ s.csrNodeCount dl u (by omega)
    simp only [List.length_nil]
    omega
  have hoffeq : csrOffsetsOf s.coords.length (rebuildDegrees s)
      = csrOffsetsOf s.csrNodeCount dl := by
    rw [← hcnt]
    exact csrOffsetsOf_congr _ _ _ (fun i hi2 => hdeg i (by omega))
  obtain ⟨hni, hnd, hnsl⟩ :=
    rebuild_characterization s dl hoff (by omega) hi hd
  have hslices : ∀ u, u < s.csrNodeCount →
      sliceAt (rebuildCsrFromAdjacency s).csrIndices
        (rebuildCsrFromAdjacency s).csrDistances
        ((csrOffsetsOf s.csrNodeCount dl).getD u 0)
        ((csrOffsetsOf s.csrNodeCount dl).getD (u + 1) 0
          - (csrOffsetsOf s.csrNodeCount dl).getD u 0)
        = sliceAt s.csrIndices s.csrDistances
            ((csrOffsetsOf s.csrNodeCount dl).getD u 0)
            ((csrOffsetsOf s.csrNodeCount dl).getD (u + 1) 0
              - (csrOffsetsOf s.csrNodeCount dl).getD u 0) := by
    intro u hu
    have hsucc := csrOffsetsOf_getD_succ s.csrNodeCount dl u hu
    have hsub : (csrOffsetsOf s.csrNodeCount dl).getD (u + 1) 0
        - (csrOffsetsOf s.csrNodeCount dl).getD u 0 = dl.getD u 0 := by
      omega
    have hws : wsFor u (rebuildWs s)
        = csrSlice (csrOffsetsOf s.csrNodeCount dl) s.csrIndices
            s.csrDistances u := by
      rw [wsFor_rebuildWs s _ hoff u, if_pos (by omega), hadj,
        if_pos (by omega), getD_replicate _ _ _ _ (by omega),
        List.append_nil]
    have := hnsl u (by omega)
    rw [hoffeq, hdeg u (by omega), hws, csrSlice_eq_sliceAt, hsub] at this
    rw [hsub]
    exact this
  have harr := csr_arrays_ext (csrOffsetsOf s.csrNodeCount dl)
    s.csrNodeCount (csrOffsetsOf_getD_zero _ _)
    (rebuildCsrFromAdjacency s).csrIndices s.csrIndices
    (rebuildCsrFromAdjacency s).csrDistances s.csrDistances
    (by rw [hni, hoffeq, hcnt]) hi
    (by rw [hnd, hoffeq, hcnt]) hd
    hslices
  refine routerState_ext _ _ (rebuild_network s) (rebuild_coords s) ?_ ?_
    harr.1 harr.2 ?_
  · rw [rebuild_adj, hadj]
  · rw [rebuild_off, hoffeq, hoff]
  · rw [rebuild_count, hcnt]

theorem set_replicate_self {β : Type} (n i : ℕ) (x : β) :
    (List.replicate n x).set i x = List.replicate n x := by
  rcases Nat.lt_or_ge i n with h | h
  · apply List.ext_getElem?
    intro k
    by_cases hk : k = i
    · subst hk
      rw [List.getElem?_set_self (by simpa using h), List.getElem?_replicate,
        if_pos h]
    · rw [List.getElem?_set_ne (by omega)]
  · rw [List.set_eq_of_length_le (by simpa using h)]

theorem padAdj_replicate (n : ℕ) :
    padAdj (List.replicate n ([] : List (ℕ × ℚ))) n
      = List.replicate (n + 1) [] := by
  unfold padAdj
  rw [if_neg (by simp)]
  simp [List.replicate_succ']

/-- `getOrCreateIndex` preserves the router invariant. -/
theorem getOrCreateIndex_wf (c : Coord) (s : RouterState)
    (hwf : RouterWF s) : RouterWF (getOrCreateIndex c s).2 := by
  obtain ⟨dl, hoff, hcnt, hadj, hi, hd⟩ := hwf
  unfold getOrCreateIndex
  cases hl : coordLookup s.coords c with
  | some i => exact ⟨dl, hoff, hcnt, hadj, hi, hd⟩
  | none =>
    simp only [hoff, ← hcnt]
    simp only [if_true]
    refine ⟨(List.range s.csrNodeCount).map (fun j => dl.getD j 0) ++ [0],
      ?_, ?_, ?_, ?_, ?_⟩
    all_goals simp only []
    case refine_2 =>
      rw [List.length_append, List.length_cons, List.length_nil, hcnt]
    case refine_3 =>
      rw [hadj, ← hcnt, padAdj_replicate, set_replicate_self,
        List.length_append, List.length_cons, List.length_nil, hcnt]
    all_goals {
      have hA : ∀ j, j < s.csrNodeCount →
          ((List.range s.csrNodeCount).map (fun j => dl.getD j 0)
            ++ [0]).getD j 0 = dl.getD j 0 := by
        intro j hj
        rw [getD_append_side _ _ j 0
          (by rw [List.length_map, List.length_range]; exact hj),
          range_map_getD _ _ _ _ hj]
      have hB : ((List.range s.csrNodeCount).map (fun j => dl.getD j 0)
          ++ [0]).getD s.csrNodeCount 0 = 0 := by
        have := getD_append_last
          ((List.range s.csrNodeCount).map (fun j => dl.getD j 0)) 0 0
        rw [List.length_map, List.length_range] at this
        exact this
      have hC : csrOffsetsOf s.csrNodeCount
          ((List.range s.csrNodeCount).map (fun j => dl.getD j 0) ++ [0])
          = csrOffsetsOf s.csrNodeCount dl :=
        csrOffsetsOf_congr _ _ _ (fun j hj => hA j hj)
      obtain ⟨v, hv1, hv2⟩ := csrOffsetsOf_getLast s.csrNodeCount dl
      have hD : csrOffsetsOf (s.csrNodeCount + 1)
          ((List.range s.csrNodeCount).map (fun j => dl.getD j 0) ++ [0])
          = csrOffsetsOf s.csrNodeCount dl
            ++ [(csrOffsetsOf s.csrNodeCount dl).getD s.csrNodeCount 0] := by
        rw [csrOffsetsOf_succ_eq, hC, hB, hv1, hv2]
        simp
      have hE : (csrOffsetsOf (s.csrNodeCount + 1)
          ((List.range s.csrNodeCount).map (fun j => dl.getD j 0)
            ++ [0])).getD (s.csrNodeCount + 1) 0
          = (csrOffsetsOf s.csrNodeCount dl).getD s.csrNodeCount 0 := by
        rw [hD]
        have := getD_append_last (csrOffsetsOf s.csrNodeCount dl)
          ((csrOffsetsOf s.csrNodeCount dl).getD s.csrNodeCount 0) 0
        rw [csrOffsetsOf_length] at this
        exact this
      first
      | (rw [hE]; assumption)
      | (rw [hD])
    }

/-- `getRoute` touches the state only through interning the endpoints. -/
theorem getRoute_state (dist : Coord → Coord → ℚ) (a b : Coord)
    (s : RouterState) :
    (getRoute dist a b s).2 = s ∨
    (getRoute dist a b s).2
      = (getOrCreateIndex b (getOrCreateIndex a s).2).2 := by
  unfold getRoute getRouteAux
  rcases hn : s.network with _ | net
  · left; rfl
  · right
    simp only []
    repeat' split
    all_goals rfl

theorem getRoute_wf (dist : Coord → Coord → ℚ) (a b : Coord)
    (s : RouterState) (hwf : RouterWF s) :
    RouterWF (getRoute dist a b s).2 := by
  rcases getRoute_state dist a b s with h | h
  · rw [h]; exact hwf
  · rw [h]; exact getOrCreateIndex_wf b _ (getOrCreateIndex_wf a s hwf)

/-- A build always establishes the router invariant. -/
theorem build_wf (dist : Coord → Coord → ℚ) (net : List (List Coord))
    (s : RouterState) : RouterWF (buildRouteGraph dist net s) := by
  obtain ⟨h1, h2, -⟩ := build_characterization dist net s
  refine ⟨buildDl net, ?_, ?_, ?_, ?_, ?_⟩
  · rw [build_off, build_count]
    rfl
  · rw [build_count, build_coords]
    rfl
  · rw [build_adj, build_coords]
    rfl
  · rw [build_count]
    exact h1
  · rw [build_count]
    exact h2

/-- The expand fold only appends to the coordinate table. -/
theorem expandFold_coords_extends (dist : Coord → Coord → ℚ)
    (segs : List (Coord × Coord)) (cs : List Coord)
    (adj : List (List (ℕ × ℚ))) :
    ∃ ext, (segs.foldl (expandSegStep dist) (cs, adj)).1 = cs ++ ext := by
  induction segs generalizing cs adj with
  | nil => exact ⟨[], by simp⟩
  | cons seg rest ih =>
    rw [List.foldl_cons]
    obtain ⟨e1, he1⟩ := internCoord_extends cs seg.1
    obtain ⟨e2, he2⟩ := internCoord_extends (internCoord cs seg.1).2.1 seg.2
    obtain ⟨e3, he3⟩ := ih (expandSegStep dist (cs, adj) seg).1
      (expandSegStep dist (cs, adj) seg).2
    have hkey : (rest.foldl (expandSegStep dist)
        (expandSegStep dist (cs, adj) seg)).1
        = (expandSegStep dist (cs, adj) seg).1 ++ e3 := he3
    have hstep : (expandSegStep dist (cs, adj) seg).1
        = (internCoord (internCoord cs seg.1).2.1 seg.2).2.1 := rfl
    refine ⟨e1 ++ e2 ++ e3, ?_⟩
    rw [hkey, hstep, he2, he1]
    simp [List.append_assoc]

/-- A successful expand preserves the router invariant. -/
theorem expand_wf (dist : Coord → Coord → ℚ) (net : List (List Coord))
    (s s' : RouterState) (hok : expandRouteGraph dist net s = Except.ok s')
    (hwf : RouterWF s) : RouterWF s' := by
  obtain ⟨dl, hoff, hcnt, hadj, hi, hd⟩ := hwf
  unfold expandRouteGraph at hok
  rcases hn : s.network with _ | oldNet
  · rw [hn] at hok
    exact absurd hok (by simp)
  · rw [hn] at hok
    simp only [Except.ok.injEq] at hok
    subst hok
    set smid : RouterState :=
      { s with
        network := some (oldNet ++ net)
        coords := ((segsOf net).foldl (expandSegStep dist)
          (s.coords, s.adjacencyList)).1
        adjacencyList := ((segsOf net).foldl (expandSegStep dist)
          (s.coords, s.adjacencyList)).2 } with hsmid
    obtain ⟨ext, hext⟩ := expandFold_coords_extends dist (segsOf net)
      s.coords s.adjacencyList
    have hcov : smid.csrNodeCount ≤ smid.coords.length := by
      rw [hsmid]
      simp only [hext, List.length_append]
      omega
    have hoff2 : smid.csrOffsets
        = some (csrOffsetsOf smid.csrNodeCount dl) := hoff
    have hi2 : smid.csrIndices.length
        = (csrOffsetsOf smid.csrNodeCount dl).getD smid.csrNodeCount 0 := hi
    have hd2 : smid.csrDistances.length
        = (csrOffsetsOf smid.csrNodeCount dl).getD smid.csrNodeCount 0 := hd
    obtain ⟨hr1, hr2, -⟩ :=
      rebuild_characterization smid dl hoff2 hcov hi2 hd2
    refine ⟨rebuildDegrees smid, ?_, ?_, ?_, ?_, ?_⟩
    · rw [rebuild_off, rebuild_count]
    · rw [rebuild_count, rebuild_coords]
    · rw [rebuild_adj, rebuild_coords]
    · rw [rebuild_count]
      exact hr1
    · rw [rebuild_count]
      exact hr2

/-- Any call sequence preserves the router invariant. -/
theorem foldl_wf (dist : Coord → Coord → ℚ) (ops : List RouterOp)
    (s : RouterState) (hs : RouterWF s) :
    RouterWF (ops.foldl (applyOp dist) s) := by
  induction ops generalizing s with
  | nil => exact hs
  | cons op rest ih =>
    rw [List.foldl_cons]
    refine ih _ ?_
    match op with
    | .build net => exact build_wf dist net s
    | .expand net =>
      show RouterWF (match expandRouteGraph dist net s with
        | .ok s' => s'
        | .error _ => s)
      cases he : expandRouteGraph dist net s with
      | ok s' => exact expand_wf dist net s s' he hs
      | error e => exact hs
    | .query a b => exact getRoute_wf dist a b s hs

/-- After a sequence containing a build, the router invariant holds. -/
theorem foldl_wf_of_build (dist : Coord → Coord → ℚ) (ops : List RouterOp)
    (s : RouterState) (h : hasBuild ops) :
    RouterWF (ops.foldl (applyOp dist) s) := by
  induction ops generalizing s with
  | nil => obtain ⟨net, hmem⟩ := h; simp at hmem
  | cons op rest ih =>
    rw [List.foldl_cons]
    match op with
    | .build net => exact foldl_wf dist rest _ (build_wf dist net s)
    | .expand net =>
      refine ih _ ?_
      obtain ⟨m, hmem⟩ := h
      rcases List.mem_cons.mp hmem with hx | hx
      · exact absurd hx (by simp)
      · exact ⟨m, hx⟩
    | .query a b =>
      refine ih _ ?_
      obtain ⟨m, hmem⟩ := h
      rcases List.mem_cons.mp hmem with hx | hx
      · exact absurd hx (by simp)
      · exact ⟨m, hx⟩

/-- Expanding by the empty FeatureCollection is the identity on a built,
well-formed state. -/
theorem expand_nil (dist : Coord → Coord → ℚ) (s : RouterState)
    (net : List (List Coord)) (hnet : s.network = some net)
    (hwf : RouterWF s) :
    expandRouteGraph dist [] s = Except.ok s := by
  unfold expandRouteGraph
  rw [hnet]
  simp only [segsOf, List.flatMap_nil, List.foldl_nil, List.append_nil]
  have hstate : ({ s with
      network := some net
      coords := (s.coords, s.adjacencyList).1
      adjacencyList := (s.coords, s.adjacencyList).2 } : RouterState)
      = s := by
    rw [← hnet]
  rw [hstate, rebuild_id s hwf]

/-- C10: after `buildRouteGraph` has been called, calling
`expandRouteGraph` with an empty FeatureCollection is an identity on the
routing state: the call succeeds returning the state unchanged, so the CSR
offsets, neighbour and weight arrays and the node count are element-wise
unchanged and every subsequent `getRoute` result is unchanged. -/
theorem claim_C10_expand_empty_identity (dist : Coord → Coord → ℚ)
    (ops : List RouterOp) (h : hasBuild ops) :
    expandRouteGraph dist [] (runOps dist ops)
      = Except.ok (runOps dist ops) ∧
    ∀ s', expandRouteGraph dist [] (runOps dist ops) = Except.ok s' →
      s'.csrOffsets = (runOps dist ops).csrOffsets ∧
      s'.csrIndices = (runOps dist ops).csrIndices ∧
      s'.csrDistances = (runOps dist ops).csrDistances ∧
      s'.csrNodeCount = (runOps dist ops).csrNodeCount ∧
      ∀ a b, getRoute dist a b s' = getRoute dist a b (runOps dist ops) := by
  have hwf : RouterWF (runOps dist ops) := foldl_wf_of_build dist ops _ h
  have hnet : ∃ net, (runOps dist ops).network = some net := by
    rcases hnn : (runOps dist ops).network with _ | net
    · exfalso
      have h2 : (ops.foldl (applyOp dist) RouterState.initial).network
          = none := hnn
      rw [network_after] at h2
      exact h2.2 h
    · exact ⟨net, rfl⟩
  obtain ⟨net, hnet⟩ := hnet
  have hmain := expand_nil dist (runOps dist ops) net hnet hwf
  refine ⟨hmain, ?_⟩
  intro s' hs'
  rw [hmain] at hs'
  have heq : s' = runOps dist ops := (Except.ok.inj hs').symm
  subst heq
  exact ⟨rfl, rfl, rfl, rfl, fun a b => rfl⟩

/-- Witness for C10 at a concrete input: a single build of the one-segment
network. -/
theorem claim_C10_expand_empty_identity_witness :
    hasBuild [RouterOp.build [[((0 : ℚ), (0 : ℚ)), (1, 0)]]] ∧
    expandRouteGraph (fun _ _ => 0) []
        (runOps (fun _ _ => 0) [RouterOp.build [[((0 : ℚ), (0 : ℚ)), (1, 0)]]])
      = Except.ok
          (runOps (fun _ _ => 0)
            [RouterOp.build [[((0 : ℚ), (0 : ℚ)), (1, 0)]]]) :=
  ⟨⟨[[((0 : ℚ), (0 : ℚ)), (1, 0)]], List.mem_singleton.mpr rfl⟩,
    (claim_C10_expand_empty_identity (fun _ _ => 0)
      [RouterOp.build [[((0 : ℚ), (0 : ℚ)), (1, 0)]]]
      ⟨[[((0 : ℚ), (0 : ℚ)), (1, 0)]], List.mem_singleton.mpr rfl⟩).1⟩

/-! ## CSR undirectedness -/

theorem csrOffsetsOf_sub (n : ℕ) (dl : List ℕ) (u : ℕ) (hu : u < n) :
    (csrOffsetsOf n dl).getD (u + 1) 0 - (csrOffsetsOf n dl).getD u 0
      = dl.getD u 0 := by
  have := csrOffsetsOf_getD_succ n dl u hu
  omega

theorem mem_blockWrites_iff (g : ℕ → List (ℕ × ℚ)) (n u v : ℕ) (w : ℚ) :
    (u, v, w) ∈ blockWrites g n ↔ u < n ∧ (v, w) ∈ g u := by
  unfold blockWrites
  rw [List.mem_flatMap]
  constructor
  · rintro ⟨x, hx, hmem⟩
    obtain ⟨e, he, heq⟩ := List.mem_map.mp hmem
    injection heq.symm with h1 h23
    injection h23 with h2 h3
    subst h1
    refine ⟨List.mem_range.mp hx, ?_⟩
    have : e = (v, w) := by
      obtain ⟨e1, e2⟩ := e
      simp only [] at h2 h3
      rw [h2, h3]
    rw [← this]
    exact he
  · rintro ⟨hu, hmem⟩
    exact ⟨u, List.mem_range.mpr hu,
      List.mem_map.mpr ⟨(v, w), hmem, rfl⟩⟩

theorem mem_wsFor (u v : ℕ) (w : ℚ) (ws : List (ℕ × ℕ × ℚ)) :
    (v, w) ∈ wsFor u ws ↔ (u, v, w) ∈ ws := by
  unfold wsFor
  rw [List.mem_map]
  constructor
  · rintro ⟨x, hx, hxe⟩
    obtain ⟨hmem, hfil⟩ := List.mem_filter.mp hx
    obtain ⟨a, b, c⟩ := x
    have h1 : a = u := by simpa using hfil
    have h2 : (b, c) = (v, w) := hxe
    injection h2 with h2a h2b
    subst h1 h2a h2b
    exact hmem
  · intro h
    exact ⟨(u, v, w), List.mem_filter.mpr ⟨h, by simp⟩, rfl⟩

/-- The build write list is symmetric: writes come in `(A→B, B→A)` pairs. -/
theorem buildWrites_symm (dist : Coord → Coord → ℚ) (T : List Coord)
    (segs : List (Coord × Coord)) (u v : ℕ) (w : ℚ)
    (h : (u, v, w) ∈ buildWrites dist T segs) :
    (v, u, w) ∈ buildWrites dist T segs := by
  unfold buildWrites at h ⊢
  obtain ⟨seg, hs, hm⟩ := List.mem_flatMap.mp h
  refine List.mem_flatMap.mpr ⟨seg, hs, ?_⟩
  simp only [List.mem_cons, List.not_mem_nil, or_false] at hm ⊢
  rcases hm with hm | hm
  · injection hm with h1 h23
    injection h23 with h2 h3
    subst h1 h2 h3
    right; rfl
  · injection hm with h1 h23
    injection h23 with h2 h3
    subst h1 h2 h3
    left; rfl

/-- The directed CSR entries of a router state: node `u`'s slice entries
`(v, w)` as triples `(u, v, w)`. -/
def csrEntries (s : RouterState) : List (ℕ × ℕ × ℚ) :=
  match s.csrOffsets with
  | none => []
  | some off =>
    blockWrites (fun u => csrSlice off s.csrIndices s.csrDistances u)
      s.csrNodeCount

/-- Undirected consistency of the CSR arrays. -/
def CsrSymmetric (s : RouterState) : Prop :=
  ∀ u v w, (u, v, w) ∈ csrEntries s → (v, u, w) ∈ csrEntries s

/-- Membership in the CSR entries of a built state is membership in the
build write list. -/
theorem mem_csrEntries_build (dist : Coord → Coord → ℚ)
    (net : List (List Coord)) (s : RouterState) (u v : ℕ) (w : ℚ) :
    (u, v, w) ∈ csrEntries (buildRouteGraph dist net s) ↔
      u < buildN net ∧ (u, v, w) ∈ buildWs dist net := by
  obtain ⟨h1, h2, h3⟩ := build_characterization dist net s
  unfold csrEntries
  rw [build_off, build_count]
  rw [mem_blockWrites_iff]
  constructor
  · rintro ⟨hu, hmem⟩
    refine ⟨hu, ?_⟩
    rw [csrSlice_eq_sliceAt] at hmem
    unfold buildOff at hmem
    rw [csrOffsetsOf_sub (buildN net) (buildDl net) u hu] at hmem
    have hsl := h3 u hu
    unfold buildOff at hsl
    rw [hsl] at hmem
    exact (mem_wsFor u v w _).mp hmem
  · rintro ⟨hu, hmem⟩
    refine ⟨hu, ?_⟩
    rw [csrSlice_eq_sliceAt]
    unfold buildOff
    rw [csrOffsetsOf_sub (buildN net) (buildDl net) u hu]
    have hsl := h3 u hu
    unfold buildOff at hsl
    rw [hsl]
    exact (mem_wsFor u v w _).mpr hmem

/-- A build produces symmetric CSR arrays. -/
theorem build_symm (dist : Coord → Coord → ℚ) (net : List (List Coord))
    (s : RouterState) : CsrSymmetric (buildRouteGraph dist net s) := by
  intro u v w h
  rw [mem_csrEntries_build] at h
  rw [mem_csrEntries_build]
  obtain ⟨hu, hmem⟩ := h
  have hmem2 := buildWrites_symm dist (buildT net) (segsOf net) u v w hmem
  refine ⟨?_, hmem2⟩
  have := build_hwlt dist net (v, u, w) hmem2
  exact this

theorem padAdj_length (adj : List (List (ℕ × ℚ))) (i : ℕ) :
    (padAdj adj i).length = max adj.length (i + 1) := by
  unfold padAdj
  split
  · rw [Nat.max_eq_left (by omega)]
  · rw [List.length_append, List.length_replicate]
    omega

theorem padAdj_getD (adj : List (List (ℕ × ℚ))) (i u : ℕ) :
    (padAdj adj i).getD u [] = adj.getD u [] := by
  unfold padAdj
  split
  · rfl
  · rcases Nat.lt_or_ge u adj.length with h | h
    · exact getD_append_side _ _ u [] h
    · have h2 : adj.getD u [] = [] := by
        rw [List.getD_eq_getElem?_getD, List.getElem?_eq_none_iff.mpr h]
        rfl
      rw [h2, List.getD_eq_getElem?_getD, List.getElem?_append_right h]
      rcases Nat.lt_or_ge (u - adj.length) (i + 1 - adj.length) with h3 | h3
      · rw [List.getElem?_replicate, if_pos h3]
        rfl
      · rw [List.getElem?_eq_none_iff.mpr (by simp; omega)]
        rfl

theorem adjPush_length (adj : List (List (ℕ × ℚ))) (i : ℕ) (v : ℕ × ℚ) :
    (adjPush adj i v).length = max adj.length (i + 1) := by
  unfold adjPush
  rw [List.length_set, padAdj_length]

theorem adjPush_getD_self (adj : List (List (ℕ × ℚ))) (i : ℕ) (v : ℕ × ℚ) :
    (adjPush adj i v).getD i [] = adj.getD i [] ++ [v] := by
  unfold adjPush
  simp only []
  rw [List.getD_eq_getElem?_getD,
    List.getElem?_set_self (by rw [padAdj_length]; omega)]
  simp only [Option.getD_some]
  rw [padAdj_getD]

theorem adjPush_getD_ne (adj : List (List (ℕ × ℚ))) (i : ℕ) (v : ℕ × ℚ)
    (u : ℕ) (h : u ≠ i) :
    (adjPush adj i v).getD u [] = adj.getD u [] := by
  unfold adjPush
  simp only []
  rw [List.getD_eq_getElem?_getD, List.getElem?_set_ne (by omega),
    ← List.getD_eq_getElem?_getD, padAdj_getD]

/-- Creating an empty slot at a fresh index changes no read value. -/
theorem freshSet_getD (adj : List (List (ℕ × ℚ))) (i : ℕ)
    (h : adj.length ≤ i) (u : ℕ) :
    ((padAdj adj i).set i []).getD u [] = adj.getD u [] := by
  by_cases hu : u = i
  · subst hu
    rw [List.getD_eq_getElem?_getD,
      List.getElem?_set_self (by rw [padAdj_length]; omega)]
    rw [List.getD_eq_getElem?_getD (l := adj),
      List.getElem?_eq_none_iff.mpr h]
    rfl
  · rw [List.getD_eq_getElem?_getD, List.getElem?_set_ne (by omega),
      ← List.getD_eq_getElem?_getD, padAdj_getD]

/-- Symmetry of the sparse adjacency (undirected edge pushes). -/
def AdjSym (adj : List (List (ℕ × ℚ))) : Prop :=
  ∀ u v w, (v, w) ∈ adj.getD u [] → (u, w) ∈ adj.getD v []

theorem adjSym_congr (a b : List (List (ℕ × ℚ)))
    (h : ∀ u, a.getD u [] = b.getD u []) (hb : AdjSym b) : AdjSym a := by
  intro u v w hm
  rw [h u] at hm
  rw [h v]
  exact hb u v w hm

theorem adjSym_replicate (n : ℕ) :
    AdjSym (List.replicate n ([] : List (ℕ × ℚ))) := by
  intro u v w h
  rcases Nat.lt_or_ge u n with hu | hu
  · rw [getD_replicate _ _ _ _ hu] at h
    simp at h
  · rw [List.getD_eq_getElem?_getD,
      List.getElem?_eq_none_iff.mpr (by simp; omega)] at h
    simp at h

theorem adjSym_doublePush (adj : List (List (ℕ × ℚ))) (i j : ℕ) (w : ℚ)
    (hsym : AdjSym adj) :
    AdjSym (adjPush (adjPush adj i (j, w)) j (i, w)) := by
  have hmem : ∀ x y (qq : ℚ),
      (y, qq) ∈ (adjPush (adjPush adj i (j, w)) j (i, w)).getD x [] ↔
      ((y, qq) ∈ adj.getD x [] ∨ (x = i ∧ y = j ∧ qq = w)
        ∨ (x = j ∧ y = i ∧ qq = w)) := by
    intro x y qq
    by_cases hxj : x = j
    · subst hxj
      rw [adjPush_getD_self]
      by_cases hxi : x = i
      · subst hxi
        rw [adjPush_getD_self]
        simp only [List.mem_append, List.mem_singleton, Prod.mk.injEq]
        tauto
      · rw [adjPush_getD_ne _ _ _ _ hxi]
        simp only [List.mem_append, List.mem_singleton, Prod.mk.injEq, hxi]
        tauto
    · rw [adjPush_getD_ne _ _ _ _ hxj]
      by_cases hxi : x = i
      · subst hxi
        rw [adjPush_getD_self]
        simp only [List.mem_append, List.mem_singleton, Prod.mk.injEq, hxj]
        tauto
      · rw [adjPush_getD_ne _ _ _ _ hxi]
        simp only [hxi, hxj, false_and, or_false]
  intro u v q h
  rw [hmem u v q] at h
  rw [hmem v u q]
  rcases h with h | ⟨h1, h2, h3⟩ | ⟨h1, h2, h3⟩
  · exact Or.inl (hsym u v q h)
  · subst h1 h2 h3
    exact Or.inr (Or.inr ⟨rfl, rfl, rfl⟩)
  · subst h1 h2 h3
    exact Or.inr (Or.inl ⟨rfl, rfl, rfl⟩)

theorem internCoord_fst_lt (cs : List Coord) (c : Coord) :
    (internCoord cs c).1 < (internCoord cs c).2.1.length := by
  unfold internCoord
  cases h : coordLookup cs c with
  | some i => simpa using coordLookup_lt cs c i h
  | none => simp

theorem internCoord_cases (cs : List Coord) (c : Coord) :
    ((internCoord cs c).2.2 = true ∧ (internCoord cs c).1 = cs.length
      ∧ (internCoord cs c).2.1 = cs ++ [c]) ∨
    ((internCoord cs c).2.2 = false ∧ (internCoord cs c).2.1 = cs) := by
  unfold internCoord
  cases h : coordLookup cs c with
  | some i => right; simp
  | none => left; simp

/-- The expand fold keeps the adjacency within the table and symmetric. -/
theorem expandFold_adj (dist : Coord → Coord → ℚ)
    (segs : List (Coord × Coord)) (cs : List Coord)
    (adj : List (List (ℕ × ℚ))) (hlen : adj.length ≤ cs.length)
    (hsym : AdjSym adj) :
    (segs.foldl (expandSegStep dist) (cs, adj)).2.length
        ≤ (segs.foldl (expandSegStep dist) (cs, adj)).1.length ∧
    AdjSym (segs.foldl (expandSegStep dist) (cs, adj)).2 := by
  induction segs generalizing cs adj with
  | nil => exact ⟨hlen, hsym⟩
  | cons seg rest ih =>
    rw [List.foldl_cons]
    set r1 := internCoord cs seg.1 with hr1
    set adj1 := if r1.2.2 then (padAdj adj r1.1).set r1.1 [] else adj
      with hadj1
    set r2 := internCoord r1.2.1 seg.2 with hr2
    set adj2 := if r2.2.2 then (padAdj adj1 r2.1).set r2.1 [] else adj1
      with hadj2
    have hstep : expandSegStep dist (cs, adj) seg
        = (r2.2.1, adjPush (adjPush adj2 r1.1 (r2.1, dist seg.1 seg.2))
            r2.1 (r1.1, dist seg.1 seg.2)) := rfl
    have hfst1 : r1.1 < r1.2.1.length := by
      rw [hr1]; exact internCoord_fst_lt cs seg.1
    have hfst2 : r2.1 < r2.2.1.length := by
      rw [hr2]; exact internCoord_fst_lt r1.2.1 seg.2
    have hT2ext : ∃ ext, r2.2.1 = r1.2.1 ++ ext := by
      rw [hr2]; exact internCoord_extends r1.2.1 seg.2
    have hT2len : r1.2.1.length ≤ r2.2.1.length := by
      obtain ⟨ext, hext⟩ := hT2ext
      rw [hext, List.length_append]
      omega
    have hstage1 : adj1.length ≤ r1.2.1.length ∧ AdjSym adj1 := by
      rcases internCoord_cases cs seg.1 with ⟨hb, hi, ht⟩ | ⟨hb, ht⟩
      · rw [← hr1] at hb hi ht
        constructor
        · rw [hadj1]
          simp only [hb, if_true]
          rw [List.length_set, padAdj_length, hi, ht,
            List.length_append]
          simp
          omega
        · rw [hadj1]
          simp only [hb, if_true]
          exact adjSym_congr _ adj
            (freshSet_getD adj r1.1 (by omega)) hsym
      · rw [← hr1] at hb ht
        rw [hadj1]
        simp only [hb, Bool.false_eq_true, if_false]
        rw [ht]
        exact ⟨hlen, hsym⟩
    have hstage2 : adj2.length ≤ r2.2.1.length ∧ AdjSym adj2 := by
      rcases internCoord_cases r1.2.1 seg.2 with ⟨hb, hi, ht⟩ | ⟨hb, ht⟩
      · rw [← hr2] at hb hi ht
        constructor
        · rw [hadj2]
          simp only [hb, if_true]
          rw [List.length_set, padAdj_length, hi, ht,
            List.length_append]
          simp
          omega
        · rw [hadj2]
          simp only [hb, if_true]
          exact adjSym_congr _ adj1
            (freshSet_getD adj1 r2.1 (by omega)) hstage1.2
      · rw [← hr2] at hb ht
        rw [hadj2]
        simp only [hb, Bool.false_eq_true, if_false]
        rw [ht]
        exact hstage1
    have hpushlen : (adjPush (adjPush adj2 r1.1 (r2.1, dist seg.1 seg.2))
        r2.1 (r1.1, dist seg.1 seg.2)).length ≤ r2.2.1.length := by
      rw [adjPush_length, adjPush_length]
      have := hstage2.1
      omega
    have hpushsym : AdjSym (adjPush (adjPush adj2 r1.1
        (r2.1, dist seg.1 seg.2)) r2.1 (r1.1, dist seg.1 seg.2)) :=
      adjSym_doublePush adj2 r1.1 r2.1 (dist seg.1 seg.2) hstage2.2
    have hrec := ih (expandSegStep dist (cs, adj) seg).1
      (expandSegStep dist (cs, adj) seg).2
      (by rw [hstep]; exact hpushlen)
      (by rw [hstep]; exact hpushsym)
    exact hrec

theorem mem_csrEntries_some (s : RouterState) (off : List ℕ)
    (hc : s.csrOffsets = some off) (u v : ℕ) (w : ℚ) :
    (u, v, w) ∈ csrEntries s ↔
      u < s.csrNodeCount
      ∧ (v, w) ∈ csrSlice off s.csrIndices s.csrDistances u := by
  unfold csrEntries
  rw [hc, mem_blockWrites_iff]

/-- Membership in the CSR entries of a rebuild is membership in its write
list. -/
theorem mem_csrEntries_rebuild (s : RouterState) (dl : List ℕ)
    (hoff : s.csrOffsets = some (csrOffsetsOf s.csrNodeCount dl))
    (hcov : s.csrNodeCount ≤ s.coords.length)
    (hi : s.csrIndices.length
      = (csrOffsetsOf s.csrNodeCount dl).getD s.csrNodeCount 0)
    (hd : s.csrDistances.length
      = (csrOffsetsOf s.csrNodeCount dl).getD s.csrNodeCount 0)
    (u v : ℕ) (w : ℚ) :
    (u, v, w) ∈ csrEntries (rebuildCsrFromAdjacency s) ↔
      u < s.coords.length ∧ (u, v, w) ∈ rebuildWs s := by
  obtain ⟨h1, h2, h3⟩ := rebuild_characterization s dl hoff hcov hi hd
  rw [mem_csrEntries_some (rebuildCsrFromAdjacency s)
    (csrOffsetsOf s.coords.length (rebuildDegrees s)) (rebuild_off s),
    rebuild_count]
  constructor
  · rintro ⟨hu, hmem⟩
    refine ⟨hu, ?_⟩
    rw [csrSlice_eq_sliceAt,
      csrOffsetsOf_sub s.coords.length (rebuildDegrees s) u hu,
      h3 u hu] at hmem
    exact (mem_wsFor u v w _).mp hmem
  · rintro ⟨hu, hmem⟩
    refine ⟨hu, ?_⟩
    rw [csrSlice_eq_sliceAt,
      csrOffsetsOf_sub s.coords.length (rebuildDegrees s) u hu,
      h3 u hu]
    exact (mem_wsFor u v w _).mpr hmem

theorem mem_rebuildWs (s : RouterState) (oldOff : List ℕ)
    (hc : s.csrOffsets = some oldOff) (u v : ℕ) (w : ℚ) :
    (u, v, w) ∈ rebuildWs s ↔
      (u < min s.csrNodeCount s.coords.length
        ∧ (v, w) ∈ csrSlice oldOff s.csrIndices s.csrDistances u)
      ∨ (u < s.coords.length ∧ (v, w) ∈ s.adjacencyList.getD u []) := by
  unfold rebuildWs
  rw [hc]
  rw [List.mem_append, mem_blockWrites_iff, mem_blockWrites_iff]

/-- The state produced by interning a fresh coordinate on a built,
canonical state. -/
theorem getOrCreateIndex_state (c : Coord) (s : RouterState) (dl : List ℕ)
    (hl : coordLookup s.coords c = none)
    (hoff : s.csrOffsets = some (csrOffsetsOf s.csrNodeCount dl))
    (hcnt : s.csrNodeCount = s.coords.length) :
    (getOrCreateIndex c s).2 = { s with
      coords := s.coords ++ [c]
      adjacencyList := (padAdj s.adjacencyList s.coords.length).set
        s.coords.length []
      csrOffsets := some (csrOffsetsOf s.coords.length dl
        ++ [(csrOffsetsOf s.coords.length dl).getD s.coords.length 0])
      csrNodeCount := s.coords.length + 1 } := by
  unfold getOrCreateIndex
  rw [hcnt] at hoff
  simp only [hl, hoff, hcnt, if_true]

/-- Interning does not change the directed CSR entries. -/
theorem mem_csrEntries_intern (c : Coord) (s : RouterState)
    (hwf : RouterWF s) (u v : ℕ) (w : ℚ) :
    (u, v, w) ∈ csrEntries (getOrCreateIndex c s).2 ↔
      (u, v, w) ∈ csrEntries s := by
  obtain ⟨dl, hoff, hcnt, hadj, hi, hd⟩ := hwf
  cases hl : coordLookup s.coords c with
  | some i =>
    have hstate : (getOrCreateIndex c s).2 = s := by
      unfold getOrCreateIndex
      rw [hl]
    rw [hstate]
  | none =>
    rw [getOrCreateIndex_state c s dl hl hoff hcnt]
    rw [hcnt] at hoff hi hd
    have hofflen : (csrOffsetsOf s.coords.length dl).length
        = s.coords.length + 1 := csrOffsetsOf_length _ _
    have hsl : ∀ x, x < s.coords.length →
        csrSlice (csrOffsetsOf s.coords.length dl
            ++ [(csrOffsetsOf s.coords.length dl).getD s.coords.length 0])
          s.csrIndices s.csrDistances x
        = csrSlice (csrOffsetsOf s.coords.length dl)
            s.csrIndices s.csrDistances x := by
      intro x hx
      rw [csrSlice_eq_sliceAt, csrSlice_eq_sliceAt,
        getD_append_side _ _ x 0 (by omega),
        getD_append_side _ _ (x + 1) 0 (by omega)]
    have hlast : csrSlice (csrOffsetsOf s.coords.length dl
          ++ [(csrOffsetsOf s.coords.length dl).getD s.coords.length 0])
        s.csrIndices s.csrDistances s.coords.length = [] := by
      rw [csrSlice_eq_sliceAt]
      have hb := getD_append_last (csrOffsetsOf s.coords.length dl)
        ((csrOffsetsOf s.coords.length dl).getD s.coords.length 0) 0
      rw [hofflen] at hb
      rw [hb, getD_append_side _ _ s.coords.length 0 (by omega)]
      rw [Nat.sub_self]
      rfl
    rw [mem_csrEntries_some _ _ rfl, mem_csrEntries_some s _ hoff]
    simp only []
    constructor
    · rintro ⟨hu, hmem⟩
      rcases Nat.lt_or_ge u s.coords.length with hul | hul
      · rw [hsl u hul] at hmem
        exact ⟨by omega, hmem⟩
      · have hue : u = s.coords.length := by omega
        subst hue
        rw [hlast] at hmem
        simp at hmem
    · rintro ⟨hu, hmem⟩
      have hul : u < s.coords.length := by omega
      rw [hsl u hul]
      exact ⟨by omega, hmem⟩

/-- A successful expand preserves undirected consistency. -/
theorem expand_symm (dist : Coord → Coord → ℚ) (net : List (List Coord))
    (s s' : RouterState) (hok : expandRouteGraph dist net s = Except.ok s')
    (hwf : RouterWF s) (hsymm : CsrSymmetric s) : CsrSymmetric s' := by
  obtain ⟨dl, hoff, hcnt, hadj, hi, hd⟩ := hwf
  unfold expandRouteGraph at hok
  rcases hn : s.network with _ | oldNet
  · rw [hn] at hok
    exact absurd hok (by simp)
  · rw [hn] at hok
    simp only [Except.ok.injEq] at hok
    subst hok
    set smid : RouterState := { s with
      network := some (oldNet ++ net)
      coords := ((segsOf net).foldl (expandSegStep dist)
        (s.coords, s.adjacencyList)).1
      adjacencyList := ((segsOf net).foldl (expandSegStep dist)
        (s.coords, s.adjacencyList)).2 } with hsmid
    obtain ⟨ext, hext⟩ := expandFold_coords_extends dist (segsOf net)
      s.coords s.adjacencyList
    have hcov : smid.csrNodeCount ≤ smid.coords.length := by
      rw [hsmid]
      simp only [hext, List.length_append]
      omega
    have hadjinv := expandFold_adj dist (segsOf net) s.coords
      s.adjacencyList (by rw [hadj]; simp) (by rw [hadj]; exact adjSym_replicate _)
    have hlenadj : smid.adjacencyList.length ≤ smid.coords.length :=
      hadjinv.1
    have hsymadj : AdjSym smid.adjacencyList := hadjinv.2
    have hclen : s.coords.length ≤ smid.coords.length := by
      show s.coords.length
        ≤ ((segsOf net).foldl (expandSegStep dist)
            (s.coords, s.adjacencyList)).1.length
      rw [hext, List.length_append]
      omega
    intro u v w h
    rw [mem_csrEntries_rebuild smid dl hoff hcov hi hd] at h ⊢
    obtain ⟨hu, hmem⟩ := h
    rw [mem_rebuildWs smid (csrOffsetsOf s.csrNodeCount dl) hoff] at hmem
    have hminEq : min smid.csrNodeCount smid.coords.length
        = s.csrNodeCount := Nat.min_eq_left hcov
    rcases hmem with ⟨hu2, hmem⟩ | ⟨hu2, hmem⟩
    · have hin : (u, v, w) ∈ csrEntries s := by
        rw [mem_csrEntries_some s _ hoff]
        exact ⟨by omega, hmem⟩
      have hout := hsymm u v w hin
      rw [mem_csrEntries_some s _ hoff] at hout
      obtain ⟨hv, hmem2⟩ := hout
      refine ⟨by omega, ?_⟩
      rw [mem_rebuildWs smid (csrOffsetsOf s.csrNodeCount dl) hoff]
      left
      exact ⟨by omega, hmem2⟩
    · have hmem2 : (u, w) ∈ smid.adjacencyList.getD v [] :=
        hsymadj u v w hmem
      have hvlen : v < smid.adjacencyList.length := by
        by_contra hge
        rw [List.getD_eq_getElem?_getD,
          List.getElem?_eq_none_iff.mpr (by omega)] at hmem2
        simp at hmem2
      refine ⟨by omega, ?_⟩
      rw [mem_rebuildWs smid (csrOffsetsOf s.csrNodeCount dl) hoff]
      right
      exact ⟨by omega, hmem2⟩

/-- Interning preserves undirected consistency. -/
theorem intern_symm (c : Coord) (s : RouterState) (hwf : RouterWF s)
    (hs : CsrSymmetric s) : CsrSymmetric (getOrCreateIndex c s).2 := by
  intro u v w h
  rw [mem_csrEntries_intern c s hwf] at h ⊢
  exact hs u v w h

theorem getRoute_symm (dist : Coord → Coord → ℚ) (a b : Coord)
    (s : RouterState) (hwf : RouterWF s) (hs : CsrSymmetric s) :
    CsrSymmetric (getRoute dist a b s).2 := by
  rcases getRoute_state dist a b s with h | h
  · rw [h]; exact hs
  · rw [h]
    exact intern_symm b _ (getOrCreateIndex_wf a s hwf)
      (intern_symm a s hwf hs)

theorem foldl_inv_symm (dist : Coord → Coord → ℚ) (ops : List RouterOp)
    (s : RouterState)
    (h : (s.network = none ∧ s.csrOffsets = none)
      ∨ (RouterWF s ∧ CsrSymmetric s)) :
    ((ops.foldl (applyOp dist) s).network = none
      ∧ (ops.foldl (applyOp dist) s).csrOffsets = none)
    ∨ (RouterWF (ops.foldl (applyOp dist) s)
      ∧ CsrSymmetric (ops.foldl (applyOp dist) s)) := by
  induction ops generalizing s with
  | nil => exact h
  | cons op rest ih =>
    rw [List.foldl_cons]
    refine ih _ ?_
    match op with
    | .build net => exact Or.inr ⟨build_wf dist net s, build_symm dist net s⟩
    | .expand net =>
      cases he : expandRouteGraph dist net s with
      | error e =>
        have hstate : applyOp dist s (.expand net) = s := by
          simp [applyOp, he]
        rw [hstate]
        exact h
      | ok s' =>
        rcases h with ⟨hn, hoffn⟩ | ⟨hwf, hs⟩
        · exfalso
          have herr := (expand_error_iff dist net s).mpr hn
          rw [he] at herr
          exact absurd herr (by simp)
        · have hstate : applyOp dist s (.expand net) = s' := by
            simp [applyOp, he]
          rw [hstate]
          exact Or.inr ⟨expand_wf dist net s s' he hwf,
            expand_symm dist net s s' he hwf hs⟩
    | .query a b =>
      rcases h with ⟨hn, hoffn⟩ | ⟨hwf, hs⟩
      · have hstate : applyOp dist s (.query a b) = s :=
          getRoute_notBuilt_state dist a b s hn
        rw [hstate]
        exact Or.inl ⟨hn, hoffn⟩
      · exact Or.inr ⟨getRoute_wf dist a b s hwf,
          getRoute_symm dist a b s hwf hs⟩

/-- C7: after any sequence of `buildRouteGraph` / `expandRouteGraph` /
`getRoute` calls — in particular right after every build or expand — the
CSR arrays are undirected-consistent: every directed entry `(u, v, w)` has
a matching reverse entry `(v, u, w)`. -/
theorem claim_C7_csr_undirected (dist : Coord → Coord → ℚ)
    (ops : List RouterOp) : CsrSymmetric (runOps dist ops) := by
  have h := foldl_inv_symm dist ops RouterState.initial
    (Or.inl ⟨rfl, rfl⟩)
  rcases h with ⟨h1, h2⟩ | ⟨h1, h2⟩
  · intro u v w hm
    unfold csrEntries runOps at hm
    rw [h2] at hm
    simp at hm
  · exact h2

/-! ## Expand consistency -/

/-- The interning thread shared by pass 1 and the expand fold. -/
def coordFold (cs : List Coord) (segs : List (Coord × Coord)) : List Coord :=
  segs.foldl
    (fun cs seg => (internCoord (internCoord cs seg.1).2.1 seg.2).2.1) cs

theorem coordFold_append (cs : List Coord) (s1 s2 : List (Coord × Coord)) :
    coordFold cs (s1 ++ s2) = coordFold (coordFold cs s1) s2 := by
  unfold coordFold
  rw [List.foldl_append]

theorem passOneFold_coords (segs : List (Coord × Coord))
    (acc : List Coord × List ℕ) :
    (segs.foldl passOneStep acc).1 = coordFold acc.1 segs := by
  induction segs generalizing acc with
  | nil => rfl
  | cons seg rest ih =>
    rw [List.foldl_cons]
    rw [ih (passOneStep acc seg)]
    rfl

theorem expandFold_coords (dist : Coord → Coord → ℚ)
    (segs : List (Coord × Coord)) (cs : List Coord)
    (adj : List (List (ℕ × ℚ))) :
    (segs.foldl (expandSegStep dist) (cs, adj)).1 = coordFold cs segs := by
  induction segs generalizing cs adj with
  | nil => rfl
  | cons seg rest ih =>
    rw [List.foldl_cons]
    have hrec := ih (expandSegStep dist (cs, adj) seg).1
      (expandSegStep dist (cs, adj) seg).2
    exact hrec

theorem wsFor_pair_list (u ia ib : ℕ) (w : ℚ) :
    wsFor u [(ia, ib, w), (ib, ia, w)]
      = (if ia = u then [(ib, w)] else [])
        ++ (if ib = u then [(ia, w)] else []) := by
  unfold wsFor
  by_cases h1 : ia = u <;> by_cases h2 : ib = u <;> simp [h1, h2]

theorem doublePush_getD (a : List (List (ℕ × ℚ))) (i j u : ℕ) (w : ℚ) :
    (adjPush (adjPush a i (j, w)) j (i, w)).getD u []
      = a.getD u [] ++ ((if i = u then [(j, w)] else [])
          ++ (if j = u then [(i, w)] else [])) := by
  by_cases hj : u = j
  · subst hj
    rw [adjPush_getD_self]
    by_cases hi : u = i
    · subst hi
      simp only [adjPush_getD_self, eq_self_iff_true, if_true,
        List.append_assoc]
    · rw [adjPush_getD_ne _ _ _ _ hi, if_neg (by omega), if_pos rfl,
        List.nil_append]
  · rw [adjPush_getD_ne _ _ _ _ hj]
    by_cases hi : u = i
    · subst hi
      rw [adjPush_getD_self, if_pos rfl, if_neg (by omega),
        List.append_nil]
    · rw [adjPush_getD_ne _ _ _ _ hi, if_neg (by omega),
        if_neg (by omega), List.append_nil, List.append_nil]

theorem buildWrites_append (dist : Coord → Coord → ℚ) (T : List Coord)
    (s1 s2 : List (Coord × Coord)) :
    buildWrites dist T (s1 ++ s2)
      = buildWrites dist T s1 ++ buildWrites dist T s2 := by
  unfold buildWrites
  rw [List.flatMap_append]

/-- The write list only depends on the lookups of the segment endpoints. -/
theorem buildWrites_congr (dist : Coord → Coord → ℚ) (T T2 : List Coord)
    (segs : List (Coord × Coord))
    (h : ∀ seg ∈ segs, coordLookup T seg.1 = coordLookup T2 seg.1
      ∧ coordLookup T seg.2 = coordLookup T2 seg.2) :
    buildWrites dist T segs = buildWrites dist T2 segs := by
  induction segs with
  | nil => rfl
  | cons seg rest ih =>
    rw [buildWrites_cons, buildWrites_cons,
      (h seg (by simp)).1, (h seg (by simp)).2,
      ih (fun s hs => h s (by simp [hs]))]

/-- A node at or above the write bound receives no writes. -/
theorem wsFor_eq_nil_of_ge (ws : List (ℕ × ℕ × ℚ)) (n u : ℕ)
    (hlt : ∀ w ∈ ws, w.1 < n) (hu : n ≤ u) : wsFor u ws = [] := by
  unfold wsFor
  rw [List.filter_eq_nil_iff.mpr, List.map_nil]
  intro x hx
  have := hlt x hx
  simp only [decide_eq_true_eq]
  omega

theorem coordFold_extends (segs : List (Coord × Coord)) (cs : List Coord) :
    ∃ ext, coordFold cs segs = cs ++ ext := by
  induction segs generalizing cs with
  | nil => exact ⟨[], by simp [coordFold]⟩
  | cons seg rest ih =>
    obtain ⟨e1, he1⟩ := internCoord_extends cs seg.1
    obtain ⟨e2, he2⟩ := internCoord_extends (internCoord cs seg.1).2.1 seg.2
    obtain ⟨e3, he3⟩ :=
      ih (internCoord (internCoord cs seg.1).2.1 seg.2).2.1
    refine ⟨e1 ++ e2 ++ e3, ?_⟩
    show coordFold (internCoord (internCoord cs seg.1).2.1 seg.2).2.1 rest
      = cs ++ (e1 ++ e2 ++ e3)
    rw [he3, he2, he1]
    simp [List.append_assoc]

/-- The expand fold: every endpoint ends up in the final table, and the
adjacency slot of node `u` accumulates exactly the writes the same segments
would produce in pass 2, in order. -/
theorem expandFold_spec (dist : Coord → Coord → ℚ)
    (segs : List (Coord × Coord)) (cs : List Coord)
    (adj : List (List (ℕ × ℚ))) (hlen : adj.length ≤ cs.length) :
    (∀ seg ∈ segs,
      (∃ i, coordLookup (coordFold cs segs) seg.1 = some i) ∧
      (∃ j, coordLookup (coordFold cs segs) seg.2 = some j)) ∧
    (∀ u, (segs.foldl (expandSegStep dist) (cs, adj)).2.getD u []
      = adj.getD u []
        ++ wsFor u (buildWrites dist (coordFold cs segs) segs)) := by
  induction segs generalizing cs adj with
  | nil =>
    refine ⟨by simp, ?_⟩
    intro u
    simp [coordFold, buildWrites, wsFor]
  | cons seg rest ih =>
    set r1 := internCoord cs seg.1 with hr1
    set adj1 := if r1.2.2 then (padAdj adj r1.1).set r1.1 [] else adj
      with hadj1
    set r2 := internCoord r1.2.1 seg.2 with hr2
    set adj2 := if r2.2.2 then (padAdj adj1 r2.1).set r2.1 [] else adj1
      with hadj2
    have hstep : expandSegStep dist (cs, adj) seg
        = (r2.2.1, adjPush (adjPush adj2 r1.1 (r2.1, dist seg.1 seg.2))
            r2.1 (r1.1, dist seg.1 seg.2)) := rfl
    have hTfold : coordFold cs (seg :: rest) = coordFold r2.2.1 rest := rfl
    obtain ⟨e2, he2⟩ : ∃ ext, r2.2.1 = r1.2.1 ++ ext := by
      rw [hr2]; exact internCoord_extends r1.2.1 seg.2
    obtain ⟨e3, he3⟩ := coordFold_extends rest r2.2.1
    have hlook1 : coordLookup (coordFold r2.2.1 rest) seg.1
        = some r1.1 := by
      rw [he3, he2, List.append_assoc]
      exact coordLookup_append _ _ _ _ (by rw [hr1]; exact internCoord_lookup cs seg.1)
    have hlook2 : coordLookup (coordFold r2.2.1 rest) seg.2
        = some r2.1 := by
      rw [he3]
      exact coordLookup_append _ _ _ _ (by rw [hr2]; exact internCoord_lookup r1.2.1 seg.2)
    -- length bookkeeping for the fresh-slot sets
    have hfst1 : r1.1 < r1.2.1.length := by
      rw [hr1]; exact internCoord_fst_lt cs seg.1
    have hfst2 : r2.1 < r2.2.1.length := by
      rw [hr2]; exact internCoord_fst_lt r1.2.1 seg.2
    have hT2len : r1.2.1.length ≤ r2.2.1.length := by
      rw [he2, List.length_append]; omega
    have hstage1 : adj1.length ≤ r1.2.1.length
        ∧ ∀ u, adj1.getD u [] = adj.getD u [] := by
      rcases internCoord_cases cs seg.1 with ⟨hb, hi, ht⟩ | ⟨hb, ht⟩
      · rw [← hr1] at hb hi ht
        constructor
        · rw [hadj1]
          simp only [hb, if_true]
          rw [List.length_set, padAdj_length, hi, ht, List.length_append]
          simp
          omega
        · rw [hadj1]
          simp only [hb, if_true]
          exact freshSet_getD adj r1.1 (by omega)
      · rw [← hr1] at hb ht
        rw [hadj1]
        simp only [hb, Bool.false_eq_true, if_false]
        rw [ht]
        exact ⟨hlen, fun u => trivial⟩
    have hstage2 : adj2.length ≤ r2.2.1.length
        ∧ ∀ u, adj2.getD u [] = adj.getD u [] := by
      rcases internCoord_cases r1.2.1 seg.2 with ⟨hb, hi, ht⟩ | ⟨hb, ht⟩
      · rw [← hr2] at hb hi ht
        constructor
        · rw [hadj2]
          simp only [hb, if_true]
          rw [List.length_set, padAdj_length, hi, ht, List.length_append]
          simp
          omega
        · rw [hadj2]
          simp only [hb, if_true]
          intro u
          rw [freshSet_getD adj1 r2.1 (by omega) u, hstage1.2 u]
      · rw [← hr2] at hb ht
        rw [hadj2]
        simp only [hb, Bool.false_eq_true, if_false]
        rw [ht]
        exact ⟨hstage1.1, hstage1.2⟩
    have hpushlen : (adjPush (adjPush adj2 r1.1 (r2.1, dist seg.1 seg.2))
        r2.1 (r1.1, dist seg.1 seg.2)).length ≤ r2.2.1.length := by
      rw [adjPush_length, adjPush_length]
      have := hstage2.1
      omega
    obtain ⟨ihmem, ihadj⟩ := ih (expandSegStep dist (cs, adj) seg).1
      (expandSegStep dist (cs, adj) seg).2
      (by rw [hstep]; exact hpushlen)
    refine ⟨?_, ?_⟩
    · intro s hs
      rcases List.mem_cons.mp hs with hx | hx
      · subst hx
        exact ⟨⟨r1.1, hlook1⟩, ⟨r2.1, hlook2⟩⟩
      · have := ihmem s hx
        rw [hstep] at this
        exact this
    · intro u
      have hrec := ihadj u
      rw [hstep] at hrec
      rw [List.foldl_cons]
      have hgoalLHS : (rest.foldl (expandSegStep dist)
          (expandSegStep dist (cs, adj) seg)).2.getD u []
          = (adjPush (adjPush adj2 r1.1 (r2.1, dist seg.1 seg.2))
              r2.1 (r1.1, dist seg.1 seg.2)).getD u []
            ++ wsFor u (buildWrites dist (coordFold r2.2.1 rest) rest) :=
        hrec
      rw [hgoalLHS, doublePush_getD, hstage2.2 u]
      rw [hTfold, buildWrites_cons, wsFor_append, hlook1, hlook2]
      simp only [Option.getD_some]
      rw [wsFor_pair_list]
      rw [List.append_assoc]

theorem segsOf_append (net1 net2 : List (List Coord)) :
    segsOf (net1 ++ net2) = segsOf net1 ++ segsOf net2 := by
  unfold segsOf
  rw [List.flatMap_append]

theorem replicate_getD_nil (n u : ℕ) :
    (List.replicate n ([] : List (ℕ × ℚ))).getD u [] = [] := by
  rcases Nat.lt_or_ge u n with h | h
  · exact getD_replicate _ _ _ _ h
  · rw [List.getD_eq_getElem?_getD,
      List.getElem?_eq_none_iff.mpr (by simpa using h)]
    rfl

theorem buildT_eq_coordFold (net : List (List Coord)) :
    buildT net = coordFold [] (segsOf net) := by
  unfold buildT
  rw [buildPassOne_eq_foldl, passOneFold_coords]

theorem buildT_append (net1 net2 : List (List Coord)) :
    buildT (net1 ++ net2) = coordFold (buildT net1) (segsOf net2) := by
  rw [buildT_eq_coordFold, buildT_eq_coordFold, segsOf_append,
    coordFold_append]

/-- Endpoints of a network's segments are present in its build table. -/
theorem buildT_mem (dist : Coord → Coord → ℚ) (net : List (List Coord)) :
    ∀ seg ∈ segsOf net,
      (∃ i, coordLookup (buildT net) seg.1 = some i) ∧
      (∃ j, coordLookup (buildT net) seg.2 = some j) := by
  have h := (passOne_spec dist (segsOf net) ([], [])).2.1
  rw [← buildPassOne_eq_foldl] at h
  exact h

/-- Writes of the first network read the same in the combined table. -/
theorem buildWrites_stable (dist : Coord → Coord → ℚ)
    (net1 net2 : List (List Coord)) :
    buildWrites dist (buildT (net1 ++ net2)) (segsOf net1)
      = buildWrites dist (buildT net1) (segsOf net1) := by
  obtain ⟨ext, hext⟩ := coordFold_extends (segsOf net2) (buildT net1)
  apply buildWrites_congr
  intro seg hs
  obtain ⟨⟨i, hi⟩, ⟨j, hj⟩⟩ := buildT_mem dist net1 seg hs
  rw [buildT_append, hext, hi, hj,
    coordLookup_append _ _ _ _ hi, coordLookup_append _ _ _ _ hj]
  exact ⟨rfl, rfl⟩

/-- Building `net1` and expanding by `net2` rebuilds exactly the state a
single build of `net1 ++ net2` produces. -/
theorem expand_build_state (dist : Coord → Coord → ℚ)
    (net1 net2 : List (List Coord)) (s s2 : RouterState) :
    rebuildCsrFromAdjacency
      { buildRouteGraph dist net1 s with
        network := some (net1 ++ net2)
        coords := ((segsOf net2).foldl (expandSegStep dist)
          (buildT net1, List.replicate (buildN net1) [])).1
        adjacencyList := ((segsOf net2).foldl (expandSegStep dist)
          (buildT net1, List.replicate (buildN net1) [])).2 }
      = buildRouteGraph dist (net1 ++ net2) s2 := by
  set smid : RouterState :=
    { buildRouteGraph dist net1 s with
      network := some (net1 ++ net2)
      coords := ((segsOf net2).foldl (expandSegStep dist)
        (buildT net1, List.replicate (buildN net1) [])).1
      adjacencyList := ((segsOf net2).foldl (expandSegStep dist)
        (buildT net1, List.replicate (buildN net1) [])).2 } with hsmid
  have hco : smid.coords = buildT (net1 ++ net2) := by
    show ((segsOf net2).foldl (expandSegStep dist)
      (buildT net1, List.replicate (buildN net1) [])).1 = _
    rw [expandFold_coords, ← buildT_append]
  have hcnt1 : smid.csrNodeCount = buildN net1 := build_count dist net1 s
  have hoff1 : smid.csrOffsets
      = some (csrOffsetsOf smid.csrNodeCount (buildDl net1)) := by
    show (buildRouteGraph dist net1 s).csrOffsets = _
    rw [build_off, hcnt1]
    rfl
  have hi1 : smid.csrIndices.length
      = (csrOffsetsOf smid.csrNodeCount (buildDl net1)).getD
          smid.csrNodeCount 0 := by
    show (buildRouteGraph dist net1 s).csrIndices.length = _
    rw [hcnt1]
    exact (build_characterization dist net1 s).1
  have hd1 : smid.csrDistances.length
      = (csrOffsetsOf smid.csrNodeCount (buildDl net1)).getD
          smid.csrNodeCount 0 := by
    show (buildRouteGraph dist net1 s).csrDistances.length = _
    rw [hcnt1]
    exact (build_characterization dist net1 s).2.1
  have hn1le : buildN net1 ≤ (buildT (net1 ++ net2)).length := by
    obtain ⟨ext, hext⟩ := coordFold_extends (segsOf net2) (buildT net1)
    rw [buildT_append, hext, List.length_append]
    show (buildT net1).length ≤ _
    omega
  have hcov : smid.csrNodeCount ≤ smid.coords.length := by
    rw [hcnt1, hco]
    exact hn1le
  have hadjchar : ∀ u, smid.adjacencyList.getD u []
      = wsFor u (buildWrites dist (buildT (net1 ++ net2))
          (segsOf net2)) := by
    intro u
    have h := (expandFold_spec dist (segsOf net2) (buildT net1)
      (List.replicate (buildN net1) [])
      (by rw [List.length_replicate]; exact le_refl _)).2 u
    rw [replicate_getD_nil, List.nil_append] at h
    show ((segsOf net2).foldl (expandSegStep dist)
      (buildT net1, List.replicate (buildN net1) [])).2.getD u [] = _
    rw [h, ← buildT_append]
  have hbw1 := buildWrites_stable dist net1 net2
  have hsegsfull : buildWs dist (net1 ++ net2)
      = buildWrites dist (buildT (net1 ++ net2)) (segsOf net1)
        ++ buildWrites dist (buildT (net1 ++ net2)) (segsOf net2) := by
    unfold buildWs
    rw [segsOf_append, buildWrites_append]
  have hws1len : ∀ u,
      (wsFor u (buildWrites dist (buildT (net1 ++ net2))
        (segsOf net1))).length = (buildDl net1).getD u 0 := by
    intro u
    rw [hbw1]
    exact build_hdeg dist net1 u
  have hws1nil : ∀ u, buildN net1 ≤ u →
      wsFor u (buildWrites dist (buildT (net1 ++ net2))
        (segsOf net1)) = [] := by
    intro u hu
    rw [hbw1]
    exact wsFor_eq_nil_of_ge _ (buildN net1) u (build_hwlt dist net1) hu
  have hminval : min smid.csrNodeCount smid.coords.length
      = buildN net1 := by
    rw [hcnt1, hco]
    exact Nat.min_eq_left hn1le
  have hdegs : ∀ u, u < smid.coords.length →
      (rebuildDegrees smid).getD u 0
        = (buildDl (net1 ++ net2)).getD u 0 := by
    intro u hu
    have hdval : (rebuildDegrees smid).getD u 0
        = (if u < min smid.csrNodeCount smid.coords.length
            then (csrOffsetsOf smid.csrNodeCount
                (buildDl net1)).getD (u + 1) 0
              - (csrOffsetsOf smid.csrNodeCount (buildDl net1)).getD u 0
            else 0) + (smid.adjacencyList.getD u []).length := by
      unfold rebuildDegrees
      rw [range_map_getD _ _ _ _ hu, hoff1]
    rw [hdval, hminval, hcnt1, hadjchar u]
    have hfirst : (if u < buildN net1
        then (csrOffsetsOf (buildN net1) (buildDl net1)).getD (u + 1) 0
          - (csrOffsetsOf (buildN net1) (buildDl net1)).getD u 0
        else 0)
        = (wsFor u (buildWrites dist (buildT (net1 ++ net2))
            (segsOf net1))).length := by
      by_cases hu1 : u < buildN net1
      · rw [if_pos hu1, csrOffsetsOf_sub _ _ u hu1, hws1len u]
      · rw [if_neg hu1, hws1nil u (by omega)]
        rfl
    rw [hfirst]
    have hfull : (buildDl (net1 ++ net2)).getD u 0
        = (wsFor u (buildWs dist (net1 ++ net2))).length :=
      (build_hdeg dist (net1 ++ net2) u).symm
    rw [hfull, hsegsfull, wsFor_append, List.length_append]
  have hoffeq : csrOffsetsOf smid.coords.length (rebuildDegrees smid)
      = buildOff (net1 ++ net2) := by
    rw [hco]
    exact csrOffsetsOf_congr _ _ _
      (fun i hi2 => hdegs i (by rw [hco]; exact hi2))
  have hws : ∀ u, u < smid.coords.length →
      wsFor u (rebuildWs smid) = wsFor u (buildWs dist (net1 ++ net2)) := by
    intro u hu
    rw [wsFor_rebuildWs smid
      (csrOffsetsOf smid.csrNodeCount (buildDl net1)) hoff1 u, hminval]
    have hsl1 : (if u < buildN net1
        then csrSlice (csrOffsetsOf smid.csrNodeCount (buildDl net1))
          smid.csrIndices smid.csrDistances u
        else [])
        = wsFor u (buildWrites dist (buildT (net1 ++ net2))
            (segsOf net1)) := by
      by_cases hu1 : u < buildN net1
      · rw [if_pos hu1, hcnt1, csrSlice_eq_sliceAt,
          csrOffsetsOf_sub _ _ u hu1, hbw1]
        exact (build_characterization dist net1 s).2.2 u hu1
      · rw [if_neg hu1, hws1nil u (by omega)]
    rw [hsl1, if_pos hu, hadjchar u, hsegsfull, wsFor_append]
  obtain ⟨hr1, hr2, hr3⟩ :=
    rebuild_characterization smid (buildDl net1) hoff1 hcov hi1 hd1
  obtain ⟨hb1, hb2, hb3⟩ := build_characterization dist (net1 ++ net2) s2
  have hsubfull : ∀ u, u < buildN (net1 ++ net2) →
      (buildOff (net1 ++ net2)).getD (u + 1) 0
        - (buildOff (net1 ++ net2)).getD u 0
      = (buildDl (net1 ++ net2)).getD u 0 :=
    fun u hu => csrOffsetsOf_sub _ _ u hu
  have harr := csr_arrays_ext (buildOff (net1 ++ net2))
    (buildN (net1 ++ net2)) (csrOffsetsOf_getD_zero _ _)
    (rebuildCsrFromAdjacency smid).csrIndices
    (buildRouteGraph dist (net1 ++ net2) s2).csrIndices
    (rebuildCsrFromAdjacency smid).csrDistances
    (buildRouteGraph dist (net1 ++ net2) s2).csrDistances
    (by rw [hr1, hoffeq, hco]; rfl)
    hb1
    (by rw [hr2, hoffeq, hco]; rfl)
    hb2
    (by
      intro u hu
      rw [hsubfull u hu]
      have hleft := hr3 u (by rw [hco]; exact hu)
      rw [hoffeq, hdegs u (by rw [hco]; exact hu),
        hws u (by rw [hco]; exact hu)] at hleft
      rw [hleft]
      exact (hb3 u hu).symm)
  refine routerState_ext _ _ ?_ ?_ ?_ ?_ harr.1 harr.2 ?_
  · rw [rebuild_network, build_network]
  · rw [rebuild_coords, build_coords, hco]
  · rw [rebuild_adj, build_adj, hco]
    rfl
  · rw [rebuild_off, build_off, hoffeq]
  · rw [rebuild_count, build_count, hco]
    rfl

/-- C6: for all networks `net1`, `net2`, building `net1` and then expanding
by `net2` succeeds and produces the very state a single build of
`net1 ++ net2` produces, so every `getRoute` query returns identical
results (in particular the same shortest-path cost; here even the same
coordinate sequence). -/
theorem claim_C6_expand_consistency (dist : Coord → Coord → ℚ)
    (net1 net2 : List (List Coord)) (s s2 : RouterState) :
    expandRouteGraph dist net2 (buildRouteGraph dist net1 s)
      = Except.ok (buildRouteGraph dist (net1 ++ net2) s2) ∧
    ∀ s3, expandRouteGraph dist net2 (buildRouteGraph dist net1 s)
        = Except.ok s3 →
      ∀ a b, getRoute dist a b s3
        = getRoute dist a b (buildRouteGraph dist (net1 ++ net2) s2) := by
  have hmain : expandRouteGraph dist net2 (buildRouteGraph dist net1 s)
      = Except.ok (buildRouteGraph dist (net1 ++ net2) s2) := by
    unfold expandRouteGraph
    rw [build_network]
    exact congrArg Except.ok (expand_build_state dist net1 net2 s s2)
  refine ⟨hmain, ?_⟩
  intro s3 h3 a b
  rw [hmain] at h3
  have heq : s3 = buildRouteGraph dist (net1 ++ net2) s2 :=
    (Except.ok.inj h3).symm
  rw [heq]

/-- Witness for C6 at concrete inputs: one-segment networks. -/
theorem claim_C6_expand_consistency_witness :
    (expandRouteGraph (fun _ _ => 0) [[((1 : ℚ), (0 : ℚ)), (2, 0)]]
        (buildRouteGraph (fun _ _ => 0) [[((0 : ℚ), (0 : ℚ)), (1, 0)]]
          RouterState.initial)
      = Except.ok (buildRouteGraph (fun _ _ => 0)
          ([[((0 : ℚ), (0 : ℚ)), (1, 0)]] ++ [[((1 : ℚ), (0 : ℚ)), (2, 0)]])
          RouterState.initial)) ∧
    getRoute (fun _ _ => 0) (0, 0) (2, 0)
        (buildRouteGraph (fun _ _ => 0)
          ([[((0 : ℚ), (0 : ℚ)), (1, 0)]] ++ [[((1 : ℚ), (0 : ℚ)), (2, 0)]])
          RouterState.initial)
      = getRoute (fun _ _ => 0) (0, 0) (2, 0)
          (buildRouteGraph (fun _ _ => 0)
            ([[((0 : ℚ), (0 : ℚ)), (1, 0)]]
              ++ [[((1 : ℚ), (0 : ℚ)), (2, 0)]])
            RouterState.initial) :=
  ⟨(claim_C6_expand_consistency (fun _ _ => 0)
      [[((0 : ℚ), (0 : ℚ)), (1, 0)]] [[((1 : ℚ), (0 : ℚ)), (2, 0)]]
      RouterState.initial RouterState.initial).1,
    (claim_C6_expand_consistency (fun _ _ => 0)
      [[((0 : ℚ), (0 : ℚ)), (1, 0)]] [[((1 : ℚ), (0 : ℚ)), (2, 0)]]
      RouterState.initial RouterState.initial).2 _
      (claim_C6_expand_consistency (fun _ _ => 0)
        [[((0 : ℚ), (0 : ℚ)), (1, 0)]] [[((1 : ℚ), (0 : ℚ)), (2, 0)]]
        RouterState.initial RouterState.initial).1 (0, 0) (2, 0)⟩

/-! ## Search keying -/

theorem csrEntries_fst_lt (s : RouterState) (u v : ℕ) (w : ℚ)
    (h : (u, v, w) ∈ csrEntries s) : u < s.csrNodeCount := by
  unfold csrEntries at h
  cases hc : s.csrOffsets with
  | none => rw [hc] at h; simp at h
  | some off =>
    rw [hc] at h
    exact blockWrites_fst_lt _ _ _ h

theorem targets_lt (s : RouterState) (hsym : CsrSymmetric s) (u v : ℕ)
    (w : ℚ) (h : (u, v, w) ∈ csrEntries s) : v < s.csrNodeCount :=
  csrEntries_fst_lt s v u w (hsym u v w h)

/-- On a well-formed symmetric state, every neighbour index is a valid
node. -/
theorem neighborsOf_lt (s : RouterState) (hwf : RouterWF s)
    (hsym : CsrSymmetric s) :
    ∀ cur p, p ∈ neighborsOf s cur → p.1 < s.coords.length := by
  obtain ⟨dl, hoff, hcnt, hadj, hi, hd⟩ := hwf
  intro cur p hp
  unfold neighborsOf at hp
  rw [hoff] at hp
  have hp2 : p ∈ (if cur < s.csrNodeCount
      then csrSlice (csrOffsetsOf s.csrNodeCount dl) s.csrIndices
        s.csrDistances cur
      else s.adjacencyList.getD cur []) := hp
  clear hp
  by_cases hcur : cur < s.csrNodeCount
  · rw [if_pos hcur] at hp2
    obtain ⟨v, w⟩ := p
    have hmem : (cur, v, w) ∈ csrEntries s := by
      rw [mem_csrEntries_some s _ hoff]
      exact ⟨hcur, hp2⟩
    have := targets_lt s hsym cur v w hmem
    omega
  · rw [if_neg hcur, hadj, replicate_getD_nil] at hp2
    simp at hp2

/-- Every logged insert's key is the inserting side's `g` for the node as
recorded at insertion time. -/
def LogOk (st : SearchState) : Prop := ∀ e ∈ st.insLog, e.1 = e.2.2

theorem relaxF_inv (st : SearchState) (cur nb : ℕ) (w : ℚ) (n : ℕ)
    (hF : st.gF.length = n) (hR : st.gR.length = n) (hnb : nb < n)
    (hok : LogOk st) :
    (relaxF st cur nb w).gF.length = n
      ∧ (relaxF st cur nb w).gR.length = n
      ∧ LogOk (relaxF st cur nb w) := by
  unfold relaxF
  simp only []
  split
  · refine ⟨by simpa using hF, hR, ?_⟩
    intro e he
    rcases List.mem_append.mp he with h | h
    · exact hok e h
    · rw [List.mem_singleton] at h
      subst h
      simp only []
      conv_rhs => rw [List.getD_eq_getElem?_getD]
      rw [List.getElem?_set_self (by omega), Option.getD_some]
  · exact ⟨hF, hR, hok⟩

theorem relaxR_inv (st : SearchState) (cur nb : ℕ) (w : ℚ) (n : ℕ)
    (hF : st.gF.length = n) (hR : st.gR.length = n) (hnb : nb < n)
    (hok : LogOk st) :
    (relaxR st cur nb w).gF.length = n
      ∧ (relaxR st cur nb w).gR.length = n
      ∧ LogOk (relaxR st cur nb w) := by
  unfold relaxR
  simp only []
  split
  · refine ⟨hF, by simpa using hR, ?_⟩
    intro e he
    rcases List.mem_append.mp he with h | h
    · exact hok e h
    · rw [List.mem_singleton] at h
      subst h
      simp only []
      conv_rhs => rw [List.getD_eq_getElem?_getD]
      rw [List.getElem?_set_self (by omega), Option.getD_some]
  · exact ⟨hF, hR, hok⟩

theorem foldl_relaxF_inv (ns : List (ℕ × ℚ)) (st : SearchState) (cur n : ℕ)
    (hns : ∀ p ∈ ns, p.1 < n) (hF : st.gF.length = n)
    (hR : st.gR.length = n) (hok : LogOk st) :
    (ns.foldl (fun st nb => relaxF st cur nb.1 nb.2) st).gF.length = n
      ∧ (ns.foldl (fun st nb => relaxF st cur nb.1 nb.2) st).gR.length = n
      ∧ LogOk (ns.foldl (fun st nb => relaxF st cur nb.1 nb.2) st) := by
  induction ns generalizing st with
  | nil => exact ⟨hF, hR, hok⟩
  | cons p rest ih =>
    rw [List.foldl_cons]
    obtain ⟨h1, h2, h3⟩ :=
      relaxF_inv st cur p.1 p.2 n hF hR (hns p (by simp)) hok
    exact ih _ (fun q hq => hns q (by simp [hq])) h1 h2 h3

theorem foldl_relaxR_inv (ns : List (ℕ × ℚ)) (st : SearchState) (cur n : ℕ)
    (hns : ∀ p ∈ ns, p.1 < n) (hF : st.gF.length = n)
    (hR : st.gR.length = n) (hok : LogOk st) :
    (ns.foldl (fun st nb => relaxR st cur nb.1 nb.2) st).gF.length = n
      ∧ (ns.foldl (fun st nb => relaxR st cur nb.1 nb.2) st).gR.length = n
      ∧ LogOk (ns.foldl (fun st nb => relaxR st cur nb.1 nb.2) st) := by
  induction ns generalizing st with
  | nil => exact ⟨hF, hR, hok⟩
  | cons p rest ih =>
    rw [List.foldl_cons]
    obtain ⟨h1, h2, h3⟩ :=
      relaxR_inv st cur p.1 p.2 n hF hR (hns p (by simp)) hok
    exact ih _ (fun q hq => hns q (by simp [hq])) h1 h2 h3

set_option maxHeartbeats 1600000 in
theorem searchStep_inv (s : RouterState) (st : SearchState) (n : ℕ)
    (hnb : ∀ cur p, p ∈ neighborsOf s cur → p.1 < n)
    (hF : st.gF.length = n) (hR : st.gR.length = n) (hok : LogOk st) :
    (searchStep s st).2.gF.length = n
      ∧ (searchStep s st).2.gR.length = n
      ∧ LogOk (searchStep s st).2 := by
  unfold searchStep
  simp only []
  repeat' split
  all_goals simp only []
  all_goals
    first
    | exact ⟨hF, hR, hok⟩
    | (exact foldl_relaxF_inv _ _ _ n (fun p hp => hnb _ p hp) hF hR hok)
    | (exact foldl_relaxR_inv _ _ _ n (fun p hp => hnb _ p hp) hF hR hok)

theorem searchLoop_log (s : RouterState) (n : ℕ)
    (hnb : ∀ cur p, p ∈ neighborsOf s cur → p.1 < n) :
    ∀ fuel st st', st.gF.length = n → st.gR.length = n → LogOk st →
      searchLoop s fuel st = some st' → LogOk st' := by
  intro fuel
  induction fuel with
  | zero => intro st st' _ _ _ h; exact absurd h (by simp [searchLoop])
  | succ fuel ih =>
    intro st st' hF hR hok h
    rw [searchLoop] at h
    obtain ⟨h1, h2, h3⟩ := searchStep_inv s st n hnb hF hR hok
    rcases hstep : searchStep s st with ⟨b, st2⟩
    rw [hstep] at h h1 h2 h3
    cases b with
    | true =>
      simp only [] at h
      have : st2 = st' := by
        simpa using h
      rw [← this]
      exact h3
    | false =>
      simp only [] at h
      exact ih st2 st' h1 h2 h3 h

theorem initial_LogOk (si ei n : ℕ) (hsi : si < n) (hei : ei < n) :
    LogOk (initialSearchState si ei n)
      ∧ (initialSearchState si ei n).gF.length = n
      ∧ (initialSearchState si ei n).gR.length = n := by
  refine ⟨?_, by simp [initialSearchState], by simp [initialSearchState]⟩
  intro e he
  unfold initialSearchState at he
  simp only [] at he
  rcases List.mem_cons.mp he with h | he2
  · subst h
    simp only []
    conv_rhs => rw [List.getD_eq_getElem?_getD]
    rw [List.getElem?_set_self (by simpa using hsi), Option.getD_some]
  · rcases List.mem_cons.mp he2 with h | h3
    · subst h
      simp only []
      conv_rhs => rw [List.getD_eq_getElem?_getD]
      rw [List.getElem?_set_self (by simpa using hei), Option.getD_some]
    · simp at h3

/-- On a well-formed symmetric state, every key `getRoute` inserts into
either priority queue is the inserting side's `g` value of the node as it
stands at insertion time. -/
theorem getRouteAux_keys (dist : Coord → Coord → ℚ) (a b : Coord)
    (s0 : RouterState) (hwf : RouterWF s0) (hsym : CsrSymmetric s0) :
    ∀ e ∈ (getRouteAux dist a b s0).2.2, e.1 = e.2.2 := by
  unfold getRouteAux
  cases hn : s0.network with
  | none => intro e he; simp at he
  | some net =>
    simp only []
    have hwf1 := getOrCreateIndex_wf a s0 hwf
    have hwf2 := getOrCreateIndex_wf b _ hwf1
    have hsym2 := intern_symm b _ hwf1 (intern_symm a s0 hwf hsym)
    have hsi : (getOrCreateIndex a s0).1
        < (getOrCreateIndex b (getOrCreateIndex a s0).2).2.coords.length := by
      have h1 := (getOrCreateIndex_coord a s0).2
      obtain ⟨t, ht⟩ := getOrCreateIndex_appends b (getOrCreateIndex a s0).2
      rw [ht, List.length_append]
      omega
    have hei : (getOrCreateIndex b (getOrCreateIndex a s0).2).1
        < (getOrCreateIndex b (getOrCreateIndex a s0).2).2.coords.length :=
      (getOrCreateIndex_coord b _).2
    obtain ⟨hok0, hF0, hR0⟩ := initial_LogOk (getOrCreateIndex a s0).1
      (getOrCreateIndex b (getOrCreateIndex a s0).2).1
      (getOrCreateIndex b (getOrCreateIndex a s0).2).2.coords.length
      hsi hei
    split
    · intro e he; simp at he
    · split
      · intro e he; simp at he
      · rename_i st hloop
        intro e he
        simp only [] at he
        exact searchLoop_log
          (getOrCreateIndex b (getOrCreateIndex a s0).2).2
          (getOrCreateIndex b (getOrCreateIndex a s0).2).2.coords.length
          (neighborsOf_lt _ hwf2 hsym2) _ _ st hF0 hR0 hok0 hloop e he

/-- The part of C3 that holds of the bidirectional router: every key
inserted into a priority queue during `getRoute` equals the node's tentative
`g` value (cost from that side's origin) at insertion time — the distance
function enters only as the edge weight, never as an added heuristic. -/
theorem getRoute_keys_are_g (dist : Coord → Coord → ℚ) (a b : Coord)
    (ops : List RouterOp) :
    ∀ e ∈ (getRouteAux dist a b (runOps dist ops)).2.2, e.1 = e.2.2 := by
  have h := foldl_inv_symm dist ops RouterState.initial
    (Or.inl ⟨rfl, rfl⟩)
  rcases h with ⟨h1, -⟩ | ⟨hwf, hsym⟩
  · intro e he
    unfold getRouteAux runOps at he
    rw [h1] at he
    simp at he
  · exact getRouteAux_keys dist a b _ hwf hsym

/-! ## The A* variant (`src/src/terra-route.ts`)

Same state layout, but `getRoute` is a unidirectional A* whose priority is
`g + h`, with `h` a lazily cached call of the distance function towards the
end coordinate. -/

/-- Per-query state of the A* `getRoute`. -/
structure AStarState where
  gScore : List QInf
  cameFrom : List ℤ
  visited : List Bool
  hCache : List ℚ
  openSet : FourAryHeap QInf
  insLog : List (QInf × ℕ × QInf)

/-- The lazy heuristic cache read (`hCache` holds `-1` for unknown). -/
def hLookup (dist : Coord → Coord → ℚ) (coords : List Coord)
    (endCoord : Coord) (hC : List ℚ) (nb : ℕ) : ℚ × List ℚ :=
  let hVal := hC.getD nb (-1)
  if hVal < 0 then
    let h := dist (coords.getD nb (0, 0)) endCoord
    (h, hC.set nb h)
  else (hVal, hC)

/-- Relax one A* edge: on improvement set `g` and predecessor, then insert
with priority `tentativeG + hVal`.  `insLog` records key, node and the
node's `g` as it stands right after the relaxation. -/
def astarRelax (dist : Coord → Coord → ℚ) (coords : List Coord)
    (endCoord : Coord) (cur : ℕ) (st : AStarState) (nb : ℕ × ℚ) :
    AStarState :=
  let tentativeG := st.gScore.getD cur ⊤ + (nb.2 : QInf)
  if tentativeG < st.gScore.getD nb.1 ⊤ then
    let g' := st.gScore.set nb.1 tentativeG
    let hr := hLookup dist coords endCoord st.hCache nb.1
    { st with
      gScore := g'
      cameFrom := st.cameFrom.set nb.1 (cur : ℤ)
      hCache := hr.2
      openSet := st.openSet.insert (tentativeG + (hr.1 : QInf)) nb.1
      insLog := st.insLog
        ++ [(tentativeG + (hr.1 : QInf), nb.1, g'.getD nb.1 ⊤)] }
  else st

/-- One iteration of the A* loop: pop, stale skip, goal check, settle,
neighbour relaxation (CSR slice or sparse adjacency). -/
def astarStep (dist : Coord → Coord → ℚ) (s : RouterState)
    (endCoord : Coord) (ei : ℕ) (st : AStarState) : Bool × AStarState :=
  if st.openSet.size = 0 then (true, st)
  else match st.openSet.extractMin with
    | (none, _) => (true, st)
    | (some current, open') =>
      let st := { st with openSet := open' }
      if st.visited.getD current false then (false, st)
      else if current = ei then (true, st)
      else
        let st := { st with visited := st.visited.set current true }
        (false, (neighborsOf s current).foldl
          (astarRelax dist s.coords endCoord current) st)

def astarLoop (dist : Coord → Coord → ℚ) (s : RouterState)
    (endCoord : Coord) (ei : ℕ) : ℕ → AStarState → Option AStarState
  | 0, _ => none
  | fuel + 1, st =>
    match astarStep dist s endCoord ei st with
    | (true, st') => some st'
    | (false, st') => astarLoop dist s endCoord ei fuel st'

/-- `getRoute` of the A* variant, with its ghost insertion log. -/
def getRouteAstar (dist : Coord → Coord → ℚ) (a b : Coord)
    (s0 : RouterState) : RouteResult × RouterState × List (QInf × ℕ × QInf) :=
  match s0.network with
  | none => (.notBuilt, s0, [])
  | some _ =>
    let r1 := getOrCreateIndex a s0
    let si := r1.1
    let r2 := getOrCreateIndex b r1.2
    let ei := r2.1
    let s := r2.2
    if si = ei then (.noRoute, s, [])
    else
      let n := s.coords.length
      let endCoord := s.coords.getD ei (0, 0)
      let hr := hLookup dist s.coords endCoord
        (List.replicate n (-1 : ℚ)) si
      let g0 := (List.replicate n (⊤ : QInf)).set si 0
      let st0 : AStarState :=
        { gScore := g0
          cameFrom := List.replicate n (-1 : ℤ)
          visited := List.replicate n false
          hCache := hr.2
          openSet := (FourAryHeap.empty).insert ((hr.1 : ℚ) : QInf) si
          insLog := [(((hr.1 : ℚ) : QInf), si, g0.getD si ⊤)] }
      match astarLoop dist s endCoord ei (searchFuel s) st0 with
      | none => (.diverges, s, [])
      | some st =>
        if st.cameFrom.getD ei (-1) < 0 then (.noRoute, s, st.insLog)
        else
          match walkPrevLoop st.cameFrom s.coords si (n + 1) (ei : ℤ) [] with
          | none => (.diverges, s, st.insLog)
          | some (fc, acc) =>
            if fc ≠ (si : ℤ) then (.diverges, s, st.insLog)
            else (.route ((acc ++ [s.coords.getD si (0, 0)]).reverse), s,
              st.insLog)

/-! ## Array-heap correctness -/

theorem entLt_irrefl (a : HeapEntry α) : ¬ entLt a a := by
  unfold entLt
  simp

theorem not_entLt_iff (a b : HeapEntry α) :
    ¬ entLt a b ↔ b.key < a.key ∨ (a.key = b.key ∧ b.idx ≤ a.idx) := by
  unfold entLt
  constructor
  · intro h
    push_neg at h
    rcases lt_or_eq_of_le h.1 with h1 | h1
    · exact Or.inl h1
    · exact Or.inr ⟨h1.symm, h.2 h1.symm⟩
  · rintro (h | ⟨he, hi⟩)
    · rintro (h2 | ⟨he2, hi2⟩)
      · exact absurd (lt_trans h h2) (lt_irrefl _)
      · rw [he2] at h
        exact absurd h (lt_irrefl _)
    · rintro (h2 | ⟨he2, hi2⟩)
      · rw [he] at h2
        exact absurd h2 (lt_irrefl _)
      · omega

theorem entLt_trans (a b c : HeapEntry α) (h1 : entLt a b) (h2 : entLt b c) :
    entLt a c := by
  unfold entLt at *
  rcases h1 with h1 | ⟨he1, hi1⟩
  · rcases h2 with h2 | ⟨he2, hi2⟩
    · exact Or.inl (lt_trans h1 h2)
    · exact Or.inl (he2 ▸ h1)
  · rcases h2 with h2 | ⟨he2, hi2⟩
    · exact Or.inl (he1 ▸ h2)
    · exact Or.inr ⟨he1.trans he2, by omega⟩

theorem entLt_asymm (a b : HeapEntry α) (h : entLt a b) : ¬ entLt b a := by
  rw [not_entLt_iff]
  unfold entLt at h
  rcases h with h | ⟨he, hi⟩
  · exact Or.inl h
  · exact Or.inr ⟨he.symm, by omega⟩

/-- `a ≤ b → b ≤ c → a ≤ c` phrased through the negations the code uses. -/
theorem not_entLt_trans (a b c : HeapEntry α) (h1 : ¬ entLt b a)
    (h2 : ¬ entLt c b) : ¬ entLt c a := by
  rw [not_entLt_iff] at *
  rcases h1 with h1 | ⟨he1, hi1⟩
  · rcases h2 with h2 | ⟨he2, hi2⟩
    · exact Or.inl (lt_trans h1 h2)
    · exact Or.inl (lt_of_lt_of_eq h1 he2.symm)
  · rcases h2 with h2 | ⟨he2, hi2⟩
    · exact Or.inl (he1 ▸ h2)
    · exact Or.inr ⟨he2.trans he1, by omega⟩

/-- Replacing one element, seen at the multiset level. -/
theorem coe_set_add {β : Type} (l : List β) (i : ℕ) (a b : β)
    (h : l[i]? = some b) :
    ((l.set i a : List β) : Multiset β) + {b}
      = (l : Multiset β) + {a} := by
  obtain ⟨hi, hb⟩ := List.getElem?_eq_some_iff.mp h
  rw [List.set_eq_take_append_cons_drop, if_pos hi]
  conv_rhs =>
    rw [show l = l.take i ++ l.drop i from (List.take_append_drop i l).symm]
  rw [show l.drop i = b :: l.drop (i + 1) from by
    rw [← List.getElem_cons_drop l i hi, hb]]
  rw [← Multiset.coe_add, ← Multiset.coe_add, ← Multiset.cons_coe,
    ← Multiset.cons_coe, ← Multiset.singleton_add, ← Multiset.singleton_add]
  abel

/-- The `d`-ary heap-order invariant of the live array. -/
def IsAryHeap (d : ℕ) (l : List (HeapEntry α)) : Prop :=
  ∀ j je pe, 1 ≤ j → l[j]? = some je → l[(j - 1) / d]? = some pe →
    ¬ entLt je pe

theorem isAryHeap_nil (d : ℕ) : IsAryHeap d ([] : List (HeapEntry α)) := by
  intro j je pe hj hje hpe
  simp at hje

theorem isAryHeap_singleton (d : ℕ) (e : HeapEntry α) :
    IsAryHeap d [e] := by
  intro j je pe hj hje hpe
  rw [List.getElem?_eq_some_iff] at hje
  obtain ⟨hlt, -⟩ := hje
  simp at hlt
  omega

/-- In a `d`-ary heap the root is `entLt`-minimal. -/
theorem aryHeap_root_min (d : ℕ) (hd : 1 ≤ d) (l : List (HeapEntry α))
    (hinv : IsAryHeap d l) (e0 : HeapEntry α) (h0 : l[0]? = some e0) :
    ∀ (j : ℕ) (e : HeapEntry α), l[j]? = some e → ¬ entLt e e0 := by
  intro j
  induction j using Nat.strong_induction_on with
  | _ j ih =>
    intro e he
    rcases Nat.eq_zero_or_pos j with hj | hj
    · subst hj
      rw [h0] at he
      rw [Option.some.inj he]
      exact entLt_irrefl _
    · have hjlen := (List.getElem?_eq_some_iff.mp he).1
      have hplt : (j - 1) / d < j := by
        have h1 : (j - 1) / d ≤ j - 1 := Nat.div_le_self _ _
        omega
      have hplen : (j - 1) / d < l.length := by omega
      have hpe : l[(j - 1) / d]? = some (l.get ⟨(j - 1) / d, hplen⟩) := by
        simp [List.getElem?_eq_getElem hplen]
      have h1 := hinv j e _ hj he hpe
      have h2 := ih ((j - 1) / d) hplt _ hpe
      exact not_entLt_trans e0 _ e h2 h1

/-- Specification of the bubble-up loop: from an almost-heap with a hole at
`i` (heap order everywhere except at edges incident to the hole, children of
the hole at least `e` and at least the hole's parent), the loop produces a
heap whose content is the array with `e` written at the hole. -/
theorem aryInsertLoop_spec (d : ℕ) (hd : 1 ≤ d) (e : HeapEntry α) :
    ∀ (fuel : ℕ) (l : List (HeapEntry α)) (i : ℕ),
    i ≤ fuel → i < l.length →
    (∀ j je pe2, 1 ≤ j → j ≠ i → (j - 1) / d ≠ i → l[j]? = some je →
      l[(j - 1) / d]? = some pe2 → ¬ entLt je pe2) →
    (∀ c ce, 1 ≤ c → (c - 1) / d = i → l[c]? = some ce → ¬ entLt ce e) →
    (∀ pe2, 1 ≤ i → l[(i - 1) / d]? = some pe2 →
      ∀ c ce, 1 ≤ c → (c - 1) / d = i → l[c]? = some ce →
        ¬ entLt ce pe2) →
    IsAryHeap d (aryInsertLoop d e fuel l i)
      ∧ ((aryInsertLoop d e fuel l i : List (HeapEntry α))
          : Multiset (HeapEntry α))
          = ((l.set i e : List (HeapEntry α)) : Multiset (HeapEntry α))
      ∧ (aryInsertLoop d e fuel l i).length = l.length := by
  intro fuel
  induction fuel with
  | zero =>
    intro l i hif hlen hA hB hC
    have hi0 : i = 0 := by omega
    subst hi0
    rw [aryInsertLoop]
    rw [if_pos rfl]
    refine ⟨?_, rfl, by simp⟩
    intro j je pe2 hj hje hpe2
    rw [List.getElem?_set_ne (by omega)] at hje
    by_cases hpj : (j - 1) / d = 0
    · rw [hpj, List.getElem?_set_self hlen] at hpe2
      have hpe2e : pe2 = e := (Option.some.inj hpe2).symm
      subst hpe2e
      exact hB j je hj hpj hje
    · rw [List.getElem?_set_ne (by omega)] at hpe2
      exact hA j je pe2 hj (by omega) hpj hje hpe2
  | succ fuel ih =>
    intro l i hif hlen hA hB hC
    rw [aryInsertLoop]
    by_cases hi0 : i = 0
    · subst hi0
      rw [if_pos rfl]
      refine ⟨?_, rfl, by simp⟩
      intro j je pe2 hj hje hpe2
      rw [List.getElem?_set_ne (by omega)] at hje
      by_cases hpj : (j - 1) / d = 0
      · rw [hpj, List.getElem?_set_self hlen] at hpe2
        have hpe2e : pe2 = e := (Option.some.inj hpe2).symm
        subst hpe2e
        exact hB j je hj hpj hje
      · rw [List.getElem?_set_ne (by omega)] at hpe2
        exact hA j je pe2 hj (by omega) hpj hje hpe2
    · rw [if_neg hi0]
      have hplt : (i - 1) / d < i := by
        have := Nat.div_le_self (i - 1) d
        omega
      have hplen : (i - 1) / d < l.length := by omega
      cases hp : l[(i - 1) / d]? with
      | none =>
        have := List.getElem?_eq_none_iff.mp hp
        omega
      | some pe =>
        simp only []
        by_cases hstop : entLt pe e
        · rw [if_pos hstop]
          refine ⟨?_, rfl, by simp⟩
          intro j je pe2 hj hje hpe2
          by_cases hji : j = i
          · subst hji
            rw [List.getElem?_set_self hlen] at hje
            rw [List.getElem?_set_ne (by omega), hp] at hpe2
            rw [← Option.some.inj hje, ← Option.some.inj hpe2]
            exact entLt_asymm pe e hstop
          · rw [List.getElem?_set_ne (by omega)] at hje
            by_cases hpj : (j - 1) / d = i
            · rw [hpj, List.getElem?_set_self hlen] at hpe2
              have hpe2e : pe2 = e := (Option.some.inj hpe2).symm
              subst hpe2e
              exact hB j je hj hpj hje
            · rw [List.getElem?_set_ne (by omega)] at hpe2
              exact hA j je pe2 hj hji hpj hje hpe2
        · rw [if_neg hstop]
          have hqlt : ((i - 1) / d - 1) / d < (i - 1) / d ∨ (i - 1) / d = 0 := by
            rcases Nat.eq_zero_or_pos ((i - 1) / d) with h | h
            · exact Or.inr h
            · left
              have := Nat.div_le_self ((i - 1) / d - 1) d
              omega
          have hA2 : ∀ j je pe2, 1 ≤ j → j ≠ (i - 1) / d →
              (j - 1) / d ≠ (i - 1) / d →
              (l.set i pe)[j]? = some je →
              (l.set i pe)[(j - 1) / d]? = some pe2 → ¬ entLt je pe2 := by
            intro j je pe2 hj hjp hpjp hje hpe2
            by_cases hji : j = i
            · subst hji
              exact absurd rfl hpjp
            · rw [List.getElem?_set_ne (by omega)] at hje
              by_cases hpj : (j - 1) / d = i
              · rw [hpj, List.getElem?_set_self hlen] at hpe2
                have hpe2e : pe2 = pe := (Option.some.inj hpe2).symm
                rw [hpe2e]
                exact hC pe (by omega) hp j je hj hpj hje
              · rw [List.getElem?_set_ne (by omega)] at hpe2
                exact hA j je pe2 hj hji hpj hje hpe2
          have hB2 : ∀ c ce, 1 ≤ c → (c - 1) / d = (i - 1) / d →
              (l.set i pe)[c]? = some ce → ¬ entLt ce e := by
            intro c ce hc hcp hce
            by_cases hci : c = i
            · subst hci
              rw [List.getElem?_set_self hlen] at hce
              have hcee : ce = pe := (Option.some.inj hce).symm
              rw [hcee]
              exact hstop
            · rw [List.getElem?_set_ne (by omega)] at hce
              have hedge : ¬ entLt ce pe :=
                hA c ce pe hc hci (by omega) hce (hcp ▸ hp)
              exact not_entLt_trans e pe ce hstop hedge
          have hC2 : ∀ pe2, 1 ≤ (i - 1) / d →
              (l.set i pe)[((i - 1) / d - 1) / d]? = some pe2 →
              ∀ c ce, 1 ≤ c → (c - 1) / d = (i - 1) / d →
              (l.set i pe)[c]? = some ce → ¬ entLt ce pe2 := by
            intro pe2 hp1 hpe2 c ce hc hcp hce
            have hqi : ((i - 1) / d - 1) / d ≠ i := by
              rcases hqlt with h | h
              · omega
              · omega
            rw [List.getElem?_set_ne (by omega)] at hpe2
            have hedgepq : ¬ entLt pe pe2 :=
              hA ((i - 1) / d) pe pe2 hp1 (by omega) (by
                rcases hqlt with h | h <;> omega) hp hpe2
            by_cases hci : c = i
            · subst hci
              rw [List.getElem?_set_self hlen] at hce
              have hcee : ce = pe := (Option.some.inj hce).symm
              rw [hcee]
              exact hedgepq
            · rw [List.getElem?_set_ne (by omega)] at hce
              have hedge : ¬ entLt ce pe :=
                hA c ce pe hc hci (by omega) hce (hcp ▸ hp)
              exact not_entLt_trans pe2 pe ce hedgepq hedge
          obtain ⟨hH, hM, hL⟩ := ih (l.set i pe) ((i - 1) / d)
            (by omega) (by simpa using hplen) hA2 hB2 hC2
          refine ⟨hH, ?_, by simpa using hL⟩
          rw [hM]
          obtain ⟨ie, hie⟩ : ∃ ie, l[i]? = some ie := by
            rw [List.getElem?_eq_getElem hlen]
            exact ⟨_, rfl⟩
          have h1 := coe_set_add (l.set i pe) ((i - 1) / d) e pe
            (by rw [List.getElem?_set_ne (by omega)]; exact hp)
          have h2 := coe_set_add l i pe ie hie
          have h3 := coe_set_add l i e ie hie
          have hcomb : ((((l.set i pe).set ((i - 1) / d) e
                : List (HeapEntry α)) : Multiset (HeapEntry α)))
              + ({pe} + {ie})
              = (((l.set i e : List (HeapEntry α))
                : Multiset (HeapEntry α))) + ({pe} + {ie}) := by
            calc (((l.set i pe).set ((i - 1) / d) e : List (HeapEntry α))
                  : Multiset (HeapEntry α)) + ({pe} + {ie})
                = ((((l.set i pe).set ((i - 1) / d) e : List (HeapEntry α))
                    : Multiset (HeapEntry α)) + {pe}) + {ie} := by
                  rw [add_assoc]
              _ = (((l.set i pe : List (HeapEntry α))
                    : Multiset (HeapEntry α)) + {e}) + {ie} := by rw [h1]
              _ = (((l.set i pe : List (HeapEntry α))
                    : Multiset (HeapEntry α)) + {ie}) + {e} := by
                  rw [add_assoc, add_assoc, add_comm ({e} : Multiset _)]
              _ = (((l : List (HeapEntry α))
                    : Multiset (HeapEntry α)) + {pe}) + {e} := by rw [h2]
              _ = (((l : List (HeapEntry α))
                    : Multiset (HeapEntry α)) + {e}) + {pe} := by
                  rw [add_assoc, add_assoc, add_comm ({pe} : Multiset _)]
              _ = ((((l.set i e : List (HeapEntry α))
                    : Multiset (HeapEntry α)) + {ie})) + {pe} := by rw [h3]
              _ = (((l.set i e : List (HeapEntry α))
                    : Multiset (HeapEntry α))) + ({pe} + {ie}) := by
                  rw [add_assoc, add_comm ({ie} : Multiset _)]
          exact add_right_cancel hcomb

/-- `insert` (modelled as `aryInsertGo` on the array with the new entry
appended) preserves the heap invariant, adds exactly the new entry to the
content, and grows the length by one. -/
theorem aryInsertGo_spec (d : ℕ) (hd : 1 ≤ d) (e : HeapEntry α)
    (l : List (HeapEntry α)) (hheap : IsAryHeap d l) :
    IsAryHeap d (aryInsertGo d e (l ++ [e]) l.length)
      ∧ ((aryInsertGo d e (l ++ [e]) l.length : List (HeapEntry α))
          : Multiset (HeapEntry α))
          = ((l : List (HeapEntry α)) : Multiset (HeapEntry α)) + {e}
      ∧ (aryInsertGo d e (l ++ [e]) l.length).length = l.length + 1 := by
  unfold aryInsertGo
  have hlen : l.length < (l ++ [e]).length := by simp
  have hmemE : (l ++ [e])[l.length]? = some e := by
    rw [List.getElem?_append_right (le_refl _)]
    simp
  have hA : ∀ j je pe2, 1 ≤ j → j ≠ l.length → (j - 1) / d ≠ l.length →
      (l ++ [e])[j]? = some je → (l ++ [e])[(j - 1) / d]? = some pe2 →
      ¬ entLt je pe2 := by
    intro j je pe2 hj hji hpji hje hpe2
    have hjin := (List.getElem?_eq_some_iff.mp hje).1
    simp only [List.length_append, List.length_singleton] at hjin
    have hjlt : j < l.length := by omega
    have hplt : (j - 1) / d < l.length := by
      have := Nat.div_le_self (j - 1) d
      omega
    rw [List.getElem?_append_left hjlt] at hje
    rw [List.getElem?_append_left hplt] at hpe2
    exact hheap j je pe2 hj hje hpe2
  have hchildout : ∀ c, 1 ≤ c → (c - 1) / d = l.length →
      ∀ ce, (l ++ [e])[c]? = some ce → False := by
    intro c hc hcp ce hce
    have h1 : (c - 1) / d * d ≤ c - 1 := Nat.div_mul_le_self _ _
    rw [hcp] at h1
    have h2 : l.length ≤ l.length * d :=
      Nat.le_mul_of_pos_right _ (by omega)
    have h3 := (List.getElem?_eq_some_iff.mp hce).1
    simp only [List.length_append, List.length_singleton] at h3
    omega
  have hB : ∀ c ce, 1 ≤ c → (c - 1) / d = l.length →
      (l ++ [e])[c]? = some ce → ¬ entLt ce e := by
    intro c ce hc hcp hce
    exact absurd hce (fun h => hchildout c hc hcp ce h)
  have hC : ∀ pe2, 1 ≤ l.length →
      (l ++ [e])[(l.length - 1) / d]? = some pe2 →
      ∀ c ce, 1 ≤ c → (c - 1) / d = l.length →
      (l ++ [e])[c]? = some ce → ¬ entLt ce pe2 := by
    intro pe2 hp1 hpe2 c ce hc hcp hce
    exact absurd hce (fun h => hchildout c hc hcp ce h)
  obtain ⟨hH, hM, hL⟩ := aryInsertLoop_spec d hd e l.length (l ++ [e])
    l.length (le_refl _) hlen hA hB hC
  refine ⟨hH, ?_, by simpa using hL⟩
  have hset := coe_set_add (l ++ [e]) l.length e e hmemE
  have hM2 : (((l ++ [e]).set l.length e : List (HeapEntry α))
      : Multiset (HeapEntry α))
      = ((l ++ [e] : List (HeapEntry α)) : Multiset (HeapEntry α)) :=
    add_right_cancel hset
  rw [hM, hM2, ← Multiset.coe_singleton, ← Multiset.coe_add]

/-- The fold of `childPick` returns an entry present in the array that is a
minimum (under `entLt`) among the initial best and all in-range scanned
positions. -/
theorem foldl_childPick_min (l : List (HeapEntry α)) (ns : List ℕ) :
    ∀ best : ℕ × HeapEntry α, l[best.1]? = some best.2 →
    l[(ns.foldl (childPick l) best).1]? = some (ns.foldl (childPick l) best).2
    ∧ ¬ entLt best.2 (ns.foldl (childPick l) best).2
    ∧ ∀ c ∈ ns, ∀ ce, l[c]? = some ce →
        ¬ entLt ce (ns.foldl (childPick l) best).2 := by
  induction ns with
  | nil =>
    intro best hb
    exact ⟨hb, entLt_irrefl _, by simp⟩
  | cons c cs ih =>
    intro best hb
    rw [List.foldl_cons]
    cases hc : l[c]? with
    | none =>
      have hcp : childPick l best c = best := by rw [childPick, hc]
      rw [hcp]
      obtain ⟨h1, h2, h3⟩ := ih best hb
      refine ⟨h1, h2, ?_⟩
      intro x hx ce hce
      rcases List.mem_cons.mp hx with hxc | hxcs
      · subst hxc
        rw [hc] at hce
        exact absurd hce (by simp)
      · exact h3 x hxcs ce hce
    | some ce0 =>
      by_cases hlt : entLt ce0 best.2
      · have hcp : childPick l best c = (c, ce0) := by
          rw [childPick, hc]
          exact if_pos hlt
        rw [hcp]
        obtain ⟨h1, h2, h3⟩ := ih (c, ce0) hc
        refine ⟨h1, ?_, ?_⟩
        · intro hcon
          exact h2 (entLt_trans ce0 best.2 _ hlt hcon)
        · intro x hx ce hce
          rcases List.mem_cons.mp hx with hxc | hxcs
          · subst hxc
            rw [hc] at hce
            rw [← Option.some.inj hce]
            exact h2
          · exact h3 x hxcs ce hce
      · have hcp : childPick l best c = best := by
          rw [childPick, hc]
          exact if_neg hlt
        rw [hcp]
        obtain ⟨h1, h2, h3⟩ := ih best hb
        refine ⟨h1, h2, ?_⟩
        intro x hx ce hce
        rcases List.mem_cons.mp hx with hxc | hxcs
        · subst hxc
          rw [hc] at hce
          rw [← Option.some.inj hce]
          exact not_entLt_trans _ _ _ h2 hlt
        · exact h3 x hxcs ce hce

/-- `aryPick` returns an entry present in the array that is minimal among all
in-range entries at positions `c1 .. c1 + d - 1` (the up-to-`d` children
scanned by `bubbleDown`). -/
theorem aryPick_min (d : ℕ) (l : List (HeapEntry α)) (c1 : ℕ)
    (ce1 : HeapEntry α) (hc : l[c1]? = some ce1) :
    l[(aryPick d l c1 ce1).1]? = some (aryPick d l c1 ce1).2
    ∧ ∀ c, c1 ≤ c → c < c1 + d → ∀ ce, l[c]? = some ce →
        ¬ entLt ce (aryPick d l c1 ce1).2 := by
  unfold aryPick
  obtain ⟨h1, h2, h3⟩ :=
    foldl_childPick_min l (List.range' (c1 + 1) (d - 1)) (c1, ce1) hc
  refine ⟨h1, ?_⟩
  intro c hcl hcu ce hce
  by_cases hcc : c = c1
  · subst hcc
    rw [hc] at hce
    rw [← Option.some.inj hce]
    exact h2
  · refine h3 c ?_ ce hce
    rw [List.mem_range'_1]
    omega

/-- The positions whose parent is `i` are exactly `d*i + 1 .. d*i + d`. -/
theorem child_range (d : ℕ) (hd : 1 ≤ d) (i c : ℕ) (hc : 1 ≤ c)
    (hcp : (c - 1) / d = i) : d * i + 1 ≤ c ∧ c < d * i + 1 + d := by
  have hlow : d * i ≤ c - 1 := by
    rw [Nat.mul_comm]
    exact hcp ▸ Nat.div_mul_le_self (c - 1) d
  have hup : c - 1 < (i + 1) * d := by
    rw [← Nat.div_lt_iff_lt_mul (by omega : 0 < d), hcp]
    omega
  have hmul : (i + 1) * d = d * i + d := by
    rw [Nat.succ_mul, Nat.mul_comm]
  rw [hmul] at hup
  constructor
  · calc d * i + 1 ≤ (c - 1) + 1 := Nat.succ_le_succ hlow
      _ = c := Nat.succ_pred_eq_of_pos hc
  · calc c = (c - 1) + 1 := (Nat.succ_pred_eq_of_pos hc).symm
      _ < (d * i + d) + 1 := Nat.succ_lt_succ hup
      _ ≤ d * i + 1 + d := by omega

/-- Converse of `child_range`: positions in `d*i + 1 .. d*i + d` have
parent `i`. -/
theorem child_range_conv (d : ℕ) (hd : 1 ≤ d) (i c : ℕ)
    (h1 : d * i + 1 ≤ c) (h2 : c < d * i + 1 + d) : (c - 1) / d = i := by
  have hle : i ≤ (c - 1) / d := by
    rw [Nat.le_div_iff_mul_le (by omega : 0 < d)]
    rw [Nat.mul_comm]
    omega
  have hlt : (c - 1) / d < i + 1 := by
    rw [Nat.div_lt_iff_lt_mul (by omega : 0 < d)]
    rw [Nat.succ_mul]
    have hm : i * d = d * i := Nat.mul_comm i d
    rw [hm]
    omega
  omega

theorem foldl_childPick_ub (l : List (HeapEntry α)) (ns : List ℕ)
    (best : ℕ × HeapEntry α) (ub : ℕ) (h1 : best.1 ≤ ub)
    (hns : ∀ c ∈ ns, c ≤ ub) :
    (ns.foldl (childPick l) best).1 ≤ ub := by
  induction ns generalizing best with
  | nil => exact h1
  | cons c cs ih =>
    rw [List.foldl_cons]
    have hb : (childPick l best c).1 ≤ ub := by
      rcases childPick_fst l best c with h | h
      · rw [h]; exact h1
      · rw [h.1]; exact hns c (by simp)
    exact ih _ hb (fun x hx => hns x (by simp [hx]))

theorem aryPick_ub (d : ℕ) (l : List (HeapEntry α)) (c1 : ℕ)
    (ce1 : HeapEntry α) : (aryPick d l c1 ce1).1 ≤ c1 + (d - 1) := by
  unfold aryPick
  exact foldl_childPick_ub l _ (c1, ce1) (c1 + (d - 1)) (by omega)
    (fun c hc => by
      have := List.mem_range'_1.mp hc
      omega)

/-- Specification of the sift-down loop: from an almost-heap with a hole at
`i` (heap order everywhere except at edges incident to the hole, the node in
hand and the hole's children all at least the hole's parent), the loop
produces a heap whose content is the array with `node` written at the
hole. -/
theorem aryBubbleLoop_spec (d : ℕ) (hd : 1 ≤ d) (node : HeapEntry α) :
    ∀ (fuel : ℕ) (l : List (HeapEntry α)) (i : ℕ),
    l.length ≤ fuel + i → i < l.length →
    (∀ j je pe2, 1 ≤ j → j ≠ i → (j - 1) / d ≠ i → l[j]? = some je →
      l[(j - 1) / d]? = some pe2 → ¬ entLt je pe2) →
    (∀ pe, 1 ≤ i → l[(i - 1) / d]? = some pe → ¬ entLt node pe) →
    (∀ pe, 1 ≤ i → l[(i - 1) / d]? = some pe →
      ∀ c ce, 1 ≤ c → (c - 1) / d = i → l[c]? = some ce →
        ¬ entLt ce pe) →
    IsAryHeap d (aryBubbleLoop d node fuel l i)
      ∧ ((aryBubbleLoop d node fuel l i : List (HeapEntry α))
          : Multiset (HeapEntry α))
          = ((l.set i node : List (HeapEntry α)) : Multiset (HeapEntry α))
      ∧ (aryBubbleLoop d node fuel l i).length = l.length := by
  intro fuel
  induction fuel with
  | zero =>
    intro l i hif hlen hA hB1 hB2
    exact absurd hlen (by omega)
  | succ fuel ih =>
    intro l i hif hlen hA hB1 hB2
    rw [aryBubbleLoop]
    cases hp : l[d * i + 1]? with
    | none =>
      refine ⟨?_, rfl, by simp⟩
      intro j je pe2 hj hje hpe2
      by_cases hji : j = i
      · subst hji
        rw [List.getElem?_set_self hlen] at hje
        have hpne : (j - 1) / d < j := by
          have := Nat.div_le_self (j - 1) d
          omega
        rw [List.getElem?_set_ne (by omega)] at hpe2
        rw [← Option.some.inj hje]
        exact hB1 pe2 hj hpe2
      · rw [List.getElem?_set_ne (by omega)] at hje
        by_cases hpj : (j - 1) / d = i
        · exfalso
          have hrange := child_range d hd i j hj hpj
          have hjlen := (List.getElem?_eq_some_iff.mp hje).1
          have hclen : d * i + 1 < l.length := by omega
          rw [List.getElem?_eq_getElem hclen] at hp
          exact Option.noConfusion hp
        · rw [List.getElem?_set_ne (by omega)] at hpe2
          exact hA j je pe2 hj hji hpj hje hpe2
    | some ce1 =>
      simp only []
      obtain ⟨hpick1, hpickmin⟩ := aryPick_min d l (d * i + 1) ce1 hp
      have hc1len : d * i + 1 < l.length :=
        (List.getElem?_eq_some_iff.mp hp).1
      have hpickb := aryPick_fst d l (d * i + 1) ce1 hc1len
      have hpickub := aryPick_ub d l (d * i + 1) ce1
      have hile : i ≤ d * i := Nat.le_mul_of_pos_left i (by omega)
      by_cases hswap : entLt (aryPick d l (d * i + 1) ce1).2 node
      · rw [if_pos hswap]
        set p := aryPick d l (d * i + 1) ce1 with hpdef
        have hii : i < p.1 := by omega
        have hpickp : (p.1 - 1) / d = i :=
          child_range_conv d hd i p.1 (by omega) (by omega)
        have hA2 : ∀ j je pe2, 1 ≤ j → j ≠ p.1 → (j - 1) / d ≠ p.1 →
            (l.set i p.2)[j]? = some je →
            (l.set i p.2)[(j - 1) / d]? = some pe2 → ¬ entLt je pe2 := by
          intro j je pe2 hj hjp hpjp hje hpe2
          by_cases hji : j = i
          · subst hji
            rw [List.getElem?_set_self hlen] at hje
            have hplt : (j - 1) / d < j := by
              have := Nat.div_le_self (j - 1) d
              omega
            rw [List.getElem?_set_ne (by omega)] at hpe2
            rw [← Option.some.inj hje]
            exact hB2 pe2 hj hpe2 p.1 p.2 (by omega) hpickp hpick1
          · rw [List.getElem?_set_ne (by omega)] at hje
            by_cases hpj : (j - 1) / d = i
            · rw [hpj, List.getElem?_set_self hlen] at hpe2
              rw [← Option.some.inj hpe2]
              have hrange := child_range d hd i j hj hpj
              exact hpickmin j (by omega) (by omega) je hje
            · rw [List.getElem?_set_ne (by omega)] at hpe2
              exact hA j je pe2 hj hji hpj hje hpe2
        have hB1x : ∀ pe, 1 ≤ p.1 →
            (l.set i p.2)[(p.1 - 1) / d]? = some pe →
            ¬ entLt node pe := by
          intro pe hp1 hpe
          rw [hpickp, List.getElem?_set_self hlen] at hpe
          rw [← Option.some.inj hpe]
          exact entLt_asymm p.2 node hswap
        have hB2x : ∀ pe, 1 ≤ p.1 →
            (l.set i p.2)[(p.1 - 1) / d]? = some pe →
            ∀ c ce, 1 ≤ c → (c - 1) / d = p.1 →
            (l.set i p.2)[c]? = some ce → ¬ entLt ce pe := by
          intro pe hp1 hpe c ce hc hcp hce
          rw [hpickp, List.getElem?_set_self hlen] at hpe
          have hrange := child_range d hd p.1 c hc hcp
          have hpile : p.1 ≤ d * p.1 := Nat.le_mul_of_pos_left _ (by omega)
          have hci : c ≠ i := by omega
          rw [List.getElem?_set_ne (by omega)] at hce
          rw [← Option.some.inj hpe]
          exact hA c ce p.2 hc hci (by rw [hcp]; omega) hce
            (by rw [hcp]; exact hpick1)
        obtain ⟨hH, hM, hL⟩ := ih (l.set i p.2) p.1
          (by
            rw [List.length_set]
            omega)
          (by
            rw [List.length_set]
            omega)
          hA2 hB1x hB2x
        refine ⟨hH, ?_, by simpa using hL⟩
        obtain ⟨x, hx⟩ : ∃ x, l[i]? = some x :=
          ⟨l.get ⟨i, hlen⟩, List.getElem?_eq_getElem hlen⟩
        have h1 := coe_set_add (l.set i p.2) p.1 node p.2
          (by rw [List.getElem?_set_ne (by omega)]; exact hpick1)
        have h2 := coe_set_add l i p.2 x hx
        have h3 := coe_set_add l i node x hx
        have hcomb : ((((l.set i p.2).set p.1 node
              : List (HeapEntry α)) : Multiset (HeapEntry α)))
            + ({p.2} + {x})
            = (((l.set i node : List (HeapEntry α))
              : Multiset (HeapEntry α))) + ({p.2} + {x}) := by
          calc (((l.set i p.2).set p.1 node : List (HeapEntry α))
                : Multiset (HeapEntry α)) + ({p.2} + {x})
              = ((((l.set i p.2).set p.1 node : List (HeapEntry α))
                  : Multiset (HeapEntry α)) + {p.2}) + {x} := by
                rw [add_assoc]
            _ = (((l.set i p.2 : List (HeapEntry α))
                  : Multiset (HeapEntry α)) + {node}) + {x} := by rw [h1]
            _ = (((l.set i p.2 : List (HeapEntry α))
                  : Multiset (HeapEntry α)) + {x}) + {node} := by
                rw [add_assoc, add_assoc, add_comm ({node} : Multiset _)]
            _ = (((l : List (HeapEntry α))
                  : Multiset (HeapEntry α)) + {p.2}) + {node} := by rw [h2]
            _ = (((l : List (HeapEntry α))
                  : Multiset (HeapEntry α)) + {node}) + {p.2} := by
                rw [add_assoc, add_assoc, add_comm ({p.2} : Multiset _)]
            _ = ((((l.set i node : List (HeapEntry α))
                  : Multiset (HeapEntry α)) + {x})) + {p.2} := by rw [h3]
            _ = (((l.set i node : List (HeapEntry α))
                  : Multiset (HeapEntry α))) + ({p.2} + {x}) := by
                rw [add_assoc, add_comm ({x} : Multiset _)]
        rw [hM]
        exact add_right_cancel hcomb
      · rw [if_neg hswap]
        refine ⟨?_, rfl, by simp⟩
        intro j je pe2 hj hje hpe2
        by_cases hji : j = i
        · subst hji
          rw [List.getElem?_set_self hlen] at hje
          have hpne : (j - 1) / d < j := by
            have := Nat.div_le_self (j - 1) d
            omega
          rw [List.getElem?_set_ne (by omega)] at hpe2
          rw [← Option.some.inj hje]
          exact hB1 pe2 hj hpe2
        · rw [List.getElem?_set_ne (by omega)] at hje
          by_cases hpj : (j - 1) / d = i
          · rw [hpj, List.getElem?_set_self hlen] at hpe2
            rw [← Option.some.inj hpe2]
            have hrange := child_range d hd i j hj hpj
            have hjmin := hpickmin j (by omega) (by omega) je hje
            exact not_entLt_trans node (aryPick d l (d * i + 1) ce1).2 je
              hswap hjmin
          · rw [List.getElem?_set_ne (by omega)] at hpe2
            exact hA j je pe2 hj hji hpj hje hpe2

/-- Specification of `extractMin`'s array core: on a nonempty heap it
returns the root's value, and the remaining array is again a heap holding
exactly the other entries. -/
theorem aryExtract_spec (d : ℕ) (hd : 1 ≤ d) (e0 : HeapEntry α)
    (rest : List (HeapEntry α)) (hheap : IsAryHeap d (e0 :: rest)) :
    (aryExtract d (e0 :: rest)).1 = some e0.value
    ∧ IsAryHeap d (aryExtract d (e0 :: rest)).2
    ∧ (((aryExtract d (e0 :: rest)).2 : List (HeapEntry α))
        : Multiset (HeapEntry α)) + {e0}
        = ((e0 :: rest : List (HeapEntry α)) : Multiset (HeapEntry α))
    ∧ (aryExtract d (e0 :: rest)).2.length = rest.length := by
  rw [aryExtract]
  cases hrl : rest.getLast? with
  | none =>
    have hre : rest = [] := List.getLast?_eq_none_iff.mp hrl
    subst hre
    refine ⟨rfl, isAryHeap_nil d, ?_, rfl⟩
    simp
  | some lastE =>
    simp only []
    have hrne : rest ≠ [] := by
      intro h
      subst h
      simp at hrl
    have hcne : e0 :: rest ≠ [] := by simp
    have hdl : (e0 :: rest).dropLast = e0 :: rest.dropLast := by
      cases rest with
      | nil => exact absurd rfl hrne
      | cons b t => rfl
    have hlastE : lastE = (e0 :: rest).getLast hcne := by
      have h1 := List.getLast?_eq_getLast rest hrne
      rw [hrl] at h1
      rw [Option.some.inj h1, List.getLast_cons hrne]
    have hrpos : 0 < rest.length := List.length_pos.mpr hrne
    have hdllen : (((e0 :: rest).dropLast).set 0 lastE).length
        = rest.length := by
      rw [List.length_set, hdl]
      simp
      omega
    have hA : ∀ j je pe2, 1 ≤ j → j ≠ 0 → (j - 1) / d ≠ 0 →
        (((e0 :: rest).dropLast).set 0 lastE)[j]? = some je →
        (((e0 :: rest).dropLast).set 0 lastE)[(j - 1) / d]? = some pe2 →
        ¬ entLt je pe2 := by
      intro j je pe2 hj hj0 hpj0 hje hpe2
      rw [List.getElem?_set_ne (by omega), List.getElem?_dropLast] at hje
      rw [List.getElem?_set_ne (by omega), List.getElem?_dropLast] at hpe2
      by_cases hjlt : j < (e0 :: rest).length - 1
      · rw [if_pos hjlt] at hje
        by_cases hplt : (j - 1) / d < (e0 :: rest).length - 1
        · rw [if_pos hplt] at hpe2
          exact hheap j je pe2 hj hje hpe2
        · rw [if_neg hplt] at hpe2
          exact absurd hpe2 (by simp)
      · rw [if_neg hjlt] at hje
        exact absurd hje (by simp)
    have hB1 : ∀ pe, 1 ≤ 0 →
        (((e0 :: rest).dropLast).set 0 lastE)[(0 - 1) / d]? = some pe →
        ¬ entLt lastE pe := by
      intro pe h0 _
      exact absurd h0 (by omega)
    have hB2 : ∀ pe, 1 ≤ 0 →
        (((e0 :: rest).dropLast).set 0 lastE)[(0 - 1) / d]? = some pe →
        ∀ c ce, 1 ≤ c → (c - 1) / d = 0 →
        (((e0 :: rest).dropLast).set 0 lastE)[c]? = some ce →
        ¬ entLt ce pe := by
      intro pe h0 _
      exact absurd h0 (by omega)
    obtain ⟨hH, hM, hL⟩ := aryBubbleLoop_spec d hd lastE
      ((((e0 :: rest).dropLast).set 0 lastE).length)
      (((e0 :: rest).dropLast).set 0 lastE) 0
      (by omega) (by omega) hA hB1 hB2
    rw [aryBubbleDown]
    refine ⟨by trivial, hH, ?_, by rw [hL, hdllen]⟩
    have hsetset : ((((e0 :: rest).dropLast).set 0 lastE).set 0 lastE)
        = (((e0 :: rest).dropLast).set 0 lastE) := List.set_set _ _ _ _
    rw [hM, hsetset]
    have hd0 : ((e0 :: rest).dropLast)[0]? = some e0 := by
      rw [hdl]
      simp
    have h1 := coe_set_add ((e0 :: rest).dropLast) 0 lastE e0 hd0
    rw [h1]
    have hcat : (e0 :: rest).dropLast ++ [lastE] = e0 :: rest := by
      rw [hlastE]
      exact List.dropLast_concat_getLast hcne
    calc (((e0 :: rest).dropLast : List (HeapEntry α))
          : Multiset (HeapEntry α)) + {lastE}
        = (((e0 :: rest).dropLast ++ [lastE] : List (HeapEntry α))
          : Multiset (HeapEntry α)) := by
          rw [← Multiset.coe_singleton, ← Multiset.coe_add]
      _ = ((e0 :: rest : List (HeapEntry α)) : Multiset (HeapEntry α)) := by
          rw [hcat]

/-- The first component of `aryExtract` on a nonempty array is always the
root's value. -/
theorem aryExtract_fst (d : ℕ) (e0 : HeapEntry α) (rest : List (HeapEntry α)) :
    (aryExtract d (e0 :: rest)).1 = some e0.value := by
  rw [aryExtract]
  cases rest.getLast? <;> rfl

/-- An operation on a priority queue: `insert` with a key and a value, or
`extractMin` (keeping only the resulting state). -/
inductive HeapOp (α : Type) where
  | ins (key : α) (value : ℕ)
  | ext
deriving Repr

def MinHeap.applyHeapOp (h : MinHeap α) : HeapOp α → MinHeap α
  | .ins k v => h.insert k v
  | .ext => (h.extractMin).2

def MinHeap.runHeapOps (ops : List (HeapOp α)) : MinHeap α :=
  ops.foldl MinHeap.applyHeapOp MinHeap.empty

def FourAryHeap.applyHeapOp (h : FourAryHeap α) : HeapOp α → FourAryHeap α
  | .ins k v => h.insert k v
  | .ext => (h.extractMin).2

def FourAryHeap.runHeapOps (ops : List (HeapOp α)) : FourAryHeap α :=
  ops.foldl FourAryHeap.applyHeapOp FourAryHeap.empty

theorem minHeap_applyHeapOp_inv (h : MinHeap α) (op : HeapOp α)
    (hh : IsAryHeap 2 h.heap) : IsAryHeap 2 (h.applyHeapOp op).heap := by
  cases op with
  | ins k v =>
    exact (aryInsertGo_spec 2 (by omega) ⟨k, v, h.insertCounter⟩ h.heap hh).1
  | ext =>
    cases hl : h.heap with
    | nil =>
      show IsAryHeap 2 (aryExtract 2 h.heap).2
      rw [hl]
      exact isAryHeap_nil 2
    | cons e0 rest =>
      show IsAryHeap 2 (aryExtract 2 h.heap).2
      rw [hl]
      exact (aryExtract_spec 2 (by omega) e0 rest (hl ▸ hh)).2.1

theorem fourAry_applyHeapOp_inv (h : FourAryHeap α) (op : HeapOp α)
    (hh : IsAryHeap 4 h.entries) : IsAryHeap 4 (h.applyHeapOp op).entries := by
  cases op with
  | ins k v =>
    exact (aryInsertGo_spec 4 (by omega) ⟨k, v, h.insertCounter⟩ h.entries hh).1
  | ext =>
    cases hl : h.entries with
    | nil =>
      show IsAryHeap 4 (aryExtract 4 h.entries).2
      rw [hl]
      exact isAryHeap_nil 4
    | cons e0 rest =>
      show IsAryHeap 4 (aryExtract 4 h.entries).2
      rw [hl]
      exact (aryExtract_spec 4 (by omega) e0 rest (hl ▸ hh)).2.1

theorem minHeap_runHeapOps_inv (ops : List (HeapOp α)) :
    IsAryHeap 2 (MinHeap.runHeapOps ops).heap := by
  have hgen : ∀ (h : MinHeap α), IsAryHeap 2 h.heap →
      IsAryHeap 2 (ops.foldl MinHeap.applyHeapOp h).heap := by
    induction ops with
    | nil => intro h hh; exact hh
    | cons op ops ih =>
      intro h hh
      rw [List.foldl_cons]
      exact ih _ (minHeap_applyHeapOp_inv h op hh)
  exact hgen MinHeap.empty (isAryHeap_nil 2)

theorem fourAry_runHeapOps_inv (ops : List (HeapOp α)) :
    IsAryHeap 4 (FourAryHeap.runHeapOps ops).entries := by
  have hgen : ∀ (h : FourAryHeap α), IsAryHeap 4 h.entries →
      IsAryHeap 4 (ops.foldl FourAryHeap.applyHeapOp h).entries := by
    induction ops with
    | nil => intro h hh; exact hh
    | cons op ops ih =>
      intro h hh
      rw [List.foldl_cons]
      exact ih _ (fourAry_applyHeapOp_inv h op hh)
  exact hgen FourAryHeap.empty (isAryHeap_nil 4)

/-- On any array satisfying the heap invariant, the extraction core returns
`none` exactly on the empty array, and otherwise the value of a minimal-key
entry. -/
theorem aryExtract_min_spec (d : ℕ) (hd : 1 ≤ d) (l : List (HeapEntry α))
    (hheap : IsAryHeap d l) :
    ((aryExtract d l).1 = none ↔ l = [])
    ∧ ∀ v, (aryExtract d l).1 = some v →
        ∃ e ∈ l, e.value = v ∧ ∀ e2 ∈ l, ¬ e2.key < e.key := by
  cases l with
  | nil =>
    refine ⟨⟨fun _ => rfl, fun _ => rfl⟩, ?_⟩
    intro v hv
    rw [show aryExtract d ([] : List (HeapEntry α)) = (none, []) from rfl]
      at hv
    exact absurd hv (by simp)
  | cons e0 rest =>
    have hfst := aryExtract_fst d e0 rest
    constructor
    · constructor
      · intro h
        rw [hfst] at h
        exact absurd h (by simp)
      · intro h
        exact absurd h (by simp)
    · intro v hv
      rw [hfst] at hv
      refine ⟨e0, List.mem_cons_self e0 rest, Option.some.inj hv, ?_⟩
      intro e2 he2
      obtain ⟨j, hj⟩ := List.mem_iff_getElem?.mp he2
      have hroot := aryHeap_root_min d hd (e0 :: rest) hheap e0 (by simp)
        j e2 hj
      intro hk
      exact hroot (Or.inl hk)

/-- The entries created by inserting the values `vs` with the single key `k`
into a heap whose insertion counter starts at `c`. -/
def fifoEntries (k : α) : ℕ → List ℕ → List (HeapEntry α)
  | _, [] => []
  | c, v :: vs => ⟨k, v, c⟩ :: fifoEntries k (c + 1) vs

theorem fifoEntries_mem (k : α) :
    ∀ (vs : List ℕ) (c : ℕ) (e : HeapEntry α), e ∈ fifoEntries k c vs →
      e.key = k ∧ c ≤ e.idx := by
  intro vs
  induction vs with
  | nil => intro c e he; exact absurd he (by simp [fifoEntries])
  | cons v vs ih =>
    intro c e he
    rw [fifoEntries] at he
    rcases List.mem_cons.mp he with h | h
    · subst h
      exact ⟨rfl, le_refl c⟩
    · obtain ⟨h1, h2⟩ := ih (c + 1) e h
      exact ⟨h1, by omega⟩

theorem fifoEntries_length (k : α) :
    ∀ (vs : List ℕ) (c : ℕ), (fifoEntries k c vs).length = vs.length := by
  intro vs
  induction vs with
  | nil => intro c; rfl
  | cons v vs ih =>
    intro c
    rw [fifoEntries, List.length_cons, List.length_cons, ih]

theorem fifoEntries_head (k : α) (v : ℕ) (vs : List ℕ) (c : ℕ)
    (e : HeapEntry α) (he : e ∈ fifoEntries k c (v :: vs))
    (hidx : e.idx = c) : e = ⟨k, v, c⟩ := by
  rw [fifoEntries] at he
  rcases List.mem_cons.mp he with h | h
  · exact h
  · have := (fifoEntries_mem k vs (c + 1) e h).2
    omega

/-- Repeated extraction: take the root's value and recurse on the rest,
stopping on the empty heap (where `extractMin` returns `null`). -/
def aryDrain (d : ℕ) : ℕ → List (HeapEntry α) → List ℕ
  | 0, _ => []
  | fuel + 1, l =>
    match l with
    | [] => []
    | e0 :: rest => e0.value :: aryDrain d fuel (aryExtract d (e0 :: rest)).2

/-- Draining a heap that holds exactly the entries of an equal-key insertion
run returns the values in insertion order: with all keys equal, `entLt` is
the insertion-counter order, so the root is always the oldest entry. -/
theorem aryDrain_fifo (d : ℕ) (hd : 1 ≤ d) (k : α) :
    ∀ (vs : List ℕ) (c : ℕ) (l : List (HeapEntry α)), IsAryHeap d l →
    ((l : List (HeapEntry α)) : Multiset (HeapEntry α))
      = ((fifoEntries k c vs : List (HeapEntry α)) : Multiset (HeapEntry α)) →
    aryDrain d vs.length l = vs := by
  intro vs
  induction vs with
  | nil =>
    intro c l hheap hm
    rfl
  | cons v vs ih =>
    intro c l hheap hm
    have hlen : l.length = vs.length + 1 := by
      have := congrArg Multiset.card hm
      rw [Multiset.coe_card, Multiset.coe_card] at this
      rw [this, fifoEntries, List.length_cons, fifoEntries_length]
    cases l with
    | nil => exact absurd hlen (by simp)
    | cons e0 rest =>
      have he0mem : e0 ∈ fifoEntries k c (v :: vs) := by
        have : e0 ∈ (e0 :: rest) := List.mem_cons_self e0 rest
        rw [← Multiset.mem_coe, hm, Multiset.mem_coe] at this
        exact this
      have hheadmem : (⟨k, v, c⟩ : HeapEntry α) ∈ (e0 :: rest) := by
        have : (⟨k, v, c⟩ : HeapEntry α) ∈ fifoEntries k c (v :: vs) := by
          rw [fifoEntries]
          exact List.mem_cons_self _ _
        rw [← Multiset.mem_coe, ← hm, Multiset.mem_coe] at this
        exact this
      obtain ⟨j, hj⟩ := List.mem_iff_getElem?.mp hheadmem
      have hroot := aryHeap_root_min d hd (e0 :: rest) hheap e0 (by simp)
        j ⟨k, v, c⟩ hj
      obtain ⟨hkey, hcle⟩ := fifoEntries_mem k (v :: vs) c e0 he0mem
      have hidx : e0.idx = c := by
        rw [not_entLt_iff] at hroot
        rcases hroot with h | ⟨_, h⟩
        · rw [hkey] at h
          exact absurd h (lt_irrefl k)
        · have hcc : ({ key := k, value := v, idx := c } : HeapEntry α).idx
              = c := rfl
          omega
      have he0 : e0 = ⟨k, v, c⟩ := fifoEntries_head k v vs c e0 he0mem hidx
      obtain ⟨_, hH2, hM2, _⟩ := aryExtract_spec d hd e0 rest hheap
      have hrem : (((aryExtract d (e0 :: rest)).2 : List (HeapEntry α))
          : Multiset (HeapEntry α))
          = ((fifoEntries k (c + 1) vs : List (HeapEntry α))
            : Multiset (HeapEntry α)) := by
        have hff : ((fifoEntries k c (v :: vs) : List (HeapEntry α))
            : Multiset (HeapEntry α))
            = ((fifoEntries k (c + 1) vs : List (HeapEntry α))
              : Multiset (HeapEntry α)) + {e0} := by
          rw [fifoEntries, he0]
          rw [← Multiset.cons_coe, ← Multiset.singleton_add]
          rw [add_comm]
        rw [hm, hff] at hM2
        exact add_right_cancel hM2
      show e0.value :: aryDrain d vs.length (aryExtract d (e0 :: rest)).2
          = v :: vs
      rw [ih (c + 1) (aryExtract d (e0 :: rest)).2 hH2 hrem, he0]

/-- Insert a run of values under a single key, in order. -/
def MinHeap.insertRun (h : MinHeap α) (k : α) (vs : List ℕ) : MinHeap α :=
  vs.foldl (fun h2 v => h2.insert k v) h

def FourAryHeap.insertRun (h : FourAryHeap α) (k : α) (vs : List ℕ) :
    FourAryHeap α :=
  vs.foldl (fun h2 v => h2.insert k v) h

def PairingHeap.insertRun (h : PairingHeap α) (k : α) (vs : List ℕ) :
    PairingHeap α :=
  vs.foldl (fun h2 v => h2.insert k v) h

/-- Call `extractMin` repeatedly, collecting the returned values until it
returns `null`. -/
def MinHeap.drain : ℕ → MinHeap α → List ℕ
  | 0, _ => []
  | fuel + 1, h =>
    match h.extractMin with
    | (none, _) => []
    | (some v, h2) => v :: MinHeap.drain fuel h2

def FourAryHeap.drain : ℕ → FourAryHeap α → List ℕ
  | 0, _ => []
  | fuel + 1, h =>
    match h.extractMin with
    | (none, _) => []
    | (some v, h2) => v :: FourAryHeap.drain fuel h2

def PairingHeap.drain : ℕ → PairingHeap α → List ℕ
  | 0, _ => []
  | fuel + 1, h =>
    match h.extractMin with
    | (none, _) => []
    | (some v, h2) => v :: PairingHeap.drain fuel h2

theorem minHeap_drain_eq (fuel : ℕ) :
    ∀ h : MinHeap α, MinHeap.drain fuel h = aryDrain 2 fuel h.heap := by
  induction fuel with
  | zero => intro h; rfl
  | succ fuel ih =>
    intro h
    obtain ⟨l, c⟩ := h
    cases l with
    | nil => rfl
    | cons e0 rest =>
      have hext2 : (MinHeap.mk (e0 :: rest) c).extractMin
          = (some e0.value, ⟨(aryExtract 2 (e0 :: rest)).2, c⟩) := by
        show ((aryExtract 2 (e0 :: rest)).1,
          (⟨(aryExtract 2 (e0 :: rest)).2, c⟩ : MinHeap α)) = _
        rw [aryExtract_fst]
      rw [MinHeap.drain, hext2]
      show e0.value :: MinHeap.drain fuel ⟨(aryExtract 2 (e0 :: rest)).2, c⟩
          = aryDrain 2 (fuel + 1) (e0 :: rest)
      rw [ih ⟨(aryExtract 2 (e0 :: rest)).2, c⟩]
      rfl

theorem fourAry_drain_eq (fuel : ℕ) :
    ∀ h : FourAryHeap α,
    FourAryHeap.drain fuel h = aryDrain 4 fuel h.entries := by
  induction fuel with
  | zero => intro h; rfl
  | succ fuel ih =>
    intro h
    obtain ⟨l, c⟩ := h
    cases l with
    | nil => rfl
    | cons e0 rest =>
      have hext2 : (FourAryHeap.mk (e0 :: rest) c).extractMin
          = (some e0.value, ⟨(aryExtract 4 (e0 :: rest)).2, c⟩) := by
        show ((aryExtract 4 (e0 :: rest)).1,
          (⟨(aryExtract 4 (e0 :: rest)).2, c⟩ : FourAryHeap α)) = _
        rw [aryExtract_fst]
      rw [FourAryHeap.drain, hext2]
      show e0.value :: FourAryHeap.drain fuel
          ⟨(aryExtract 4 (e0 :: rest)).2, c⟩
          = aryDrain 4 (fuel + 1) (e0 :: rest)
      rw [ih ⟨(aryExtract 4 (e0 :: rest)).2, c⟩]
      rfl

theorem minHeap_insertRun_spec (k : α) :
    ∀ (vs : List ℕ) (h : MinHeap α), IsAryHeap 2 h.heap →
    IsAryHeap 2 (h.insertRun k vs).heap
    ∧ (((h.insertRun k vs).heap : List (HeapEntry α))
        : Multiset (HeapEntry α))
      = ((h.heap : List (HeapEntry α)) : Multiset (HeapEntry α))
        + ((fifoEntries k h.insertCounter vs : List (HeapEntry α))
          : Multiset (HeapEntry α)) := by
  intro vs
  induction vs with
  | nil =>
    intro h hh
    refine ⟨hh, ?_⟩
    show ((h.heap : List (HeapEntry α)) : Multiset (HeapEntry α)) = _
    rw [fifoEntries]
    simp
  | cons v vs ih =>
    intro h hh
    obtain ⟨h1, h2, h3⟩ :=
      aryInsertGo_spec 2 (by omega) ⟨k, v, h.insertCounter⟩ h.heap hh
    obtain ⟨ih1, ih2⟩ := ih (h.insert k v) h1
    refine ⟨ih1, ?_⟩
    rw [show (h.insertRun k (v :: vs)) = ((h.insert k v).insertRun k vs)
      from rfl]
    rw [ih2]
    rw [show (h.insert k v).insertCounter = h.insertCounter + 1 from rfl]
    have hheap2 : (((h.insert k v).heap : List (HeapEntry α))
        : Multiset (HeapEntry α))
        = ((h.heap : List (HeapEntry α)) : Multiset (HeapEntry α))
          + {(⟨k, v, h.insertCounter⟩ : HeapEntry α)} := h2
    rw [hheap2, fifoEntries, ← Multiset.cons_coe, ← Multiset.singleton_add,
      add_assoc]

theorem fourAry_insertRun_spec (k : α) :
    ∀ (vs : List ℕ) (h : FourAryHeap α), IsAryHeap 4 h.entries →
    IsAryHeap 4 (h.insertRun k vs).entries
    ∧ (((h.insertRun k vs).entries : List (HeapEntry α))
        : Multiset (HeapEntry α))
      = ((h.entries : List (HeapEntry α)) : Multiset (HeapEntry α))
        + ((fifoEntries k h.insertCounter vs : List (HeapEntry α))
          : Multiset (HeapEntry α)) := by
  intro vs
  induction vs with
  | nil =>
    intro h hh
    refine ⟨hh, ?_⟩
    show ((h.entries : List (HeapEntry α)) : Multiset (HeapEntry α)) = _
    rw [fifoEntries]
    simp
  | cons v vs ih =>
    intro h hh
    obtain ⟨h1, h2, h3⟩ :=
      aryInsertGo_spec 4 (by omega) ⟨k, v, h.insertCounter⟩ h.entries hh
    obtain ⟨ih1, ih2⟩ := ih (h.insert k v) h1
    refine ⟨ih1, ?_⟩
    rw [show (h.insertRun k (v :: vs)) = ((h.insert k v).insertRun k vs)
      from rfl]
    rw [ih2]
    rw [show (h.insert k v).insertCounter = h.insertCounter + 1 from rfl]
    have hheap2 : (((h.insert k v).entries : List (HeapEntry α))
        : Multiset (HeapEntry α))
        = ((h.entries : List (HeapEntry α)) : Multiset (HeapEntry α))
          + {(⟨k, v, h.insertCounter⟩ : HeapEntry α)} := h2
    rw [hheap2, fifoEntries, ← Multiset.cons_coe, ← Multiset.singleton_add,
      add_assoc]

/-! ### FibonacciHeap equal-key FIFO

The `FibonacciHeap` keeps no insertion counter, yet its tie rules are
first-inserted-first-extracted for equal keys: `insert` never moves the min
pointer on an equal key, and `consolidate`'s carry loop always makes the
incoming (older-rooted) tree the parent of the equal-keyed occupant.  The
proof tracks the canonical shape of the root list across extractions:
binomial-like trees `fibB` over consecutive insertion-position intervals,
rooted at the oldest position, listed smallest degree first and then in
decreasing degree order. -/

theorem fibLink_key (c p : FibNode α) : (fibLink c p).key = p.key := by
  cases p with
  | node k v d cs => cases cs <;> rfl

theorem fibLink_value (c p : FibNode α) : (fibLink c p).value = p.value := by
  cases p with
  | node k v d cs => cases cs <;> rfl

theorem fibLink_degree (c p : FibNode α) :
    (fibLink c p).degree = p.degree + 1 := by
  cases p with
  | node k v d cs => cases cs <;> rfl

theorem fibLink_children_cons (c : FibNode α) (k : α) (v d : ℕ)
    (ch : FibNode α) (rest : List (FibNode α)) :
    fibLink c (.node k v d (ch :: rest)) = .node k v (d + 1) (ch :: c :: rest) :=
  rfl

theorem fibNode_eta (t : FibNode α) :
    t = .node t.key t.value t.degree t.children := by
  cases t
  rfl

/-- The canonical equal-key tree of degree `d` carrying the values at
positions `a, …, a + 2^d - 1` of `vs` (root position `a`), exactly as built
by the tie rule `link(occupant, incoming)` of `consolidate`. -/
def fibB (k : α) (vs : List ℕ) : ℕ → ℕ → FibNode α
  | 0, a => .node k (vs.getD a 0) 0 []
  | d + 1, a => fibLink (fibB k vs d (a + 2 ^ d)) (fibB k vs d a)

theorem fibB_key (k : α) (vs : List ℕ) : ∀ (d a : ℕ), (fibB k vs d a).key = k := by
  intro d
  induction d with
  | zero => intro a; rfl
  | succ d ih =>
    intro a
    show (fibLink (fibB k vs d (a + 2 ^ d)) (fibB k vs d a)).key = k
    rw [fibLink_key]
    exact ih a

theorem fibB_value (k : α) (vs : List ℕ) :
    ∀ (d a : ℕ), (fibB k vs d a).value = vs.getD a 0 := by
  intro d
  induction d with
  | zero => intro a; rfl
  | succ d ih =>
    intro a
    show (fibLink (fibB k vs d (a + 2 ^ d)) (fibB k vs d a)).value = _
    rw [fibLink_value]
    exact ih a

theorem fibB_degree (k : α) (vs : List ℕ) :
    ∀ (d a : ℕ), (fibB k vs d a).degree = d := by
  intro d
  induction d with
  | zero => intro a; rfl
  | succ d ih =>
    intro a
    show (fibLink (fibB k vs d (a + 2 ^ d)) (fibB k vs d a)).degree = d + 1
    rw [fibLink_degree, ih a]

theorem fibB_children (k : α) (vs : List ℕ) : ∀ (d a : ℕ),
    (fibB k vs (d + 1) a).children
      = fibB k vs 0 (a + 1)
        :: ((List.range' 1 d).map (fun i => fibB k vs i (a + 2 ^ i))).reverse := by
  intro d
  induction d with
  | zero => intro a; rfl
  | succ d ih =>
    intro a
    have hrep : fibB k vs (d + 1) a
        = FibNode.node k (vs.getD a 0) (d + 1)
          (fibB k vs 0 (a + 1)
            :: ((List.range' 1 d).map
              (fun i => fibB k vs i (a + 2 ^ i))).reverse) := by
      have h0 := fibNode_eta (fibB k vs (d + 1) a)
      rw [fibB_key, fibB_value, fibB_degree, ih] at h0
      exact h0
    show (fibLink (fibB k vs (d + 1) (a + 2 ^ (d + 1)))
      (fibB k vs (d + 1) a)).children = _
    rw [hrep, fibLink_children_cons]
    have hsplit : List.range' 1 (d + 1) = List.range' 1 d ++ [1 + 1 * d] :=
      List.range'_concat 1 d
    have h1d : 1 + 1 * d = d + 1 := by omega
    rw [h1d] at hsplit
    show fibB k vs 0 (a + 1) :: fibB k vs (d + 1) (a + 2 ^ (d + 1))
        :: ((List.range' 1 d).map (fun i => fibB k vs i (a + 2 ^ i))).reverse
      = _
    rw [hsplit, List.map_append, List.reverse_append]
    rfl

theorem fibB_children_reverse (k : α) (vs : List ℕ) (d a : ℕ) :
    (fibB k vs (d + 1) a).children.reverse
      = (List.range' 1 d).map (fun i => fibB k vs i (a + 2 ^ i))
        ++ [fibB k vs 0 (a + 1)] := by
  rw [fibB_children, List.reverse_cons, List.reverse_reverse]

/-- Starts of the consecutive position intervals of a degree partition. -/
def fibStarts (a : ℕ) : List ℕ → List (ℕ × ℕ)
  | [] => []
  | d :: ds => (d, a) :: fibStarts (a + 2 ^ d) ds

/-- Number of nodes covered by a degree partition. -/
def fibTotal : List ℕ → ℕ
  | [] => 0
  | d :: ds => 2 ^ d + fibTotal ds

/-- The root list rebuilt by `consolidate` from the degree partition `ds`
over positions starting at `a`: occupant of the smallest degree first, the
remaining occupants in decreasing degree order (the splice order). -/
def canonRoots (k : α) (vs : List ℕ) (a : ℕ) (ds : List ℕ) :
    List (FibNode α) :=
  match ds with
  | [] => []
  | d :: rest =>
    fibB k vs d a
      :: ((fibStarts (a + 2 ^ d) rest).map
        (fun q => fibB k vs q.1 q.2)).reverse

/-- Occupant of slot `i` of the degree table holding the partition `ps`. -/
def slotFun (k : α) (vs : List ℕ) (ps : List (ℕ × ℕ)) (i : ℕ) :
    Option (FibNode α) :=
  (ps.lookup i).map (fun a => fibB k vs i a)

/-- A degree table given pointwise by a slot function. -/
def tableOfFun (f : ℕ → Option (FibNode α)) (ub : ℕ) :
    List (Option (FibNode α)) :=
  (List.range ub).map f

theorem lookup_cons_self2 {β : Type} (c : ℕ) (b : β) (ps : List (ℕ × β)) :
    ((c, b) :: ps).lookup c = some b := by
  rw [List.lookup_cons]
  simp

theorem lookup_cons_ne2 {β : Type} (i c : ℕ) (b : β) (ps : List (ℕ × β))
    (h : i ≠ c) : ((c, b) :: ps).lookup i = ps.lookup i := by
  rw [List.lookup_cons, show (i == c) = false from beq_eq_false_iff_ne.mpr h]

theorem lookup_none_of_keys {β : Type} (i : ℕ) :
    ∀ ps : List (ℕ × β), (∀ p ∈ ps, p.1 ≠ i) → ps.lookup i = none := by
  intro ps
  induction ps with
  | nil => intro _; rfl
  | cons p rest ih =>
    intro h
    obtain ⟨c, b⟩ := p
    rw [lookup_cons_ne2 i c b rest (Ne.symm (h (c, b) (List.mem_cons_self _ _)))]
    exact ih (fun q hq => h q (List.mem_cons_of_mem _ hq))

theorem lookup_append_some {β : Type} (i : ℕ) (v : β) :
    ∀ (ps qs : List (ℕ × β)), ps.lookup i = some v →
    (ps ++ qs).lookup i = some v := by
  intro ps
  induction ps with
  | nil => intro qs h; exact Option.noConfusion h
  | cons p rest ih =>
    intro qs h
    obtain ⟨c, b⟩ := p
    by_cases hic : i = c
    · rw [hic] at h ⊢
      rw [lookup_cons_self2] at h
      rw [List.cons_append, lookup_cons_self2]
      exact h
    · rw [lookup_cons_ne2 i c b rest hic] at h
      rw [List.cons_append, lookup_cons_ne2 i c b _ hic]
      exact ih qs h

theorem lookup_append_none {β : Type} (i : ℕ) :
    ∀ (ps qs : List (ℕ × β)), ps.lookup i = none →
    (ps ++ qs).lookup i = qs.lookup i := by
  intro ps
  induction ps with
  | nil => intro qs _; rfl
  | cons p rest ih =>
    intro qs h
    obtain ⟨c, b⟩ := p
    by_cases hic : i = c
    · rw [hic, lookup_cons_self2] at h
      exact Option.noConfusion h
    · rw [lookup_cons_ne2 i c b rest hic] at h
      rw [List.cons_append, lookup_cons_ne2 i c b _ hic]
      exact ih qs h

theorem map_pair_lookup {β : Type} (g : ℕ → β) (i : ℕ) :
    ∀ l : List ℕ,
    (l.map (fun t => (t, g t))).lookup i
      = if i ∈ l then some (g i) else none := by
  intro l
  induction l with
  | nil => rfl
  | cons t l ih =>
    by_cases hit : i = t
    · rw [hit, List.map_cons, lookup_cons_self2, if_pos (List.mem_cons_self _ _)]
    · rw [List.map_cons, lookup_cons_ne2 _ _ _ _ hit, ih]
      by_cases hmem : i ∈ l
      · rw [if_pos hmem, if_pos (List.mem_cons_of_mem _ hmem)]
      · rw [if_neg hmem, if_neg (by
          intro h
          rcases List.mem_cons.mp h with h | h
          · exact hit h
          · exact hmem h)]

theorem fibStarts_fst : ∀ (ds : List ℕ) (a : ℕ),
    (fibStarts a ds).map Prod.fst = ds := by
  intro ds
  induction ds with
  | nil => intro a; rfl
  | cons d rest ih =>
    intro a
    show d :: (fibStarts (a + 2 ^ d) rest).map Prod.fst = d :: rest
    rw [ih]

theorem fibStarts_mem_fst (ds : List ℕ) (a : ℕ) (p : ℕ × ℕ)
    (hp : p ∈ fibStarts a ds) : p.1 ∈ ds := by
  have h2 := List.mem_map_of_mem Prod.fst hp
  rw [fibStarts_fst] at h2
  exact h2

theorem fibTotal_append : ∀ (l1 l2 : List ℕ),
    fibTotal (l1 ++ l2) = fibTotal l1 + fibTotal l2 := by
  intro l1
  induction l1 with
  | nil =>
    intro l2
    show fibTotal l2 = 0 + fibTotal l2
    omega
  | cons d rest ih =>
    intro l2
    show 2 ^ d + fibTotal (rest ++ l2) = 2 ^ d + fibTotal rest + fibTotal l2
    rw [ih]
    omega

theorem fibStarts_append : ∀ (l1 : List ℕ) (a : ℕ) (l2 : List ℕ),
    fibStarts a (l1 ++ l2)
      = fibStarts a l1 ++ fibStarts (a + fibTotal l1) l2 := by
  intro l1
  induction l1 with
  | nil =>
    intro a l2
    show fibStarts a l2 = fibStarts (a + fibTotal []) l2
    rfl
  | cons d rest ih =>
    intro a l2
    show (d, a) :: fibStarts (a + 2 ^ d) (rest ++ l2)
      = (d, a) :: fibStarts (a + 2 ^ d) rest
        ++ fibStarts (a + (2 ^ d + fibTotal rest)) l2
    rw [ih, show a + (2 ^ d + fibTotal rest) = a + 2 ^ d + fibTotal rest
      from by omega]
    rfl

theorem fibTotal_range : ∀ d : ℕ, fibTotal (List.range d) = 2 ^ d - 1 := by
  intro d
  induction d with
  | zero => rfl
  | succ d ih =>
    rw [List.range_succ, fibTotal_append, ih]
    have h1 : 1 ≤ 2 ^ d := Nat.one_le_two_pow
    show 2 ^ d - 1 + (2 ^ d + 0) = 2 ^ (d + 1) - 1
    rw [pow_succ]
    omega

theorem fibTotal_mem_le : ∀ (ds : List ℕ) (d : ℕ), d ∈ ds → 2 ^ d ≤ fibTotal ds := by
  intro ds
  induction ds with
  | nil => intro d h; exact absurd h (by simp)
  | cons e rest ih =>
    intro d h
    show 2 ^ d ≤ 2 ^ e + fibTotal rest
    rcases List.mem_cons.mp h with h | h
    · rw [h]; omega
    · have h2 := ih d h
      have h3 : 1 ≤ 2 ^ e := Nat.one_le_two_pow
      omega

theorem tableOfFun_length (f : ℕ → Option (FibNode α)) (ub : ℕ) :
    (tableOfFun f ub).length = ub := by
  rw [tableOfFun, List.length_map, List.length_range]

theorem tableOfFun_getElem (f : ℕ → Option (FibNode α)) (ub i : ℕ)
    (h : i < ub) : (tableOfFun f ub)[i]? = some (f i) := by
  rw [tableOfFun, List.getElem?_map, List.getElem?_range h]
  rfl

theorem tableOfFun_set (f : ℕ → Option (FibNode α)) (ub d : ℕ)
    (v : Option (FibNode α)) (hd : d < ub) :
    (tableOfFun f ub).set d v
      = tableOfFun (fun i => if i = d then v else f i) ub := by
  apply List.ext_getElem?
  intro i
  by_cases hi : i = d
  · subst hi
    rw [List.getElem?_set_self (by rw [tableOfFun_length]; exact hd),
      tableOfFun_getElem _ _ _ hd, if_pos rfl]
  · rw [List.getElem?_set_ne (fun h => hi h.symm)]
    by_cases hlt : i < ub
    · rw [tableOfFun_getElem _ _ _ hlt, tableOfFun_getElem _ _ _ hlt,
        if_neg hi]
    · rw [List.getElem?_eq_none (by rw [tableOfFun_length]; omega),
        List.getElem?_eq_none (by rw [tableOfFun_length]; omega)]

theorem tableOfFun_congr (f g : ℕ → Option (FibNode α)) (ub : ℕ)
    (h : ∀ i, f i = g i) : tableOfFun f ub = tableOfFun g ub := by
  rw [tableOfFun, tableOfFun]
  exact List.map_congr_left (fun i _ => h i)

theorem replicate_none_tableOfFun (ub : ℕ) :
    List.replicate ub (none : Option (FibNode α))
      = tableOfFun (fun _ => none) ub := by
  have h := List.map_const (List.range ub) (none : Option (FibNode α))
  rw [List.length_range] at h
  exact h.symm

theorem addToTableLoop_free (t : List (Option (FibNode α))) (fuel d : ℕ)
    (x : FibNode α) (h : t[d]? = some none) :
    addToTableLoop fuel t d x = setPad t d (some x) := by
  rw [addToTableLoop, h]

theorem addToTableLoop_collide (t : List (Option (FibNode α))) (fuel d : ℕ)
    (x y : FibNode α) (h : t[d]? = some (some y)) (hk : ¬ y.key < x.key) :
    addToTableLoop (fuel + 1) t d x
      = addToTableLoop fuel (t.set d none) (d + 1) (fibLink y x) := by
  rw [addToTableLoop, h]
  show (if y.key < x.key
      then addToTableLoop fuel (t.set d none) (d + 1) (fibLink x y)
      else addToTableLoop fuel (t.set d none) (d + 1) (fibLink y x))
    = addToTableLoop fuel (t.set d none) (d + 1) (fibLink y x)
  rw [if_neg hk]

theorem addToTable_free (k : α) (vs : List ℕ) (ps : List (ℕ × ℕ))
    (ub d a : ℕ) (hd : d < ub) (hfree : ps.lookup d = none) :
    addToTable (tableOfFun (slotFun k vs ps) ub) d (fibB k vs d a)
      = tableOfFun (slotFun k vs ((d, a) :: ps)) ub := by
  rw [addToTable]
  rw [addToTableLoop_free _ _ _ _ (by
    rw [tableOfFun_getElem _ _ _ hd]
    rw [show slotFun k vs ps d = none from by rw [slotFun, hfree]; rfl])]
  rw [setPad, if_pos (by rw [tableOfFun_length]; exact hd),
    tableOfFun_set _ _ _ _ hd]
  apply tableOfFun_congr
  intro i
  by_cases hic : i = d
  · subst hic
    rw [if_pos rfl, slotFun, lookup_cons_self2]
    rfl
  · rw [if_neg hic, slotFun, slotFun, lookup_cons_ne2 _ _ _ _ hic]

theorem fold_place (k : α) (vs : List ℕ) (ub : ℕ) :
    ∀ (qs ps : List (ℕ × ℕ)),
    (∀ q ∈ qs, List.lookup q.1 ps = none) →
    (qs.map Prod.fst).Nodup →
    (∀ q ∈ qs, q.1 < ub) →
    (qs.map (fun q => fibB k vs q.1 q.2)).foldl
      (fun t r => addToTable t r.degree r)
      (tableOfFun (slotFun k vs ps) ub)
    = tableOfFun (slotFun k vs (qs.reverse ++ ps)) ub := by
  intro qs
  induction qs with
  | nil => intro ps _ _ _; rfl
  | cons q qs ih =>
    intro ps hfree hnd hub
    rw [List.map_cons, List.foldl_cons, fibB_degree,
      addToTable_free k vs ps ub q.1 q.2 (hub q (List.mem_cons_self _ _))
        (hfree q (List.mem_cons_self _ _))]
    have hq1 : q.1 ∉ qs.map Prod.fst := by
      rw [List.map_cons] at hnd
      exact (List.nodup_cons.mp hnd).1
    rw [ih ((q.1, q.2) :: ps)
      (fun p hp => by
        rw [lookup_cons_ne2 _ _ _ _ (by
          intro he
          exact hq1 (he ▸ List.mem_map_of_mem Prod.fst hp))]
        exact hfree p (List.mem_cons_of_mem _ hp))
      (by rw [List.map_cons] at hnd; exact (List.nodup_cons.mp hnd).2)
      (fun p hp => hub p (List.mem_cons_of_mem _ hp))]
    rw [List.reverse_cons, List.append_assoc]
    rfl

/-- Add a tree of degree `c` to a sorted degree multiset: the carry chain of
the inner `while` of `consolidate`. -/
def addBit : ℕ → List ℕ → List ℕ
  | c, [] => [c]
  | c, d :: ds => if d = c then addBit (c + 1) ds else c :: d :: ds

theorem addBit_mem_ge : ∀ (ds : List ℕ) (c : ℕ), ∃ e, e ∈ addBit c ds ∧ c ≤ e := by
  intro ds
  induction ds with
  | nil =>
    intro c
    exact ⟨c, by rw [show addBit c [] = [c] from rfl]; exact List.mem_singleton.mpr rfl,
      le_refl c⟩
  | cons d ds ih =>
    intro c
    by_cases hdc : d = c
    · obtain ⟨e, he, hce⟩ := ih (c + 1)
      refine ⟨e, ?_, by omega⟩
      rw [addBit, if_pos hdc]
      exact he
    · refine ⟨c, ?_, le_refl c⟩
      rw [addBit, if_neg hdc]
      exact List.mem_cons_self _ _

theorem addBit_sorted : ∀ (ds : List ℕ) (c : ℕ),
    List.Pairwise (· < ·) ds → (∀ d ∈ ds, c ≤ d) →
    List.Pairwise (· < ·) (addBit c ds) ∧ ∀ e ∈ addBit c ds, c ≤ e := by
  intro ds
  induction ds with
  | nil =>
    intro c _ _
    constructor
    · exact List.pairwise_singleton _ _
    · intro e he
      rw [show addBit c [] = [c] from rfl, List.mem_singleton] at he
      omega
  | cons d ds ih =>
    intro c hp hge
    by_cases hdc : d = c
    · rw [addBit, if_pos hdc]
      have hge2 : ∀ e ∈ ds, c + 1 ≤ e := by
        intro e he
        have := (List.pairwise_cons.mp hp).1 e he
        omega
      obtain ⟨h1, h2⟩ := ih (c + 1) (List.pairwise_cons.mp hp).2 hge2
      exact ⟨h1, fun e he => by have := h2 e he; omega⟩
    · rw [addBit, if_neg hdc]
      have hcd : c < d :=
        lt_of_le_of_ne (hge d (List.mem_cons_self _ _)) (fun h => hdc h.symm)
      constructor
      · apply List.pairwise_cons.mpr
        refine ⟨?_, hp⟩
        intro e he
        rcases List.mem_cons.mp he with h | h
        · omega
        · have := (List.pairwise_cons.mp hp).1 e h
          omega
      · intro e he
        rcases List.mem_cons.mp he with h | h
        · omega
        · rcases List.mem_cons.mp h with h | h
          · omega
          · have := (List.pairwise_cons.mp hp).1 e h
            omega

theorem fibTotal_addBit : ∀ (ds : List ℕ) (c : ℕ),
    fibTotal (addBit c ds) = 2 ^ c + fibTotal ds := by
  intro ds
  induction ds with
  | nil => intro c; show 2 ^ c + 0 = 2 ^ c + 0; rfl
  | cons d ds ih =>
    intro c
    by_cases hdc : d = c
    · rw [addBit, if_pos hdc, ih (c + 1), hdc]
      show 2 ^ (c + 1) + fibTotal ds = 2 ^ c + (2 ^ c + fibTotal ds)
      rw [pow_succ]
      omega
    · rw [addBit, if_neg hdc]
      rfl

/-- The partition after `m` counter increments: the binary representation of
`m` as a sorted degree list. -/
def bitsOf : ℕ → List ℕ
  | 0 => []
  | m + 1 => addBit 0 (bitsOf m)

theorem bitsOf_sorted : ∀ m : ℕ, List.Pairwise (· < ·) (bitsOf m) := by
  intro m
  induction m with
  | zero => exact List.Pairwise.nil
  | succ m ih =>
    exact (addBit_sorted (bitsOf m) 0 ih (fun d _ => Nat.zero_le d)).1

theorem fibTotal_bitsOf : ∀ m : ℕ, fibTotal (bitsOf m) = m := by
  intro m
  induction m with
  | zero => rfl
  | succ m ih =>
    show fibTotal (addBit 0 (bitsOf m)) = m + 1
    rw [fibTotal_addBit, ih]
    omega

theorem addToTableLoop_carry (k : α) (vs : List ℕ) (ub : ℕ) :
    ∀ (ds : List ℕ) (fuel c a : ℕ),
    List.Pairwise (· < ·) ds → (∀ d ∈ ds, c ≤ d) →
    (∀ d ∈ addBit c ds, d < ub) →
    ub ≤ fuel + c →
    addToTableLoop fuel
      (tableOfFun (slotFun k vs (fibStarts (a + 2 ^ c) ds)) ub) c
      (fibB k vs c a)
    = tableOfFun (slotFun k vs (fibStarts a (addBit c ds))) ub := by
  intro ds
  induction ds with
  | nil =>
    intro fuel c a _ _ hub _
    have hc : c < ub := hub c (by
      rw [show addBit c [] = [c] from rfl]
      exact List.mem_singleton.mpr rfl)
    rw [addToTableLoop_free _ _ _ _ (by
      rw [tableOfFun_getElem _ _ _ hc]
      rfl)]
    rw [setPad, if_pos (by rw [tableOfFun_length]; exact hc),
      tableOfFun_set _ _ _ _ hc]
    apply tableOfFun_congr
    intro i
    rw [show fibStarts a (addBit c []) = [(c, a)] from rfl]
    by_cases hic : i = c
    · subst hic
      rw [if_pos rfl, slotFun, lookup_cons_self2]
      rfl
    · rw [if_neg hic, slotFun, slotFun, lookup_cons_ne2 _ _ _ _ hic]
      rfl
  | cons d ds ih =>
    intro fuel c a hp hge hub hfuel
    by_cases hdc : d = c
    · subst hdc
      have habe : addBit d (d :: ds) = addBit (d + 1) ds := by
        rw [addBit, if_pos rfl]
      have hc : d < ub := by
        obtain ⟨e, he, hce⟩ := addBit_mem_ge ds (d + 1)
        have := hub e (by rw [habe]; exact he)
        omega
      cases fuel with
      | zero => omega
      | succ fuel =>
        have hocc : (tableOfFun
            (slotFun k vs (fibStarts (a + 2 ^ d) (d :: ds))) ub)[d]?
            = some (some (fibB k vs d (a + 2 ^ d))) := by
          rw [tableOfFun_getElem _ _ _ hc]
          rw [show fibStarts (a + 2 ^ d) (d :: ds)
              = (d, a + 2 ^ d) :: fibStarts (a + 2 ^ d + 2 ^ d) ds from rfl,
            slotFun, lookup_cons_self2]
          rfl
        rw [addToTableLoop_collide _ fuel d (fibB k vs d a)
          (fibB k vs d (a + 2 ^ d)) hocc (by
            rw [fibB_key, fibB_key]
            exact lt_irrefl k)]
        have hset : (tableOfFun
            (slotFun k vs (fibStarts (a + 2 ^ d) (d :: ds))) ub).set d none
            = tableOfFun (slotFun k vs
              (fibStarts (a + 2 ^ (d + 1)) ds)) ub := by
          rw [tableOfFun_set _ _ _ _ hc]
          apply tableOfFun_congr
          intro i
          by_cases hic : i = d
          · rw [hic, if_pos rfl, slotFun, lookup_none_of_keys]
            · rfl
            · intro p hp2
              have h2 := fibStarts_mem_fst ds (a + 2 ^ (d + 1)) p hp2
              have h3 := (List.pairwise_cons.mp hp).1 p.1 h2
              omega
          · rw [if_neg hic]
            rw [show fibStarts (a + 2 ^ d) (d :: ds)
                = (d, a + 2 ^ d) :: fibStarts (a + 2 ^ d + 2 ^ d) ds from rfl,
              slotFun, slotFun, lookup_cons_ne2 _ _ _ _ hic]
            rw [show a + 2 ^ d + 2 ^ d = a + 2 ^ (d + 1) from by
              rw [pow_succ]; omega]
        rw [hset]
        rw [show fibLink (fibB k vs d (a + 2 ^ d)) (fibB k vs d a)
            = fibB k vs (d + 1) a from rfl]
        rw [ih fuel (d + 1) a (List.pairwise_cons.mp hp).2
          (fun e he => by
            have := (List.pairwise_cons.mp hp).1 e he
            omega)
          (fun e he => hub e (by rw [habe]; exact he))
          (by omega)]
        rw [habe]
    · have hcd : c < d :=
        lt_of_le_of_ne (hge d (List.mem_cons_self _ _)) (fun h => hdc h.symm)
      have habe : addBit c (d :: ds) = c :: d :: ds := by
        rw [addBit, if_neg hdc]
      have hc : c < ub :=
        hub c (by rw [habe]; exact List.mem_cons_self _ _)
      rw [addToTableLoop_free _ _ _ _ (by
        rw [tableOfFun_getElem _ _ _ hc]
        rw [show slotFun k vs (fibStarts (a + 2 ^ c) (d :: ds)) c = none from by
          rw [slotFun, lookup_none_of_keys]
          · rfl
          · intro p hp2
            have h2 := fibStarts_mem_fst (d :: ds) (a + 2 ^ c) p hp2
            rcases List.mem_cons.mp h2 with h | h
            · omega
            · have := (List.pairwise_cons.mp hp).1 p.1 h
              omega])]
      rw [setPad, if_pos (by rw [tableOfFun_length]; exact hc),
        tableOfFun_set _ _ _ _ hc, habe]
      apply tableOfFun_congr
      intro i
      rw [show fibStarts a (c :: d :: ds)
          = (c, a) :: fibStarts (a + 2 ^ c) (d :: ds) from rfl]
      by_cases hic : i = c
      · subst hic
        rw [if_pos rfl, slotFun, lookup_cons_self2]
        rfl
      · rw [if_neg hic, slotFun, slotFun, lookup_cons_ne2 _ _ _ _ hic]

theorem counter_fold (k : α) (vs : List ℕ) (ub : ℕ) :
    ∀ (m j t : ℕ),
    (∀ i, i ≤ m → ∀ d ∈ bitsOf (j + i), d < ub) →
    0 < ub →
    (((List.range' t m).map (fun i => fibB k vs 0 i)).reverse).foldl
      (fun tb r => addToTable tb r.degree r)
      (tableOfFun (slotFun k vs (fibStarts (t + m) (bitsOf j))) ub)
    = tableOfFun (slotFun k vs (fibStarts t (bitsOf (j + m)))) ub := by
  intro m
  induction m with
  | zero => intro j t _ _; rfl
  | succ m ih =>
    intro j t hub hub0
    rw [List.range'_succ, List.map_cons, List.reverse_cons, List.foldl_append,
      show t + (m + 1) = t + 1 + m from by omega,
      ih j (t + 1) (fun i hi => hub i (by omega)) hub0,
      List.foldl_cons, List.foldl_nil, fibB_degree, addToTable,
      tableOfFun_length]
    have hcarry := addToTableLoop_carry k vs ub (bitsOf (j + m)) ub 0 t
      (bitsOf_sorted _) (fun d _ => Nat.zero_le d)
      (fun d hd => hub (m + 1) (le_refl _) d (by
        rw [show j + (m + 1) = j + m + 1 from by omega]
        show d ∈ addBit 0 (bitsOf (j + m))
        exact hd))
      (by omega)
    rw [show t + 2 ^ 0 = t + 1 from rfl] at hcarry
    rw [hcarry,
      show addBit 0 (bitsOf (j + m)) = bitsOf (j + m + 1) from rfl,
      show j + m + 1 = j + (m + 1) from by omega]

theorem foldl_splice_skip :
    ∀ (tab : List (Option (FibNode α))) (acc : List (FibNode α)),
    tab.foldl (fun acc o => match o with
      | none => acc
      | some nd => fibSplice acc nd) acc
    = (tab.filterMap id).foldl fibSplice acc := by
  intro tab
  induction tab with
  | nil => intro acc; rfl
  | cons o tab ih =>
    intro acc
    cases o with
    | none =>
      rw [List.foldl_cons, List.filterMap_cons_none rfl]
      exact ih acc
    | some nd =>
      rw [List.foldl_cons, List.filterMap_cons_some
        (show (id : Option (FibNode α) → Option (FibNode α)) (some nd)
          = some nd from rfl), List.foldl_cons]
      exact ih (fibSplice acc nd)

theorem foldl_fibSplice_run (k : α) :
    ∀ (os accR : List (FibNode α)) (o1 : FibNode α),
    (∀ o ∈ os, o.key = o1.key) →
    os.foldl fibSplice (o1 :: accR) = o1 :: (os.reverse ++ accR) := by
  intro os
  induction os with
  | nil => intro accR o1 _; rfl
  | cons o os ih =>
    intro accR o1 hk
    rw [List.foldl_cons]
    rw [show fibSplice (o1 :: accR) o = o1 :: o :: accR from by
      show (if o.key < o1.key then o :: (accR ++ [o1]) else o1 :: o :: accR)
        = o1 :: o :: accR
      rw [if_neg (by
        rw [hk o (List.mem_cons_self _ _)]
        exact lt_irrefl _)]]
    rw [ih (o :: accR) o1 (fun q hq => hk q (List.mem_cons_of_mem _ hq)),
      List.reverse_cons, List.append_assoc]
    rfl

theorem filterMap_slot (k : α) (vs : List ℕ) :
    ∀ (ds : List ℕ) (a lo len : ℕ),
    List.Pairwise (· < ·) ds →
    (∀ d ∈ ds, lo ≤ d ∧ d < lo + len) →
    (List.range' lo len).filterMap (slotFun k vs (fibStarts a ds))
    = (fibStarts a ds).map (fun p => fibB k vs p.1 p.2) := by
  intro ds
  induction ds with
  | nil =>
    intro a lo len _ _
    rw [show fibStarts a [] = [] from rfl]
    rw [List.filterMap_eq_nil_iff.mpr
      (fun i _ => (rfl : slotFun k vs [] i = none))]
    rfl
  | cons d ds ih =>
    intro a lo len hpw hrange
    obtain ⟨hlo, hhi⟩ := hrange d (List.mem_cons_self _ _)
    have hsplit : List.range' lo len
        = List.range' lo (d - lo) ++ List.range' (lo + (d - lo)) (len - (d - lo)) := by
      rw [List.range'_append_1]
      congr 1
      omega
    rw [hsplit, List.filterMap_append]
    have hpart1 : (List.range' lo (d - lo)).filterMap
        (slotFun k vs (fibStarts a (d :: ds))) = [] := by
      apply List.filterMap_eq_nil_iff.mpr
      intro i hi
      have hilt : i < d := by
        have := List.mem_range'_1.mp hi
        omega
      rw [slotFun, lookup_none_of_keys]
      · rfl
      · intro p hp
        have h2 := fibStarts_mem_fst (d :: ds) a p hp
        rcases List.mem_cons.mp h2 with h | h
        · omega
        · have := (List.pairwise_cons.mp hpw).1 p.1 h
          omega
    rw [hpart1, List.nil_append]
    rw [show lo + (d - lo) = d from by omega,
      show len - (d - lo) = (len - (d - lo) - 1) + 1 from by omega,
      List.range'_succ]
    rw [List.filterMap_cons_some
      (show slotFun k vs (fibStarts a (d :: ds)) d = some (fibB k vs d a) from by
        rw [show fibStarts a (d :: ds)
            = (d, a) :: fibStarts (a + 2 ^ d) ds from rfl,
          slotFun, lookup_cons_self2]
        rfl)]
    have htail : (List.range' (d + 1) (len - (d - lo) - 1)).filterMap
        (slotFun k vs (fibStarts a (d :: ds)))
        = (List.range' (d + 1) (len - (d - lo) - 1)).filterMap
          (slotFun k vs (fibStarts (a + 2 ^ d) ds)) := by
      apply List.filterMap_congr
      intro i hi
      have hge : d + 1 ≤ i := (List.mem_range'_1.mp hi).1
      rw [show fibStarts a (d :: ds)
          = (d, a) :: fibStarts (a + 2 ^ d) ds from rfl,
        slotFun, slotFun, lookup_cons_ne2 _ _ _ _ (by omega)]
    rw [htail]
    rw [ih (a + 2 ^ d) (d + 1) (len - (d - lo) - 1)
      (List.pairwise_cons.mp hpw).2
      (fun e he => by
        have h1 := (List.pairwise_cons.mp hpw).1 e he
        have h2 := (hrange e (List.mem_cons_of_mem _ he)).2
        omega)]
    rfl

theorem fib_extractMin_cons (r0 : FibNode α) (rt : List (FibNode α)) (T : ℕ)
    (hne : r0.children.reverse ++ rt ≠ []) :
    FibonacciHeap.extractMin ⟨r0 :: rt, T⟩
      = (some r0.value,
        ⟨fibConsolidate (r0.children.reverse ++ rt) T, T - 1⟩) := by
  cases hpm : r0.children.reverse ++ rt with
  | nil => exact absurd hpm hne
  | cons p pt =>
    show (match r0.children.reverse ++ rt with
      | [] => (some r0.value, (⟨[], T - 1⟩ : FibonacciHeap α))
      | x :: xs => (some r0.value,
          (⟨fibConsolidate (x :: xs) T, T - 1⟩ : FibonacciHeap α))) = _
    rw [hpm]

theorem fib_extractMin_last (r0 : FibNode α) (T : ℕ)
    (hch : r0.children = []) :
    FibonacciHeap.extractMin ⟨[r0], T⟩ = (some r0.value, ⟨[], T - 1⟩) := by
  show (match r0.children.reverse ++ ([] : List (FibNode α)) with
    | [] => (some r0.value, (⟨[], T - 1⟩ : FibonacciHeap α))
    | x :: xs => (some r0.value,
        (⟨fibConsolidate (x :: xs) T, T - 1⟩ : FibonacciHeap α))) = _
  rw [hch]
  rfl

theorem fibConsolidate_eq (roots : List (FibNode α)) (T : ℕ) :
    fibConsolidate roots T
      = (roots.foldl (fun t r => addToTable t r.degree r)
          (List.replicate (Nat.log2 T + 2)
            (none : Option (FibNode α)))).foldl
          (fun acc o => match o with
            | none => acc
            | some nd => fibSplice acc nd) [] := rfl

theorem deg_lt_ub (d T : ℕ) (h1 : 2 ^ d ≤ T) : d < Nat.log2 T + 2 := by
  have hT : T ≠ 0 := by
    have : 1 ≤ 2 ^ d := Nat.one_le_two_pow
    omega
  have h2 : d ≤ Nat.log 2 T := (Nat.pow_le_iff_le_log (by omega) hT).mp h1
  rw [Nat.log2_eq_log_two]
  omega

theorem rebuild_canon (k : α) (vs : List ℕ) (tds : List ℕ) (b ub : ℕ)
    (hpw : List.Pairwise (· < ·) tds)
    (hub : ∀ d ∈ tds, d < ub) :
    (tableOfFun (slotFun k vs (fibStarts b tds)) ub).foldl
      (fun acc o => match o with
        | none => acc
        | some nd => fibSplice acc nd) []
    = canonRoots k vs b tds := by
  rw [foldl_splice_skip]
  rw [show (tableOfFun (slotFun k vs (fibStarts b tds)) ub).filterMap id
      = (List.range ub).filterMap (slotFun k vs (fibStarts b tds)) from by
    rw [tableOfFun, List.filterMap_map]
    rfl]
  rw [List.range_eq_range']
  rw [filterMap_slot k vs tds b 0 ub hpw
    (fun d hd => ⟨Nat.zero_le d, by have := hub d hd; omega⟩)]
  cases tds with
  | nil => rfl
  | cons d rest =>
    show List.foldl fibSplice []
        (fibB k vs d b :: (fibStarts (b + 2 ^ d) rest).map
          (fun q => fibB k vs q.1 q.2))
      = fibB k vs d b :: ((fibStarts (b + 2 ^ d) rest).map
          (fun q => fibB k vs q.1 q.2)).reverse
    rw [show List.foldl fibSplice []
        (fibB k vs d b :: (fibStarts (b + 2 ^ d) rest).map
          (fun q => fibB k vs q.1 q.2))
      = List.foldl fibSplice [fibB k vs d b]
        ((fibStarts (b + 2 ^ d) rest).map
          (fun q => fibB k vs q.1 q.2)) from rfl]
    rw [foldl_fibSplice_run k _ _ _ (fun o ho => by
      obtain ⟨q, hq, hqe⟩ := List.mem_map.mp ho
      rw [← hqe, fibB_key, fibB_key])]
    rw [List.append_nil]

theorem fibStarts_range (b : ℕ) : ∀ m : ℕ,
    fibStarts (b + 1) (List.range m)
      = (List.range m).map (fun t => (t, b + 2 ^ t)) := by
  intro m
  induction m with
  | zero => rfl
  | succ m ih =>
    rw [List.range_succ, fibStarts_append, ih, List.map_append,
      fibTotal_range]
    have h1 : 1 ≤ 2 ^ m := Nat.one_le_two_pow
    rw [show b + 1 + (2 ^ m - 1) = b + 2 ^ m from by omega]
    rfl

theorem fib_round (k : α) (vs : List ℕ) (a d0 : ℕ) (rest : List ℕ)
    (hpw : List.Pairwise (· < ·) (d0 :: rest))
    (hne : d0 ≠ 0 ∨ rest ≠ []) :
    FibonacciHeap.extractMin
      ⟨canonRoots k vs a (d0 :: rest), fibTotal (d0 :: rest)⟩
      = (some (vs.getD a 0),
        ⟨canonRoots k vs (a + 1) (List.range d0 ++ rest),
          fibTotal (d0 :: rest) - 1⟩) := by
  have hcanon : canonRoots k vs a (d0 :: rest)
      = fibB k vs d0 a
        :: ((fibStarts (a + 2 ^ d0) rest).map
          (fun q => fibB k vs q.1 q.2)).reverse := rfl
  rw [hcanon]
  have hpne : (fibB k vs d0 a).children.reverse
      ++ ((fibStarts (a + 2 ^ d0) rest).map
        (fun q => fibB k vs q.1 q.2)).reverse ≠ [] := by
    intro hcon
    obtain ⟨h1, h2⟩ := List.append_eq_nil.mp hcon
    rcases hne with h | h
    · cases d0 with
      | zero => exact h rfl
      | succ e =>
        rw [fibB_children_reverse] at h1
        obtain ⟨h3, h4⟩ := List.append_eq_nil.mp h1
        exact List.cons_ne_nil _ _ h4
    · cases rest with
      | nil => exact h rfl
      | cons r rs =>
        rw [List.reverse_eq_nil_iff] at h2
        rw [show fibStarts (a + 2 ^ d0) (r :: rs)
            = (r, a + 2 ^ d0) :: fibStarts (a + 2 ^ d0 + 2 ^ r) rs from rfl,
          List.map_cons] at h2
        exact List.cons_ne_nil _ _ h2
  rw [fib_extractMin_cons _ _ _ hpne, fibB_value]
  have hTpos : 1 ≤ fibTotal (d0 :: rest) := by
    show 1 ≤ 2 ^ d0 + fibTotal rest
    have : 1 ≤ 2 ^ d0 := Nat.one_le_two_pow
    omega
  have hTmem : ∀ d ∈ List.range d0 ++ rest,
      2 ^ d ≤ fibTotal (d0 :: rest) := by
    intro d hd
    show 2 ^ d ≤ 2 ^ d0 + fibTotal rest
    have hp0 : (1 : ℕ) ≤ 2 ^ d0 := Nat.one_le_two_pow
    rcases List.mem_append.mp hd with h | h
    · have hlt : d < d0 := List.mem_range.mp h
      have : (2 : ℕ) ^ d ≤ 2 ^ d0 := Nat.pow_le_pow_right (by omega) (by omega)
      omega
    · have := fibTotal_mem_le rest d h
      omega
  have htds_pw : List.Pairwise (· < ·) (List.range d0 ++ rest) :=
    List.pairwise_append.mpr ⟨List.pairwise_lt_range d0,
      (List.pairwise_cons.mp hpw).2, fun x hx y hy => by
        have h1 : x < d0 := List.mem_range.mp hx
        have h2 := (List.pairwise_cons.mp hpw).1 y hy
        omega⟩
  have hub : ∀ d ∈ List.range d0 ++ rest,
      d < Nat.log2 (fibTotal (d0 :: rest)) + 2 :=
    fun d hd => deg_lt_ub d _ (hTmem d hd)
  have hcons : fibConsolidate
      ((fibB k vs d0 a).children.reverse
        ++ ((fibStarts (a + 2 ^ d0) rest).map
          (fun q => fibB k vs q.1 q.2)).reverse)
      (fibTotal (d0 :: rest))
      = canonRoots k vs (a + 1) (List.range d0 ++ rest) := by
    rw [fibConsolidate_eq]
    have hfold : ((fibB k vs d0 a).children.reverse
        ++ ((fibStarts (a + 2 ^ d0) rest).map
          (fun q => fibB k vs q.1 q.2)).reverse).foldl
        (fun t r => addToTable t r.degree r)
        (List.replicate (Nat.log2 (fibTotal (d0 :: rest)) + 2)
          (none : Option (FibNode α)))
        = tableOfFun (slotFun k vs
            (fibStarts (a + 1) (List.range d0 ++ rest)))
          (Nat.log2 (fibTotal (d0 :: rest)) + 2) := by
      cases d0 with
      | zero =>
        rw [show (fibB k vs 0 a).children.reverse = ([] : List (FibNode α))
            from rfl, List.nil_append, ← List.map_reverse,
          replicate_none_tableOfFun,
          tableOfFun_congr (fun _ => none) (slotFun k vs []) _ (fun i => rfl)]
        rw [fold_place k vs _ ((fibStarts (a + 2 ^ 0) rest).reverse) []
          (fun q _ => rfl)
          (by
            rw [List.map_reverse, fibStarts_fst]
            exact List.nodup_reverse.mpr
              (((List.pairwise_cons.mp hpw).2).imp ne_of_lt))
          (fun q hq => by
            have h2 := fibStarts_mem_fst rest (a + 2 ^ 0) q
              (List.mem_reverse.mp hq)
            refine deg_lt_ub _ _ ?_
            have := fibTotal_mem_le rest q.1 h2
            show 2 ^ q.1 ≤ 2 ^ 0 + fibTotal rest
            omega)]
        rw [List.reverse_reverse, List.append_nil]
        rfl
      | succ e =>
        rw [fibB_children_reverse]
        have hprom : (((List.range' 1 e).map (fun i => (i, a + 2 ^ i))
              ++ [((0 : ℕ), a + 1)])
              ++ (fibStarts (a + 2 ^ (e + 1)) rest).reverse).map
              (fun q => fibB k vs q.1 q.2)
            = (List.range' 1 e).map (fun i => fibB k vs i (a + 2 ^ i))
              ++ [fibB k vs 0 (a + 1)]
              ++ ((fibStarts (a + 2 ^ (e + 1)) rest).map
                (fun q => fibB k vs q.1 q.2)).reverse := by
          rw [List.map_append, List.map_append, List.map_map,
            List.map_reverse]
          rfl
        rw [← hprom, replicate_none_tableOfFun,
          tableOfFun_congr (fun _ => none) (slotFun k vs []) _ (fun i => rfl)]
        have hkeys : ((((List.range' 1 e).map (fun i => (i, a + 2 ^ i))
              ++ [((0 : ℕ), a + 1)])
              ++ (fibStarts (a + 2 ^ (e + 1)) rest).reverse).map
              Prod.fst)
            = (List.range' 1 e ++ [0]) ++ rest.reverse := by
          rw [List.map_append, List.map_append, List.map_map,
            List.map_reverse, fibStarts_fst,
            show (Prod.fst ∘ fun i => ((i : ℕ), a + 2 ^ i)) = (id : ℕ → ℕ)
              from rfl, List.map_id]
          rfl
        rw [fold_place k vs _
          ((List.range' 1 e).map (fun i => (i, a + 2 ^ i))
            ++ [((0 : ℕ), a + 1)]
            ++ (fibStarts (a + 2 ^ (e + 1)) rest).reverse) []
          (fun q _ => rfl)
          (by
            rw [hkeys]
            refine List.Nodup.append (List.Nodup.append ?_ ?_ ?_)
              ?_ ?_
            · exact ((List.pairwise_lt_range' 1 e).imp ne_of_lt)
            · exact List.nodup_singleton _
            · intro x hx hx0
              rw [List.mem_singleton] at hx0
              have := (List.mem_range'_1.mp hx).1
              omega
            · exact List.nodup_reverse.mpr
                (((List.pairwise_cons.mp hpw).2).imp ne_of_lt)
            · intro x hx hxr
              have hxrest := List.mem_reverse.mp hxr
              have hgt := (List.pairwise_cons.mp hpw).1 x hxrest
              rcases List.mem_append.mp hx with h | h
              · have := List.mem_range'_1.mp h
                omega
              · rw [List.mem_singleton] at h
                omega)
          (by
            intro q hq
            refine deg_lt_ub _ _ ?_
            rcases List.mem_append.mp hq with h | h
            · rcases List.mem_append.mp h with h | h
              · obtain ⟨i, hi, hie⟩ := List.mem_map.mp h
                have hir := List.mem_range'_1.mp hi
                have : q.1 = i := by rw [← hie]
                have hpow : (2 : ℕ) ^ q.1 ≤ 2 ^ (e + 1) :=
                  Nat.pow_le_pow_right (by omega) (by omega)
                show 2 ^ q.1 ≤ 2 ^ (e + 1) + fibTotal rest
                omega
              · rw [List.mem_singleton] at h
                have : q.1 = 0 := by rw [h]
                show 2 ^ q.1 ≤ 2 ^ (e + 1) + fibTotal rest
                have h1 : (1 : ℕ) ≤ 2 ^ (e + 1) := Nat.one_le_two_pow
                rw [this]
                show 1 ≤ 2 ^ (e + 1) + fibTotal rest
                omega
            · have h2 := fibStarts_mem_fst rest (a + 2 ^ (e + 1)) q
                (List.mem_reverse.mp h)
              have h3 := fibTotal_mem_le rest q.1 h2
              have h4 : (1 : ℕ) ≤ 2 ^ (e + 1) := Nat.one_le_two_pow
              show 2 ^ q.1 ≤ 2 ^ (e + 1) + fibTotal rest
              omega)]
        rw [List.append_nil]
        have htgt : fibStarts (a + 1) (List.range (e + 1) ++ rest)
            = (List.range (e + 1)).map (fun t => (t, a + 2 ^ t))
              ++ fibStarts (a + 2 ^ (e + 1)) rest := by
          rw [fibStarts_append, fibStarts_range a (e + 1), fibTotal_range]
          have h1 : 1 ≤ 2 ^ (e + 1) := Nat.one_le_two_pow
          rw [show a + 1 + (2 ^ (e + 1) - 1) = a + 2 ^ (e + 1) from by omega]
        rw [htgt]
        apply tableOfFun_congr
        intro i
        rw [List.reverse_append, List.reverse_append, List.reverse_reverse,
          List.reverse_singleton]
        rw [slotFun, slotFun]
        cases hL : (fibStarts (a + 2 ^ (e + 1)) rest).lookup i with
        | some v =>
          rw [lookup_append_some _ _ _ _ hL]
          have himem : i ∈ rest := by
            by_contra hno
            rw [lookup_none_of_keys _ _ (fun p hp he =>
              hno (by
                rw [← he]
                exact fibStarts_mem_fst rest (a + 2 ^ (e + 1)) p hp))]
              at hL
            exact Option.noConfusion hL
          have higt := (List.pairwise_cons.mp hpw).1 i himem
          rw [lookup_append_none _ _ _ (by
            rw [map_pair_lookup, if_neg (by
              intro hmem
              have := List.mem_range.mp hmem
              omega)]), hL]
        | none =>
          rw [lookup_append_none _ _ _ hL]
          by_cases hi0 : i = 0
          · rw [hi0]
            rw [show ([((0 : ℕ), a + 1)]
                ++ ((List.range' 1 e).map (fun i => (i, a + 2 ^ i))).reverse)
                = ((0 : ℕ), a + 1)
                  :: ((List.range' 1 e).map (fun i => (i, a + 2 ^ i))).reverse
                from rfl, lookup_cons_self2]
            rw [lookup_append_some _ _ _ _ (by
              rw [map_pair_lookup, if_pos (List.mem_range.mpr (by omega))])]
            rfl
          · rw [show ([((0 : ℕ), a + 1)]
                ++ ((List.range' 1 e).map (fun i => (i, a + 2 ^ i))).reverse)
                = ((0 : ℕ), a + 1)
                  :: ((List.range' 1 e).map (fun i => (i, a + 2 ^ i))).reverse
                from rfl, lookup_cons_ne2 _ _ _ _ hi0]
            rw [show ((List.range' 1 e).map
                  (fun i => (i, a + 2 ^ i))).reverse
                = ((List.range' 1 e).reverse).map (fun i => (i, a + 2 ^ i))
                from (List.map_reverse _ _).symm]
            rw [map_pair_lookup]
            by_cases hilt : i < e + 1
            · rw [if_pos (by
                rw [List.mem_reverse]
                exact List.mem_range'_1.mpr ⟨by omega, by omega⟩)]
              rw [lookup_append_some _ _ _ _ (by
                rw [map_pair_lookup, if_pos (List.mem_range.mpr hilt)])]
            · rw [if_neg (by
                intro hmem
                rw [List.mem_reverse] at hmem
                have := List.mem_range'_1.mp hmem
                omega)]
              rw [lookup_append_none _ _ _ (by
                rw [map_pair_lookup, if_neg (by
                  intro hmem
                  have := List.mem_range.mp hmem
                  omega)]), hL]
    rw [hfold]
    exact rebuild_canon k vs _ _ _ htds_pw hub
  rw [hcons]

def FibonacciHeap.insertRun (h : FibonacciHeap α) (k : α) (vs : List ℕ) :
    FibonacciHeap α :=
  vs.foldl (fun h2 v => h2.insert k v) h

def FibonacciHeap.drain : ℕ → FibonacciHeap α → List ℕ
  | 0, _ => []
  | fuel + 1, h =>
    match h.extractMin with
    | (none, _) => []
    | (some v, h2) => v :: FibonacciHeap.drain fuel h2

theorem fibSplice_cons_ge (m x : FibNode α) (rest : List (FibNode α))
    (h : ¬ x.key < m.key) :
    fibSplice (m :: rest) x = m :: x :: rest := by
  show (if x.key < m.key then x :: (rest ++ [m]) else m :: x :: rest)
    = m :: x :: rest
  rw [if_neg h]

theorem bitsOf_bound (m d : ℕ) (hd : d ∈ bitsOf m) : 2 ^ d ≤ m := by
  have h1 := fibTotal_mem_le (bitsOf m) d hd
  rw [fibTotal_bitsOf] at h1
  exact h1

theorem succ_partition_total (d0 : ℕ) (rest : List ℕ) :
    fibTotal (List.range d0 ++ rest) + 1 = fibTotal (d0 :: rest) := by
  rw [fibTotal_append, fibTotal_range]
  have h1 : 1 ≤ 2 ^ d0 := Nat.one_le_two_pow
  show 2 ^ d0 - 1 + fibTotal rest + 1 = 2 ^ d0 + fibTotal rest
  omega

theorem succ_partition_pw (d0 : ℕ) (rest : List ℕ)
    (hpw : List.Pairwise (· < ·) (d0 :: rest)) :
    List.Pairwise (· < ·) (List.range d0 ++ rest) :=
  List.pairwise_append.mpr ⟨List.pairwise_lt_range d0,
    (List.pairwise_cons.mp hpw).2, fun x hx y hy => by
      have h1 : x < d0 := List.mem_range.mp hx
      have h2 := (List.pairwise_cons.mp hpw).1 y hy
      omega⟩

theorem fib_drain_canon (k : α) (vs : List ℕ) :
    ∀ (m a : ℕ) (ds : List ℕ),
    List.Pairwise (· < ·) ds →
    m = fibTotal ds →
    FibonacciHeap.drain m ⟨canonRoots k vs a ds, m⟩
      = (List.range' a m).map (fun i => vs.getD i 0) := by
  intro m
  induction m with
  | zero => intro a ds _ _; rfl
  | succ m ih =>
    intro a ds hpw hm
    cases ds with
    | nil =>
      rw [show fibTotal [] = 0 from rfl] at hm
      omega
    | cons d0 rest =>
      by_cases hlast : d0 = 0 ∧ rest = []
      · obtain ⟨h1, h2⟩ := hlast
        subst h1
        subst h2
        have hm0 : m = 0 := by
          rw [show fibTotal [0] = 1 from rfl] at hm
          omega
        subst hm0
        show (match FibonacciHeap.extractMin
            ⟨canonRoots k vs a [0], 0 + 1⟩ with
          | (none, _) => []
          | (some v, h2) => v :: FibonacciHeap.drain 0 h2)
          = (List.range' a (0 + 1)).map (fun i => vs.getD i 0)
        rw [show canonRoots k vs a [0] = [fibB k vs 0 a] from rfl,
          fib_extractMin_last (fibB k vs 0 a) (0 + 1) rfl]
        show [(fibB k vs 0 a).value]
          = (List.range' a (0 + 1)).map (fun i => vs.getD i 0)
        rw [fibB_value]
        rfl
      · have hne : d0 ≠ 0 ∨ rest ≠ [] := by
          by_cases h1 : d0 = 0
          · right
            intro h2
            exact hlast ⟨h1, h2⟩
          · left
            exact h1
        show (match FibonacciHeap.extractMin
            ⟨canonRoots k vs a (d0 :: rest), m + 1⟩ with
          | (none, _) => []
          | (some v, h2) => v :: FibonacciHeap.drain m h2)
          = (List.range' a (m + 1)).map (fun i => vs.getD i 0)
        rw [show (⟨canonRoots k vs a (d0 :: rest), m + 1⟩ : FibonacciHeap α)
            = ⟨canonRoots k vs a (d0 :: rest), fibTotal (d0 :: rest)⟩
            from by rw [hm],
          fib_round k vs a d0 rest hpw hne]
        show vs.getD a 0 :: FibonacciHeap.drain m
            ⟨canonRoots k vs (a + 1) (List.range d0 ++ rest),
              fibTotal (d0 :: rest) - 1⟩
          = (List.range' a (m + 1)).map (fun i => vs.getD i 0)
        have h5 := succ_partition_total d0 rest
        rw [show fibTotal (d0 :: rest) - 1 = m from by omega]
        rw [ih (a + 1) (List.range d0 ++ rest) (succ_partition_pw d0 rest hpw)
          (by omega)]
        rw [List.range'_succ, List.map_cons]

theorem fib_insertRun_desc (k : α) (vs : List ℕ) :
    ∀ (ws : List ℕ) (j : ℕ), 1 ≤ j → j ≤ vs.length → ws = vs.drop j →
    FibonacciHeap.insertRun
      ⟨fibB k vs 0 0
        :: ((List.range' 1 (j - 1)).map (fun i => fibB k vs 0 i)).reverse,
        j⟩ k ws
    = ⟨fibB k vs 0 0
        :: ((List.range' 1 (vs.length - 1)).map
          (fun i => fibB k vs 0 i)).reverse,
        vs.length⟩ := by
  intro ws
  induction ws with
  | nil =>
    intro j hj hjle hdrop
    have hlen : vs.length ≤ j := by
      by_contra hcon
      push_neg at hcon
      rw [List.drop_eq_getElem_cons hcon] at hdrop
      exact List.cons_ne_nil _ _ hdrop.symm
    have hje : j = vs.length := by omega
    subst hje
    rfl
  | cons w ws ih =>
    intro j hj hjle hdrop
    have hjlt : j < vs.length := by
      by_contra hcon
      push_neg at hcon
      rw [List.drop_eq_nil_of_le hcon] at hdrop
      exact List.cons_ne_nil _ _ hdrop
    rw [List.drop_eq_getElem_cons hjlt] at hdrop
    injection hdrop with h3 h4
    have hw : w = vs.getD j 0 := by
      rw [h3, List.getD_eq_getElem?_getD, List.getElem?_eq_getElem hjlt]
      rfl
    have hins : FibonacciHeap.insert
        ⟨fibB k vs 0 0
          :: ((List.range' 1 (j - 1)).map (fun i => fibB k vs 0 i)).reverse,
          j⟩ k w
        = ⟨fibB k vs 0 0
          :: ((List.range' 1 j).map (fun i => fibB k vs 0 i)).reverse,
          j + 1⟩ := by
      show (⟨fibSplice
          (fibB k vs 0 0
            :: ((List.range' 1 (j - 1)).map
              (fun i => fibB k vs 0 i)).reverse)
          (.node k w 0 []), j + 1⟩ : FibonacciHeap α) = _
      rw [fibSplice_cons_ge _ _ _ (by
        rw [show (FibNode.node k w 0 ([] : List (FibNode α))).key = k
          from rfl, fibB_key]
        exact lt_irrefl k)]
      rw [hw]
      rw [show (FibNode.node k (vs.getD j 0) 0 ([] : List (FibNode α)))
          = fibB k vs 0 j from rfl]
      have hr : List.range' 1 j = List.range' 1 (j - 1) ++ [j] := by
        have h6 : List.range' 1 (j - 1 + 1)
            = List.range' 1 (j - 1) ++ [1 + 1 * (j - 1)] :=
          List.range'_concat 1 (j - 1)
        rw [show j - 1 + 1 = j from by omega,
          show 1 + 1 * (j - 1) = j from by omega] at h6
        exact h6
      rw [hr, List.map_append, List.reverse_append]
      rfl
    rw [show FibonacciHeap.insertRun
        ⟨fibB k vs 0 0
          :: ((List.range' 1 (j - 1)).map (fun i => fibB k vs 0 i)).reverse,
          j⟩ k (w :: ws)
      = FibonacciHeap.insertRun
          (FibonacciHeap.insert
            ⟨fibB k vs 0 0
              :: ((List.range' 1 (j - 1)).map
                (fun i => fibB k vs 0 i)).reverse,
              j⟩ k w) k ws from rfl, hins]
    have h7 := ih (j + 1) (by omega) (by omega) h4
    rw [show j + 1 - 1 = j from by omega] at h7
    exact h7

theorem fib_insertRun_empty (k : α) (vs : List ℕ) (hne : vs ≠ []) :
    FibonacciHeap.insertRun FibonacciHeap.empty k vs
      = ⟨fibB k vs 0 0
        :: ((List.range' 1 (vs.length - 1)).map
          (fun i => fibB k vs 0 i)).reverse,
        vs.length⟩ := by
  cases vs with
  | nil => exact absurd rfl hne
  | cons v0 vt =>
    have h1 := fib_insertRun_desc k (v0 :: vt) vt 1 (le_refl 1)
      (by rw [List.length_cons]; omega) rfl
    exact h1

theorem map_getD_range (vs : List ℕ) :
    ∀ (m s : ℕ), s + m = vs.length →
    (List.range' s m).map (fun i => vs.getD i 0) = vs.drop s := by
  intro m
  induction m with
  | zero =>
    intro s h
    rw [show List.range' s 0 = [] from rfl]
    rw [List.drop_eq_nil_of_le (by omega)]
    rfl
  | succ m ih =>
    intro s h
    rw [List.range'_succ, List.map_cons, ih (s + 1) (by omega)]
    rw [List.drop_eq_getElem_cons (show s < vs.length from by omega)]
    congr 1
    rw [List.getD_eq_getElem?_getD,
      List.getElem?_eq_getElem (show s < vs.length from by omega)]
    rfl

theorem fib_equal_key_fifo (k : α) (vs : List ℕ) :
    FibonacciHeap.drain vs.length
      (FibonacciHeap.insertRun FibonacciHeap.empty k vs) = vs := by
  cases vs with
  | nil => rfl
  | cons v0 vt =>
    rw [fib_insertRun_empty k (v0 :: vt) (List.cons_ne_nil _ _)]
    cases vt with
    | nil =>
      have h1 := fib_drain_canon k [v0] 1 0 [0]
        (List.pairwise_singleton _ _) rfl
      exact h1.trans rfl
    | cons v1 vt2 =>
      have hlen : (v0 :: v1 :: vt2).length = vt2.length + 2 := by
        rw [List.length_cons, List.length_cons]
      rw [hlen, show vt2.length + 2 - 1 = vt2.length + 1 from by omega]
      have hDne : (fibB k (v0 :: v1 :: vt2) 0 0).children.reverse
          ++ ((List.range' 1 (vt2.length + 1)).map
            (fun i => fibB k (v0 :: v1 :: vt2) 0 i)).reverse ≠ [] := by
        rw [show (fibB k (v0 :: v1 :: vt2) 0 0).children.reverse
            = ([] : List (FibNode α)) from rfl, List.nil_append,
          show List.range' 1 (vt2.length + 1)
            = 1 :: List.range' 2 vt2.length from List.range'_succ 1 vt2.length 1,
          List.map_cons, List.reverse_cons]
        intro hcon
        obtain ⟨h2, h3⟩ := List.append_eq_nil.mp hcon
        exact List.cons_ne_nil _ _ h3
      show (match FibonacciHeap.extractMin
          ⟨fibB k (v0 :: v1 :: vt2) 0 0
            :: ((List.range' 1 (vt2.length + 1)).map
              (fun i => fibB k (v0 :: v1 :: vt2) 0 i)).reverse,
            vt2.length + 2⟩ with
        | (none, _) => []
        | (some v, h2) => v :: FibonacciHeap.drain (vt2.length + 1) h2)
        = v0 :: v1 :: vt2
      rw [fib_extractMin_cons _ _ _ hDne]
      have hcons : fibConsolidate
          ((fibB k (v0 :: v1 :: vt2) 0 0).children.reverse
            ++ ((List.range' 1 (vt2.length + 1)).map
              (fun i => fibB k (v0 :: v1 :: vt2) 0 i)).reverse)
          (vt2.length + 2)
          = canonRoots k (v0 :: v1 :: vt2) 1 (bitsOf (vt2.length + 1)) := by
        rw [show (fibB k (v0 :: v1 :: vt2) 0 0).children.reverse
            = ([] : List (FibNode α)) from rfl, List.nil_append]
        rw [fibConsolidate_eq]
        rw [replicate_none_tableOfFun,
          tableOfFun_congr (fun _ => none)
            (slotFun k (v0 :: v1 :: vt2)
              (fibStarts (1 + (vt2.length + 1)) (bitsOf 0))) _
            (fun i => rfl)]
        rw [counter_fold k (v0 :: v1 :: vt2)
          (Nat.log2 (vt2.length + 2) + 2) (vt2.length + 1) 0 1
          (fun i hi d hd => by
            refine deg_lt_ub d _ ?_
            have h8 := bitsOf_bound (0 + i) d hd
            omega)
          (by omega)]
        rw [show (0 : ℕ) + (vt2.length + 1) = vt2.length + 1 from by omega]
        exact rebuild_canon k (v0 :: v1 :: vt2) (bitsOf (vt2.length + 1)) 1
          (Nat.log2 (vt2.length + 2) + 2) (bitsOf_sorted _)
          (fun d hd => by
            refine deg_lt_ub d _ ?_
            have h8 := bitsOf_bound (vt2.length + 1) d hd
            omega)
      rw [hcons]
      show (fibB k (v0 :: v1 :: vt2) 0 0).value
          :: FibonacciHeap.drain (vt2.length + 1)
            ⟨canonRoots k (v0 :: v1 :: vt2) 1 (bitsOf (vt2.length + 1)),
              vt2.length + 2 - 1⟩
        = v0 :: v1 :: vt2
      rw [fibB_value,
        show vt2.length + 2 - 1 = vt2.length + 1 from by omega,
        fib_drain_canon k (v0 :: v1 :: vt2) (vt2.length + 1) 1
          (bitsOf (vt2.length + 1)) (bitsOf_sorted _)
          (fibTotal_bitsOf _).symm]
      have h9 := map_getD_range (v0 :: v1 :: vt2) (vt2.length + 1) 1
        (by rw [List.length_cons, List.length_cons]; omega)
      rw [h9]
      rfl

/-- C2 (amended): in the binary `MinHeap`, the `FourAryHeap` (both via their
insertion counters) and the `FibonacciHeap` (via its insertion-order-stable
tie rules), entries with equal keys are extracted
first-inserted-first-extracted: inserting the values `vs` under one key `k`
into an empty heap and then calling `extractMin` `vs.length` times returns
exactly `vs`, in insertion order.  (The `PairingHeap`, whose two-pass
`combineSiblings` reorders equal-key siblings, violates this: see the
counterexample.) -/
theorem claim_C2_equal_key_fifo (k : α) (vs : List ℕ) :
    MinHeap.drain vs.length (MinHeap.insertRun MinHeap.empty k vs) = vs
    ∧ FourAryHeap.drain vs.length
        (FourAryHeap.insertRun FourAryHeap.empty k vs) = vs
    ∧ FibonacciHeap.drain vs.length
        (FibonacciHeap.insertRun FibonacciHeap.empty k vs) = vs := by
  refine ⟨?_, ?_, fib_equal_key_fifo k vs⟩
  · rw [minHeap_drain_eq]
    obtain ⟨h1, h2⟩ :=
      minHeap_insertRun_spec k vs MinHeap.empty (isAryHeap_nil 2)
    refine aryDrain_fifo 2 (by omega) k vs 0 _ h1 ?_
    rw [h2]
    have hz : ((MinHeap.empty.heap : List (HeapEntry α))
        : Multiset (HeapEntry α)) = 0 := rfl
    rw [hz, zero_add]
    rfl
  · rw [fourAry_drain_eq]
    obtain ⟨h1, h2⟩ :=
      fourAry_insertRun_spec k vs FourAryHeap.empty (isAryHeap_nil 4)
    refine aryDrain_fifo 4 (by omega) k vs 0 _ h1 ?_
    rw [h2]
    have hz : ((FourAryHeap.empty.entries : List (HeapEntry α))
        : Multiset (HeapEntry α)) = 0 := rfl
    rw [hz, zero_add]
    rfl

/-- C2 counterexample: the `PairingHeap` has no insertion counter, and its
two-pass `combineSiblings` reorders equal-key entries.  Inserting values
`1, 2, 3` under the single key `10` and extracting three times returns
`[1, 3, 2]`, not the insertion order `[1, 2, 3]`. -/
theorem claim_C2_counterexample :
    PairingHeap.drain 3
      (PairingHeap.insertRun PairingHeap.empty (10 : ℚ) [1, 2, 3])
      ≠ [1, 2, 3] := by
  decide

/-! ### Heap order and entry multisets for the pointer-based heaps -/

mutual

/-- All (key, value) pairs stored in a pairing tree, root first. -/
def PairingNode.entriesP : PairingNode α → List (α × ℕ)
  | .node k v cs => (k, v) :: entriesPL cs

/-- All (key, value) pairs stored in a list of pairing trees. -/
def entriesPL : List (PairingNode α) → List (α × ℕ)
  | [] => []
  | c :: cs => PairingNode.entriesP c ++ entriesPL cs

end

/-- Heap order of a pairing tree: recursively, every node's key is at most
every key in each of its child subtrees. -/
inductive HeapOrdP : PairingNode α → Prop
  | node (k : α) (v : ℕ) (cs : List (PairingNode α))
      (hcs : ∀ c ∈ cs, HeapOrdP c)
      (hle : ∀ c ∈ cs, ∀ e ∈ c.entriesP, k ≤ e.1) :
      HeapOrdP (.node k v cs)

theorem mem_entriesPL (cs : List (PairingNode α)) (e : α × ℕ) :
    e ∈ entriesPL cs ↔ ∃ c ∈ cs, e ∈ c.entriesP := by
  induction cs with
  | nil =>
    rw [entriesPL]
    simp
  | cons c cs ih =>
    rw [entriesPL, List.mem_append, ih]
    constructor
    · rintro (h | ⟨c2, hc2, he⟩)
      · exact ⟨c, by simp, h⟩
      · exact ⟨c2, by simp [hc2], he⟩
    · rintro ⟨c2, hc2, he⟩
      rcases List.mem_cons.mp hc2 with h | h
      · subst h
        exact Or.inl he
      · exact Or.inr ⟨c2, h, he⟩

theorem entriesP_ne_nil (t : PairingNode α) : t.entriesP ≠ [] := by
  cases t with
  | node k v cs =>
    rw [PairingNode.entriesP]
    simp

theorem heapOrdP_root_min (t : PairingNode α) (h : HeapOrdP t) :
    ∀ e ∈ t.entriesP, t.key ≤ e.1 := by
  cases h with
  | node k v cs hcs hle =>
    intro e he
    rw [PairingNode.entriesP] at he
    rcases List.mem_cons.mp he with h1 | h1
    · subst h1
      exact le_refl k
    · obtain ⟨c, hc, hec⟩ := (mem_entriesPL cs e).mp h1
      exact hle c hc e hec

theorem pairingMergeNodes_ord (a b : PairingNode α) (ha : HeapOrdP a)
    (hb : HeapOrdP b) : HeapOrdP (pairingMergeNodes a b) := by
  cases a with
  | node ka va ca =>
    cases b with
    | node kb vb cb =>
      rw [pairingMergeNodes]
      by_cases hk : ka ≤ kb
      · rw [if_pos hk]
        cases ha with
        | node _ _ _ hcsa hlea =>
          refine HeapOrdP.node ka va (PairingNode.node kb vb cb :: ca) ?_ ?_
          · intro c hc
            rcases List.mem_cons.mp hc with h1 | h1
            · subst h1
              exact hb
            · exact hcsa c h1
          · intro c hc e he
            rcases List.mem_cons.mp hc with h1 | h1
            · subst h1
              exact le_trans hk (heapOrdP_root_min _ hb e he)
            · exact hlea c h1 e he
      · rw [if_neg hk]
        have hk2 : kb ≤ ka := le_of_not_le hk
        cases hb with
        | node _ _ _ hcsb hleb =>
          refine HeapOrdP.node kb vb (PairingNode.node ka va ca :: cb) ?_ ?_
          · intro c hc
            rcases List.mem_cons.mp hc with h1 | h1
            · subst h1
              exact ha
            · exact hcsb c h1
          · intro c hc e he
            rcases List.mem_cons.mp hc with h1 | h1
            · subst h1
              exact le_trans hk2 (heapOrdP_root_min _ ha e he)
            · exact hleb c h1 e he

theorem pairingMergeNodes_entries (a b : PairingNode α) :
    (((pairingMergeNodes a b).entriesP : List (α × ℕ)) : Multiset (α × ℕ))
      = ((a.entriesP : List (α × ℕ)) : Multiset (α × ℕ))
        + ((b.entriesP : List (α × ℕ)) : Multiset (α × ℕ)) := by
  cases a with
  | node ka va ca =>
    cases b with
    | node kb vb cb =>
      rw [pairingMergeNodes]
      by_cases hk : ka ≤ kb
      · rw [if_pos hk]
        simp only [PairingNode.entriesP, entriesPL]
        rw [Multiset.coe_add, Multiset.coe_eq_coe]
        exact List.Perm.cons _ List.perm_append_comm
      · rw [if_neg hk]
        simp only [PairingNode.entriesP, entriesPL]
        rw [Multiset.coe_add, Multiset.coe_eq_coe]
        exact List.perm_middle.symm

theorem pairPass_spec (cs : List (PairingNode α)) :
    (∀ t ∈ cs, HeapOrdP t) →
    (∀ t ∈ pairPass cs, HeapOrdP t)
    ∧ ((entriesPL (pairPass cs) : List (α × ℕ)) : Multiset (α × ℕ))
        = ((entriesPL cs : List (α × ℕ)) : Multiset (α × ℕ)) := by
  induction cs using pairPass.induct with
  | case1 a b rest ih =>
    intro hord
    rw [pairPass]
    have hords : ∀ t ∈ rest, HeapOrdP t := fun t ht => hord t (by simp [ht])
    obtain ⟨ih1, ih2⟩ := ih hords
    constructor
    · intro t ht
      rcases List.mem_cons.mp ht with h1 | h1
      · subst h1
        exact pairingMergeNodes_ord a b (hord a (by simp)) (hord b (by simp))
      · exact ih1 t h1
    · simp only [entriesPL]
      rw [← Multiset.coe_add, ← Multiset.coe_add, ← Multiset.coe_add]
      rw [pairingMergeNodes_entries, ih2, add_assoc]
  | case2 l h =>
    intro hord
    cases l with
    | nil =>
      refine ⟨?_, rfl⟩
      intro t ht
      rw [show pairPass ([] : List (PairingNode α)) = [] from rfl] at ht
      exact absurd ht (by simp)
    | cons a t =>
      cases t with
      | nil =>
        refine ⟨?_, rfl⟩
        intro t2 ht2
        rw [show pairPass [a] = [a] from rfl] at ht2
        exact hord t2 ht2
      | cons b r =>
        exact absurd rfl (fun hh => h a b r hh)

theorem foldr_pairingMerge_spec (l : List (PairingNode α)) :
    (∀ t ∈ l, HeapOrdP t) →
    ((l.foldr (fun n acc => pairingMerge (some n) acc) none = none → l = [])
      ∧ ∀ t, l.foldr (fun n acc => pairingMerge (some n) acc) none = some t →
          HeapOrdP t
          ∧ ((t.entriesP : List (α × ℕ)) : Multiset (α × ℕ))
              = ((entriesPL l : List (α × ℕ)) : Multiset (α × ℕ))) := by
  induction l with
  | nil =>
    intro _
    exact ⟨fun _ => rfl, fun t ht => absurd ht (by simp)⟩
  | cons n rest ih =>
    intro hord
    have hordr : ∀ t ∈ rest, HeapOrdP t := fun t ht => hord t (by simp [ht])
    obtain ⟨ihn, ihs⟩ := ih hordr
    rw [List.foldr_cons]
    cases hr : rest.foldr (fun n acc => pairingMerge (some n) acc) none with
    | none =>
      have hrest : rest = [] := ihn hr
      subst hrest
      have hred : pairingMerge (some n) none = some n := rfl
      rw [hred]
      constructor
      · intro hcon
        exact absurd hcon (by simp)
      · intro t ht
        rw [← Option.some.inj ht]
        refine ⟨hord n (by simp), ?_⟩
        rw [entriesPL, entriesPL, List.append_nil]
    | some t2 =>
      have hred : pairingMerge (some n) (some t2)
          = some (pairingMergeNodes n t2) := rfl
      rw [hred]
      obtain ⟨ht2ord, ht2ent⟩ := ihs t2 hr
      constructor
      · intro hcon
        exact absurd hcon (by simp)
      · intro t ht
        rw [← Option.some.inj ht]
        refine ⟨pairingMergeNodes_ord n t2 (hord n (by simp)) ht2ord, ?_⟩
        rw [pairingMergeNodes_entries, ht2ent, entriesPL, ← Multiset.coe_add]

theorem combineSiblings_spec (cs : List (PairingNode α))
    (hord : ∀ t ∈ cs, HeapOrdP t) :
    (combineSiblings cs = none → entriesPL cs = [])
    ∧ ∀ t, combineSiblings cs = some t →
        HeapOrdP t
        ∧ ((t.entriesP : List (α × ℕ)) : Multiset (α × ℕ))
            = ((entriesPL cs : List (α × ℕ)) : Multiset (α × ℕ)) := by
  obtain ⟨pord, pent⟩ := pairPass_spec cs hord
  obtain ⟨fn, fs⟩ := foldr_pairingMerge_spec (pairPass cs) pord
  rw [combineSiblings]
  constructor
  · intro h
    have hpp : pairPass cs = [] := fn h
    rw [hpp] at pent
    have h0 : ((entriesPL cs : List (α × ℕ)) : Multiset (α × ℕ)) = 0 := by
      rw [← pent]
      rfl
    exact (Multiset.coe_eq_zero _).mp h0
  · intro t ht
    obtain ⟨hordt, hent⟩ := fs t ht
    exact ⟨hordt, by rw [hent, pent]⟩

def PairingHeap.applyHeapOp (h : PairingHeap α) : HeapOp α → PairingHeap α
  | .ins k v => h.insert k v
  | .ext => (h.extractMin).2

def PairingHeap.runHeapOps (ops : List (HeapOp α)) : PairingHeap α :=
  ops.foldl PairingHeap.applyHeapOp PairingHeap.empty

/-- The live entries of a pairing heap. -/
def PairingHeap.liveEntries (h : PairingHeap α) : List (α × ℕ) :=
  match h.root with
  | none => []
  | some t => t.entriesP

/-- State invariant of the pairing heap: the root tree is heap-ordered. -/
def PairInv (h : PairingHeap α) : Prop :=
  ∀ t, h.root = some t → HeapOrdP t

theorem pairing_applyHeapOp_inv (h : PairingHeap α) (op : HeapOp α)
    (hh : PairInv h) : PairInv (h.applyHeapOp op) := by
  obtain ⟨r, sz⟩ := h
  cases op with
  | ins k v =>
    intro t ht
    have hsingle : HeapOrdP (PairingNode.node k v ([] : List (PairingNode α))) :=
      HeapOrdP.node k v [] (by simp) (by simp)
    cases r with
    | none =>
      have ht2 : some (PairingNode.node k v []) = some t := ht
      rw [← Option.some.inj ht2]
      exact hsingle
    | some a =>
      have ht2 : some (pairingMergeNodes a (PairingNode.node k v []))
          = some t := ht
      rw [← Option.some.inj ht2]
      exact pairingMergeNodes_ord a _ (hh a rfl) hsingle
  | ext =>
    cases r with
    | none =>
      intro t ht
      exact hh t ht
    | some a =>
      cases a with
      | node k v cs =>
        intro t ht
        have ht2 : combineSiblings cs = some t := ht
        have hordcs : ∀ c ∈ cs, HeapOrdP c := by
          have hord := hh (PairingNode.node k v cs) rfl
          cases hord with
          | node _ _ _ hcs hle => exact hcs
        exact ((combineSiblings_spec cs hordcs).2 t ht2).1

theorem pairing_runHeapOps_inv (ops : List (HeapOp α)) :
    PairInv (PairingHeap.runHeapOps ops) := by
  have hgen : ∀ (h : PairingHeap α), PairInv h →
      PairInv (ops.foldl PairingHeap.applyHeapOp h) := by
    induction ops with
    | nil => intro h hh; exact hh
    | cons op ops ih =>
      intro h hh
      rw [List.foldl_cons]
      exact ih _ (pairing_applyHeapOp_inv h op hh)
  exact hgen PairingHeap.empty (fun t ht => absurd ht (by simp [PairingHeap.empty]))

theorem pairing_extract_min_spec (h : PairingHeap α) (hh : PairInv h) :
    ((h.extractMin).1 = none ↔ h.liveEntries = [])
    ∧ ∀ v, (h.extractMin).1 = some v →
        ∃ p ∈ h.liveEntries, p.2 = v ∧ ∀ q ∈ h.liveEntries, p.1 ≤ q.1 := by
  obtain ⟨r, sz⟩ := h
  cases r with
  | none =>
    refine ⟨⟨fun _ => rfl, fun _ => rfl⟩, ?_⟩
    intro v hv
    exact absurd hv (by simp [PairingHeap.extractMin])
  | some a =>
    cases a with
    | node k v cs =>
      have hfst : ((PairingHeap.mk (some (PairingNode.node k v cs))
          sz).extractMin).1 = some v := rfl
      have hlive : (PairingHeap.mk (some (PairingNode.node k v cs))
          sz).liveEntries = (PairingNode.node k v cs).entriesP := rfl
      constructor
      · constructor
        · intro hc
          rw [hfst] at hc
          exact absurd hc (by simp)
        · intro hc
          rw [hlive] at hc
          exact absurd hc (entriesP_ne_nil _)
      · intro v2 hv2
        rw [hfst] at hv2
        have hv2e : v2 = v := (Option.some.inj hv2).symm
        subst hv2e
        have hord : HeapOrdP (PairingNode.node k v2 cs) := hh _ rfl
        refine ⟨(k, v2), ?_, rfl, ?_⟩
        · rw [hlive, PairingNode.entriesP]
          exact List.mem_cons_self _ _
        · intro q hq
          rw [hlive] at hq
          exact heapOrdP_root_min _ hord q hq

mutual

/-- All (key, value) pairs stored in a Fibonacci tree, root first. -/
def FibNode.entriesF : FibNode α → List (α × ℕ)
  | .node k v _ cs => (k, v) :: entriesFL cs

/-- All (key, value) pairs stored in a list of Fibonacci trees. -/
def entriesFL : List (FibNode α) → List (α × ℕ)
  | [] => []
  | c :: cs => FibNode.entriesF c ++ entriesFL cs

end

/-- Heap order of a Fibonacci tree: recursively, every node's key is at most
every key in each of its child subtrees. -/
inductive HeapOrdF : FibNode α → Prop
  | node (k : α) (v : ℕ) (d : ℕ) (cs : List (FibNode α))
      (hcs : ∀ c ∈ cs, HeapOrdF c)
      (hle : ∀ c ∈ cs, ∀ e ∈ c.entriesF, k ≤ e.1) :
      HeapOrdF (.node k v d cs)

theorem mem_entriesFL (cs : List (FibNode α)) (e : α × ℕ) :
    e ∈ entriesFL cs ↔ ∃ c ∈ cs, e ∈ c.entriesF := by
  induction cs with
  | nil =>
    rw [entriesFL]
    simp
  | cons c cs ih =>
    rw [entriesFL, List.mem_append, ih]
    constructor
    · rintro (h | ⟨c2, hc2, he⟩)
      · exact ⟨c, by simp, h⟩
      · exact ⟨c2, by simp [hc2], he⟩
    · rintro ⟨c2, hc2, he⟩
      rcases List.mem_cons.mp hc2 with h | h
      · subst h
        exact Or.inl he
      · exact Or.inr ⟨c2, h, he⟩

theorem entriesF_ne_nil (t : FibNode α) : t.entriesF ≠ [] := by
  cases t with
  | node k v d cs =>
    rw [FibNode.entriesF]
    simp

theorem heapOrdF_root_min (t : FibNode α) (h : HeapOrdF t) :
    ∀ e ∈ t.entriesF, t.key ≤ e.1 := by
  cases h with
  | node k v d cs hcs hle =>
    intro e he
    rw [FibNode.entriesF] at he
    rcases List.mem_cons.mp he with h1 | h1
    · subst h1
      exact le_refl k
    · obtain ⟨c, hc, hec⟩ := (mem_entriesFL cs e).mp h1
      exact hle c hc e hec

theorem fibLink_ord (c p : FibNode α) (hc : HeapOrdF c) (hp : HeapOrdF p)
    (hkey : p.key ≤ c.key) : HeapOrdF (fibLink c p) := by
  cases p with
  | node k v d cs =>
    cases cs with
    | nil =>
      rw [fibLink]
      refine HeapOrdF.node k v (d + 1) [c] ?_ ?_
      · intro c2 hc2
        rcases List.mem_cons.mp hc2 with h1 | h1
        · subst h1
          exact hc
        · exact absurd h1 (by simp)
      · intro c2 hc2 e he
        rcases List.mem_cons.mp hc2 with h1 | h1
        · subst h1
          exact le_trans hkey (heapOrdF_root_min c2 hc e he)
        · exact absurd h1 (by simp)
    | cons ch rest =>
      rw [fibLink]
      cases hp with
      | node _ _ _ _ hcs hle =>
        refine HeapOrdF.node k v (d + 1) (ch :: c :: rest) ?_ ?_
        · intro c2 hc2
          rcases List.mem_cons.mp hc2 with h1 | h1
          · rw [h1]
            exact hcs ch (by simp)
          · rcases List.mem_cons.mp h1 with h2 | h2
            · rw [h2]
              exact hc
            · exact hcs c2 (by simp [h2])
        · intro c2 hc2 e he
          rcases List.mem_cons.mp hc2 with h1 | h1
          · rw [h1] at he
            exact hle ch (by simp) e he
          · rcases List.mem_cons.mp h1 with h2 | h2
            · rw [h2] at he
              exact le_trans hkey (heapOrdF_root_min c hc e he)
            · exact hle c2 (by simp [h2]) e he

theorem fibSplice_inv (roots : List (FibNode α)) (x : FibNode α)
    (h1 : ∀ t ∈ roots, HeapOrdF t)
    (h2 : ∀ m, roots.head? = some m →
      ∀ t ∈ roots, ∀ e ∈ t.entriesF, m.key ≤ e.1)
    (hx : HeapOrdF x) :
    (∀ t ∈ fibSplice roots x, HeapOrdF t)
    ∧ ∀ m, (fibSplice roots x).head? = some m →
        ∀ t ∈ fibSplice roots x, ∀ e ∈ t.entriesF, m.key ≤ e.1 := by
  cases roots with
  | nil =>
    rw [fibSplice]
    constructor
    · intro t ht
      rcases List.mem_cons.mp ht with hh | hh
      · subst hh
        exact hx
      · exact absurd hh (by simp)
    · intro m hm t ht e he
      have hmx : m = x := by
        have : some x = some m := hm
        exact (Option.some.inj this).symm
      subst hmx
      rcases List.mem_cons.mp ht with hh | hh
      · subst hh
        exact heapOrdF_root_min t hx e he
      · exact absurd hh (by simp)
  | cons m0 rest =>
    rw [fibSplice]
    by_cases hxm : x.key < m0.key
    · rw [if_pos hxm]
      have hmem : ∀ t, t ∈ rest ++ [m0] → t ∈ m0 :: rest := by
        intro t ht
        rcases List.mem_append.mp ht with hh | hh
        · exact by simp [hh]
        · simp at hh
          simp [hh]
      constructor
      · intro t ht
        rcases List.mem_cons.mp ht with hh | hh
        · subst hh
          exact hx
        · exact h1 t (hmem t hh)
      · intro m hm t ht e he
        have hmx : m = x := by
          have : some x = some m := hm
          exact (Option.some.inj this).symm
        subst hmx
        rcases List.mem_cons.mp ht with hh | hh
        · subst hh
          exact heapOrdF_root_min t hx e he
        · exact le_trans (le_of_lt hxm)
            (h2 m0 rfl t (hmem t hh) e he)
    · rw [if_neg hxm]
      constructor
      · intro t ht
        rcases List.mem_cons.mp ht with hh | hh
        · subst hh
          exact h1 t (by simp)
        · rcases List.mem_cons.mp hh with hh2 | hh2
          · subst hh2
            exact hx
          · exact h1 t (by simp [hh2])
      · intro m hm t ht e he
        have hmx : m = m0 := by
          have : some m0 = some m := hm
          exact (Option.some.inj this).symm
        subst hmx
        rcases List.mem_cons.mp ht with hh | hh
        · subst hh
          exact h2 t rfl t (by simp) e he
        · rcases List.mem_cons.mp hh with hh2 | hh2
          · subst hh2
            exact le_trans (not_lt.mp hxm) (heapOrdF_root_min t hx e he)
          · exact h2 m rfl t (by simp [hh2]) e he

/-- The degree table holds only heap-ordered trees. -/
def TableOrd (t : List (Option (FibNode α))) : Prop :=
  ∀ s ∈ t, ∀ x, s = some x → HeapOrdF x

theorem tableOrd_setPad (t : List (Option (FibNode α))) (d : ℕ)
    (v : Option (FibNode α)) (ht : TableOrd t)
    (hv : ∀ x, v = some x → HeapOrdF x) : TableOrd (setPad t d v) := by
  rw [setPad]
  by_cases hd : d < t.length
  · rw [if_pos hd]
    intro s hs x hx
    rcases List.mem_or_eq_of_mem_set hs with h | h
    · exact ht s h x hx
    · subst h
      exact hv x hx
  · rw [if_neg hd]
    intro s hs x hx
    rcases List.mem_or_eq_of_mem_set hs with h | h
    · rcases List.mem_append.mp h with h2 | h2
      · exact ht s h2 x hx
      · have hnone := List.eq_of_mem_replicate h2
        rw [hnone] at hx
        exact absurd hx (by simp)
    · subst h
      exact hv x hx

theorem tableOrd_set_none (t : List (Option (FibNode α))) (d : ℕ)
    (ht : TableOrd t) : TableOrd (t.set d none) := by
  intro s hs x hx
  rcases List.mem_or_eq_of_mem_set hs with h | h
  · exact ht s h x hx
  · subst h
    exact absurd hx (by simp)

theorem addToTableLoop_ord :
    ∀ (fuel : ℕ) (t : List (Option (FibNode α))) (d : ℕ) (x : FibNode α),
    TableOrd t → HeapOrdF x → TableOrd (addToTableLoop fuel t d x) := by
  intro fuel
  induction fuel with
  | zero =>
    intro t d x ht hx
    rw [addToTableLoop]
    have hsome : ∀ y, some x = some y → HeapOrdF y := by
      intro y hy
      rw [← Option.some.inj hy]
      exact hx
    cases hd : t[d]? with
    | none => exact tableOrd_setPad t d (some x) ht hsome
    | some o =>
      cases o with
      | none => exact tableOrd_setPad t d (some x) ht hsome
      | some y => exact tableOrd_setPad t d (some x) ht hsome
  | succ fuel ih =>
    intro t d x ht hx
    rw [addToTableLoop]
    have hsome : ∀ y, some x = some y → HeapOrdF y := by
      intro y hy
      rw [← Option.some.inj hy]
      exact hx
    cases hd : t[d]? with
    | none => exact tableOrd_setPad t d (some x) ht hsome
    | some o =>
      cases o with
      | none => exact tableOrd_setPad t d (some x) ht hsome
      | some y =>
        have hy : HeapOrdF y := ht (some y) (List.getElem?_mem hd) y rfl
        show TableOrd (if y.key < x.key then
            addToTableLoop fuel (t.set d none) (d + 1) (fibLink x y)
          else addToTableLoop fuel (t.set d none) (d + 1) (fibLink y x))
        by_cases hk : y.key < x.key
        · rw [if_pos hk]
          exact ih (t.set d none) (d + 1) (fibLink x y)
            (tableOrd_set_none t d ht) (fibLink_ord x y hx hy (le_of_lt hk))
        · rw [if_neg hk]
          exact ih (t.set d none) (d + 1) (fibLink y x)
            (tableOrd_set_none t d ht) (fibLink_ord y x hy hx (not_lt.mp hk))

theorem foldl_addToTable_ord (roots : List (FibNode α)) :
    ∀ t0 : List (Option (FibNode α)), TableOrd t0 →
    (∀ r ∈ roots, HeapOrdF r) →
    TableOrd (roots.foldl (fun t r => addToTable t r.degree r) t0) := by
  induction roots with
  | nil =>
    intro t0 ht _
    exact ht
  | cons r roots ih =>
    intro t0 ht hord
    rw [List.foldl_cons]
    exact ih (addToTable t0 r.degree r)
      (addToTableLoop_ord t0.length t0 r.degree r ht (hord r (by simp)))
      (fun r2 hr2 => hord r2 (by simp [hr2]))

theorem foldl_fibSplice_inv (table : List (Option (FibNode α))) :
    ∀ acc : List (FibNode α), TableOrd table →
    (∀ t ∈ acc, HeapOrdF t) →
    (∀ m, acc.head? = some m → ∀ t ∈ acc, ∀ e ∈ t.entriesF, m.key ≤ e.1) →
    (∀ t ∈ table.foldl (fun acc o => match o with
        | none => acc
        | some nd => fibSplice acc nd) acc, HeapOrdF t)
    ∧ ∀ m, (table.foldl (fun acc o => match o with
        | none => acc
        | some nd => fibSplice acc nd) acc).head? = some m →
        ∀ t ∈ table.foldl (fun acc o => match o with
          | none => acc
          | some nd => fibSplice acc nd) acc, ∀ e ∈ t.entriesF,
          m.key ≤ e.1 := by
  induction table with
  | nil =>
    intro acc _ h1 h2
    exact ⟨h1, h2⟩
  | cons o rest ih =>
    intro acc ht h1 h2
    rw [List.foldl_cons]
    have htr : TableOrd rest := fun s hs x hx => ht s (by simp [hs]) x hx
    cases o with
    | none => exact ih acc htr h1 h2
    | some nd =>
      have hnd : HeapOrdF nd := ht (some nd) (by simp) nd rfl
      obtain ⟨hs1, hs2⟩ := fibSplice_inv acc nd h1 h2 hnd
      exact ih (fibSplice acc nd) htr hs1 hs2

theorem fibConsolidate_inv (roots : List (FibNode α)) (total : ℕ)
    (h : ∀ t ∈ roots, HeapOrdF t) :
    (∀ t ∈ fibConsolidate roots total, HeapOrdF t)
    ∧ ∀ m, (fibConsolidate roots total).head? = some m →
        ∀ t ∈ fibConsolidate roots total, ∀ e ∈ t.entriesF,
          m.key ≤ e.1 := by
  have htab := foldl_addToTable_ord roots
    (List.replicate (Nat.log2 total + 2) (none : Option (FibNode α)))
    (by
      intro s hs x hx
      rw [List.eq_of_mem_replicate hs] at hx
      exact absurd hx (by simp))
    h
  have hres := foldl_fibSplice_inv
    (roots.foldl (fun t r => addToTable t r.degree r)
      (List.replicate (Nat.log2 total + 2) (none : Option (FibNode α))))
    [] htab (by simp) (by simp)
  exact hres

def FibonacciHeap.applyHeapOp (h : FibonacciHeap α) :
    HeapOp α → FibonacciHeap α
  | .ins k v => h.insert k v
  | .ext => (h.extractMin).2

def FibonacciHeap.runHeapOps (ops : List (HeapOp α)) : FibonacciHeap α :=
  ops.foldl FibonacciHeap.applyHeapOp FibonacciHeap.empty

/-- The live entries of a Fibonacci heap: everything stored in its root
trees. -/
def FibonacciHeap.liveEntries (h : FibonacciHeap α) : List (α × ℕ) :=
  entriesFL h.roots

/-- State invariant of the Fibonacci heap: every root tree is heap-ordered
and the head of the root list (`minNode`) has a key at most every stored
key. -/
def FibInv (h : FibonacciHeap α) : Prop :=
  (∀ t ∈ h.roots, HeapOrdF t)
  ∧ ∀ m, h.roots.head? = some m →
      ∀ t ∈ h.roots, ∀ e ∈ t.entriesF, m.key ≤ e.1

theorem fib_applyHeapOp_inv (h : FibonacciHeap α) (op : HeapOp α)
    (hh : FibInv h) : FibInv (h.applyHeapOp op) := by
  obtain ⟨roots, tot⟩ := h
  obtain ⟨hh1, hh2⟩ := hh
  cases op with
  | ins k v =>
    have hx : HeapOrdF (FibNode.node k v 0 ([] : List (FibNode α))) :=
      HeapOrdF.node k v 0 [] (by simp) (by simp)
    exact fibSplice_inv roots _ hh1 hh2 hx
  | ext =>
    cases roots with
    | nil => exact ⟨hh1, hh2⟩
    | cons m rest =>
      cases m with
      | node mk2 mv md mcs =>
        have hhm : HeapOrdF (FibNode.node mk2 mv md mcs) :=
          hh1 _ (by simp)
        have hcs : ∀ c ∈ mcs, HeapOrdF c := by
          cases hhm with
          | node _ _ _ _ hcs2 _ => exact hcs2
        show FibInv (match (FibNode.node mk2 mv md mcs).children.reverse
            ++ rest with
          | [] => ((some mv, (⟨[], tot - 1⟩ : FibonacciHeap α))
              : Option ℕ × FibonacciHeap α)
          | x :: xs =>
            (some mv, ⟨fibConsolidate (x :: xs) tot, tot - 1⟩)).2
        cases hp : (FibNode.node mk2 mv md mcs).children.reverse ++ rest with
        | nil =>
          refine ⟨by simp, ?_⟩
          intro m2 hm2
          exact absurd hm2 (by simp)
        | cons x xs =>
          have hprom : ∀ t ∈ (x :: xs), HeapOrdF t := by
            rw [← hp]
            intro t ht
            rcases List.mem_append.mp ht with h1 | h1
            · exact hcs t (List.mem_reverse.mp h1)
            · exact hh1 t (by simp [h1])
          exact fibConsolidate_inv (x :: xs) tot hprom

theorem fib_runHeapOps_inv (ops : List (HeapOp α)) :
    FibInv (FibonacciHeap.runHeapOps ops) := by
  have hgen : ∀ (h : FibonacciHeap α), FibInv h →
      FibInv (ops.foldl FibonacciHeap.applyHeapOp h) := by
    induction ops with
    | nil => intro h hh; exact hh
    | cons op ops ih =>
      intro h hh
      rw [List.foldl_cons]
      exact ih _ (fib_applyHeapOp_inv h op hh)
  refine hgen FibonacciHeap.empty ⟨by simp [FibonacciHeap.empty], ?_⟩
  intro m hm
  exact absurd hm (by simp [FibonacciHeap.empty])

theorem fib_extract_min_spec (h : FibonacciHeap α) (hh : FibInv h) :
    ((h.extractMin).1 = none ↔ h.liveEntries = [])
    ∧ ∀ v, (h.extractMin).1 = some v →
        ∃ p ∈ h.liveEntries, p.2 = v ∧ ∀ q ∈ h.liveEntries, p.1 ≤ q.1 := by
  obtain ⟨roots, tot⟩ := h
  obtain ⟨hh1, hh2⟩ := hh
  cases roots with
  | nil =>
    refine ⟨⟨fun _ => rfl, fun _ => rfl⟩, ?_⟩
    intro v hv
    exact absurd hv (by simp [FibonacciHeap.extractMin])
  | cons m rest =>
    cases m with
    | node mk2 mv md mcs =>
      have hfst : ((FibonacciHeap.mk (FibNode.node mk2 mv md mcs :: rest)
          tot).extractMin).1 = some mv := by
        show (match (FibNode.node mk2 mv md mcs).children.reverse
            ++ rest with
          | [] => ((some mv, (⟨[], tot - 1⟩ : FibonacciHeap α))
              : Option ℕ × FibonacciHeap α)
          | x :: xs =>
            (some mv, ⟨fibConsolidate (x :: xs) tot, tot - 1⟩)).1 = some mv
        cases (FibNode.node mk2 mv md mcs).children.reverse ++ rest with
        | nil => rfl
        | cons x xs => rfl
      have hlive : (FibonacciHeap.mk (FibNode.node mk2 mv md mcs :: rest)
          tot).liveEntries
          = (FibNode.node mk2 mv md mcs).entriesF ++ entriesFL rest := by
        show entriesFL (FibNode.node mk2 mv md mcs :: rest) = _
        rw [entriesFL]
      constructor
      · constructor
        · intro hc
          rw [hfst] at hc
          exact absurd hc (by simp)
        · intro hc
          rw [hlive] at hc
          rcases List.append_eq_nil.mp hc with ⟨h1, _⟩
          exact absurd h1 (entriesF_ne_nil _)
      · intro v hv
        rw [hfst] at hv
        have hvv : v = mv := (Option.some.inj hv).symm
        subst hvv
        refine ⟨(mk2, v), ?_, rfl, ?_⟩
        · rw [hlive]
          refine List.mem_append.mpr (Or.inl ?_)
          rw [FibNode.entriesF]
          exact List.mem_cons_self _ _
        · intro q hq
          rw [hlive] at hq
          have hq2 : q ∈ entriesFL (FibNode.node mk2 v md mcs :: rest) := by
            rw [entriesFL]
            exact hq
          obtain ⟨t, ht, hqt⟩ := (mem_entriesFL _ q).mp hq2
          exact hh2 (FibNode.node mk2 v md mcs) rfl t ht q hqt

/-- The live entries of an array heap. -/
def MinHeap.liveEntries (h : MinHeap α) : List (α × ℕ) :=
  h.heap.map (fun e => (e.key, e.value))

def FourAryHeap.liveEntries (h : FourAryHeap α) : List (α × ℕ) :=
  h.entries.map (fun e => (e.key, e.value))

/-- C4: for every priority-queue variant (binary MinHeap, FourAryHeap,
FibonacciHeap, PairingHeap) and every operation sequence from the empty
heap, `extractMin` returns `null` exactly when the queue holds no live
entries, and otherwise returns the value of an entry whose key is minimal
among the live entries. -/
theorem claim_C4_extract_min (ops : List (HeapOp α)) :
    ((((MinHeap.runHeapOps ops).extractMin).1 = none
        ↔ (MinHeap.runHeapOps ops).liveEntries = [])
      ∧ ∀ v, ((MinHeap.runHeapOps ops).extractMin).1 = some v →
          ∃ p ∈ (MinHeap.runHeapOps ops).liveEntries, p.2 = v
            ∧ ∀ q ∈ (MinHeap.runHeapOps ops).liveEntries, p.1 ≤ q.1)
    ∧ ((((FourAryHeap.runHeapOps ops).extractMin).1 = none
        ↔ (FourAryHeap.runHeapOps ops).liveEntries = [])
      ∧ ∀ v, ((FourAryHeap.runHeapOps ops).extractMin).1 = some v →
          ∃ p ∈ (FourAryHeap.runHeapOps ops).liveEntries, p.2 = v
            ∧ ∀ q ∈ (FourAryHeap.runHeapOps ops).liveEntries, p.1 ≤ q.1)
    ∧ ((((PairingHeap.runHeapOps ops).extractMin).1 = none
        ↔ (PairingHeap.runHeapOps ops).liveEntries = [])
      ∧ ∀ v, ((PairingHeap.runHeapOps ops).extractMin).1 = some v →
          ∃ p ∈ (PairingHeap.runHeapOps ops).liveEntries, p.2 = v
            ∧ ∀ q ∈ (PairingHeap.runHeapOps ops).liveEntries, p.1 ≤ q.1)
    ∧ ((((FibonacciHeap.runHeapOps ops).extractMin).1 = none
        ↔ (FibonacciHeap.runHeapOps ops).liveEntries = [])
      ∧ ∀ v, ((FibonacciHeap.runHeapOps ops).extractMin).1 = some v →
          ∃ p ∈ (FibonacciHeap.runHeapOps ops).liveEntries, p.2 = v
            ∧ ∀ q ∈ (FibonacciHeap.runHeapOps ops).liveEntries,
              p.1 ≤ q.1) := by
  refine ⟨?_, ?_, ?_, ?_⟩
  · obtain ⟨hn, hs⟩ := aryExtract_min_spec 2 (by omega)
      (MinHeap.runHeapOps ops).heap (minHeap_runHeapOps_inv ops)
    constructor
    · rw [show ((MinHeap.runHeapOps ops).extractMin).1
        = (aryExtract 2 (MinHeap.runHeapOps ops).heap).1 from rfl, hn]
      constructor
      · intro h
        rw [MinHeap.liveEntries, h]
        rfl
      · intro h
        rw [MinHeap.liveEntries] at h
        simpa using h
    · intro v hv
      have hv2 : (aryExtract 2 (MinHeap.runHeapOps ops).heap).1
          = some v := hv
      obtain ⟨e, he, hval, hmin⟩ := hs v hv2
      refine ⟨(e.key, e.value), List.mem_map.mpr ⟨e, he, rfl⟩, hval, ?_⟩
      intro q hq
      obtain ⟨e2, he2, hq2⟩ := List.mem_map.mp hq
      rw [← hq2]
      exact not_lt.mp (hmin e2 he2)
  · obtain ⟨hn, hs⟩ := aryExtract_min_spec 4 (by omega)
      (FourAryHeap.runHeapOps ops).entries (fourAry_runHeapOps_inv ops)
    constructor
    · rw [show ((FourAryHeap.runHeapOps ops).extractMin).1
        = (aryExtract 4 (FourAryHeap.runHeapOps ops).entries).1 from rfl, hn]
      constructor
      · intro h
        rw [FourAryHeap.liveEntries, h]
        rfl
      · intro h
        rw [FourAryHeap.liveEntries] at h
        simpa using h
    · intro v hv
      have hv2 : (aryExtract 4 (FourAryHeap.runHeapOps ops).entries).1
          = some v := hv
      obtain ⟨e, he, hval, hmin⟩ := hs v hv2
      refine ⟨(e.key, e.value), List.mem_map.mpr ⟨e, he, rfl⟩, hval, ?_⟩
      intro q hq
      obtain ⟨e2, he2, hq2⟩ := List.mem_map.mp hq
      rw [← hq2]
      exact not_lt.mp (hmin e2 he2)
  · exact pairing_extract_min_spec (PairingHeap.runHeapOps ops)
      (pairing_runHeapOps_inv ops)
  · exact fib_extract_min_spec (FibonacciHeap.runHeapOps ops)
      (fib_runHeapOps_inv ops)

theorem claim_C4_extract_min_witness :
    ∃ p ∈ (MinHeap.runHeapOps [HeapOp.ins (5 : ℚ) 7]).liveEntries,
      p.2 = 7
      ∧ ∀ q ∈ (MinHeap.runHeapOps [HeapOp.ins (5 : ℚ) 7]).liveEntries,
          p.1 ≤ q.1 :=
  (claim_C4_extract_min [HeapOp.ins (5 : ℚ) 7]).1.2 7 (by rfl)

/-! ## Walks and shortest-path costs over a router state

The graph of a router state is given by `neighborsOf`.  A `Walk` from `u`
to `v` of cost `c` follows adjacency edges; `IsMinWalk` states that `c` is
the least achievable cost.  These are the specification-side notions used
to state shortest-path optimality. -/

inductive Walk (s : RouterState) : ℕ → ℕ → ℚ → Prop
  | nil (u : ℕ) : Walk s u u 0
  | cons (u v t : ℕ) (w c : ℚ) (h : (v, w) ∈ neighborsOf s u)
      (hw : Walk s v t c) : Walk s u t (w + c)

def IsMinWalk (s : RouterState) (u v : ℕ) (c : ℚ) : Prop :=
  Walk s u v c ∧ ∀ c2, Walk s u v c2 → c ≤ c2

/-- Hypotheses on the graph of a router state under which the search is
correct: in-range targets, non-negative weights, and undirectedness. -/
structure GraphOK (s : RouterState) : Prop where
  htgt : ∀ u, ∀ p ∈ neighborsOf s u, p.1 < s.coords.length
  hsrc : ∀ u, neighborsOf s u ≠ [] → u < s.coords.length
  hw : ∀ u, ∀ p ∈ neighborsOf s u, 0 ≤ p.2
  hsym : ∀ u v w, (v, w) ∈ neighborsOf s u → (u, w) ∈ neighborsOf s v

theorem walk_trans (s : RouterState) (u v t : ℕ) (c1 c2 : ℚ)
    (h1 : Walk s u v c1) (h2 : Walk s v t c2) : Walk s u t (c1 + c2) := by
  induction h1 with
  | nil u => rw [zero_add]; exact h2
  | cons u x t2 w c h hw ih =>
    rw [add_assoc]
    exact Walk.cons u x t w (c + c2) h (ih h2)

theorem walk_symm (s : RouterState) (hg : GraphOK s) (u v : ℕ) (c : ℚ)
    (h : Walk s u v c) : Walk s v u c := by
  induction h with
  | nil u => exact Walk.nil u
  | cons u x t w c h hw ih =>
    have := walk_trans s t x u c w ih
      (by
        have hx : (u, w) ∈ neighborsOf s x := hg.hsym u x w h
        have := Walk.cons x u u w 0 hx (Walk.nil u)
        rw [add_zero] at this
        exact this)
    rw [add_comm] at this
    exact this

theorem walk_nonneg (s : RouterState) (hg : GraphOK s) (u v : ℕ) (c : ℚ)
    (h : Walk s u v c) : 0 ≤ c := by
  induction h with
  | nil u => exact le_refl 0
  | cons u x t w c h hw ih =>
    have := hg.hw u (x, w) h
    have h2 : (0 : ℚ) ≤ w := this
    linarith

theorem walk_subpath_min (s : RouterState) (hg : GraphOK s) (u v t : ℕ)
    (c1 c2 cm : ℚ) (h1 : Walk s u v c1) (h2 : Walk s v t c2)
    (hm : IsMinWalk s u t cm) : cm ≤ c1 + c2 :=
  hm.2 (c1 + c2) (walk_trans s u v t c1 c2 h1 h2)

theorem isMinWalk_self (s : RouterState) (hg : GraphOK s) (u : ℕ) :
    IsMinWalk s u u 0 :=
  ⟨Walk.nil u, fun c2 h2 => walk_nonneg s hg u u c2 h2⟩

/-! ### `FourAryHeap` wrappers used by the search proof -/

theorem fourAry_insert_spec (h : FourAryHeap α) (k : α) (v : ℕ)
    (hh : IsAryHeap 4 h.entries) :
    IsAryHeap 4 (h.insert k v).entries
    ∧ (((h.insert k v).entries : List (HeapEntry α)) : Multiset (HeapEntry α))
        = ((h.entries : List (HeapEntry α)) : Multiset (HeapEntry α))
          + {(⟨k, v, h.insertCounter⟩ : HeapEntry α)}
    ∧ (h.insert k v).entries.length = h.entries.length + 1 :=
  aryInsertGo_spec 4 (by omega) ⟨k, v, h.insertCounter⟩ h.entries hh

theorem fourAry_extract_none (h : FourAryHeap α) :
    (h.extractMin).1 = none ↔ h.entries = [] := by
  obtain ⟨l, c⟩ := h
  cases l with
  | nil => exact ⟨fun _ => rfl, fun _ => rfl⟩
  | cons e0 rest =>
    constructor
    · intro hc
      have : (aryExtract 4 (e0 :: rest)).1 = none := hc
      rw [aryExtract_fst] at this
      exact absurd this (by simp)
    · intro hc
      exact absurd hc (by simp)

theorem fourAry_extract_cons (h : FourAryHeap α) (e0 : HeapEntry α)
    (rest : List (HeapEntry α)) (hl : h.entries = e0 :: rest)
    (hh : IsAryHeap 4 h.entries) :
    (h.extractMin).1 = some e0.value
    ∧ IsAryHeap 4 (h.extractMin).2.entries
    ∧ (((h.extractMin).2.entries : List (HeapEntry α))
        : Multiset (HeapEntry α)) + {e0}
        = ((h.entries : List (HeapEntry α)) : Multiset (HeapEntry α))
    ∧ (h.extractMin).2.entries.length = rest.length
    ∧ (h.extractMin).2.insertCounter = h.insertCounter := by
  obtain ⟨l, c⟩ := h
  have hl2 : l = e0 :: rest := hl
  subst hl2
  have hh2 : IsAryHeap 4 (e0 :: rest) := hh
  obtain ⟨h1, h2, h3, h4⟩ := aryExtract_spec 4 (by omega) e0 rest hh2
  exact ⟨h1, h2, h3, h4, rfl⟩

/-- The root entry of a nonempty heap satisfying the invariant has the
minimal key. -/
theorem fourAry_root_key_min (h : FourAryHeap α) (hh : IsAryHeap 4 h.entries)
    (e0 : HeapEntry α) (rest : List (HeapEntry α))
    (hl : h.entries = e0 :: rest) :
    ∀ e ∈ h.entries, e0.key ≤ e.key := by
  intro e he
  rw [hl] at he
  obtain ⟨j, hj⟩ := List.mem_iff_getElem?.mp he
  have hroot := aryHeap_root_min 4 (by omega) (e0 :: rest) (hl ▸ hh) e0
    (by simp) j e hj
  rw [not_entLt_iff] at hroot
  rcases hroot with h1 | ⟨h1, _⟩
  · exact le_of_lt h1
  · exact le_of_eq h1.symm

theorem peekQ_nil (h : FourAryHeap QInf) (hl : h.entries = []) :
    peekQ h = ⊤ := by
  rw [peekQ, hl]

theorem peekQ_cons (h : FourAryHeap QInf) (e0 : HeapEntry QInf)
    (rest : List (HeapEntry QInf)) (hl : h.entries = e0 :: rest) :
    peekQ h = e0.key := by
  rw [peekQ, hl]

theorem peekQ_le (h : FourAryHeap QInf) (hh : IsAryHeap 4 h.entries) :
    ∀ e ∈ h.entries, peekQ h ≤ e.key := by
  intro e he
  cases hl : h.entries with
  | nil =>
    rw [hl] at he
    exact absurd he (by simp)
  | cons e0 rest =>
    rw [peekQ_cons h e0 rest hl]
    exact fourAry_root_key_min h hh e0 rest hl e he

theorem fourAry_size_eq (h : FourAryHeap α) :
    h.size = h.entries.length := rfl

/-! ### The bidirectional-Dijkstra invariant

`SideInv` is the one-sided Dijkstra invariant (for the forward side
instantiate `origin := si`, `g := gF`, `vis := visF`, `prev := prevF`,
`hp := openF`; for the reverse side the mirrored fields).  `CrossInv` ties
the two sides to the best-meeting bookkeeping. -/

structure SideInv (s : RouterState) (origin : ℕ) (g : List QInf)
    (vis : List Bool) (prev : List ℤ) (hp : FourAryHeap QInf)
    (x : ℕ) : Prop where
  hglen : g.length = s.coords.length
  hvlen : vis.length = s.coords.length
  hplen : prev.length = s.coords.length
  hheap : IsAryHeap 4 hp.entries
  hsettled : ∀ v, vis.getD v false = true →
      ∃ c : ℚ, g.getD v ⊤ = (c : QInf) ∧ IsMinWalk s origin v c
  hreal : ∀ (v : ℕ) (c : ℚ), g.getD v ⊤ = (c : QInf) → Walk s origin v c
  hedge : ∀ u, vis.getD u false = true → u ≠ x →
      ∀ p ∈ neighborsOf s u,
      g.getD p.1 ⊤ ≤ g.getD u ⊤ + (p.2 : QInf)
  hcover : ∀ v, vis.getD v false = false → ∀ c : ℚ,
      g.getD v ⊤ = (c : QInf) →
      ∃ e ∈ hp.entries, e.value = v ∧ e.key = (c : QInf)
  hkeys : ∀ e ∈ hp.entries, g.getD e.value ⊤ ≤ e.key
      ∧ e.key ≠ ⊤ ∧ e.value < s.coords.length
  horigin : g.getD origin ⊤ = (0 : QInf)
  hprevne : ∀ (v : ℕ) (c : ℚ), g.getD v ⊤ = (c : QInf) → v ≠ origin →
      ∃ u : ℕ, prev.getD v (-1) = (u : ℤ)
  hprevE : ∀ (v u : ℕ), prev.getD v (-1) = (u : ℤ) →
      ∃ w : ℚ, (v, w) ∈ neighborsOf s u
        ∧ g.getD u ⊤ + (w : QInf) ≤ g.getD v ⊤
  hprevvis : ∀ (v u : ℕ), prev.getD v (-1) = (u : ℤ) →
      vis.getD u false = true ∧ u < s.coords.length
  hrank : ∃ r : List ℕ, r.Nodup
      ∧ (∀ u, vis.getD u false = true ↔ u ∈ r)
      ∧ ∀ (v u : ℕ), prev.getD v (-1) = (u : ℤ) → u ∈ r
          ∧ (v ∈ r → r.indexOf u < r.indexOf v)

structure CrossInv (s : RouterState) (st : SearchState) : Prop where
  hm2 : ∀ (v : ℕ) (cf cr : ℚ), st.gF.getD v ⊤ = (cf : QInf) →
      st.gR.getD v ⊤ = (cr : QInf) →
      st.bestPathCost ≤ ((cf + cr : ℚ) : QInf)
  hbest : (st.bestPathCost = ⊤ ∧ st.meetingNode = -1) ∨
      ∃ (m : ℕ) (cf cr : ℚ), st.meetingNode = (m : ℤ)
        ∧ m < s.coords.length
        ∧ st.gF.getD m ⊤ = (cf : QInf) ∧ st.gR.getD m ⊤ = (cr : QInf)
        ∧ st.bestPathCost = ((cf + cr : ℚ) : QInf)

def SearchInv (s : RouterState) (si ei : ℕ) (st : SearchState) : Prop :=
  SideInv s si st.gF st.visF st.prevF st.openF s.coords.length
  ∧ SideInv s ei st.gR st.visR st.nextR st.openR s.coords.length
  ∧ CrossInv s st

/-- Every finite `g` value is non-negative (it is realised by a walk). -/
theorem sideInv_g_nonneg (s : RouterState) (hg : GraphOK s) (origin : ℕ)
    (g : List QInf) (vis : List Bool) (prev : List ℤ) (hp : FourAryHeap QInf)
    (x : ℕ) (hs : SideInv s origin g vis prev hp x) (v : ℕ) (c : ℚ)
    (hc : g.getD v ⊤ = (c : QInf)) : 0 ≤ c :=
  walk_nonneg s hg origin v c (hs.hreal v c hc)

/-- Crossing lemma: a walk from a `P`-node to a non-`P`-node crosses the
boundary along some edge. -/
theorem walk_cross (s : RouterState) (P : ℕ → Prop) (a b : ℕ) (c : ℚ)
    (hw : Walk s a b c) (ha : P a) (hb : ¬ P b) :
    ∃ (u x : ℕ) (w c1 c2 : ℚ), P u ∧ ¬ P x ∧ (x, w) ∈ neighborsOf s u
      ∧ Walk s a u c1 ∧ Walk s x b c2 ∧ c = c1 + w + c2 := by
  induction hw with
  | nil u => exact absurd ha hb
  | cons u v t w c h hw ih =>
    by_cases hv : P v
    · obtain ⟨u2, x, w2, c1, c2, h1, h2, h3, h4, h5, h6⟩ := ih hv hb
      refine ⟨u2, x, w2, w + c1, c2, h1, h2, h3, ?_, h5, by linarith⟩
      exact Walk.cons u v u2 w c1 h h4
    · exact ⟨u, v, w, 0, c, ha, hv, h, Walk.nil u, hw, by linarith⟩

theorem mem_of_multiset_add_singleton {β : Type} (l l2 : List β) (x : β)
    (hM : ((l2 : List β) : Multiset β) = ((l : List β) : Multiset β) + {x})
    (e : β) : e ∈ l2 ↔ e ∈ l ∨ e = x := by
  constructor
  · intro he
    have h2 : e ∈ ((l2 : List β) : Multiset β) := Multiset.mem_coe.mpr he
    rw [hM] at h2
    rcases Multiset.mem_add.mp h2 with h | h
    · exact Or.inl (Multiset.mem_coe.mp h)
    · exact Or.inr (Multiset.mem_singleton.mp h)
  · intro he
    have h2 : e ∈ ((l : List β) : Multiset β) + ({x} : Multiset β) := by
      rcases he with h | h
      · exact Multiset.mem_add.mpr (Or.inl (Multiset.mem_coe.mpr h))
      · exact Multiset.mem_add.mpr (Or.inr (by simp [h]))
    rw [← hM] at h2
    exact Multiset.mem_coe.mp h2

theorem getD_set_self2 {β : Type} (l : List β) (n : ℕ) (a d : β)
    (h : n < l.length) : (l.set n a).getD n d = a := by
  rw [List.getD_eq_getElem?_getD, List.getElem?_set_self h, Option.getD_some]

theorem getD_set_ne2 {β : Type} (l : List β) (n m : ℕ) (a d : β)
    (h : n ≠ m) : (l.set n a).getD m d = l.getD m d := by
  rw [List.getD_eq_getElem?_getD, List.getElem?_set_ne h,
    ← List.getD_eq_getElem?_getD]

/-- A single edge is a walk. -/
theorem walk_edge (s : RouterState) (u v : ℕ) (w : ℚ)
    (h : (v, w) ∈ neighborsOf s u) : Walk s u v w := by
  have h2 := Walk.cons u v v w 0 h (Walk.nil v)
  rw [add_zero] at h2
  exact h2

/-- Preservation of the search invariant by one forward edge relaxation from
a settled node, together with the facts needed by the enclosing loop: the
relaxed target is bounded by `g(current) + w`, `g` never increases, settled
`g` values are unchanged, the reverse side is untouched, `bestPathCost`
never increases, and at most one heap entry is added. -/
theorem relaxF_spec (s : RouterState) (hg : GraphOK s) (si x : ℕ)
    (st : SearchState) (current nb : ℕ) (w : ℚ)
    (hsF : SideInv s si st.gF st.visF st.prevF st.openF x)
    (hcross : CrossInv s st)
    (hcur : st.visF.getD current false = true)
    (hmem : (nb, w) ∈ neighborsOf s current) :
    SideInv s si (relaxF st current nb w).gF (relaxF st current nb w).visF
      (relaxF st current nb w).prevF (relaxF st current nb w).openF x
    ∧ CrossInv s (relaxF st current nb w)
    ∧ (relaxF st current nb w).gF.getD nb ⊤
        ≤ st.gF.getD current ⊤ + (w : QInf)
    ∧ (∀ v, (relaxF st current nb w).gF.getD v ⊤ ≤ st.gF.getD v ⊤)
    ∧ (∀ v, st.visF.getD v false = true →
        (relaxF st current nb w).gF.getD v ⊤ = st.gF.getD v ⊤)
    ∧ (relaxF st current nb w).gR = st.gR
    ∧ (relaxF st current nb w).visF = st.visF
    ∧ (relaxF st current nb w).visR = st.visR
    ∧ (relaxF st current nb w).nextR = st.nextR
    ∧ (relaxF st current nb w).openR = st.openR
    ∧ (relaxF st current nb w).bestPathCost ≤ st.bestPathCost
    ∧ (relaxF st current nb w).openF.entries.length
        ≤ st.openF.entries.length + 1 := by
  obtain ⟨ccur, hccur, hmincur⟩ := hsF.hsettled current hcur
  have hcurN : current < s.coords.length :=
    hg.hsrc current (List.ne_nil_of_mem hmem)
  have hnbN : nb < s.coords.length := hg.htgt current (nb, w) hmem
  have hwnn : 0 ≤ w := hg.hw current (nb, w) hmem
  have hccnn : 0 ≤ ccur :=
    sideInv_g_nonneg s hg si _ _ _ _ x hsF current ccur hccur
  have hwalknb : Walk s si nb (ccur + w) :=
    walk_trans s si current nb ccur w (hsF.hreal current ccur hccur)
      (walk_edge s current nb w hmem)
  unfold relaxF
  simp only []
  by_cases hlt : st.gF.getD current ⊤ + (w : QInf) < st.gF.getD nb ⊤
  · rw [if_pos hlt]
    have htg : st.gF.getD current ⊤ + (w : QInf) = ((ccur + w : ℚ) : QInf) := by
      rw [hccur]
      exact (WithTop.coe_add ccur w).symm
    have hnbuns : st.visF.getD nb false = false := by
      cases hv : st.visF.getD nb false with
      | false => rfl
      | true =>
        obtain ⟨cnb, hcnb, hminnb⟩ := hsF.hsettled nb hv
        have hle := hminnb.2 (ccur + w) hwalknb
        rw [htg, hcnb] at hlt
        have := WithTop.coe_lt_coe.mp hlt
        linarith
    have hnbsi : nb ≠ si := by
      intro h
      rw [h, hsF.horigin, htg] at hlt
      rw [← WithTop.coe_zero] at hlt
      have := WithTop.coe_lt_coe.mp hlt
      linarith
    have hcurnb : current ≠ nb := by
      intro h
      rw [h] at hccur
      rw [htg, hccur] at hlt
      have := WithTop.coe_lt_coe.mp hlt
      linarith
    obtain ⟨hH2, hM2, hL2⟩ := fourAry_insert_spec st.openF
      (st.gF.getD current ⊤ + (w : QInf)) nb hsF.hheap
    have hmem2 := mem_of_multiset_add_singleton st.openF.entries
      (st.openF.insert (st.gF.getD current ⊤ + (w : QInf)) nb).entries
      ⟨st.gF.getD current ⊤ + (w : QInf), nb, st.openF.insertCounter⟩ hM2
    have hgset : ∀ v, (st.gF.set nb (st.gF.getD current ⊤ + (w : QInf))).getD
        v ⊤ = if v = nb then ((ccur + w : ℚ) : QInf) else st.gF.getD v ⊤ := by
      intro v
      by_cases hv : v = nb
      · rw [if_pos hv, hv, getD_set_self2 _ _ _ _ (by rw [hsF.hglen]; omega),
          htg]
      · rw [if_neg hv, getD_set_ne2 _ _ _ _ _ (fun h => hv h.symm)]
    have hgmono : ∀ v, (st.gF.set nb (st.gF.getD current ⊤ + (w : QInf))).getD
        v ⊤ ≤ st.gF.getD v ⊤ := by
      intro v
      rw [hgset v]
      by_cases hv : v = nb
      · rw [if_pos hv, hv, ← htg]
        exact le_of_lt hlt
      · rw [if_neg hv]
    have hpset : ∀ v, (st.prevF.set nb (current : ℤ)).getD v (-1)
        = if v = nb then (current : ℤ) else st.prevF.getD v (-1) := by
      intro v
      by_cases hv : v = nb
      · rw [if_pos hv, hv, getD_set_self2 _ _ _ _ (by rw [hsF.hplen]; omega)]
      · rw [if_neg hv, getD_set_ne2 _ _ _ _ _ (fun h => hv h.symm)]
    refine ⟨?_, ?_, ?_, ?_, ?_, rfl, rfl, rfl, rfl, rfl, ?_, ?_⟩
    · -- forward SideInv
      refine ⟨by simp [hsF.hglen], hsF.hvlen, by simp [hsF.hplen], hH2,
        ?_, ?_, ?_, ?_, ?_, ?_, ?_, ?_, ?_, ?_⟩
      · -- hsettled
        intro v hv
        have hvne : v ≠ nb := fun h => by
          rw [h] at hv
          rw [hv] at hnbuns
          exact Bool.noConfusion hnbuns
        obtain ⟨c, hc, hmin⟩ := hsF.hsettled v hv
        refine ⟨c, ?_, hmin⟩
        rw [hgset v, if_neg hvne]
        exact hc
      · -- hreal
        intro v c hc
        rw [hgset v] at hc
        by_cases hv : v = nb
        · rw [if_pos hv] at hc
          have hcc : c = ccur + w := (WithTop.coe_inj.mp hc).symm
          rw [hv, hcc]
          exact hwalknb
        · rw [if_neg hv] at hc
          exact hsF.hreal v c hc
      · -- hedge
        intro u hu hux p hp
        have hune : u ≠ nb := fun h => by
          rw [h] at hu
          rw [hu] at hnbuns
          exact Bool.noConfusion hnbuns
        rw [hgset u, if_neg hune]
        by_cases hv : p.1 = nb
        · rw [hgset p.1, if_pos hv, ← htg]
          have hold := hsF.hedge u hu hux p hp
          rw [hv] at hold
          exact le_trans (le_of_lt hlt) hold
        · rw [hgset p.1, if_neg hv]
          exact hsF.hedge u hu hux p hp
      · -- hcover
        intro v hv c hc
        rw [hgset v] at hc
        by_cases hveq : v = nb
        · rw [if_pos hveq] at hc
          refine ⟨⟨st.gF.getD current ⊤ + (w : QInf), nb,
            st.openF.insertCounter⟩, (hmem2 _).mpr (Or.inr rfl),
            hveq.symm, ?_⟩
          rw [htg, hc]
        · rw [if_neg hveq] at hc
          obtain ⟨e, he, hev, hek⟩ := hsF.hcover v hv c hc
          exact ⟨e, (hmem2 e).mpr (Or.inl he), hev, hek⟩
      · -- hkeys
        intro e he
        rcases (hmem2 e).mp he with h | h
        · obtain ⟨h1, h2, h3⟩ := hsF.hkeys e h
          exact ⟨le_trans (hgmono e.value) h1, h2, h3⟩
        · rw [h]
          refine ⟨?_, by rw [htg]; exact WithTop.coe_ne_top, hnbN⟩
          rw [hgset nb, if_pos rfl, htg]
      · -- horigin
        rw [hgset si, if_neg (fun h => hnbsi h.symm)]
        exact hsF.horigin
      · -- hprevne
        intro v c hc hvo
        rw [hpset v]
        by_cases hv : v = nb
        · rw [if_pos hv]
          exact ⟨current, rfl⟩
        · rw [if_neg hv]
          rw [hgset v, if_neg hv] at hc
          exact hsF.hprevne v c hc hvo
      · -- hprevE
        intro v u hvu
        rw [hpset v] at hvu
        by_cases hv : v = nb
        · rw [if_pos hv] at hvu
          have huc : u = current := by
            have := Int.natCast_inj.mp hvu.symm
            omega
          refine ⟨w, ?_, ?_⟩
          · rw [hv, huc]
            exact hmem
          · rw [huc, hgset current, if_neg hcurnb, hgset v, if_pos hv, ← htg]
        · rw [if_neg hv] at hvu
          obtain ⟨w2, hw2, hineq⟩ := hsF.hprevE v u hvu
          refine ⟨w2, hw2, ?_⟩
          rw [hgset v, if_neg hv]
          exact le_trans (add_le_add_right (hgmono u) _) hineq
      · -- hprevvis
        intro v u hvu
        rw [hpset v] at hvu
        by_cases hv : v = nb
        · rw [if_pos hv] at hvu
          have huc : u = current := by
            have := Int.natCast_inj.mp hvu.symm
            omega
          rw [huc]
          exact ⟨hcur, hcurN⟩
        · rw [if_neg hv] at hvu
          exact hsF.hprevvis v u hvu
      · -- hrank
        obtain ⟨r, hnd, hiff, hptr⟩ := hsF.hrank
        refine ⟨r, hnd, hiff, ?_⟩
        intro v u hvu
        rw [hpset v] at hvu
        by_cases hv : v = nb
        · rw [if_pos hv] at hvu
          have huc : u = current := by
            have := Int.natCast_inj.mp hvu.symm
            omega
          constructor
          · rw [huc]
            exact (hiff current).mp hcur
          · intro hvr
            exfalso
            rw [hv] at hvr
            have := (hiff nb).mpr hvr
            rw [this] at hnbuns
            exact Bool.noConfusion hnbuns
        · rw [if_neg hv] at hvu
          exact hptr v u hvu
    · -- CrossInv
      by_cases hhit : st.gR.getD nb ⊤ ≠ ⊤
        ∧ st.gF.getD current ⊤ + (w : QInf) + st.gR.getD nb ⊤
          < st.bestPathCost
      · constructor
        · intro v cf cr hcf hcr
          have hcf2 : (st.gF.set nb (st.gF.getD current ⊤
              + (w : QInf))).getD v ⊤ = (cf : QInf) := hcf
          have hcr2 : st.gR.getD v ⊤ = (cr : QInf) := hcr
          show (if st.gR.getD nb ⊤ ≠ ⊤ ∧ st.gF.getD current ⊤ + (w : QInf)
              + st.gR.getD nb ⊤ < st.bestPathCost then
              st.gF.getD current ⊤ + (w : QInf) + st.gR.getD nb ⊤
            else st.bestPathCost) ≤ ((cf + cr : ℚ) : QInf)
          rw [if_pos hhit]
          by_cases hv : v = nb
          · rw [hv] at hcf2 hcr2
            rw [hgset nb, if_pos rfl] at hcf2
            have hcc : cf = ccur + w := (WithTop.coe_inj.mp hcf2).symm
            have heq : st.gF.getD current ⊤ + (w : QInf) + st.gR.getD nb ⊤
                = ((cf + cr : ℚ) : QInf) := by
              rw [htg, hcr2, hcc, WithTop.coe_add (ccur + w) cr]
            exact le_of_eq heq
          · rw [hgset v, if_neg hv] at hcf2
            exact le_trans (le_of_lt hhit.2) (hcross.hm2 v cf cr hcf2 hcr2)
        · obtain ⟨crnb, hcrnb⟩ := WithTop.ne_top_iff_exists.mp hhit.1
          refine Or.inr ⟨nb, ccur + w, crnb, ?_, hnbN, ?_, ?_, ?_⟩
          · show (if st.gR.getD nb ⊤ ≠ ⊤ ∧ st.gF.getD current ⊤ + (w : QInf)
                + st.gR.getD nb ⊤ < st.bestPathCost then ((nb : ℕ) : ℤ)
              else st.meetingNode) = ((nb : ℕ) : ℤ)
            rw [if_pos hhit]
          · show (st.gF.set nb (st.gF.getD current ⊤ + (w : QInf))).getD nb ⊤
              = ((ccur + w : ℚ) : QInf)
            rw [hgset nb, if_pos rfl]
          · exact hcrnb.symm
          · show (if st.gR.getD nb ⊤ ≠ ⊤ ∧ st.gF.getD current ⊤ + (w : QInf)
                + st.gR.getD nb ⊤ < st.bestPathCost then
                st.gF.getD current ⊤ + (w : QInf) + st.gR.getD nb ⊤
              else st.bestPathCost) = (((ccur + w) + crnb : ℚ) : QInf)
            rw [if_pos hhit, htg, ← hcrnb, ← WithTop.coe_add]
      · constructor
        · intro v cf cr hcf hcr
          have hcf2 : (st.gF.set nb (st.gF.getD current ⊤
              + (w : QInf))).getD v ⊤ = (cf : QInf) := hcf
          have hcr2 : st.gR.getD v ⊤ = (cr : QInf) := hcr
          show (if st.gR.getD nb ⊤ ≠ ⊤ ∧ st.gF.getD current ⊤ + (w : QInf)
              + st.gR.getD nb ⊤ < st.bestPathCost then
              st.gF.getD current ⊤ + (w : QInf) + st.gR.getD nb ⊤
            else st.bestPathCost) ≤ ((cf + cr : ℚ) : QInf)
          rw [if_neg hhit]
          push_neg at hhit
          by_cases hv : v = nb
          · rw [hv] at hcf2 hcr2
            rw [hgset nb, if_pos rfl] at hcf2
            have hcc : cf = ccur + w := (WithTop.coe_inj.mp hcf2).symm
            have hne : st.gR.getD nb ⊤ ≠ ⊤ := by
              rw [hcr2]
              exact WithTop.coe_ne_top
            have hb := hhit hne
            rw [htg, hcr2] at hb
            rw [hcc]
            calc st.bestPathCost ≤ ((ccur + w : ℚ) : QInf) + (cr : QInf) :=
                hb
              _ = (((ccur + w) + cr : ℚ) : QInf) := by
                rw [WithTop.coe_add (ccur + w) cr]
          · rw [hgset v, if_neg hv] at hcf2
            exact hcross.hm2 v cf cr hcf2 hcr2
        · push_neg at hhit
          rcases hcross.hbest with h | ⟨m, cf, cr, hmeq, hmN, hgf, hgr, hbe⟩
          · have hcond : ¬ (st.gR.getD nb ⊤ ≠ ⊤ ∧ st.gF.getD current ⊤
                + (w : QInf) + st.gR.getD nb ⊤ < st.bestPathCost) := by
              intro hcon
              exact absurd (hhit hcon.1) (not_le.mpr hcon.2)
            refine Or.inl ⟨?_, ?_⟩
            · show (if st.gR.getD nb ⊤ ≠ ⊤ ∧ st.gF.getD current ⊤
                  + (w : QInf) + st.gR.getD nb ⊤ < st.bestPathCost then
                  st.gF.getD current ⊤ + (w : QInf) + st.gR.getD nb ⊤
                else st.bestPathCost) = ⊤
              rw [if_neg hcond]
              exact h.1
            · show (if st.gR.getD nb ⊤ ≠ ⊤ ∧ st.gF.getD current ⊤
                  + (w : QInf) + st.gR.getD nb ⊤ < st.bestPathCost then
                  ((nb : ℕ) : ℤ) else st.meetingNode) = -1
              rw [if_neg hcond]
              exact h.2
          · have hmne : m ≠ nb := by
              intro hcon
              rw [hcon] at hgf hgr
              have hne : st.gR.getD nb ⊤ ≠ ⊤ := by
                rw [hgr]
                exact WithTop.coe_ne_top
              have hb := hhit hne
              rw [hgr, hbe, htg] at hb
              rw [hgf, htg] at hlt
              have h1 := WithTop.coe_lt_coe.mp hlt
              have h2 : ((cf + cr : ℚ) : QInf)
                  ≤ (((ccur + w) : ℚ) : QInf) + ((cr : ℚ) : QInf) := hb
              rw [← WithTop.coe_add] at h2
              have h3 := WithTop.coe_le_coe.mp h2
              linarith
            have hcond : ¬ (st.gR.getD nb ⊤ ≠ ⊤ ∧ st.gF.getD current ⊤
                + (w : QInf) + st.gR.getD nb ⊤ < st.bestPathCost) := by
              intro hcon
              exact absurd (hhit hcon.1) (not_le.mpr hcon.2)
            refine Or.inr ⟨m, cf, cr, ?_, hmN, ?_, hgr, ?_⟩
            · show (if st.gR.getD nb ⊤ ≠ ⊤ ∧ st.gF.getD current ⊤
                  + (w : QInf) + st.gR.getD nb ⊤ < st.bestPathCost then
                  ((nb : ℕ) : ℤ) else st.meetingNode) = ((m : ℕ) : ℤ)
              rw [if_neg hcond]
              exact hmeq
            · show (st.gF.set nb (st.gF.getD current ⊤ + (w : QInf))).getD
                  m ⊤ = (cf : QInf)
              rw [hgset m, if_neg hmne]
              exact hgf
            · show (if st.gR.getD nb ⊤ ≠ ⊤ ∧ st.gF.getD current ⊤
                  + (w : QInf) + st.gR.getD nb ⊤ < st.bestPathCost then
                  st.gF.getD current ⊤ + (w : QInf) + st.gR.getD nb ⊤
                else st.bestPathCost) = ((cf + cr : ℚ) : QInf)
              rw [if_neg hcond]
              exact hbe
    · -- bound at nb
      show (st.gF.set nb (st.gF.getD current ⊤ + (w : QInf))).getD nb ⊤
        ≤ st.gF.getD current ⊤ + (w : QInf)
      rw [hgset nb, if_pos rfl, htg]
    · -- pointwise mono
      intro v
      exact hgmono v
    · -- settled unchanged
      intro v hv
      have hvne : v ≠ nb := fun h => by
        rw [h] at hv
        rw [hv] at hnbuns
        exact Bool.noConfusion hnbuns
      show (st.gF.set nb (st.gF.getD current ⊤ + (w : QInf))).getD v ⊤
        = st.gF.getD v ⊤
      rw [hgset v, if_neg hvne]
    · -- best only decreases
      show (if st.gR.getD nb ⊤ ≠ ⊤ ∧ st.gF.getD current ⊤ + (w : QInf)
          + st.gR.getD nb ⊤ < st.bestPathCost then
          st.gF.getD current ⊤ + (w : QInf) + st.gR.getD nb ⊤
        else st.bestPathCost) ≤ st.bestPathCost
      by_cases hhit : st.gR.getD nb ⊤ ≠ ⊤
        ∧ st.gF.getD current ⊤ + (w : QInf) + st.gR.getD nb ⊤
          < st.bestPathCost
      · rw [if_pos hhit]
        exact le_of_lt hhit.2
      · rw [if_neg hhit]
    · -- heap length
      show (st.openF.insert (st.gF.getD current ⊤ + (w : QInf))
          nb).entries.length ≤ st.openF.entries.length + 1
      rw [hL2]
  · rw [if_neg hlt]
    exact ⟨hsF, hcross, not_lt.mp hlt, fun v => le_refl _,
      fun v _ => rfl, rfl, rfl, rfl, rfl, rfl, le_refl _, by omega⟩

theorem relaxR_spec (s : RouterState) (hg : GraphOK s) (ei x : ℕ)
    (st : SearchState) (current nb : ℕ) (w : ℚ)
    (hsR : SideInv s ei st.gR st.visR st.nextR st.openR x)
    (hcross : CrossInv s st)
    (hcur : st.visR.getD current false = true)
    (hmem : (nb, w) ∈ neighborsOf s current) :
    SideInv s ei (relaxR st current nb w).gR (relaxR st current nb w).visR
      (relaxR st current nb w).nextR (relaxR st current nb w).openR x
    ∧ CrossInv s (relaxR st current nb w)
    ∧ (relaxR st current nb w).gR.getD nb ⊤
        ≤ st.gR.getD current ⊤ + (w : QInf)
    ∧ (∀ v, (relaxR st current nb w).gR.getD v ⊤ ≤ st.gR.getD v ⊤)
    ∧ (∀ v, st.visR.getD v false = true →
        (relaxR st current nb w).gR.getD v ⊤ = st.gR.getD v ⊤)
    ∧ (relaxR st current nb w).gF = st.gF
    ∧ (relaxR st current nb w).visF = st.visF
    ∧ (relaxR st current nb w).visR = st.visR
    ∧ (relaxR st current nb w).prevF = st.prevF
    ∧ (relaxR st current nb w).openF = st.openF
    ∧ (relaxR st current nb w).bestPathCost ≤ st.bestPathCost
    ∧ (relaxR st current nb w).openR.entries.length
        ≤ st.openR.entries.length + 1 := by
  obtain ⟨ccur, hccur, hmincur⟩ := hsR.hsettled current hcur
  have hcurN : current < s.coords.length :=
    hg.hsrc current (List.ne_nil_of_mem hmem)
  have hnbN : nb < s.coords.length := hg.htgt current (nb, w) hmem
  have hwnn : 0 ≤ w := hg.hw current (nb, w) hmem
  have hccnn : 0 ≤ ccur :=
    sideInv_g_nonneg s hg ei _ _ _ _ x hsR current ccur hccur
  have hwalknb : Walk s ei nb (ccur + w) :=
    walk_trans s ei current nb ccur w (hsR.hreal current ccur hccur)
      (walk_edge s current nb w hmem)
  unfold relaxR
  simp only []
  by_cases hlt : st.gR.getD current ⊤ + (w : QInf) < st.gR.getD nb ⊤
  · rw [if_pos hlt]
    have htg : st.gR.getD current ⊤ + (w : QInf) = ((ccur + w : ℚ) : QInf) := by
      rw [hccur]
      exact (WithTop.coe_add ccur w).symm
    have hnbuns : st.visR.getD nb false = false := by
      cases hv : st.visR.getD nb false with
      | false => rfl
      | true =>
        obtain ⟨cnb, hcnb, hminnb⟩ := hsR.hsettled nb hv
        have hle := hminnb.2 (ccur + w) hwalknb
        rw [htg, hcnb] at hlt
        have := WithTop.coe_lt_coe.mp hlt
        linarith
    have hnbei : nb ≠ ei := by
      intro h
      rw [h, hsR.horigin, htg] at hlt
      rw [← WithTop.coe_zero] at hlt
      have := WithTop.coe_lt_coe.mp hlt
      linarith
    have hcurnb : current ≠ nb := by
      intro h
      rw [h] at hccur
      rw [htg, hccur] at hlt
      have := WithTop.coe_lt_coe.mp hlt
      linarith
    obtain ⟨hH2, hM2, hL2⟩ := fourAry_insert_spec st.openR
      (st.gR.getD current ⊤ + (w : QInf)) nb hsR.hheap
    have hmem2 := mem_of_multiset_add_singleton st.openR.entries
      (st.openR.insert (st.gR.getD current ⊤ + (w : QInf)) nb).entries
      ⟨st.gR.getD current ⊤ + (w : QInf), nb, st.openR.insertCounter⟩ hM2
    have hgset : ∀ v, (st.gR.set nb (st.gR.getD current ⊤ + (w : QInf))).getD
        v ⊤ = if v = nb then ((ccur + w : ℚ) : QInf) else st.gR.getD v ⊤ := by
      intro v
      by_cases hv : v = nb
      · rw [if_pos hv, hv, getD_set_self2 _ _ _ _ (by rw [hsR.hglen]; omega),
          htg]
      · rw [if_neg hv, getD_set_ne2 _ _ _ _ _ (fun h => hv h.symm)]
    have hgmono : ∀ v, (st.gR.set nb (st.gR.getD current ⊤ + (w : QInf))).getD
        v ⊤ ≤ st.gR.getD v ⊤ := by
      intro v
      rw [hgset v]
      by_cases hv : v = nb
      · rw [if_pos hv, hv, ← htg]
        exact le_of_lt hlt
      · rw [if_neg hv]
    have hpset : ∀ v, (st.nextR.set nb (current : ℤ)).getD v (-1)
        = if v = nb then (current : ℤ) else st.nextR.getD v (-1) := by
      intro v
      by_cases hv : v = nb
      · rw [if_pos hv, hv, getD_set_self2 _ _ _ _ (by rw [hsR.hplen]; omega)]
      · rw [if_neg hv, getD_set_ne2 _ _ _ _ _ (fun h => hv h.symm)]
    refine ⟨?_, ?_, ?_, ?_, ?_, rfl, rfl, rfl, rfl, rfl, ?_, ?_⟩
    · -- reverse SideInv
      refine ⟨by simp [hsR.hglen], hsR.hvlen, by simp [hsR.hplen], hH2,
        ?_, ?_, ?_, ?_, ?_, ?_, ?_, ?_, ?_, ?_⟩
      · -- hsettled
        intro v hv
        have hvne : v ≠ nb := fun h => by
          rw [h] at hv
          rw [hv] at hnbuns
          exact Bool.noConfusion hnbuns
        obtain ⟨c, hc, hmin⟩ := hsR.hsettled v hv
        refine ⟨c, ?_, hmin⟩
        rw [hgset v, if_neg hvne]
        exact hc
      · -- hreal
        intro v c hc
        rw [hgset v] at hc
        by_cases hv : v = nb
        · rw [if_pos hv] at hc
          have hcc : c = ccur + w := (WithTop.coe_inj.mp hc).symm
          rw [hv, hcc]
          exact hwalknb
        · rw [if_neg hv] at hc
          exact hsR.hreal v c hc
      · -- hedge
        intro u hu hux p hp
        have hune : u ≠ nb := fun h => by
          rw [h] at hu
          rw [hu] at hnbuns
          exact Bool.noConfusion hnbuns
        rw [hgset u, if_neg hune]
        by_cases hv : p.1 = nb
        · rw [hgset p.1, if_pos hv, ← htg]
          have hold := hsR.hedge u hu hux p hp
          rw [hv] at hold
          exact le_trans (le_of_lt hlt) hold
        · rw [hgset p.1, if_neg hv]
          exact hsR.hedge u hu hux p hp
      · -- hcover
        intro v hv c hc
        rw [hgset v] at hc
        by_cases hveq : v = nb
        · rw [if_pos hveq] at hc
          refine ⟨⟨st.gR.getD current ⊤ + (w : QInf), nb,
            st.openR.insertCounter⟩, (hmem2 _).mpr (Or.inr rfl),
            hveq.symm, ?_⟩
          rw [htg, hc]
        · rw [if_neg hveq] at hc
          obtain ⟨e, he, hev, hek⟩ := hsR.hcover v hv c hc
          exact ⟨e, (hmem2 e).mpr (Or.inl he), hev, hek⟩
      · -- hkeys
        intro e he
        rcases (hmem2 e).mp he with h | h
        · obtain ⟨h1, h2, h3⟩ := hsR.hkeys e h
          exact ⟨le_trans (hgmono e.value) h1, h2, h3⟩
        · rw [h]
          refine ⟨?_, by rw [htg]; exact WithTop.coe_ne_top, hnbN⟩
          rw [hgset nb, if_pos rfl, htg]
      · -- horigin
        rw [hgset ei, if_neg (fun h => hnbei h.symm)]
        exact hsR.horigin
      · -- hprevne
        intro v c hc hvo
        rw [hpset v]
        by_cases hv : v = nb
        · rw [if_pos hv]
          exact ⟨current, rfl⟩
        · rw [if_neg hv]
          rw [hgset v, if_neg hv] at hc
          exact hsR.hprevne v c hc hvo
      · -- hprevE
        intro v u hvu
        rw [hpset v] at hvu
        by_cases hv : v = nb
        · rw [if_pos hv] at hvu
          have huc : u = current := by
            have := Int.natCast_inj.mp hvu.symm
            omega
          refine ⟨w, ?_, ?_⟩
          · rw [hv, huc]
            exact hmem
          · rw [huc, hgset current, if_neg hcurnb, hgset v, if_pos hv, ← htg]
        · rw [if_neg hv] at hvu
          obtain ⟨w2, hw2, hineq⟩ := hsR.hprevE v u hvu
          refine ⟨w2, hw2, ?_⟩
          rw [hgset v, if_neg hv]
          exact le_trans (add_le_add_right (hgmono u) _) hineq
      · -- hprevvis
        intro v u hvu
        rw [hpset v] at hvu
        by_cases hv : v = nb
        · rw [if_pos hv] at hvu
          have huc : u = current := by
            have := Int.natCast_inj.mp hvu.symm
            omega
          rw [huc]
          exact ⟨hcur, hcurN⟩
        · rw [if_neg hv] at hvu
          exact hsR.hprevvis v u hvu
      · -- hrank
        obtain ⟨r, hnd, hiff, hptr⟩ := hsR.hrank
        refine ⟨r, hnd, hiff, ?_⟩
        intro v u hvu
        rw [hpset v] at hvu
        by_cases hv : v = nb
        · rw [if_pos hv] at hvu
          have huc : u = current := by
            have := Int.natCast_inj.mp hvu.symm
            omega
          constructor
          · rw [huc]
            exact (hiff current).mp hcur
          · intro hvr
            exfalso
            rw [hv] at hvr
            have := (hiff nb).mpr hvr
            rw [this] at hnbuns
            exact Bool.noConfusion hnbuns
        · rw [if_neg hv] at hvu
          exact hptr v u hvu
    · -- CrossInv
      by_cases hhit : st.gF.getD nb ⊤ ≠ ⊤
        ∧ st.gR.getD current ⊤ + (w : QInf) + st.gF.getD nb ⊤
          < st.bestPathCost
      · constructor
        · intro v cf cr hcf hcr
          have hcf2 : st.gF.getD v ⊤ = (cf : QInf) := hcf
          have hcr2 : (st.gR.set nb (st.gR.getD current ⊤
              + (w : QInf))).getD v ⊤ = (cr : QInf) := hcr
          show (if st.gF.getD nb ⊤ ≠ ⊤ ∧ st.gR.getD current ⊤ + (w : QInf)
              + st.gF.getD nb ⊤ < st.bestPathCost then
              st.gR.getD current ⊤ + (w : QInf) + st.gF.getD nb ⊤
            else st.bestPathCost) ≤ ((cf + cr : ℚ) : QInf)
          rw [if_pos hhit]
          by_cases hv : v = nb
          · rw [hv] at hcf2 hcr2
            rw [hgset nb, if_pos rfl] at hcr2
            have hcc : cr = ccur + w := (WithTop.coe_inj.mp hcr2).symm
            have heq : st.gR.getD current ⊤ + (w : QInf) + st.gF.getD nb ⊤
                = ((cf + cr : ℚ) : QInf) := by
              rw [htg, hcf2, hcc, add_comm cf (ccur + w),
                WithTop.coe_add (ccur + w) cf]
            exact le_of_eq heq
          · rw [hgset v, if_neg hv] at hcr2
            exact le_trans (le_of_lt hhit.2) (hcross.hm2 v cf cr hcf2 hcr2)
        · obtain ⟨cfnb, hcfnb⟩ := WithTop.ne_top_iff_exists.mp hhit.1
          refine Or.inr ⟨nb, cfnb, ccur + w, ?_, hnbN, ?_, ?_, ?_⟩
          · show (if st.gF.getD nb ⊤ ≠ ⊤ ∧ st.gR.getD current ⊤ + (w : QInf)
                + st.gF.getD nb ⊤ < st.bestPathCost then ((nb : ℕ) : ℤ)
              else st.meetingNode) = ((nb : ℕ) : ℤ)
            rw [if_pos hhit]
          · exact hcfnb.symm
          · show (st.gR.set nb (st.gR.getD current ⊤ + (w : QInf))).getD nb ⊤
              = ((ccur + w : ℚ) : QInf)
            rw [hgset nb, if_pos rfl]
          · show (if st.gF.getD nb ⊤ ≠ ⊤ ∧ st.gR.getD current ⊤ + (w : QInf)
                + st.gF.getD nb ⊤ < st.bestPathCost then
                st.gR.getD current ⊤ + (w : QInf) + st.gF.getD nb ⊤
              else st.bestPathCost) = ((cfnb + (ccur + w) : ℚ) : QInf)
            rw [if_pos hhit, htg, ← hcfnb, add_comm cfnb (ccur + w),
              WithTop.coe_add (ccur + w) cfnb]
      · constructor
        · intro v cf cr hcf hcr
          have hcf2 : st.gF.getD v ⊤ = (cf : QInf) := hcf
          have hcr2 : (st.gR.set nb (st.gR.getD current ⊤
              + (w : QInf))).getD v ⊤ = (cr : QInf) := hcr
          show (if st.gF.getD nb ⊤ ≠ ⊤ ∧ st.gR.getD current ⊤ + (w : QInf)
              + st.gF.getD nb ⊤ < st.bestPathCost then
              st.gR.getD current ⊤ + (w : QInf) + st.gF.getD nb ⊤
            else st.bestPathCost) ≤ ((cf + cr : ℚ) : QInf)
          rw [if_neg hhit]
          push_neg at hhit
          by_cases hv : v = nb
          · rw [hv] at hcf2 hcr2
            rw [hgset nb, if_pos rfl] at hcr2
            have hcc : cr = ccur + w := (WithTop.coe_inj.mp hcr2).symm
            have hne : st.gF.getD nb ⊤ ≠ ⊤ := by
              rw [hcf2]
              exact WithTop.coe_ne_top
            have hb := hhit hne
            rw [htg, hcf2] at hb
            rw [hcc, add_comm cf (ccur + w)]
            calc st.bestPathCost ≤ ((ccur + w : ℚ) : QInf) + (cf : QInf) :=
                hb
              _ = (((ccur + w) + cf : ℚ) : QInf) := by
                rw [WithTop.coe_add (ccur + w) cf]
          · rw [hgset v, if_neg hv] at hcr2
            exact hcross.hm2 v cf cr hcf2 hcr2
        · push_neg at hhit
          rcases hcross.hbest with h | ⟨m, cf, cr, hmeq, hmN, hgf, hgr, hbe⟩
          · have hcond : ¬ (st.gF.getD nb ⊤ ≠ ⊤ ∧ st.gR.getD current ⊤
                + (w : QInf) + st.gF.getD nb ⊤ < st.bestPathCost) := by
              intro hcon
              exact absurd (hhit hcon.1) (not_le.mpr hcon.2)
            refine Or.inl ⟨?_, ?_⟩
            · show (if st.gF.getD nb ⊤ ≠ ⊤ ∧ st.gR.getD current ⊤
                  + (w : QInf) + st.gF.getD nb ⊤ < st.bestPathCost then
                  st.gR.getD current ⊤ + (w : QInf) + st.gF.getD nb ⊤
                else st.bestPathCost) = ⊤
              rw [if_neg hcond]
              exact h.1
            · show (if st.gF.getD nb ⊤ ≠ ⊤ ∧ st.gR.getD current ⊤
                  + (w : QInf) + st.gF.getD nb ⊤ < st.bestPathCost then
                  ((nb : ℕ) : ℤ) else st.meetingNode) = -1
              rw [if_neg hcond]
              exact h.2
          · have hmne : m ≠ nb := by
              intro hcon
              rw [hcon] at hgf hgr
              have hne : st.gF.getD nb ⊤ ≠ ⊤ := by
                rw [hgf]
                exact WithTop.coe_ne_top
              have hb := hhit hne
              rw [hgf, hbe, htg] at hb
              rw [hgr, htg] at hlt
              have h1 := WithTop.coe_lt_coe.mp hlt
              have h2 : ((cf + cr : ℚ) : QInf)
                  ≤ (((ccur + w) : ℚ) : QInf) + ((cf : ℚ) : QInf) := hb
              rw [← WithTop.coe_add] at h2
              have h3 := WithTop.coe_le_coe.mp h2
              linarith
            have hcond : ¬ (st.gF.getD nb ⊤ ≠ ⊤ ∧ st.gR.getD current ⊤
                + (w : QInf) + st.gF.getD nb ⊤ < st.bestPathCost) := by
              intro hcon
              exact absurd (hhit hcon.1) (not_le.mpr hcon.2)
            refine Or.inr ⟨m, cf, cr, ?_, hmN, hgf, ?_, ?_⟩
            · show (if st.gF.getD nb ⊤ ≠ ⊤ ∧ st.gR.getD current ⊤
                  + (w : QInf) + st.gF.getD nb ⊤ < st.bestPathCost then
                  ((nb : ℕ) : ℤ) else st.meetingNode) = ((m : ℕ) : ℤ)
              rw [if_neg hcond]
              exact hmeq
            · show (st.gR.set nb (st.gR.getD current ⊤ + (w : QInf))).getD
                  m ⊤ = (cr : QInf)
              rw [hgset m, if_neg hmne]
              exact hgr
            · show (if st.gF.getD nb ⊤ ≠ ⊤ ∧ st.gR.getD current ⊤
                  + (w : QInf) + st.gF.getD nb ⊤ < st.bestPathCost then
                  st.gR.getD current ⊤ + (w : QInf) + st.gF.getD nb ⊤
                else st.bestPathCost) = ((cf + cr : ℚ) : QInf)
              rw [if_neg hcond]
              exact hbe
    · -- bound at nb
      show (st.gR.set nb (st.gR.getD current ⊤ + (w : QInf))).getD nb ⊤
        ≤ st.gR.getD current ⊤ + (w : QInf)
      rw [hgset nb, if_pos rfl, htg]
    · -- pointwise mono
      intro v
      exact hgmono v
    · -- settled unchanged
      intro v hv
      have hvne : v ≠ nb := fun h => by
        rw [h] at hv
        rw [hv] at hnbuns
        exact Bool.noConfusion hnbuns
      show (st.gR.set nb (st.gR.getD current ⊤ + (w : QInf))).getD v ⊤
        = st.gR.getD v ⊤
      rw [hgset v, if_neg hvne]
    · -- best only decreases
      show (if st.gF.getD nb ⊤ ≠ ⊤ ∧ st.gR.getD current ⊤ + (w : QInf)
          + st.gF.getD nb ⊤ < st.bestPathCost then
          st.gR.getD current ⊤ + (w : QInf) + st.gF.getD nb ⊤
        else st.bestPathCost) ≤ st.bestPathCost
      by_cases hhit : st.gF.getD nb ⊤ ≠ ⊤
        ∧ st.gR.getD current ⊤ + (w : QInf) + st.gF.getD nb ⊤
          < st.bestPathCost
      · rw [if_pos hhit]
        exact le_of_lt hhit.2
      · rw [if_neg hhit]
    · -- heap length
      show (st.openR.insert (st.gR.getD current ⊤ + (w : QInf))
          nb).entries.length ≤ st.openR.entries.length + 1
      rw [hL2]
  · rw [if_neg hlt]
    exact ⟨hsR, hcross, not_lt.mp hlt, fun v => le_refl _,
      fun v _ => rfl, rfl, rfl, rfl, rfl, rfl, le_refl _, by omega⟩

theorem settled_lt_length (vis : List Bool) (u : ℕ)
    (hu : vis.getD u false = true) : u < vis.length := by
  by_contra hcon
  push_neg at hcon
  rw [List.getD_eq_default _ _ hcon] at hu
  exact Bool.noConfusion hu

/-- A side invariant whose only broken edge bound is at `current` is fully
restored once all of `current`'s neighbors satisfy the relaxed bound. -/
theorem sideInv_restore (s : RouterState) (origin : ℕ) (g : List QInf)
    (vis : List Bool) (prev : List ℤ) (hp : FourAryHeap QInf) (current : ℕ)
    (hs : SideInv s origin g vis prev hp current)
    (hbd : ∀ p ∈ neighborsOf s current,
      g.getD p.1 ⊤ ≤ g.getD current ⊤ + (p.2 : QInf)) :
    SideInv s origin g vis prev hp s.coords.length :=
  ⟨hs.hglen, hs.hvlen, hs.hplen, hs.hheap, hs.hsettled, hs.hreal,
    fun u hu _ p hp2 => by
      by_cases hc : u = current
      · rw [hc]
        rw [hc] at hp2
        exact hbd p hp2
      · exact hs.hedge u hu hc p hp2,
    hs.hcover, hs.hkeys, hs.horigin, hs.hprevne, hs.hprevE, hs.hprevvis,
    hs.hrank⟩

/-- The full side invariant implies the invariant with any exception. -/
theorem sideInv_weaken (s : RouterState) (origin : ℕ) (g : List QInf)
    (vis : List Bool) (prev : List ℤ) (hp : FourAryHeap QInf) (x : ℕ)
    (hs : SideInv s origin g vis prev hp s.coords.length) :
    SideInv s origin g vis prev hp x :=
  ⟨hs.hglen, hs.hvlen, hs.hplen, hs.hheap, hs.hsettled, hs.hreal,
    fun u hu _ p hp2 => by
      have hlt := settled_lt_length vis u hu
      rw [hs.hvlen] at hlt
      exact hs.hedge u hu (by omega) p hp2,
    hs.hcover, hs.hkeys, hs.horigin, hs.hprevne, hs.hprevE, hs.hprevvis,
    hs.hrank⟩

theorem foldl_relaxF_spec (s : RouterState) (hg : GraphOK s) (si x : ℕ)
    (current : ℕ) (ns : List (ℕ × ℚ)) :
    ∀ st : SearchState,
    SideInv s si st.gF st.visF st.prevF st.openF x →
    CrossInv s st →
    st.visF.getD current false = true →
    (∀ p ∈ ns, p ∈ neighborsOf s current) →
    SideInv s si (ns.foldl (fun st nb => relaxF st current nb.1 nb.2) st).gF
      (ns.foldl (fun st nb => relaxF st current nb.1 nb.2) st).visF
      (ns.foldl (fun st nb => relaxF st current nb.1 nb.2) st).prevF
      (ns.foldl (fun st nb => relaxF st current nb.1 nb.2) st).openF x
    ∧ CrossInv s (ns.foldl (fun st nb => relaxF st current nb.1 nb.2) st)
    ∧ (∀ p ∈ ns,
        (ns.foldl (fun st nb => relaxF st current nb.1 nb.2) st).gF.getD
          p.1 ⊤
        ≤ (ns.foldl (fun st nb => relaxF st current nb.1 nb.2) st).gF.getD
            current ⊤ + (p.2 : QInf))
    ∧ (∀ v, (ns.foldl (fun st nb => relaxF st current nb.1 nb.2) st).gF.getD
        v ⊤ ≤ st.gF.getD v ⊤)
    ∧ (∀ v, st.visF.getD v false = true →
        (ns.foldl (fun st nb => relaxF st current nb.1 nb.2) st).gF.getD v ⊤
          = st.gF.getD v ⊤)
    ∧ (ns.foldl (fun st nb => relaxF st current nb.1 nb.2) st).gR = st.gR
    ∧ (ns.foldl (fun st nb => relaxF st current nb.1 nb.2) st).visF = st.visF
    ∧ (ns.foldl (fun st nb => relaxF st current nb.1 nb.2) st).visR = st.visR
    ∧ (ns.foldl (fun st nb => relaxF st current nb.1 nb.2) st).nextR
        = st.nextR
    ∧ (ns.foldl (fun st nb => relaxF st current nb.1 nb.2) st).openR
        = st.openR
    ∧ (ns.foldl (fun st nb => relaxF st current nb.1 nb.2) st).bestPathCost
        ≤ st.bestPathCost
    ∧ (ns.foldl (fun st nb =>
        relaxF st current nb.1 nb.2) st).openF.entries.length
        ≤ st.openF.entries.length + ns.length := by
  induction ns with
  | nil =>
    intro st h1 h2 h3 h4
    exact ⟨h1, h2, by simp, fun v => le_refl _, fun v _ => rfl, rfl, rfl,
      rfl, rfl, rfl, le_refl _, by simp⟩
  | cons p rest ih =>
    intro st h1 h2 h3 h4
    rw [List.foldl_cons]
    obtain ⟨r1, r2, r3, r4, r5, r6, r7, r8, r9, r10, r11, r12⟩ :=
      relaxF_spec s hg si x st current p.1 p.2 h1 h2 h3
        (h4 p (by simp))
    have h3b : (relaxF st current p.1 p.2).visF.getD current false
        = true := by
      rw [r7]
      exact h3
    obtain ⟨i1, i2, i3, i4, i5, i6, i7, i8, i9, i10, i11, i12⟩ :=
      ih (relaxF st current p.1 p.2) r1 r2 h3b
        (fun q hq => h4 q (by simp [hq]))
    have hcurstable :
        (rest.foldl (fun st nb => relaxF st current nb.1 nb.2)
          (relaxF st current p.1 p.2)).gF.getD current ⊤
        = st.gF.getD current ⊤ := by
      rw [i5 current h3b, r5 current h3]
    refine ⟨i1, i2, ?_, ?_, ?_, by rw [i6, r6], by rw [i7, r7],
      by rw [i8, r8], by rw [i9, r9], by rw [i10, r10],
      le_trans i11 r11, ?_⟩
    · intro q hq
      rcases List.mem_cons.mp hq with h | h
      · rw [h, hcurstable]
        calc (rest.foldl (fun st nb => relaxF st current nb.1 nb.2)
              (relaxF st current p.1 p.2)).gF.getD p.1 ⊤
            ≤ (relaxF st current p.1 p.2).gF.getD p.1 ⊤ := i4 p.1
          _ ≤ st.gF.getD current ⊤ + (p.2 : QInf) := by
              calc (relaxF st current p.1 p.2).gF.getD p.1 ⊤
                  ≤ st.gF.getD current ⊤ + (p.2 : QInf) := r3
          _ = st.gF.getD current ⊤ + (p.2 : QInf) := rfl
      · exact i3 q h
    · intro v
      exact le_trans (i4 v) (r4 v)
    · intro v hv
      rw [i5 v (by rw [r7]; exact hv), r5 v hv]
    · calc (rest.foldl (fun st nb => relaxF st current nb.1 nb.2)
            (relaxF st current p.1 p.2)).openF.entries.length
          ≤ (relaxF st current p.1 p.2).openF.entries.length + rest.length :=
            i12
        _ ≤ st.openF.entries.length + 1 + rest.length := by omega
        _ = st.openF.entries.length + (p :: rest).length := by
            rw [List.length_cons]
            omega

theorem foldl_relaxR_spec (s : RouterState) (hg : GraphOK s) (ei x : ℕ)
    (current : ℕ) (ns : List (ℕ × ℚ)) :
    ∀ st : SearchState,
    SideInv s ei st.gR st.visR st.nextR st.openR x →
    CrossInv s st →
    st.visR.getD current false = true →
    (∀ p ∈ ns, p ∈ neighborsOf s current) →
    SideInv s ei (ns.foldl (fun st nb => relaxR st current nb.1 nb.2) st).gR
      (ns.foldl (fun st nb => relaxR st current nb.1 nb.2) st).visR
      (ns.foldl (fun st nb => relaxR st current nb.1 nb.2) st).nextR
      (ns.foldl (fun st nb => relaxR st current nb.1 nb.2) st).openR x
    ∧ CrossInv s (ns.foldl (fun st nb => relaxR st current nb.1 nb.2) st)
    ∧ (∀ p ∈ ns,
        (ns.foldl (fun st nb => relaxR st current nb.1 nb.2) st).gR.getD
          p.1 ⊤
        ≤ (ns.foldl (fun st nb => relaxR st current nb.1 nb.2) st).gR.getD
            current ⊤ + (p.2 : QInf))
    ∧ (∀ v, (ns.foldl (fun st nb => relaxR st current nb.1 nb.2) st).gR.getD
        v ⊤ ≤ st.gR.getD v ⊤)
    ∧ (∀ v, st.visR.getD v false = true →
        (ns.foldl (fun st nb => relaxR st current nb.1 nb.2) st).gR.getD v ⊤
          = st.gR.getD v ⊤)
    ∧ (ns.foldl (fun st nb => relaxR st current nb.1 nb.2) st).gF = st.gF
    ∧ (ns.foldl (fun st nb => relaxR st current nb.1 nb.2) st).visF = st.visF
    ∧ (ns.foldl (fun st nb => relaxR st current nb.1 nb.2) st).visR = st.visR
    ∧ (ns.foldl (fun st nb => relaxR st current nb.1 nb.2) st).prevF
        = st.prevF
    ∧ (ns.foldl (fun st nb => relaxR st current nb.1 nb.2) st).openF
        = st.openF
    ∧ (ns.foldl (fun st nb => relaxR st current nb.1 nb.2) st).bestPathCost
        ≤ st.bestPathCost
    ∧ (ns.foldl (fun st nb =>
        relaxR st current nb.1 nb.2) st).openR.entries.length
        ≤ st.openR.entries.length + ns.length := by
  induction ns with
  | nil =>
    intro st h1 h2 h3 h4
    exact ⟨h1, h2, by simp, fun v => le_refl _, fun v _ => rfl, rfl, rfl,
      rfl, rfl, rfl, le_refl _, by simp⟩
  | cons p rest ih =>
    intro st h1 h2 h3 h4
    rw [List.foldl_cons]
    obtain ⟨r1, r2, r3, r4, r5, r6, r7, r8, r9, r10, r11, r12⟩ :=
      relaxR_spec s hg ei x st current p.1 p.2 h1 h2 h3
        (h4 p (by simp))
    have h3b : (relaxR st current p.1 p.2).visR.getD current false
        = true := by
      rw [r8]
      exact h3
    obtain ⟨i1, i2, i3, i4, i5, i6, i7, i8, i9, i10, i11, i12⟩ :=
      ih (relaxR st current p.1 p.2) r1 r2 h3b
        (fun q hq => h4 q (by simp [hq]))
    have hcurstable :
        (rest.foldl (fun st nb => relaxR st current nb.1 nb.2)
          (relaxR st current p.1 p.2)).gR.getD current ⊤
        = st.gR.getD current ⊤ := by
      rw [i5 current h3b, r5 current h3]
    refine ⟨i1, i2, ?_, ?_, ?_, by rw [i6, r6], by rw [i7, r7],
      by rw [i8, r8], by rw [i9, r9], by rw [i10, r10],
      le_trans i11 r11, ?_⟩
    · intro q hq
      rcases List.mem_cons.mp hq with h | h
      · rw [h, hcurstable]
        calc (rest.foldl (fun st nb => relaxR st current nb.1 nb.2)
              (relaxR st current p.1 p.2)).gR.getD p.1 ⊤
            ≤ (relaxR st current p.1 p.2).gR.getD p.1 ⊤ := i4 p.1
          _ ≤ st.gR.getD current ⊤ + (p.2 : QInf) := by
              calc (relaxR st current p.1 p.2).gR.getD p.1 ⊤
                  ≤ st.gR.getD current ⊤ + (p.2 : QInf) := r3
          _ = st.gR.getD current ⊤ + (p.2 : QInf) := rfl
      · exact i3 q h
    · intro v
      exact le_trans (i4 v) (r4 v)
    · intro v hv
      rw [i5 v (by rw [r8]; exact hv), r5 v hv]
    · calc (rest.foldl (fun st nb => relaxR st current nb.1 nb.2)
            (relaxR st current p.1 p.2)).openR.entries.length
          ≤ (relaxR st current p.1 p.2).openR.entries.length + rest.length :=
            i12
        _ ≤ st.openR.entries.length + 1 + rest.length := by omega
        _ = st.openR.entries.length + (p :: rest).length := by
            rw [List.length_cons]
            omega

/-! ### The termination measure of the main loop and the branch equations
of `searchStep` -/

theorem mem_multiset_cancel {β : Type} (l2 l : List β) (x : β)
    (hM : ((l2 : List β) : Multiset β) + {x} = ((l : List β) : Multiset β))
    (e : β) : e ∈ l ↔ e = x ∨ e ∈ l2 := by
  have h2 : (x ::ₘ ((l2 : List β) : Multiset β))
      = ((l : List β) : Multiset β) := by
    rw [← Multiset.singleton_add, add_comm]
    exact hM
  constructor
  · intro he
    have h3 : e ∈ (x ::ₘ ((l2 : List β) : Multiset β)) := by
      rw [h2]
      exact Multiset.mem_coe.mpr he
    rcases Multiset.mem_cons.mp h3 with h | h
    · exact Or.inl h
    · exact Or.inr (Multiset.mem_coe.mp h)
  · intro he
    have h3 : e ∈ (x ::ₘ ((l2 : List β) : Multiset β)) :=
      Multiset.mem_cons.mpr (by
        rcases he with h | h
        · exact Or.inl h
        · exact Or.inr (Multiset.mem_coe.mpr h))
    rw [h2] at h3
    exact Multiset.mem_coe.mp h3

/-- Degree mass of the nodes not yet settled on one side. -/
def sideWeight (s : RouterState) (vis : List Bool) : ℕ :=
  (((List.range s.coords.length).filter
    (fun v => ! vis.getD v false)).map
    (fun v => (neighborsOf s v).length)).sum

/-- The loop-termination measure: open entries plus unsettled degree mass. -/
def stepMeasure (s : RouterState) (st : SearchState) : ℕ :=
  st.openF.entries.length + st.openR.entries.length
    + sideWeight s st.visF + sideWeight s st.visR

theorem sum_map_filter_erase (l : List ℕ) (deg : ℕ → ℕ) (c : ℕ)
    (hnd : l.Nodup) (hc : c ∈ l) :
    ((l.filter (fun v => decide (v ≠ c))).map deg).sum + deg c
      = (l.map deg).sum := by
  induction l with
  | nil => exact absurd hc (by simp)
  | cons a t ih =>
    rcases List.mem_cons.mp hc with h | h
    · have hat : a ∉ t := (List.nodup_cons.mp hnd).1
      have hfe : t.filter (fun v => decide (v ≠ c)) = t :=
        List.filter_eq_self.mpr (fun v hv => by
          have hvc : v ≠ c := fun he => hat (by rw [← h, ← he]; exact hv)
          exact decide_eq_true hvc)
      rw [List.filter_cons, if_neg (by simp [h]), hfe, List.map_cons,
        List.sum_cons, h]
      omega
    · have haC : a ≠ c := fun he => (List.nodup_cons.mp hnd).1 (he ▸ h)
      rw [List.filter_cons, if_pos (by simp [haC]), List.map_cons,
        List.sum_cons, List.map_cons, List.sum_cons]
      have := ih (List.nodup_cons.mp hnd).2 h
      omega

/-- Settling one unsettled node removes exactly its degree from the side
weight. -/
theorem sideWeight_settle (s : RouterState) (vis : List Bool) (current : ℕ)
    (hN : current < s.coords.length) (hlen : vis.length = s.coords.length)
    (hcur : vis.getD current false = false) :
    sideWeight s (vis.set current true) + (neighborsOf s current).length
      = sideWeight s vis := by
  have hfeq : (List.range s.coords.length).filter
      (fun v => ! (vis.set current true).getD v false)
      = ((List.range s.coords.length).filter
        (fun v => ! vis.getD v false)).filter
        (fun v => decide (v ≠ current)) := by
    rw [List.filter_filter]
    apply List.filter_congr
    intro v hv
    by_cases hvc : v = current
    · rw [hvc, getD_set_self2 vis current true false (by omega)]
      simp
    · rw [getD_set_ne2 vis current v true false (Ne.symm hvc)]
      simp [hvc]
  have hmem : current ∈ (List.range s.coords.length).filter
      (fun v => ! vis.getD v false) :=
    List.mem_filter.mpr ⟨List.mem_range.mpr hN, by rw [hcur]; rfl⟩
  rw [sideWeight, hfeq, sideWeight]
  exact sum_map_filter_erase _ _ current
    ((List.nodup_range s.coords.length).filter _) hmem

/-- The meet-check block of `searchStep` (identical for both sides). -/
def stepMeetF (st : SearchState) (current : ℕ) : SearchState :=
  if st.visR.getD current false then
    if st.gF.getD current ⊤ + st.gR.getD current ⊤ < st.bestPathCost then
      { st with
        bestPathCost := st.gF.getD current ⊤ + st.gR.getD current ⊤
        meetingNode := (current : ℤ) }
    else st
  else st

/-- The meet-check block of `searchStep` on the reverse side. -/
def stepMeetR (st : SearchState) (current : ℕ) : SearchState :=
  if st.visF.getD current false then
    if st.gF.getD current ⊤ + st.gR.getD current ⊤ < st.bestPathCost then
      { st with
        bestPathCost := st.gF.getD current ⊤ + st.gR.getD current ⊤
        meetingNode := (current : ℤ) }
    else st
  else st

theorem searchStep_stop1 (s : RouterState) (st : SearchState)
    (h1 : st.openF.size = 0 ∨ st.openR.size = 0) :
    searchStep s st = (true, st) := by
  rw [searchStep, if_pos h1]

theorem searchStep_stop2 (s : RouterState) (st : SearchState)
    (h1 : ¬ (st.openF.size = 0 ∨ st.openR.size = 0))
    (h2 : 0 ≤ st.meetingNode
      ∧ st.bestPathCost ≤ peekQ st.openF + peekQ st.openR) :
    searchStep s st = (true, st) := by
  rw [searchStep, if_neg h1, if_pos h2]

theorem searchStep_skipF (s : RouterState) (st : SearchState) (current : ℕ)
    (h1 : ¬ (st.openF.size = 0 ∨ st.openR.size = 0))
    (h2 : ¬ (0 ≤ st.meetingNode
      ∧ st.bestPathCost ≤ peekQ st.openF + peekQ st.openR))
    (h3 : st.openF.size ≤ st.openR.size)
    (h4 : st.openF.extractMin.1 = some current)
    (h5 : st.visF.getD current false = true) :
    searchStep s st
      = (false, { st with openF := st.openF.extractMin.2 }) := by
  rw [searchStep, if_neg h1, if_neg h2, if_pos h3]
  have hpair : st.openF.extractMin
      = (some current, st.openF.extractMin.2) := by
    rw [← h4]
  rw [hpair]
  show (if st.visF.getD current false = true
      then (false, { st with openF := st.openF.extractMin.2 })
      else _) = (false, { st with openF := st.openF.extractMin.2 })
  rw [if_pos h5]

theorem searchStep_settleF (s : RouterState) (st : SearchState)
    (current : ℕ)
    (h1 : ¬ (st.openF.size = 0 ∨ st.openR.size = 0))
    (h2 : ¬ (0 ≤ st.meetingNode
      ∧ st.bestPathCost ≤ peekQ st.openF + peekQ st.openR))
    (h3 : st.openF.size ≤ st.openR.size)
    (h4 : st.openF.extractMin.1 = some current)
    (h5 : st.visF.getD current false = false) :
    searchStep s st
      = (false, (neighborsOf s current).foldl
          (fun st nb => relaxF st current nb.1 nb.2)
          (stepMeetF { st with
            openF := st.openF.extractMin.2
            lastGF := st.gF.getD current ⊤
            visF := st.visF.set current true } current)) := by
  rw [searchStep, if_neg h1, if_neg h2, if_pos h3]
  have hpair : st.openF.extractMin
      = (some current, st.openF.extractMin.2) := by
    rw [← h4]
  rw [hpair]
  show (if st.visF.getD current false = true
      then _
      else (false, (neighborsOf s current).foldl
        (fun st nb => relaxF st current nb.1 nb.2)
        (stepMeetF { st with
          openF := st.openF.extractMin.2
          lastGF := st.gF.getD current ⊤
          visF := st.visF.set current true } current)))
      = (false, (neighborsOf s current).foldl
          (fun st nb => relaxF st current nb.1 nb.2)
          (stepMeetF { st with
            openF := st.openF.extractMin.2
            lastGF := st.gF.getD current ⊤
            visF := st.visF.set current true } current))
  rw [if_neg (by rw [h5]; exact Bool.false_ne_true)]

theorem searchStep_skipR (s : RouterState) (st : SearchState) (current : ℕ)
    (h1 : ¬ (st.openF.size = 0 ∨ st.openR.size = 0))
    (h2 : ¬ (0 ≤ st.meetingNode
      ∧ st.bestPathCost ≤ peekQ st.openF + peekQ st.openR))
    (h3 : ¬ st.openF.size ≤ st.openR.size)
    (h4 : st.openR.extractMin.1 = some current)
    (h5 : st.visR.getD current false = true) :
    searchStep s st
      = (false, { st with openR := st.openR.extractMin.2 }) := by
  rw [searchStep, if_neg h1, if_neg h2, if_neg h3]
  have hpair : st.openR.extractMin
      = (some current, st.openR.extractMin.2) := by
    rw [← h4]
  rw [hpair]
  show (if st.visR.getD current false = true
      then (false, { st with openR := st.openR.extractMin.2 })
      else _) = (false, { st with openR := st.openR.extractMin.2 })
  rw [if_pos h5]

theorem searchStep_settleR (s : RouterState) (st : SearchState)
    (current : ℕ)
    (h1 : ¬ (st.openF.size = 0 ∨ st.openR.size = 0))
    (h2 : ¬ (0 ≤ st.meetingNode
      ∧ st.bestPathCost ≤ peekQ st.openF + peekQ st.openR))
    (h3 : ¬ st.openF.size ≤ st.openR.size)
    (h4 : st.openR.extractMin.1 = some current)
    (h5 : st.visR.getD current false = false) :
    searchStep s st
      = (false, (neighborsOf s current).foldl
          (fun st nb => relaxR st current nb.1 nb.2)
          (stepMeetR { st with
            openR := st.openR.extractMin.2
            lastGR := st.gR.getD current ⊤
            visR := st.visR.set current true } current)) := by
  rw [searchStep, if_neg h1, if_neg h2, if_neg h3]
  have hpair : st.openR.extractMin
      = (some current, st.openR.extractMin.2) := by
    rw [← h4]
  rw [hpair]
  show (if st.visR.getD current false = true
      then _
      else (false, (neighborsOf s current).foldl
        (fun st nb => relaxR st current nb.1 nb.2)
        (stepMeetR { st with
          openR := st.openR.extractMin.2
          lastGR := st.gR.getD current ⊤
          visR := st.visR.set current true } current)))
      = (false, (neighborsOf s current).foldl
          (fun st nb => relaxR st current nb.1 nb.2)
          (stepMeetR { st with
            openR := st.openR.extractMin.2
            lastGR := st.gR.getD current ⊤
            visR := st.visR.set current true } current))
  rw [if_neg (by rw [h5]; exact Bool.false_ne_true)]

theorem bool_eq_false (b : Bool) (h : ¬ b = true) : b = false := by
  cases b
  · rfl
  · exact absurd rfl h

/-- Pop exactness: when the minimum heap entry's node is unsettled, its `g`
value is the exact shortest-walk cost (the heart of Dijkstra's argument). -/
theorem pop_exact (s : RouterState) (hg : GraphOK s) (origin : ℕ)
    (g : List QInf) (vis : List Bool) (prev : List ℤ) (hp : FourAryHeap QInf)
    (hs : SideInv s origin g vis prev hp s.coords.length)
    (e0 : HeapEntry QInf) (rest : List (HeapEntry QInf))
    (hl : hp.entries = e0 :: rest)
    (hvis : vis.getD e0.value false = false) :
    ∃ c : ℚ, g.getD e0.value ⊤ = (c : QInf)
      ∧ IsMinWalk s origin e0.value c := by
  obtain ⟨hk1, hk2, hk3⟩ := hs.hkeys e0
    (by rw [hl]; exact List.mem_cons_self _ _)
  have hgne : g.getD e0.value ⊤ ≠ ⊤ := by
    intro hcon
    rw [hcon] at hk1
    exact hk2 (top_le_iff.mp hk1)
  obtain ⟨c, hc⟩ := WithTop.ne_top_iff_exists.mp hgne
  refine ⟨c, hc.symm, hs.hreal e0.value c hc.symm, ?_⟩
  intro c2 hw2
  by_cases hsi : vis.getD origin false = true
  · have hne : ¬ vis.getD e0.value false = true := by
      rw [hvis]
      exact Bool.false_ne_true
    obtain ⟨u, x, w, c1, c2x, hPu, hPx, hedge, hw1, hwx, hsum⟩ :=
      walk_cross s (fun v => vis.getD v false = true) origin e0.value c2
        hw2 hsi hne
    have huN : u < s.coords.length := hs.hvlen ▸ settled_lt_length vis u hPu
    obtain ⟨cu, hcu, hminu⟩ := hs.hsettled u hPu
    have hcu1 : cu ≤ c1 := hminu.2 c1 hw1
    have hex : g.getD x ⊤ ≤ g.getD u ⊤ + (w : QInf) :=
      hs.hedge u hPu (by omega) (x, w) hedge
    rw [hcu] at hex
    have hex2 : g.getD x ⊤ ≤ ((cu + w : ℚ) : QInf) := by
      rw [WithTop.coe_add]
      exact hex
    have hxne : g.getD x ⊤ ≠ ⊤ := by
      intro hcon
      rw [hcon] at hex2
      exact WithTop.coe_ne_top (top_le_iff.mp hex2)
    obtain ⟨cx, hcx⟩ := WithTop.ne_top_iff_exists.mp hxne
    have hcxle : cx ≤ cu + w := by
      rw [← hcx] at hex2
      exact WithTop.coe_le_coe.mp hex2
    obtain ⟨ex, hexmem, hexval, hexkey⟩ :=
      hs.hcover x (bool_eq_false _ hPx) cx hcx.symm
    have hroot := fourAry_root_key_min hp hs.hheap e0 rest hl ex hexmem
    have hchain : (c : QInf) ≤ ((cx : ℚ) : QInf) := by
      rw [hc, ← hexkey]
      exact le_trans hk1 hroot
    have hccx : c ≤ cx := WithTop.coe_le_coe.mp hchain
    have hnn : 0 ≤ c2x := walk_nonneg s hg x e0.value c2x hwx
    linarith
  · have hoz : g.getD origin ⊤ = ((0 : ℚ) : QInf) := by
      rw [hs.horigin]
      exact WithTop.coe_zero.symm
    obtain ⟨ex, hexmem, hexval, hexkey⟩ :=
      hs.hcover origin (bool_eq_false _ hsi) 0 hoz
    have hroot := fourAry_root_key_min hp hs.hheap e0 rest hl ex hexmem
    have hchain : (c : QInf) ≤ ((0 : ℚ) : QInf) := by
      rw [hc, ← hexkey]
      exact le_trans hk1 hroot
    have hc0 : c ≤ 0 := WithTop.coe_le_coe.mp hchain
    have hnn : 0 ≤ c2 := walk_nonneg s hg origin e0.value c2 hw2
    linarith

/-- Settling the popped node: the side invariant survives the pop and the
`vis` mark, with the edge bound now excepted at the settled node. -/
theorem sideInv_settle (s : RouterState) (hg : GraphOK s) (origin : ℕ)
    (g : List QInf) (vis : List Bool) (prev : List ℤ) (hp : FourAryHeap QInf)
    (hs : SideInv s origin g vis prev hp s.coords.length)
    (e0 : HeapEntry QInf) (rest : List (HeapEntry QInf))
    (hl : hp.entries = e0 :: rest)
    (hvis : vis.getD e0.value false = false) :
    SideInv s origin g (vis.set e0.value true) prev hp.extractMin.2
      e0.value := by
  obtain ⟨x1, x2, x3, x4, x5⟩ := fourAry_extract_cons hp e0 rest hl hs.hheap
  have hevN : e0.value < s.coords.length :=
    (hs.hkeys e0 (by rw [hl]; exact List.mem_cons_self _ _)).2.2
  have hevlen : e0.value < vis.length := by
    rw [hs.hvlen]
    exact hevN
  refine ⟨hs.hglen, by rw [List.length_set]; exact hs.hvlen, hs.hplen, x2,
    ?_, hs.hreal, ?_, ?_, ?_, hs.horigin, hs.hprevne, hs.hprevE, ?_, ?_⟩
  · intro v hv
    by_cases hve : v = e0.value
    · rw [hve]
      exact pop_exact s hg origin g vis prev hp hs e0 rest hl hvis
    · rw [getD_set_ne2 vis e0.value v true false (Ne.symm hve)] at hv
      exact hs.hsettled v hv
  · intro u hu hne p hp2
    rw [getD_set_ne2 vis e0.value u true false (Ne.symm hne)] at hu
    have huN : u < s.coords.length := hs.hvlen ▸ settled_lt_length vis u hu
    exact hs.hedge u hu (by omega) p hp2
  · intro v hv c hc
    have hve : v ≠ e0.value := by
      intro h
      rw [h, getD_set_self2 vis e0.value true false hevlen] at hv
      exact Bool.noConfusion hv
    rw [getD_set_ne2 vis e0.value v true false (Ne.symm hve)] at hv
    obtain ⟨e, hemem, heval, hekey⟩ := hs.hcover v hv c hc
    have hene : e ≠ e0 := by
      intro h
      rw [h] at heval
      exact hve heval.symm
    refine ⟨e, ?_, heval, hekey⟩
    rcases (mem_multiset_cancel hp.extractMin.2.entries hp.entries e0 x3
        e).mp hemem with h | h
    · exact absurd h hene
    · exact h
  · intro e he
    exact hs.hkeys e
      ((mem_multiset_cancel hp.extractMin.2.entries hp.entries e0 x3 e).mpr
        (Or.inr he))
  · intro v u hvu
    obtain ⟨h1, h2⟩ := hs.hprevvis v u hvu
    refine ⟨?_, h2⟩
    by_cases hue : u = e0.value
    · rw [hue, getD_set_self2 vis e0.value true false hevlen]
    · rw [getD_set_ne2 vis e0.value u true false (Ne.symm hue)]
      exact h1
  · obtain ⟨r, hnd, hiff, hptr⟩ := hs.hrank
    have hevr : e0.value ∉ r := by
      intro h
      exact absurd ((hiff e0.value).mpr h)
        (by rw [hvis]; exact Bool.false_ne_true)
    refine ⟨r ++ [e0.value], ?_, ?_, ?_⟩
    · rw [List.nodup_append]
      refine ⟨hnd, List.nodup_singleton _, ?_⟩
      intro a ha hb
      rw [List.mem_singleton] at hb
      rw [hb] at ha
      exact hevr ha
    · intro u
      by_cases hue : u = e0.value
      · rw [hue, getD_set_self2 vis e0.value true false hevlen]
        constructor
        · intro _
          exact List.mem_append.mpr (Or.inr (List.mem_singleton.mpr rfl))
        · intro _
          rfl
      · rw [getD_set_ne2 vis e0.value u true false (Ne.symm hue)]
        rw [hiff u]
        constructor
        · intro h
          exact List.mem_append.mpr (Or.inl h)
        · intro h
          rcases List.mem_append.mp h with h | h
          · exact h
          · exact absurd (List.mem_singleton.mp h) hue
    · intro v u hvu
      obtain ⟨h1, h2⟩ := hptr v u hvu
      refine ⟨List.mem_append.mpr (Or.inl h1), ?_⟩
      intro hvr
      rw [List.indexOf_append_of_mem h1]
      rcases List.mem_append.mp hvr with h | h
      · rw [List.indexOf_append_of_mem h]
        exact h2 h
      · have hve : v = e0.value := List.mem_singleton.mp h
        have hvnr : v ∉ r := by
          rw [hve]
          exact hevr
        rw [List.indexOf_append_of_not_mem hvnr]
        have := List.indexOf_lt_length.mpr h1
        omega

/-- Popping a stale entry (already-settled node) keeps the full side
invariant. -/
theorem sideInv_skip (s : RouterState) (origin : ℕ)
    (g : List QInf) (vis : List Bool) (prev : List ℤ) (hp : FourAryHeap QInf)
    (hs : SideInv s origin g vis prev hp s.coords.length)
    (e0 : HeapEntry QInf) (rest : List (HeapEntry QInf))
    (hl : hp.entries = e0 :: rest)
    (hvis : vis.getD e0.value false = true) :
    SideInv s origin g vis prev hp.extractMin.2 s.coords.length := by
  obtain ⟨x1, x2, x3, x4, x5⟩ := fourAry_extract_cons hp e0 rest hl hs.hheap
  refine ⟨hs.hglen, hs.hvlen, hs.hplen, x2, hs.hsettled, hs.hreal, hs.hedge,
    ?_, ?_, hs.horigin, hs.hprevne, hs.hprevE, hs.hprevvis, hs.hrank⟩
  · intro v hv c hc
    obtain ⟨e, hemem, heval, hekey⟩ := hs.hcover v hv c hc
    have hene : e ≠ e0 := by
      intro h
      rw [h] at heval
      rw [heval] at hvis
      rw [hv] at hvis
      exact Bool.noConfusion hvis
    refine ⟨e, ?_, heval, hekey⟩
    rcases (mem_multiset_cancel hp.extractMin.2.entries hp.entries e0 x3
        e).mp hemem with h | h
    · exact absurd h hene
    · exact h
  · intro e he
    exact hs.hkeys e
      ((mem_multiset_cancel hp.extractMin.2.entries hp.entries e0 x3 e).mpr
        (Or.inr he))

/-- The forward meet-check block preserves the cross invariant and leaves
every search buffer untouched. -/
theorem stepMeetF_spec (s : RouterState) (st : SearchState)
    (hcross : CrossInv s st) (current : ℕ)
    (hN : current < s.coords.length) :
    CrossInv s (stepMeetF st current)
    ∧ (stepMeetF st current).gF = st.gF
    ∧ (stepMeetF st current).gR = st.gR
    ∧ (stepMeetF st current).visF = st.visF
    ∧ (stepMeetF st current).visR = st.visR
    ∧ (stepMeetF st current).prevF = st.prevF
    ∧ (stepMeetF st current).nextR = st.nextR
    ∧ (stepMeetF st current).openF = st.openF
    ∧ (stepMeetF st current).openR = st.openR
    ∧ (stepMeetF st current).bestPathCost ≤ st.bestPathCost := by
  rw [stepMeetF]
  by_cases h1 : st.visR.getD current false = true
  · rw [if_pos h1]
    by_cases h2 : st.gF.getD current ⊤ + st.gR.getD current ⊤
        < st.bestPathCost
    · rw [if_pos h2]
      refine ⟨⟨?_, ?_⟩, rfl, rfl, rfl, rfl, rfl, rfl, rfl, rfl,
        le_of_lt h2⟩
      · intro v cf cr hf hr
        exact le_trans (le_of_lt h2) (hcross.hm2 v cf cr hf hr)
      · have hne : st.gF.getD current ⊤ + st.gR.getD current ⊤ ≠ ⊤ :=
          ne_top_of_lt h2
        obtain ⟨hfne, hrne⟩ := WithTop.add_ne_top.mp hne
        obtain ⟨cf, hcf⟩ := WithTop.ne_top_iff_exists.mp hfne
        obtain ⟨cr, hcr⟩ := WithTop.ne_top_iff_exists.mp hrne
        refine Or.inr ⟨current, cf, cr, rfl, hN, hcf.symm, hcr.symm, ?_⟩
        rw [← hcf, ← hcr, ← WithTop.coe_add]
    · rw [if_neg h2]
      exact ⟨⟨hcross.hm2, hcross.hbest⟩, rfl, rfl, rfl, rfl, rfl, rfl, rfl,
        rfl, le_refl _⟩
  · rw [if_neg h1]
    exact ⟨⟨hcross.hm2, hcross.hbest⟩, rfl, rfl, rfl, rfl, rfl, rfl, rfl,
      rfl, le_refl _⟩

/-- The reverse meet-check block preserves the cross invariant and leaves
every search buffer untouched. -/
theorem stepMeetR_spec (s : RouterState) (st : SearchState)
    (hcross : CrossInv s st) (current : ℕ)
    (hN : current < s.coords.length) :
    CrossInv s (stepMeetR st current)
    ∧ (stepMeetR st current).gF = st.gF
    ∧ (stepMeetR st current).gR = st.gR
    ∧ (stepMeetR st current).visF = st.visF
    ∧ (stepMeetR st current).visR = st.visR
    ∧ (stepMeetR st current).prevF = st.prevF
    ∧ (stepMeetR st current).nextR = st.nextR
    ∧ (stepMeetR st current).openF = st.openF
    ∧ (stepMeetR st current).openR = st.openR
    ∧ (stepMeetR st current).bestPathCost ≤ st.bestPathCost := by
  rw [stepMeetR]
  by_cases h1 : st.visF.getD current false = true
  · rw [if_pos h1]
    by_cases h2 : st.gF.getD current ⊤ + st.gR.getD current ⊤
        < st.bestPathCost
    · rw [if_pos h2]
      refine ⟨⟨?_, ?_⟩, rfl, rfl, rfl, rfl, rfl, rfl, rfl, rfl,
        le_of_lt h2⟩
      · intro v cf cr hf hr
        exact le_trans (le_of_lt h2) (hcross.hm2 v cf cr hf hr)
      · have hne : st.gF.getD current ⊤ + st.gR.getD current ⊤ ≠ ⊤ :=
          ne_top_of_lt h2
        obtain ⟨hfne, hrne⟩ := WithTop.add_ne_top.mp hne
        obtain ⟨cf, hcf⟩ := WithTop.ne_top_iff_exists.mp hfne
        obtain ⟨cr, hcr⟩ := WithTop.ne_top_iff_exists.mp hrne
        refine Or.inr ⟨current, cf, cr, rfl, hN, hcf.symm, hcr.symm, ?_⟩
        rw [← hcf, ← hcr, ← WithTop.coe_add]
    · rw [if_neg h2]
      exact ⟨⟨hcross.hm2, hcross.hbest⟩, rfl, rfl, rfl, rfl, rfl, rfl, rfl,
        rfl, le_refl _⟩
  · rw [if_neg h1]
    exact ⟨⟨hcross.hm2, hcross.hbest⟩, rfl, rfl, rfl, rfl, rfl, rfl, rfl,
      rfl, le_refl _⟩

/-- The single-segment network used to instantiate conditional claims. -/
def oneSegNet : List (List Coord) := [[(0, 0), (1, 0)]]

/-- The zero distance function (trivially symmetric and non-negative). -/
def dzero : Coord → Coord → ℚ := fun _ _ => 0

/-- C3 (amended): in the bidirectional router of `src/unnamed/part_008`,
every key inserted into either priority queue during `getRoute` equals the
node's tentative `g` value (cost from that side's origin) as recorded at
insertion time; the distance function enters only as the edge weight.  (As
stated over all cited sources the claim is false: the A* variant of
`src/src/terra-route.ts` inserts `g + h`, see the counterexample.) -/
theorem claim_C3_keys_are_g (dist : Coord → Coord → ℚ) (a b : Coord)
    (ops : List RouterOp) :
    ∀ e ∈ (getRouteAux dist a b (runOps dist ops)).2.2, e.1 = e.2.2 :=
  getRoute_keys_are_g dist a b ops

set_option maxRecDepth 1000000 in
set_option maxHeartbeats 4000000 in
/-- C3 counterexample: the A* `getRoute` of `src/src/terra-route.ts` adds
the heuristic to the priority — on a one-segment network with constant
distance `1`, it inserts keys that differ from the node's `g` value. -/
theorem claim_C3_counterexample :
    ∃ e ∈ (getRouteAstar (fun _ _ => 1) (0, 0) (1, 0)
        (buildRouteGraph (fun _ _ => 1) [[((0 : ℚ), (0 : ℚ)), (1, 0)]]
          RouterState.initial)).2.2,
      e.1 ≠ e.2.2 := by decide

set_option maxRecDepth 1000000 in
set_option maxHeartbeats 4000000 in
/-- Witness for C3 at a concrete input: the first logged insert of a
one-segment query. -/
theorem claim_C3_keys_are_g_witness :
    (((0 : QInf), 0, (0 : QInf))
        ∈ (getRouteAux dzero (0, 0) (1, 0)
            (runOps dzero [RouterOp.build oneSegNet])).2.2) ∧
    ((0 : QInf), 0, (0 : QInf)).1 = ((0 : QInf), 0, (0 : QInf)).2.2 :=
  ⟨by decide,
    claim_C3_keys_are_g dzero (0, 0) (1, 0) [RouterOp.build oneSegNet]
      ((0 : QInf), 0, (0 : QInf)) (by decide)⟩

set_option maxHeartbeats 2000000 in
/-- Witness for C9 at a concrete input: routing across a single segment. -/
theorem claim_C9_endpoint_fidelity_witness :
    ((getRoute dzero (0, 0) (1, 0)
        (buildRouteGraph dzero oneSegNet RouterState.initial)).1
      = .route [(0, 0), (1, 0)]) ∧
    (([((0 : ℚ), (0 : ℚ)), ((1 : ℚ), (0 : ℚ))] : List Coord).head?
        = some (0, 0) ∧
      ([((0 : ℚ), (0 : ℚ)), ((1 : ℚ), (0 : ℚ))] : List Coord).getLast?
        = some (1, 0)) :=
  ⟨by decide,
    claim_C9_endpoint_fidelity dzero (0, 0) (1, 0)
      (buildRouteGraph dzero oneSegNet RouterState.initial)
      [(0, 0), (1, 0)] (by decide)⟩

end TerraProof
